import Mathlib

/-!
# PurC variant engine: listener registry and set container

A shallow embedding of `Source/PurC/variant/observer.c` and
`Source/PurC/variant/variant-set.c`.

* Pointers are natural numbers (addresses); `calloc` hands out the next free
  address of the world (`World.brk`) and never reuses one.
* `PC_ASSERT` failures that depend on the state of the set or on what a
  handler returns end the run: such functions return `Option`, and `none`
  stands for the fatal assertion. A handler is a function of the memory it
  reads that returns true or false or ends in a fatal assertion.
* Allocation failure is not part of the model.
-/

namespace PurC

/-! ## Values -/

/-- The value held in a field of an object: a scalar, or a nested container that is
held by reference (the contents of nested containers are outside this model). -/
inductive pcv_value where
  | null
  | boolean (b : Bool)
  | number (n : Int)
  | string (s : String)
  | container (addr : Nat)
deriving DecidableEq, Repr

/-- An object variant: its address (pointer identity) and its fields. -/
structure pcv_object where
  addr : Nat
  fields : List (String × pcv_value)
deriving DecidableEq, Repr

/-- A `purc_variant_t` as the engine sees it from outside. -/
inductive purc_variant where
  | undefined
  | scalar (v : pcv_value)
  | object (o : pcv_object)
  | array (addr : Nat)
  | set (addr : Nat)
deriving DecidableEq, Repr

/-- `IS_CONTAINER(v->type)`: array, object or set. -/
def IS_CONTAINER : purc_variant → Bool
  | .object _ => true
  | .array _ => true
  | .set _ => true
  | _ => false

/-- The address of a container variant (where `v->listeners` lives). -/
def purc_variant.addr : purc_variant → Nat
  | .object o => o.addr
  | .array a => a
  | .set a => a
  | .scalar (.container a) => a
  | _ => 0

/-- What a variant becomes when it is stored in an object field; `undefined` is never
stored. -/
def purc_variant.as_field : purc_variant → Option pcv_value
  | .undefined => none
  | .scalar v => some v
  | .object o => some (.container o.addr)
  | .array a => some (.container a)
  | .set a => some (.container a)

/-- Modelled from the spec: variant-object.c is absent; an object is a finite map from
field names to values, and this is its lookup (`purc_variant_object_get_by_ckey`). -/
def purc_variant_object_get_by_ckey (fields : List (String × pcv_value)) (key : String) :
    Option pcv_value :=
  match fields with
  | [] => none
  | (k, v) :: rest => if k = key then some v else purc_variant_object_get_by_ckey rest key

/-- Modelled from the spec: variant-object.c is absent; setting a field replaces the value
of an existing field and adds a missing one (`purc_variant_object_set`). -/
def purc_variant_object_set (fields : List (String × pcv_value)) (key : String)
    (val : pcv_value) : List (String × pcv_value) :=
  match fields with
  | [] => [(key, val)]
  | (k, v) :: rest =>
    if k = key then (key, val) :: rest else (k, v) :: purc_variant_object_set rest key val

/-! ## Operations and error codes -/

/-- Modelled from the spec: `PCVAR_OPERATION_GROW`, one bit of the operation mask. -/
def PCVAR_OPERATION_GROW : Nat := 1

/-- Modelled from the spec: `PCVAR_OPERATION_SHRINK`, one bit of the operation mask. -/
def PCVAR_OPERATION_SHRINK : Nat := 2

/-- Modelled from the spec: `PCVAR_OPERATION_CHANGE`, one bit of the operation mask. -/
def PCVAR_OPERATION_CHANGE : Nat := 4

/-- Modelled from the spec: `PCVAR_OPERATION_ALL`, the union of the three operations. -/
def PCVAR_OPERATION_ALL : Nat := 7

/-- Modelled from the spec: the phase bit of `listener->flags`. -/
def PCVAR_LISTENER_PRE_OR_POST : Nat := 1

/-- Modelled from the spec: the phase bit of a pre-listener. -/
def PCVAR_LISTENER_PRE : Nat := 0

/-- Modelled from the spec: the phase bit of a post-listener. -/
def PCVAR_LISTENER_POST : Nat := 1

/-- The error kinds the engine reports through `pcinst_set_error`. -/
inductive purc_error where
  | OK
  | INVALID_VALUE
  | WRONG_ARGS
  | NOT_SUPPORTED
  | NOT_FOUND
  | OUT_OF_BOUNDS
deriving DecidableEq, Repr

/-- The value `(size_t)-1`. -/
def SIZE_MAX : Nat := 2 ^ 64 - 1

/-! ## The set container's memory -/

/-- Modelled from the spec: rbtree.c is absent; the ordered index is a binary search tree
of `set_node` addresses. Colours and rotations only change the shape of the tree, never its
in-order sequence, and are not modelled. -/
inductive rb_node where
  | nil : rb_node
  | node (rb_left : rb_node) (entry : Nat) (rb_right : rb_node) : rb_node
deriving DecidableEq, Repr

/-- The ascending traversal of the ordered index (`pcutils_rbtree_first` / `_next`). -/
def rb_node.inorder : rb_node → List Nat
  | .nil => []
  | .node l p r => l.inorder ++ p :: r.inorder

/-- A member node (`struct set_node`). -/
structure set_node where
  set : Option Nat
  elem : pcv_object
  kvs : pcv_object
  idx : Nat
  constraints : Option Nat
deriving DecidableEq, Repr

/-- The payload of a set variant (`struct pcvariant_set`) together with the `set_node`
records its two indices point to. `keynames` is `none` when `unique_key` is `NULL`. -/
structure variant_set where
  keynames : Option (List String)
  elems : rb_node
  arr : List Nat
  node : Nat → set_node

/-! ## Edge slots -/

/-- The anchor of an edge (`arr_me`, `obj_me` or `set_me` of the union): the node of the
parent that holds the child, at address `addr`, and the address of the value that node
holds (`->val`, `->elem`). -/
structure pcvar_anchor where
  addr : Nat
  val : Nat
deriving DecidableEq, Repr

/-- An edge descriptor (`struct pcvar_rev_update_edge`); `none` is `PURC_VARIANT_INVALID`
or `NULL`. -/
structure pcvar_rev_update_edge where
  parent : Option purc_variant
  me : Option pcvar_anchor
  pre_listener : Option Nat
  post_listener : Option Nat
deriving DecidableEq, Repr

/-! ## Listeners -/

/-- The memory that a handler reads: the payload of the set with its nodes, and the edge slot
(`rev_update_chain`) of every container. The slot of a container is named by the address of
the container. -/
structure pcvar_memory where
  data : variant_set
  rev_update_chain : Nat → pcvar_rev_update_edge

/-- A handler (`pcvar_op_handler`): it is given the source, the operation, its context and
the changed values, and may read the memory. It returns true or false; `none` is a fatal
assertion raised in the handler. -/
abbrev pcvar_op_handler :=
  pcvar_memory → purc_variant → Nat → Nat → List purc_variant → Option Bool

/-- A registered listener (`struct pcvar_listener`); `addr` is the handle that
registration returns. -/
structure pcvar_listener where
  addr : Nat
  flags : Nat
  op : Nat
  ctxt : Nat
  handler : pcvar_op_handler

/-- One invocation of a handler, as recorded in the trace of the world. -/
structure pcvar_call where
  listener : Nat
  flags : Nat
  op : Nat
  argv : List purc_variant
deriving DecidableEq, Repr

/-- The world: one set variant at address `set`, the listener list of every container,
the allocator, the last error, the trace of handler invocations and the edge slot of every
container. -/
structure World where
  set : Nat
  data : variant_set
  listeners : Nat → List pcvar_listener
  brk : Nat
  last_error : purc_error
  fired : List pcvar_call
  rev_update_chain : Nat → pcvar_rev_update_edge

/-- The memory of the world as a handler reads it. -/
def World.mem (w : World) : pcvar_memory := ⟨w.data, w.rev_update_chain⟩

/-- The `pcinst_set_error` call. -/
def pcinst_set_error (w : World) (e : purc_error) : World :=
  { w with last_error := e }

/-! ## observer.c -/

/-- The `register_listener` function: pre-listeners go to the head of the list,
post-listeners to the tail. -/
def register_listener (w : World) (v : purc_variant) (flags : Nat) (op : Nat)
    (handler : pcvar_op_handler) (ctxt : Nat) : Nat × World :=
  let listener : pcvar_listener :=
    { addr := w.brk, flags := flags, op := op, ctxt := ctxt, handler := handler }
  let listeners := w.listeners v.addr
  let listeners :=
    if flags &&& PCVAR_LISTENER_PRE_OR_POST = PCVAR_LISTENER_PRE then
      listener :: listeners
    else
      listeners ++ [listener]
  (w.brk, { w with brk := w.brk + 1,
                   listeners := Function.update w.listeners v.addr listeners })

/-- The `purc_variant_register_pre_listener` function; a `none` variant or handler is the
null pointer. -/
def purc_variant_register_pre_listener (w : World) (v : Option purc_variant) (op : Nat)
    (handler : Option pcvar_op_handler) (ctxt : Nat) : Option Nat × World :=
  if op &&& PCVAR_OPERATION_ALL ≠ op then
    (none, pcinst_set_error w .WRONG_ARGS)
  else
    match v, handler with
    | some v, some h =>
      if op = 0 then (none, pcinst_set_error w .WRONG_ARGS)
      else if !IS_CONTAINER v then (none, pcinst_set_error w .NOT_SUPPORTED)
      else
        let r := register_listener w v PCVAR_LISTENER_PRE op h ctxt
        (some r.1, r.2)
    | _, _ => (none, pcinst_set_error w .WRONG_ARGS)

/-- The `purc_variant_register_post_listener` function. -/
def purc_variant_register_post_listener (w : World) (v : Option purc_variant) (op : Nat)
    (handler : Option pcvar_op_handler) (ctxt : Nat) : Option Nat × World :=
  if op &&& PCVAR_OPERATION_ALL ≠ op then
    (none, pcinst_set_error w .WRONG_ARGS)
  else
    match v, handler with
    | some v, some h =>
      if op = 0 then (none, pcinst_set_error w .WRONG_ARGS)
      else if !IS_CONTAINER v then (none, pcinst_set_error w .NOT_SUPPORTED)
      else
        let r := register_listener w v PCVAR_LISTENER_POST op h ctxt
        (some r.1, r.2)
    | _, _ => (none, pcinst_set_error w .WRONG_ARGS)

/-- The loop of `purc_variant_revoke_listener`: drop the first entry whose address is the
given handle. -/
def revoke_loop (listener : Nat) : List pcvar_listener → Option (List pcvar_listener)
  | [] => none
  | curr :: rest =>
    if curr.addr ≠ listener then
      (revoke_loop listener rest).map (fun l => curr :: l)
    else
      some rest

/-- The `purc_variant_revoke_listener` function. -/
def purc_variant_revoke_listener (w : World) (v : Option purc_variant)
    (listener : Option Nat) : Bool × World :=
  match v, listener with
  | some v, some l =>
    if !IS_CONTAINER v then (false, pcinst_set_error w .NOT_SUPPORTED)
    else
      match revoke_loop l (w.listeners v.addr) with
      | some rest => (true, { w with listeners := Function.update w.listeners v.addr rest })
      | none => (false, w)
  | _, _ => (false, pcinst_set_error w .WRONG_ARGS)

/-- The loop of `pcvariant_on_pre_fired`, from the head of the list: the result and the
handlers called, in call order; `none` is a fatal assertion raised in a handler. -/
def on_pre_fired_loop (mem : pcvar_memory) (source : purc_variant) (op : Nat)
    (argv : List purc_variant) : List pcvar_listener → Option (Bool × List pcvar_call)
  | [] => some (true, [])
  | curr :: rest =>
    if curr.op &&& op = 0 then
      on_pre_fired_loop mem source op argv rest
    else if curr.flags &&& PCVAR_LISTENER_PRE_OR_POST ≠ PCVAR_LISTENER_PRE then
      some (true, [])
    else
      let call : pcvar_call := ⟨curr.addr, curr.flags, op, argv⟩
      match curr.handler mem source op curr.ctxt argv with
      | none => none
      | some true =>
        (on_pre_fired_loop mem source op argv rest).map (fun r => (r.1, call :: r.2))
      | some false => some (false, [call])

/-- The `pcvariant_on_pre_fired` function; `none` is the failure of
`PC_ASSERT(op != PCVAR_OPERATION_ALL)` or a fatal assertion raised in a handler. -/
def pcvariant_on_pre_fired (mem : pcvar_memory) (source : purc_variant)
    (listeners : List pcvar_listener) (op : Nat) (argv : List purc_variant) :
    Option (Bool × List pcvar_call) :=
  let op := op &&& PCVAR_OPERATION_ALL
  if op = PCVAR_OPERATION_ALL then none
  else on_pre_fired_loop mem source op argv listeners

/-- The loop of `pcvariant_on_post_fired`, over the list taken from the tail backward;
`none` is a fatal assertion: one raised in a handler, or `PC_ASSERT(ok)` on a handler that
returns false. -/
def on_post_fired_loop (mem : pcvar_memory) (source : purc_variant) (op : Nat)
    (argv : List purc_variant) : List pcvar_listener → Option (List pcvar_call)
  | [] => some []
  | curr :: rest =>
    if curr.op &&& op = 0 then
      on_post_fired_loop mem source op argv rest
    else if curr.flags &&& PCVAR_LISTENER_PRE_OR_POST = PCVAR_LISTENER_PRE then
      some []
    else
      let call : pcvar_call := ⟨curr.addr, curr.flags, op, argv⟩
      match curr.handler mem source op curr.ctxt argv with
      | none => none
      | some true =>
        (on_post_fired_loop mem source op argv rest).map (fun calls => call :: calls)
      | some false => none

/-- The `pcvariant_on_post_fired` function; `none` is a fatal assertion. -/
def pcvariant_on_post_fired (mem : pcvar_memory) (source : purc_variant)
    (listeners : List pcvar_listener) (op : Nat) (argv : List purc_variant) :
    Option (List pcvar_call) :=
  let op := op &&& PCVAR_OPERATION_ALL
  if op = PCVAR_OPERATION_ALL then none
  else on_post_fired_loop mem source op argv listeners.reverse

/-! ## variant-set.c: the ordered index -/

/-- The comparator `purc_variant_compare_ex(_, _, PCVARIANT_COMPARE_OPT_AUTO)` restricted to
objects. It is defined outside the files at hand and is a parameter of the development; it
compares contents, never addresses. -/
abbrev variant_cmp := List (String × pcv_value) → List (String × pcv_value) → Int

/-- The result of `find_element_rb_node` (`struct element_rb_node`). The link slot `pnode`
is the sequence of turns (`false` left, `true` right) that leads to it from the root. -/
structure element_rb_node where
  pnode : List Bool
  parent : Option Nat
  entry : Option Nat
deriving DecidableEq, Repr

/-- The descent of `find_element_rb_node` from the subtree at `*pnode`. -/
def find_element_rb_node_loop (cmp : variant_cmp) (node : Nat → set_node) (kvs : pcv_object) :
    rb_node → Option Nat → element_rb_node
  | .nil, parent => ⟨[], parent, none⟩
  | .node l p r, _ =>
    let ret := cmp kvs.fields (node p).kvs.fields
    if ret < 0 then
      let f := find_element_rb_node_loop cmp node kvs l (some p)
      ⟨false :: f.pnode, f.parent, f.entry⟩
    else if ret > 0 then
      let f := find_element_rb_node_loop cmp node kvs r (some p)
      ⟨true :: f.pnode, f.parent, f.entry⟩
    else
      ⟨[], some p, some p⟩

/-- The `find_element_rb_node` function. -/
def find_element_rb_node (cmp : variant_cmp) (set : variant_set) (kvs : pcv_object) :
    element_rb_node :=
  find_element_rb_node_loop cmp set.node kvs set.elems none

/-- The `find_element` function. -/
def find_element (cmp : variant_cmp) (set : variant_set) (kvs : pcv_object) : Option Nat :=
  (find_element_rb_node cmp set kvs).entry

/-- Modelled from the spec: rbtree.c is absent; `pcutils_rbtree_link_node` stores the new
node, without children, into the link slot `pnode`. -/
def pcutils_rbtree_link_node (entry : Nat) : List Bool → rb_node → rb_node
  | [], _ => .node .nil entry .nil
  | false :: pnode, .node l p r => .node (pcutils_rbtree_link_node entry pnode l) p r
  | true :: pnode, .node l p r => .node l p (pcutils_rbtree_link_node entry pnode r)
  | _ :: _, .nil => .node .nil entry .nil

/-- Modelled from the spec: rbtree.c is absent; `pcutils_rbtree_insert_color` rebalances
after a link, which keeps the in-order sequence; the shape is left as it is. -/
def pcutils_rbtree_insert_color (_entry : Nat) (root : rb_node) : rb_node := root

/-- Hang the second tree at the rightmost link slot of the first. -/
def rb_node.join : rb_node → rb_node → rb_node
  | .nil, t => t
  | .node l p r, t => .node l p (r.join t)

/-- Modelled from the spec: rbtree.c is absent; `pcutils_rbtree_erase` unlinks the given
node from the ordered index and keeps the order of the others. -/
def pcutils_rbtree_erase (entry : Nat) : rb_node → rb_node
  | .nil => .nil
  | .node l p r =>
    if p = entry then l.join r
    else .node (pcutils_rbtree_erase entry l) p (pcutils_rbtree_erase entry r)

/-! ## variant-set.c: firing the listeners of the set -/

/-- The `grow` function: fire the GROW pre-listeners of the set. -/
def grow (w : World) (value : pcv_object) (check : Bool) : Option (Bool × World) :=
  if !check then some (true, w)
  else
    (pcvariant_on_pre_fired w.mem (.set w.set) (w.listeners w.set) PCVAR_OPERATION_GROW
      [.object value]).map (fun r => (r.1, { w with fired := w.fired ++ r.2 }))

/-- The `shrink` function: fire the SHRINK pre-listeners of the set. -/
def shrink (w : World) (value : pcv_object) (check : Bool) : Option (Bool × World) :=
  if !check then some (true, w)
  else
    (pcvariant_on_pre_fired w.mem (.set w.set) (w.listeners w.set) PCVAR_OPERATION_SHRINK
      [.object value]).map (fun r => (r.1, { w with fired := w.fired ++ r.2 }))

/-- The `change` function: fire the CHANGE pre-listeners of the set. -/
def change (w : World) (o n : pcv_object) (check : Bool) : Option (Bool × World) :=
  if !check then some (true, w)
  else
    (pcvariant_on_pre_fired w.mem (.set w.set) (w.listeners w.set) PCVAR_OPERATION_CHANGE
      [.object o, .object n]).map (fun r => (r.1, { w with fired := w.fired ++ r.2 }))

/-- The `grown` function: fire the GROW post-listeners of the set. -/
def grown (w : World) (value : pcv_object) (check : Bool) : Option World :=
  if !check then some w
  else
    (pcvariant_on_post_fired w.mem (.set w.set) (w.listeners w.set) PCVAR_OPERATION_GROW
      [.object value]).map (fun calls => { w with fired := w.fired ++ calls })

/-- The `shrunk` function: fire the SHRINK post-listeners of the set. -/
def shrunk (w : World) (value : pcv_object) (check : Bool) : Option World :=
  if !check then some w
  else
    (pcvariant_on_post_fired w.mem (.set w.set) (w.listeners w.set) PCVAR_OPERATION_SHRINK
      [.object value]).map (fun calls => { w with fired := w.fired ++ calls })

/-- The `changed` function: fire the CHANGE post-listeners of the set. -/
def changed (w : World) (o n : pcv_object) (check : Bool) : Option World :=
  if !check then some w
  else
    (pcvariant_on_post_fired w.mem (.set w.set) (w.listeners w.set) PCVAR_OPERATION_CHANGE
      [.object o, .object n]).map (fun calls => { w with fired := w.fired ++ calls })

/-! ## variant-set.c: key projection and constraints -/

/-- The loop of `variant_set_kvs_from_val`: the fields of the key projection, one for each
key name that the value has, in the order of the key names. -/
def kvs_from_val_loop (value : List (String × pcv_value)) :
    List String → List (String × pcv_value) → List (String × pcv_value)
  | [], kvs => kvs
  | sk :: keynames, kvs =>
    match purc_variant_object_get_by_ckey value sk with
    | none => kvs_from_val_loop value keynames kvs
    | some v => kvs_from_val_loop value keynames (purc_variant_object_set kvs sk v)

/-- The `variant_set_kvs_from_val` function: a fresh object with the key fields of the
value, or the value itself when the set has no key names. -/
def variant_set_kvs_from_val (w : World) (value : pcv_object) : pcv_object × World :=
  match w.data.keynames with
  | some keynames =>
    (⟨w.brk, kvs_from_val_loop value.fields keynames []⟩, { w with brk := w.brk + 1 })
  | none => (value, w)

/-- The `variant_set_constraint_grow_handler` function: the assertions on the arguments (an
object as source, two arguments, the first a string), then true; `none` is the failure of an
assertion. The context is the set the listener was registered with. -/
def variant_set_constraint_grow_handler (source : purc_variant) (argv : List purc_variant) :
    Option Bool :=
  match source, argv with
  | .object _, [.scalar (.string _), _] => some true
  | _, _ => none

/-- The `variant_set_constraint_shrink_handler` function: the same assertions, then true. -/
def variant_set_constraint_shrink_handler (source : purc_variant) (argv : List purc_variant) :
    Option Bool :=
  match source, argv with
  | .object _, [.scalar (.string _), _] => some true
  | _, _ => none

/-- Modelled from the spec: `pcvariant_equal` is defined outside the files at hand; like a
comparison it is 0 on equal values, here on two strings. -/
def pcvariant_equal (a b : String) : Int := if a = b then 0 else 1

/-- The `variant_set_constraint_change_handler` function. The clone and the key projection
are temporaries, only their fields matter; `none` is the failure of an assertion on the
arguments (an object as source, four arguments, the old and the new key the same string, a
new value that can be stored). -/
def variant_set_constraint_change_handler (cmp : variant_cmp) (mem : variant_set)
    (source : purc_variant) (argv : List purc_variant) : Option Bool :=
  match source, argv with
  | .object source, [.scalar (.string ko), _, .scalar (.string kn), vn] =>
    if 0 ≠ pcvariant_equal ko kn then none
    else
      match vn.as_field with
      | none => none
      | some vn =>
        let tmp : pcv_object := ⟨0, purc_variant_object_set source.fields kn vn⟩
        let kvs : pcv_object :=
          match mem.keynames with
          | some keynames => ⟨0, kvs_from_val_loop tmp.fields keynames []⟩
          | none => tmp
        match find_element cmp mem kvs with
        | some p => some (decide ((mem.node p).elem.addr = source.addr))
        | none => some true
  | _, _ => none

/-- The `variant_set_constraints_handler` function: the switch on the operation, with
`PC_ASSERT(0)` as the default. GROW and SHRINK of a member are not checked, CHANGE is checked
against the ordered index. -/
def variant_set_constraints_handler (cmp : variant_cmp) : pcvar_op_handler :=
  fun mem source op _ctxt argv =>
    if op = PCVAR_OPERATION_GROW then variant_set_constraint_grow_handler source argv
    else if op = PCVAR_OPERATION_SHRINK then variant_set_constraint_shrink_handler source argv
    else if op = PCVAR_OPERATION_CHANGE then
      variant_set_constraint_change_handler cmp mem.data source argv
    else none

/-- Write one `set_node` record. -/
def World.set_node (w : World) (p : Nat) (n : set_node) : World :=
  { w with data := { w.data with node := Function.update w.data.node p n } }

/-- The `elem_node_setup_constraints` function. -/
def elem_node_setup_constraints (cmp : variant_cmp) (w : World) (elem : Nat) : Bool × World :=
  let n := w.data.node elem
  let r := purc_variant_register_pre_listener w (some (.object n.elem)) PCVAR_OPERATION_ALL
    (some (variant_set_constraints_handler cmp)) (n.set.getD 0)
  let w := r.2.set_node elem { r.2.data.node elem with constraints := r.1 }
  (r.1.isSome, w)

/-- The `elem_node_revoke_constraints` function; `none` is the failure of `PC_ASSERT(ok)`. -/
def elem_node_revoke_constraints (w : World) (elem : Nat) : Option World :=
  let n := w.data.node elem
  match n.constraints with
  | some l =>
    let r := purc_variant_revoke_listener w (some (.object n.elem)) (some l)
    if r.1 then
      some (r.2.set_node elem { r.2.data.node elem with constraints := none, set := none })
    else none
  | none => some (w.set_node elem { n with set := none })

/-- The `elem_node_release` function. The fields of a member hold no container whose
contents are modelled, so breaking the reverse-update edges changes nothing here. The
references it drops are listed by `elem_node_release_unrefs`. -/
def elem_node_release (w : World) (elem : Nat) : Option World :=
  (elem_node_revoke_constraints w elem).map
    (fun w => w.set_node elem { w.data.node elem with set := none })

/-- The `elem_node_replace` function. -/
def elem_node_replace (cmp : variant_cmp) (w : World) (node : Nat) (val kvs : pcv_object) :
    Option (Int × World) :=
  let set := (w.data.node node).set
  match elem_node_revoke_constraints w node with
  | none => none
  | some w =>
    let w := w.set_node node { w.data.node node with elem := val, kvs := kvs, set := set }
    let r := elem_node_setup_constraints cmp w node
    if !r.1 then some (-1, r.2) else some (0, r.2)

/-- The loop of `refresh_arr` over the array from position `idx` on. -/
def refresh_arr_loop (node : Nat → set_node) : List Nat → Nat → (Nat → set_node)
  | [], _ => node
  | p :: rest, idx =>
    refresh_arr_loop (Function.update node p { node p with idx := idx }) rest (idx + 1)

/-- The `refresh_arr` function: store into every node from position `idx` on its
position. -/
def refresh_arr (set : variant_set) (idx : Nat) : variant_set :=
  if idx = SIZE_MAX then set
  else { set with node := refresh_arr_loop set.node (set.arr.drop idx) idx }

/-- The `variant_set_create_elem_node` function. -/
def variant_set_create_elem_node (w : World) (val : pcv_object) : Nat × World :=
  let _new := w.brk
  let w := { w with brk := w.brk + 1 }
  let r := variant_set_kvs_from_val w val
  (_new, r.2.set_node _new ⟨some w.set, val, r.1, 0, none⟩)

/-! ## variant-set.c: insert, overwrite, remove -/

/-- The `set_remove` function; `none` is a fatal assertion (`PC_ASSERT(r==0)` on the array
deletion, or one raised while firing or revoking). -/
def set_remove (w : World) (node : Nat) (check : Bool) : Option (Int × World) :=
  match shrink w (w.data.node node).elem check with
  | none => none
  | some (false, w) => some (-1, w)
  | some (true, w) =>
    let idx := (w.data.node node).idx
    let w := { w with data := { w.data with elems := pcutils_rbtree_erase node w.data.elems } }
    if w.data.arr.length ≤ idx then none
    else
      let w := { w with data := { w.data with arr := w.data.arr.eraseIdx idx } }
      match shrunk w (w.data.node node).elem check with
      | none => none
      | some w =>
        let w := { w with data := refresh_arr w.data idx }
        let w := w.set_node node { w.data.node node with idx := SIZE_MAX }
        (elem_node_release w node).map (fun w => (0, w))

/-- Modelled from the spec: arraylist.c is absent; `pcutils_arrlist_add` appends to the
positional array. The length of the array is a `size_t`: the caller sees a failure when the
array already holds `SIZE_MAX` entries. -/
def pcutils_arrlist_add (w : World) (node : Nat) : World :=
  { w with data := { w.data with arr := w.data.arr ++ [node] } }

/-- The `insert` function. The key projection found by the caller is not used: the new
node computes its own. -/
def insert (cmp : variant_cmp) (w : World) (val : pcv_object) (_kvs : pcv_object)
    (_parent : Option Nat) (pnode : List Bool) (check : Bool) : Option (Int × World) :=
  match grow w val check with
  | none => none
  | some (false, w) => some (-1, w)
  | some (true, w) =>
    let r := variant_set_create_elem_node w val
    let node := r.1
    let w := r.2
    if SIZE_MAX ≤ w.data.arr.length then
      (elem_node_release w node).map (fun w => (-1, w))
    else
      let w := pcutils_arrlist_add w node
      let count := w.data.arr.length
      let w := w.set_node node { w.data.node node with idx := count - 1 }
      let elems := pcutils_rbtree_link_node node pnode w.data.elems
      let w := { w with data := { w.data with elems := pcutils_rbtree_insert_color node elems } }
      let c := elem_node_setup_constraints cmp w node
      if !c.1 then
        match set_remove c.2 node false with
        | none => none
        | some (r, w) => if r ≠ 0 then none else some (-1, w)
      else
        (grown c.2 (c.2.data.node node).elem check).map (fun w => (0, w))

/-- The first loop of `variant_set_union`: every field of the new value is set in the
output. -/
def union_new_loop : List (String × pcv_value) → List (String × pcv_value) →
    List (String × pcv_value)
  | [], output => output
  | (k, v) :: rest, output => union_new_loop rest (purc_variant_object_set output k v)

/-- The second loop of `variant_set_union`: a field of the old value is set in the output
unless the output has that field already. -/
def union_old_loop : List (String × pcv_value) → List (String × pcv_value) →
    List (String × pcv_value)
  | [], output => output
  | (k, v) :: rest, output =>
    match purc_variant_object_get_by_ckey output k with
    | some _ => union_old_loop rest output
    | none => union_old_loop rest (purc_variant_object_set output k v)

/-- The `variant_set_union` function: the fields of the new value, then the fields that
only the old value has. -/
def variant_set_union (w : World) (old _new : pcv_object) : pcv_object × World :=
  let output : List (String × pcv_value) := []
  let output := union_new_loop _new.fields output
  let output := union_old_loop old.fields output
  (⟨w.brk, output⟩, { w with brk := w.brk + 1 })

/-- The `insert_or_replace` function. -/
def insert_or_replace (cmp : variant_cmp) (w : World) (val : pcv_object) (overwrite : Bool)
    (check : Bool) : Option (Int × World) :=
  let k := variant_set_kvs_from_val w val
  let kvs := k.1
  let w := k.2
  let rbn := find_element_rb_node cmp w.data kvs
  match rbn.entry with
  | none =>
    (insert cmp w val kvs rbn.parent rbn.pnode check).map
      (fun r => (if r.1 ≠ 0 then -1 else 0, r.2))
  | some curr =>
    if !overwrite then
      some (-1, pcinst_set_error w .NOT_SUPPORTED)
    else if (w.data.node curr).elem.addr = val.addr then
      some (0, w)
    else
      let u := variant_set_union w (w.data.node curr).elem val
      let tmp := u.1
      let w := u.2
      match change w (w.data.node curr).elem tmp check with
      | none => none
      | some (false, w) => some (-1, w)
      | some (true, w) =>
        match elem_node_replace cmp w curr tmp kvs with
        | none => none
        | some (r, w) =>
          if r ≠ 0 then some (-1, w)
          else (changed w (w.data.node curr).elem tmp check).map (fun w => (0, w))

/-- The `variant_set_add_val` function. -/
def variant_set_add_val (cmp : variant_cmp) (w : World) (val : purc_variant)
    (overwrite : Bool) (check : Bool) : Option (Int × World) :=
  match val with
  | .object o =>
    (insert_or_replace cmp w o overwrite check).map (fun r => (if r.1 ≠ 0 then -1 else 0, r.2))
  | _ => some (-1, pcinst_set_error w .INVALID_VALUE)

/-- The `purc_variant_set_add` function. -/
def purc_variant_set_add (cmp : variant_cmp) (w : World) (value : purc_variant)
    (overwrite : Bool) : Option (Bool × World) :=
  match value with
  | .object _ =>
    (variant_set_add_val cmp w value overwrite true).map (fun r => (decide (r.1 = 0), r.2))
  | _ => some (false, pcinst_set_error w .INVALID_VALUE)

/-- The `purc_variant_set_remove` function; a value that is not an object fails the
assertion of `variant_set_kvs_from_val`. -/
def purc_variant_set_remove (cmp : variant_cmp) (w : World) (value : purc_variant)
    (silently : Bool) : Option (Bool × World) :=
  match value with
  | .object o =>
    let k := variant_set_kvs_from_val w o
    match find_element cmp k.2.data k.1 with
    | some p =>
      (set_remove k.2 p true).map (fun r => (decide (r.1 = 0), r.2))
    | none => some (silently, k.2)
  | _ => none

/-- The loop of `variant_set_create_kvs_n` over the key names and the values given for
them; `none` is the invalid value (also when fewer values than key names are given). -/
def create_kvs_n_loop : List String → List purc_variant → List (String × pcv_value) →
    Option (List (String × pcv_value))
  | [], _, kvs => some kvs
  | _ :: _, [], _ => none
  | sk :: keynames, v :: rest, kvs =>
    match v.as_field with
    | none => create_kvs_n_loop keynames rest kvs
    | some f => create_kvs_n_loop keynames rest (purc_variant_object_set kvs sk f)

/-- The `variant_set_create_kvs_n` function. -/
def variant_set_create_kvs_n (w : World) (keynames : List String) (vs : List purc_variant) :
    Option pcv_object × World :=
  match create_kvs_n_loop keynames vs [] with
  | some kvs => (some ⟨w.brk, kvs⟩, { w with brk := w.brk + 1 })
  | none => (none, pcinst_set_error { w with brk := w.brk + 1 } .INVALID_VALUE)

/-- The `purc_variant_set_get_member_by_key_values` function. -/
def purc_variant_set_get_member_by_key_values (cmp : variant_cmp) (w : World)
    (vs : List purc_variant) : Option pcv_object × World :=
  match w.data.keynames with
  | none => (none, pcinst_set_error w .NOT_SUPPORTED)
  | some keynames =>
    match variant_set_create_kvs_n w keynames vs with
    | (none, w) => (none, w)
    | (some kvs, w) =>
      ((find_element cmp w.data kvs).map (fun p => (w.data.node p).elem), w)

/-- The `purc_variant_set_remove_member_by_key_values` function. -/
def purc_variant_set_remove_member_by_key_values (cmp : variant_cmp) (w : World)
    (vs : List purc_variant) : Option (Option pcv_object × World) :=
  match w.data.keynames with
  | none => some (none, pcinst_set_error w .NOT_SUPPORTED)
  | some keynames =>
    match variant_set_create_kvs_n w keynames vs with
    | (none, w) => some (none, w)
    | (some kvs, w) =>
      match find_element cmp w.data kvs with
      | none => some (none, pcinst_set_error w .NOT_FOUND)
      | some p =>
        let v := (w.data.node p).elem
        (set_remove w p true).map (fun r => (if r.1 ≠ 0 then none else some v, r.2))

/-- The `purc_variant_set_size` function. -/
def purc_variant_set_size (w : World) : Nat := w.data.arr.length

/-- The `purc_variant_set_get_by_index` function; the outer `none` is the failure of
`PC_ASSERT(node->idx == (size_t)idx)`, the inner one is `PURC_VARIANT_INVALID`. -/
def purc_variant_set_get_by_index (w : World) (idx : Int) : Option (Option pcv_object) :=
  if idx < 0 then some none
  else
    match w.data.arr[idx.toNat]? with
    | none => some none
    | some node =>
      if (w.data.node node).idx = idx.toNat then some (some (w.data.node node).elem)
      else none

/-- The `purc_variant_set_remove_by_index` function; the outer `none` is a fatal
assertion. -/
def purc_variant_set_remove_by_index (w : World) (idx : Int) :
    Option (Option pcv_object × World) :=
  if idx < 0 then some (none, pcinst_set_error w .OUT_OF_BOUNDS)
  else
    match w.data.arr[idx.toNat]? with
    | none => some (none, pcinst_set_error w .OUT_OF_BOUNDS)
    | some elem =>
      if (w.data.node elem).idx = idx.toNat then
        let v := (w.data.node elem).elem
        (set_remove w elem true).map (fun r => (if r.1 ≠ 0 then none else some v, r.2))
      else none

/-- Pointer equality between a variant and a member value (`elem->elem == val`). -/
def same_pointer (val : purc_variant) (elem : pcv_object) : Bool :=
  match val with
  | .object o => decide (o.addr = elem.addr)
  | _ => false

/-- The `purc_variant_set_set_by_index` function; `none` is a fatal assertion, among them
`PC_ASSERT(v != PURC_VARIANT_INVALID)` and `PC_ASSERT(ok)`. -/
def purc_variant_set_set_by_index (cmp : variant_cmp) (w : World) (idx : Int)
    (val : purc_variant) : Option (Bool × World) :=
  if idx < 0 then some (false, pcinst_set_error w .OUT_OF_BOUNDS)
  else
    match w.data.arr[idx.toNat]? with
    | none => some (false, pcinst_set_error w .OUT_OF_BOUNDS)
    | some elem =>
      if same_pointer val (w.data.node elem).elem then some (true, w)
      else
        match purc_variant_set_remove_by_index w idx with
        | some (some _, w) =>
          match purc_variant_set_add cmp w val true with
          | some (true, w) => some (true, w)
          | _ => none
        | _ => none

/-- The `pcvariant_set_find` function; a value that is not an object fails the assertion
of `variant_set_kvs_from_val`. -/
def pcvariant_set_find (cmp : variant_cmp) (w : World) (value : purc_variant) :
    Option (Option pcv_object × World) :=
  match value with
  | .object o =>
    let k := variant_set_kvs_from_val w o
    some ((find_element cmp k.2.data k.1).map (fun p => (k.2.data.node p).elem), k.2)
  | _ => none

/-! ## variant-set.c: cursors -/

/-- Modelled from the spec: rbtree.c is absent; `pcutils_rbtree_first` is the first node of
the ascending traversal of the ordered index. -/
def pcutils_rbtree_first (root : rb_node) : Option Nat := root.inorder.head?

/-- Modelled from the spec: rbtree.c is absent; `pcutils_rbtree_last` is the last node of
the ascending traversal of the ordered index. -/
def pcutils_rbtree_last (root : rb_node) : Option Nat := root.inorder.getLast?

/-- Modelled from the spec: rbtree.c is absent; `pcutils_rbtree_next` is the node that
follows the given one in the ascending traversal. -/
def pcutils_rbtree_next (root : rb_node) (node : Nat) : Option Nat :=
  root.inorder[root.inorder.indexOf node + 1]?

/-- Modelled from the spec: rbtree.c is absent; `pcutils_rbtree_prev` is the node that
precedes the given one in the ascending traversal. -/
def pcutils_rbtree_prev (root : rb_node) (node : Nat) : Option Nat :=
  if root.inorder.indexOf node = 0 then none
  else root.inorder[root.inorder.indexOf node - 1]?

/-- A cursor (`struct purc_variant_set_iterator`) on the set of the world. -/
structure purc_variant_set_iterator where
  curr : Option Nat
  prev : Option Nat
  next : Option Nat
deriving DecidableEq, Repr

/-- The `iterator_refresh` function. -/
def iterator_refresh (data : variant_set) (it : purc_variant_set_iterator) :
    purc_variant_set_iterator :=
  match it.curr with
  | none => { it with next := none, prev := none }
  | some curr =>
    if data.arr.length = 0 then { it with next := none, prev := none }
    else
      let first := pcutils_rbtree_first data.elems
      let last := pcutils_rbtree_last data.elems
      let it :=
        if some curr = first then { it with prev := none }
        else { it with prev := pcutils_rbtree_prev data.elems curr }
      if some curr = last then { it with next := none }
      else { it with next := pcutils_rbtree_next data.elems curr }

/-- The `purc_variant_set_make_iterator_begin` function; the outer `none` is the failure of
`PC_ASSERT(p)`, the inner one is the null cursor of an empty set. -/
def purc_variant_set_make_iterator_begin (w : World) :
    Option (Option purc_variant_set_iterator × World) :=
  if w.data.arr.length = 0 then some (none, pcinst_set_error w .NOT_FOUND)
  else
    let w := { w with brk := w.brk + 1 }
    match pcutils_rbtree_first w.data.elems with
    | none => none
    | some p => some (some (iterator_refresh w.data ⟨some p, none, none⟩), w)

/-- The `purc_variant_set_make_iterator_end` function. -/
def purc_variant_set_make_iterator_end (w : World) :
    Option (Option purc_variant_set_iterator × World) :=
  if w.data.arr.length = 0 then some (none, pcinst_set_error w .NOT_FOUND)
  else
    let w := { w with brk := w.brk + 1 }
    match pcutils_rbtree_last w.data.elems with
    | none => none
    | some p => some (some (iterator_refresh w.data ⟨some p, none, none⟩), w)

/-- The `purc_variant_set_iterator_next` function: the result, the cursor and the world. -/
def purc_variant_set_iterator_next (w : World) (it : purc_variant_set_iterator) :
    Bool × purc_variant_set_iterator × World :=
  match it.curr with
  | none => (false, it, pcinst_set_error w .INVALID_VALUE)
  | some _ =>
    let it := iterator_refresh w.data { it with curr := it.next }
    (it.curr.isSome, it, w)

/-- The `purc_variant_set_iterator_prev` function. -/
def purc_variant_set_iterator_prev (w : World) (it : purc_variant_set_iterator) :
    Bool × purc_variant_set_iterator × World :=
  match it.curr with
  | none => (false, it, pcinst_set_error w .INVALID_VALUE)
  | some _ =>
    let it := iterator_refresh w.data { it with curr := it.prev }
    (it.curr.isSome, it, w)

/-- The `purc_variant_set_iterator_get_value` function. -/
def purc_variant_set_iterator_get_value (w : World) (it : purc_variant_set_iterator) :
    Option pcv_object × World :=
  match it.curr with
  | none => (none, pcinst_set_error w .INVALID_VALUE)
  | some p => (some (w.data.node p).elem, w)

/-- The `cmp_variant` function: compare the cached key projections of two nodes. -/
def cmp_variant (cmp : variant_cmp) (node : Nat → set_node) (l r : Nat) : Int :=
  cmp (node l).kvs.fields (node r).kvs.fields

/-- The `pcvariant_set_sort` function; `qsort_r` is taken to be a stable sort. -/
def pcvariant_set_sort (cmp : variant_cmp) (w : World) : Int × World :=
  let arr := w.data.arr.insertionSort (fun l r => cmp_variant cmp w.data.node l r ≤ 0)
  let w := { w with data := { w.data with arr := arr } }
  (0, { w with data := refresh_arr w.data 0 })

/-! ## utils/helpers.c: tokens, endpoint names and HVML URIs

A C string is rendered as the list of its characters before the terminating NUL; reading
the string at its length reads the terminator. -/

/-- Modelled from the spec: the header that defines `purc_isalpha` is absent; it holds of the
ASCII letters. -/
def purc_isalpha (c : Char) : Bool := c.isAlpha

/-- Modelled from the spec: the header that defines `purc_isalnum` is absent; it holds of the
ASCII letters and digits. -/
def purc_isalnum (c : Char) : Bool := c.isAlphanum

/-- The conversion of a `size_t` or `uintptr_t` value to `int`: the low 32 bits, read as a
two's complement number. -/
def to_int (n : Nat) : Int := ((n + 2 ^ 31) % 2 ^ 32 : Nat) - 2 ^ 31

/-- The C library function `strchr` for a character other than NUL: the offset of the first
occurrence, `none` for the null pointer. -/
def strchr : List Char → Char → Option Nat
  | [], _ => none
  | x :: xs, c => if x = c then some 0 else (strchr xs c).map (fun k => k + 1)

/-- The C library function `strrchr` for a character other than NUL: the offset of the last
occurrence, `none` for the null pointer. -/
def strrchr : List Char → Char → Option Nat
  | [], _ => none
  | x :: xs, c =>
    match strrchr xs c with
    | some k => some (k + 1)
    | none => if x = c then some 0 else none

/-- The `while (token [i])` loop of `purc_is_valid_token`, at index `i` with the characters
from `token [i]` on. -/
def valid_token_loop (max_len : Int) : Nat → List Char → Bool
  | _, [] => true
  | i, c :: cs =>
    if max_len > 0 ∧ (i : Int) > max_len then false
    else if !purc_isalnum c && c != '_' then false
    else valid_token_loop max_len (i + 1) cs

/-- The `purc_is_valid_token` function. On the empty string `token [0]` is the terminator,
which is neither `_` nor a letter. -/
def purc_is_valid_token (token : List Char) (max_len : Int) : Bool :=
  match token with
  | [] => false
  | c :: cs =>
    if c != '_' && !purc_isalpha c then false
    else valid_token_loop max_len 1 cs

/-- The loop of `purc_is_valid_app_name`, with `start` the rest of the name and `left` the
counter of the characters left. `none` is the failure of `assert(left >= len)`, or the end
of the fuel. When `strchr` finds no dot, `end` is the null pointer moved by `left`, which is
not `start`; `left -= len` then leaves zero, so `*end` is not read and the loop ends. -/
def valid_app_name_loop : Nat → List Char → Nat → Option Bool
  | _, [], _ => some true
  | 0, _ :: _, _ => none
  | fuel + 1, c :: cs, left =>
    let start := c :: cs
    match strchr start '.' with
    | none =>
      let len := left
      if len = 0 then some false
      else if !purc_is_valid_token (start.take len) 0 then some false
      else some true
    | some e =>
      let len := e
      if e = 0 ∨ len = 0 then some false
      else if !purc_is_valid_token (start.take len) 0 then some false
      else if left < len then none
      else
        let left := left - len
        if left > 0 ∧ start[e]? ≠ none then valid_app_name_loop fuel (start.drop (e + 1)) (left - 1)
        else some true

/-- The `purc_is_valid_app_name` function, with the constant `PURC_LEN_APP_NAME` (its header
is absent) as a parameter. Every turn of the loop moves `start` forward, so the length of the
name bounds the number of turns. -/
def purc_is_valid_app_name (PURC_LEN_APP_NAME : Nat) (app_name : List Char) : Option Bool :=
  let left := app_name.length
  if left > PURC_LEN_APP_NAME then some false
  else valid_app_name_loop (app_name.length + 1) app_name left

/-- The `purc_extract_host_name` function: the value returned and what is written to
`host_name`, `none` when nothing is written. -/
def purc_extract_host_name (PURC_LEN_APP_NAME : Nat) (endpoint : List Char) :
    Int × Option (List Char) :=
  if endpoint.head? ≠ some '@' then (0, none)
  else
    match strchr endpoint '/' with
    | none => (0, none)
    | some slash =>
      let len := to_int (slash - 1)
      if len ≤ 0 ∨ len > PURC_LEN_APP_NAME then (0, none)
      else (len, some ((endpoint.drop 1).take len.toNat))

/-- The `purc_extract_app_name` function: the value returned and what is written to
`app_name`. -/
def purc_extract_app_name (PURC_LEN_APP_NAME : Nat) (endpoint : List Char) :
    Int × Option (List Char) :=
  if endpoint.head? ≠ some '@' then (0, none)
  else
    match strchr endpoint '/', strrchr endpoint '/' with
    | some first_slash, some second_slash =>
      if first_slash = second_slash then (0, none)
      else
        let len := to_int (second_slash - (first_slash + 1))
        if len ≤ 0 ∨ len > PURC_LEN_APP_NAME then (0, none)
        else (len, some ((endpoint.drop (first_slash + 1)).take len.toNat))
    | _, _ => (0, none)

/-- The `purc_extract_runner_name` function: the value returned and what is written to
`runner_name`. -/
def purc_extract_runner_name (PURC_LEN_RUNNER_NAME : Nat) (endpoint : List Char) :
    Int × Option (List Char) :=
  if endpoint.head? ≠ some '@' then (0, none)
  else
    match strrchr endpoint '/' with
    | none => (0, none)
    | some second_slash =>
      let len := to_int (endpoint.drop (second_slash + 1)).length
      if len > PURC_LEN_RUNNER_NAME then (0, none)
      else (len, some (endpoint.drop (second_slash + 1)))

/-- The `purc_assemble_endpoint_name` function: the value returned and what is written to
`buff`. The separators are stored at `buff [host_len + 1]` and
`buff [host_len + app_len + 2]`, the ends of the names copied so far. -/
def purc_assemble_endpoint_name (PURC_LEN_HOST_NAME PURC_LEN_APP_NAME PURC_LEN_RUNNER_NAME : Nat)
    (host_name app_name runner_name : List Char) : Int × Option (List Char) :=
  let host_len := to_int host_name.length
  if host_len > PURC_LEN_HOST_NAME then (0, none)
  else
    let app_len := to_int app_name.length
    if app_len > PURC_LEN_APP_NAME then (0, none)
    else
      let runner_len := to_int runner_name.length
      if runner_len > PURC_LEN_RUNNER_NAME then (0, none)
      else
        let buff := ['@'] ++ host_name
        let buff := buff.take (host_len + 1).toNat ++ ['/']
        let buff := buff ++ app_name
        let buff := buff.take (host_len + app_len + 2).toNat ++ ['/']
        let buff := buff ++ runner_name
        (host_len + app_len + runner_len + 3, some buff)

/-- The schema of an HVML URI. -/
def HVML_SCHEMA : List Char := "hvml://".toList

/-- The `purc_hvml_uri_assemble` function: the string written to `uri` and the length
returned. The group and the page are null pointers when `none`. -/
def purc_hvml_uri_assemble (host app runner : List Char) (group page : Option (List Char)) :
    List Char × Nat :=
  let uri := HVML_SCHEMA
  let uri := uri ++ host
  let uri := uri ++ ['/']
  let uri := uri ++ app
  let uri := uri ++ ['/']
  let uri := uri ++ runner
  let uri := uri ++ ['/']
  let uri :=
    match group with
    | some group =>
      let uri := uri ++ group
      let uri := uri ++ ['/']
      match page with
      | some page => uri ++ page
      | none => uri
    | none => uri
  (uri, uri.length)

/-- The `get_path_comp_len` function: the characters before the first `/`, counted in an
`unsigned int`. -/
def get_path_comp_len (str : List Char) : Nat :=
  (str.takeWhile (fun c => c != '/')).length % 2 ^ 32

/-- The `get_path_trail_len` function: the characters before the first `?` or `#`, counted
in an `unsigned int`. -/
def get_path_trail_len (str : List Char) : Nat :=
  (str.takeWhile (fun c => c != '?' && c != '#')).length % 2 ^ 32

/-- The C library function `strncasecmp`, as the answer to whether the first `n` characters
differ when case is ignored. -/
def strncasecmp (a b : List Char) (n : Nat) : Bool :=
  (a.take n).map Char.toLower != (b.take n).map Char.toLower

/-- The buffers `purc_hvml_uri_split` writes; `none` for a buffer it has not written. -/
structure hvml_uri_parts where
  host : Option (List Char)
  app : Option (List Char)
  runner : Option (List Char)
  group : Option (List Char)
  page : Option (List Char)
  deriving DecidableEq

/-- The `purc_hvml_uri_split` function. The Boolean arguments tell which of the five
buffers the caller passes (a null pointer otherwise). The result is the value returned and
the buffers written up to the return. -/
def purc_hvml_uri_split (uri : List Char) (host app runner group page : Bool) :
    Bool × hvml_uri_parts :=
  let out : hvml_uri_parts := ⟨none, none, none, none, none⟩
  if strncasecmp uri HVML_SCHEMA 7 then (false, out)
  else
    let uri := uri.drop 7
    let len := get_path_comp_len uri
    if len = 0 ∨ uri[len]? ≠ some '/' then (false, out)
    else
      let out := if host then { out with host := some (uri.take len) } else out
      let uri := uri.drop (len + 1)
      let len := get_path_comp_len uri
      if len = 0 ∨ uri[len]? ≠ some '/' then (false, out)
      else
        let out := if app then { out with app := some (uri.take len) } else out
        let uri := uri.drop (len + 1)
        let len := get_path_comp_len uri
        if len = 0 ∨ uri[len]? ≠ some '/' then (false, out)
        else
          let out := if runner then { out with runner := some (uri.take len) } else out
          if group = false ∧ page = false then (true, out)
          else
            let uri := uri.drop (len + 1)
            let len := get_path_comp_len uri
            if len = 0 ∨ uri[len]? ≠ some '/' then (false, out)
            else
              let out := if group then { out with group := some (uri.take len) } else out
              let uri := uri.drop (len + 1)
              let len := get_path_trail_len uri
              if len = 0 ∨ uri.head? = some '/' then (false, out)
              else
                let out := if page then { out with page := some (uri.take len) } else out
                (true, out)

/-! ## variant-set.c: the key spec of a new set -/

/-- The delimiter of the key spec, the space character. -/
def KEY_DELIM : Char := Char.ofNat 32

/-- The part of `struct pcvariant_set` that `variant_set_init` fills from the key spec.
`unique_key` tells whether the pointer is set (the copy it points to is cut into the tokens
by `strtok_r`); `keynames` is `none` for the null pointer and otherwise the array of
pointers, a slot being `none` (as `calloc` leaves it) or a token. -/
structure set_keys where
  unique_key : Bool
  keynames : Option (List (Option (List Char)))
  nr_keynames : Nat
deriving DecidableEq, Repr

/-- The C library function `strtok_r` with the delimiter set `" "`: the leading delimiters
are skipped; at the end of the string the result is the null pointer; otherwise the token
runs to the next delimiter and the context moves behind that delimiter. -/
def strtok_r (ctx : List Char) : Option (List Char) × List Char :=
  match ctx.dropWhile (fun c => c == KEY_DELIM) with
  | [] => (none, [])
  | c :: cs =>
    (some ((c :: cs).takeWhile (fun c => c != KEY_DELIM)),
      ((c :: cs).dropWhile (fun c => c != KEY_DELIM)).drop 1)

/-- The `while (tok)` loop of `variant_set_init`, entered with the context of `strtok_r`:
every token is stored into the next slot of `keynames`. A turn consumes at least one
character of the context, so the fuel bounds the turns. -/
def variant_set_init_loop : Nat → List Char → List (Option (List Char)) → Nat →
    List (Option (List Char)) × Nat
  | 0, _, keynames, idx => (keynames, idx)
  | fuel + 1, ctx, keynames, idx =>
    match strtok_r ctx with
    | (none, _) => (keynames, idx)
    | (some tok, ctx) =>
      variant_set_init_loop fuel ctx (keynames.set idx (some tok)) (idx + 1)

/-- The `variant_set_init` function on a zeroed `struct pcvariant_set`, as far as the key
fields go (the ordered index and the array start empty); allocation does not fail. `none`
is the null pointer. -/
def variant_set_init (unique_key : Option (List Char)) : Int × set_keys :=
  let set : set_keys := ⟨false, none, 0⟩
  match unique_key with
  | none => (0, { set with nr_keynames := 1 })
  | some [] => (0, { set with nr_keynames := 1 })
  | some (c :: cs) =>
    let set := { set with unique_key := true }
    let n := (c :: cs).length
    let set := { set with keynames := some (List.replicate n none) }
    let r := variant_set_init_loop (n + 1) (c :: cs) (set.keynames.getD []) 0
    let set := { set with keynames := some r.1 }
    let idx := r.2
    if idx = 0 then (0, { set with unique_key := false, nr_keynames := 1 })
    else (0, { set with nr_keynames := idx })

/-! ## interpreter/observer.c: the observer lists of a stack -/

/-- The world seen with its edge slots: the functions that make the edge calls of the source
are stated on it. -/
abbrev rue_world := World

/-- Modelled from the spec: the type test `purc_variant_is_set` is declared outside the
files at hand. -/
def purc_variant_is_set : purc_variant → Bool
  | .set _ => true
  | _ => false

/-- The `rev_update_grow` function: `PC_ASSERT(0)`; `none` is a fatal assertion. -/
def rev_update_grow (_pre : Bool) (_src : purc_variant) (_edge : Nat)
    (_argv : List purc_variant) : Option Bool :=
  none

/-- The `rev_update_shrink` function: `PC_ASSERT(0)`. -/
def rev_update_shrink (_pre : Bool) (_src : purc_variant) (_edge : Nat)
    (_argv : List purc_variant) : Option Bool :=
  none

/-- The `obj_rev_update_change` function: it asserts that the edge is the slot of the object
itself (the slot of a container is named by the address of the container) and returns
true; no argument is looked at. -/
def obj_rev_update_change (_pre : Bool) (obj : pcv_object) (edge : Nat)
    (_argv : List purc_variant) : Option Bool :=
  if obj.addr ≠ edge then none else some true

/-- The `rev_update_change` function: an object goes to `obj_rev_update_change`, every other
type ends in `PC_ASSERT(0)`. -/
def rev_update_change (pre : Bool) (src : purc_variant) (edge : Nat)
    (argv : List purc_variant) : Option Bool :=
  match src with
  | .object obj => obj_rev_update_change pre obj edge argv
  | _ => none

/-- The `rev_update` function: the switch on the operation, with `PC_ASSERT(0)` as the
default. -/
def rev_update (pre : Bool) (src : purc_variant) (op : Nat) (edge : Nat)
    (argv : List purc_variant) : Option Bool :=
  if op = PCVAR_OPERATION_GROW then rev_update_grow pre src edge argv
  else if op = PCVAR_OPERATION_SHRINK then rev_update_shrink pre src edge argv
  else if op = PCVAR_OPERATION_CHANGE then rev_update_change pre src edge argv
  else none

/-- The `rev_update_chain_pre_handler` function, with the slot it was registered with as
context (not null); `none` is a fatal assertion: `PC_ASSERT(edge->parent)`,
`PC_ASSERT(edge->parent != src)` or one of `rev_update`. Pointers are compared by address. -/
def rev_update_chain_pre_handler : pcvar_op_handler :=
  fun mem src op ctxt argv =>
    match (mem.rev_update_chain ctxt).parent with
    | none => none
    | some parent =>
      if parent.addr = src.addr then none
      else rev_update true src op ctxt argv

/-- The `rev_update_chain_post_handler` function; `none` is a fatal assertion:
`PC_ASSERT(edge->parent)` or one of `rev_update`. -/
def rev_update_chain_post_handler : pcvar_op_handler :=
  fun mem src op ctxt argv =>
    match (mem.rev_update_chain ctxt).parent with
    | none => none
    | some _ => rev_update false src op ctxt argv

/-- The call of `rev_update_chain_pre_handler` in a world. -/
def rev_update_chain_pre_call (s : rue_world) (src : purc_variant) (op : Nat) (ctxt : Nat)
    (argv : List purc_variant) : Option Bool :=
  rev_update_chain_pre_handler s.mem src op ctxt argv

/-- The `pcvar_container_belongs_to_set` function: a container with a parent in its edge
slot. -/
def pcvar_container_belongs_to_set (s : rue_world) (val : purc_variant) : Bool :=
  match val with
  | .array a => (s.rev_update_chain a).parent.isSome
  | .object o => (s.rev_update_chain o.addr).parent.isSome
  | .set a => (s.rev_update_chain a).parent.isSome
  | _ => false

/-- The loop of `pcvar_top_in_rev_update_chain` (`goto again`); `none` is the failure of
`PC_ASSERT(0)` on a value that is not a container, or the end of the fuel. -/
def top_in_rev_update_chain_loop (s : rue_world) : Nat → purc_variant → Option purc_variant
  | 0, _ => none
  | fuel + 1, val =>
    if IS_CONTAINER val then
      match (s.rev_update_chain val.addr).parent with
      | none => some val
      | some parent => top_in_rev_update_chain_loop s fuel parent
    else none

/-- The `pcvar_top_in_rev_update_chain` function, with the number of steps it may take. -/
def pcvar_top_in_rev_update_chain (s : rue_world) (fuel : Nat) (val : purc_variant) :
    Option purc_variant :=
  top_in_rev_update_chain_loop s fuel val

/-- The `pcvar_build_edge` function on the slot `edge_in_val`, with the world in which it
ends: `.ok (r, s)` is the return of `r` in the world `s`, `.error s` a fatal assertion raised
in the world `s`. The three pointer arguments are not null. -/
def pcvar_build_edge_steps (s : rue_world) (val : purc_variant) (edge_in_val : Nat)
    (edge : pcvar_rev_update_edge) : Except rue_world (Int × rue_world) :=
  if edge.pre_listener.isSome then .error s
  else if edge.post_listener.isSome then .error s
  else
    match edge.parent with
    | none => .error s
    | some parent =>
      let parent_is_set := purc_variant_is_set parent
      if !parent_is_set && !pcvar_container_belongs_to_set s parent then .error s
      else if (s.rev_update_chain edge_in_val).parent.isSome then .error s
      else if (s.rev_update_chain edge_in_val).pre_listener.isSome then .error s
      else if (s.rev_update_chain edge_in_val).post_listener.isSome then .error s
      else
        let r := purc_variant_register_pre_listener s (some val) PCVAR_OPERATION_ALL
          (some rev_update_chain_pre_handler) edge_in_val
        match r.1 with
        | none => .ok (-1, r.2)
        | some pre_listener =>
          let r := purc_variant_register_post_listener r.2 (some val) PCVAR_OPERATION_ALL
            (some rev_update_chain_post_handler) edge_in_val
          match r.1 with
          | none =>
            let k := purc_variant_revoke_listener r.2 (some val)
              (r.2.rev_update_chain edge_in_val).pre_listener
            if k.1 then .ok (-1, k.2) else .error k.2
          | some post_listener =>
            .ok (0, { r.2 with
                      rev_update_chain := Function.update r.2.rev_update_chain edge_in_val
                        { edge with pre_listener := some pre_listener
                                    post_listener := some post_listener } })

/-- The `pcvar_build_edge` function on the slot `edge_in_val`; `none` is a fatal
assertion. -/
def pcvar_build_edge (s : rue_world) (val : purc_variant) (edge_in_val : Nat)
    (edge : pcvar_rev_update_edge) : Option (Int × rue_world) :=
  (pcvar_build_edge_steps s val edge_in_val edge).toOption

/-- The `pcvar_break_edge` function on the slot `edge_in_val`; `none` is a fatal assertion.
Pointers are compared by address. -/
def pcvar_break_edge (s : rue_world) (val : purc_variant) (edge_in_val : Nat)
    (edge : pcvar_rev_update_edge) : Option rue_world :=
  let slot := s.rev_update_chain edge_in_val
  match slot.parent with
  | none => some s
  | some slot_parent =>
    match slot.pre_listener, slot.post_listener, edge.parent with
    | some pre_listener, some post_listener, some parent =>
      if parent.addr ≠ slot_parent.addr then none
      else if !IS_CONTAINER parent then none
      else
        match edge.me with
        | none => none
        | some me =>
          if me.val ≠ val.addr then none
          else if slot.me.map (fun a => a.addr) ≠ some me.addr then none
          else
            let r := purc_variant_revoke_listener s (some val) (some pre_listener)
            if !r.1 then none
            else
              let r := purc_variant_revoke_listener r.2 (some val) (some post_listener)
              if !r.1 then none
              else
                some { r.2 with
                       rev_update_chain := Function.update r.2.rev_update_chain edge_in_val
                         ⟨none, none, none, none⟩ }
    | _, _, _ => none

/-! ## variant-set.c: the edge calls of add and remove

The functions of the set container on the world with the edge slots. The only edge calls of
variant-set.c on these paths are the breaks of `elem_node_break_rev_update_edges`, made by
`elem_node_release` and `elem_node_replace`; the rest of each function is the one on the
world without the slots. -/

/-- Modelled from the spec: the per-type functions `pcvar_array_break_edge_to_parent` and
`pcvar_object_break_edge_to_parent` are absent; like `pcvar_set_break_edge_to_parent` they
call `pcvar_break_edge` on the slot of the value. This is `pcvar_break_edge_to_parent` on
the value of a field: a value that is not a container is not mutable and nothing is done; a
nested container is known by its address only, and the call is the same for every type of
container. -/
def pcvar_break_edge_to_parent (s : rue_world) (val : pcv_value)
    (edge : pcvar_rev_update_edge) : Option rue_world :=
  match val with
  | .container a => pcvar_break_edge s (.array a) a edge
  | _ => some s

/-- The loop of `elem_node_break_rev_update_edges` over the fields of the member value
`parent`, from the field at position `i` on: with key names, only the fields they name are
looked at; the edge of the value of the field to the member value is broken. The node of the
object that holds the field is named by the position of the field. -/
def break_rev_update_edges_loop (keynames : Option (List String)) (parent : pcv_object) :
    rue_world → List (String × pcv_value) → Nat → Option rue_world
  | s, [], _ => some s
  | s, (sk, v) :: rest, i =>
    if keynames.isSome ∧ sk ∉ keynames.getD [] then
      break_rev_update_edges_loop keynames parent s rest (i + 1)
    else
      let edge : pcvar_rev_update_edge :=
        ⟨some (.object parent), some ⟨i, (purc_variant.scalar v).addr⟩, none, none⟩
      match pcvar_break_edge_to_parent s v edge with
      | none => none
      | some s => break_rev_update_edges_loop keynames parent s rest (i + 1)

/-- The `elem_node_break_rev_update_edges` function; `none` is a fatal assertion. -/
def rue_world.elem_node_break_rev_update_edges (s : rue_world) (elem : Nat) :
    Option rue_world :=
  break_rev_update_edges_loop s.data.keynames (s.data.node elem).elem s
    (s.data.node elem).elem.fields 0

/-- The `elem_node_release` function on the world with the edge slots: the edges of the key
fields are broken when the node is in a set, then the constraint listener is revoked. -/
def rue_world.elem_node_release (s : rue_world) (elem : Nat) : Option rue_world :=
  match (if (s.data.node elem).set.isSome then s.elem_node_break_rev_update_edges elem
      else some s) with
  | none => none
  | some s => PurC.elem_node_release s elem

/-- The `elem_node_replace` function on the world with the edge slots: the edges of the key
fields of the old value are broken, then the value is replaced. No edge is built for the new
value. -/
def rue_world.elem_node_replace (s : rue_world) (cmp : variant_cmp) (node : Nat)
    (val kvs : pcv_object) : Option (Int × rue_world) :=
  match s.elem_node_break_rev_update_edges node with
  | none => none
  | some s => PurC.elem_node_replace cmp s node val kvs

/-- The `set_remove` function on the world with the edge slots. -/
def rue_world.set_remove (s : rue_world) (node : Nat) (check : Bool) :
    Option (Int × rue_world) :=
  match shrink s (s.data.node node).elem check with
  | none => none
  | some (false, w) => some (-1, w)
  | some (true, w) =>
    let idx := (w.data.node node).idx
    let w := { w with data := { w.data with elems := pcutils_rbtree_erase node w.data.elems } }
    if w.data.arr.length ≤ idx then none
    else
      let w := { w with data := { w.data with arr := w.data.arr.eraseIdx idx } }
      match shrunk w (w.data.node node).elem check with
      | none => none
      | some w =>
        let w := { w with data := refresh_arr w.data idx }
        let w := w.set_node node { w.data.node node with idx := SIZE_MAX }
        (rue_world.elem_node_release w node).map (fun s => (0, s))

/-- The `insert` function on the world with the edge slots. No edge is built for the new
member: `elem_node_setup_constraints` only registers the constraint listener. -/
def rue_world.insert (s : rue_world) (cmp : variant_cmp) (val : pcv_object)
    (_kvs : pcv_object) (_parent : Option Nat) (pnode : List Bool) (check : Bool) :
    Option (Int × rue_world) :=
  match grow s val check with
  | none => none
  | some (false, w) => some (-1, w)
  | some (true, w) =>
    let r := variant_set_create_elem_node w val
    let node := r.1
    let w := r.2
    if SIZE_MAX ≤ w.data.arr.length then
      (rue_world.elem_node_release w node).map (fun s => (-1, s))
    else
      let w := pcutils_arrlist_add w node
      let count := w.data.arr.length
      let w := w.set_node node { w.data.node node with idx := count - 1 }
      let elems := pcutils_rbtree_link_node node pnode w.data.elems
      let w := { w with data := { w.data with elems := pcutils_rbtree_insert_color node elems } }
      let c := elem_node_setup_constraints cmp w node
      if !c.1 then
        match rue_world.set_remove c.2 node false with
        | none => none
        | some (r, s) => if r ≠ 0 then none else some (-1, s)
      else
        (grown c.2 (c.2.data.node node).elem check).map (fun w => (0, w))

/-- The `insert_or_replace` function on the world with the edge slots. -/
def rue_world.insert_or_replace (s : rue_world) (cmp : variant_cmp) (val : pcv_object)
    (overwrite : Bool) (check : Bool) : Option (Int × rue_world) :=
  let k := variant_set_kvs_from_val s val
  let kvs := k.1
  let w := k.2
  let rbn := find_element_rb_node cmp w.data kvs
  match rbn.entry with
  | none =>
    (rue_world.insert w cmp val kvs rbn.parent rbn.pnode check).map
      (fun r => (if r.1 ≠ 0 then -1 else 0, r.2))
  | some curr =>
    if !overwrite then
      some (-1, pcinst_set_error w .NOT_SUPPORTED)
    else if (w.data.node curr).elem.addr = val.addr then
      some (0, w)
    else
      let u := variant_set_union w (w.data.node curr).elem val
      let tmp := u.1
      let w := u.2
      match change w (w.data.node curr).elem tmp check with
      | none => none
      | some (false, w) => some (-1, w)
      | some (true, w) =>
        match rue_world.elem_node_replace w cmp curr tmp kvs with
        | none => none
        | some (r, s) =>
          if r ≠ 0 then some (-1, s)
          else (changed s (s.data.node curr).elem tmp check).map (fun w => (0, w))

/-! ## Reachable sets -/

/-- The comparator is a total order up to equivalence: the sign of `cmp a b` is opposite to
the sign of `cmp b a`, and "not greater" is transitive. -/
structure cmp_total (cmp : variant_cmp) : Prop where
  antisymm : ∀ a b, cmp a b < 0 ↔ 0 < cmp b a
  trans : ∀ a b c, cmp a b ≤ 0 → cmp b c ≤ 0 → cmp a c ≤ 0

/-- A call of the public interface of the set by a client. -/
inductive set_call where
  | add (value : purc_variant) (overwrite : Bool)
  | remove (value : purc_variant) (silently : Bool)
  | remove_member_by_key_values (vs : List purc_variant)
  | remove_by_index (idx : Int)
  | set_by_index (idx : Int) (val : purc_variant)
  | sort
  | register_pre (op : Nat) (handler : pcvar_op_handler) (ctxt : Nat)
  | register_post (op : Nat) (handler : pcvar_op_handler) (ctxt : Nat)

/-- The world after one call, `none` when the call ends in a fatal assertion. -/
def set_call.run (cmp : variant_cmp) (w : World) : set_call → Option World
  | .add value overwrite => (purc_variant_set_add cmp w value overwrite).map (fun r => r.2)
  | .remove value silently => (purc_variant_set_remove cmp w value silently).map (fun r => r.2)
  | .remove_member_by_key_values vs =>
    (purc_variant_set_remove_member_by_key_values cmp w vs).map (fun r => r.2)
  | .remove_by_index idx => (purc_variant_set_remove_by_index w idx).map (fun r => r.2)
  | .set_by_index idx val => (purc_variant_set_set_by_index cmp w idx val).map (fun r => r.2)
  | .sort => some (pcvariant_set_sort cmp w).2
  | .register_pre op handler ctxt =>
    some (purc_variant_register_pre_listener w (some (.set w.set)) op (some handler) ctxt).2
  | .register_post op handler ctxt =>
    some (purc_variant_register_post_listener w (some (.set w.set)) op (some handler) ctxt).2

/-- The world after a sequence of calls. -/
def run_calls (cmp : variant_cmp) : List set_call → World → Option World
  | [], w => some w
  | c :: cs, w =>
    match c.run cmp w with
    | none => none
    | some w => run_calls cmp cs w

/-- A world is reachable when a sequence of calls leads to it from a world whose set is
empty (as `variant_set_init` leaves it: no ordered-index entry, no array entry) and in which
no listener is registered yet. -/
def reachable (cmp : variant_cmp) (w : World) : Prop :=
  ∃ (w0 : World) (calls : List set_call),
    w0.data.elems = .nil ∧ w0.data.arr = [] ∧ (∀ a, w0.listeners a = []) ∧
      run_calls cmp calls w0 = some w

/-! ## variant-set.c: a listener that changes the set while it is fired -/

/-- The part of `insert` that follows a `grow` that has returned true: the node is made,
appended to the array and linked into the ordered index at the link slot `pnode` that the
caller found before the listeners were fired. -/
def insert_linking (cmp : variant_cmp) (w : World) (val : pcv_object) (pnode : List Bool)
    (check : Bool) : Option (Int × World) :=
  let r := variant_set_create_elem_node w val
  let node := r.1
  let w := r.2
  if SIZE_MAX ≤ w.data.arr.length then
    (elem_node_release w node).map (fun w => (-1, w))
  else
    let w := pcutils_arrlist_add w node
    let count := w.data.arr.length
    let w := w.set_node node { w.data.node node with idx := count - 1 }
    let elems := pcutils_rbtree_link_node node pnode w.data.elems
    let w := { w with data := { w.data with elems := pcutils_rbtree_insert_color node elems } }
    let c := elem_node_setup_constraints cmp w node
    if !c.1 then
      match set_remove c.2 node false with
      | none => none
      | some (r, w) => if r ≠ 0 then none else some (-1, w)
    else
      (grown c.2 (c.2.data.node node).elem check).map (fun w => (0, w))

/-- The `insert_or_replace` function called without overwrite and with the check, when a
GROW pre-listener of the set, while it is fired by `grow`, makes the calls `during` on the
set and then returns true. The handlers kept in the listener table cannot change the set,
so this listener is given by the calls it makes; the listeners of the table are fired as
usual. When the key of the value is found, `grow` is not called and the function is
`insert_or_replace`. -/
def insert_or_replace_reentered (cmp : variant_cmp) (w : World) (val : pcv_object)
    (during : List set_call) : Option (Int × World) :=
  let k := variant_set_kvs_from_val w val
  let kvs := k.1
  let w0 := k.2
  let rbn := find_element_rb_node cmp w0.data kvs
  match rbn.entry with
  | none =>
    (match grow w0 val true with
      | none => none
      | some (false, w) => some (-1, w)
      | some (true, w) =>
        match run_calls cmp during w with
        | none => none
        | some w => insert_linking cmp w val rbn.pnode true).map
      (fun (r : Int × World) => (if r.1 ≠ 0 then -1 else 0, r.2))
  | some _ => insert_or_replace cmp w val false true

/-! ## Clients of the listener registry -/

/-- A call of the listener registry on one container by a client. -/
inductive registry_call where
  | register_pre (op : Nat) (handler : pcvar_op_handler) (ctxt : Nat)
  | register_post (op : Nat) (handler : pcvar_op_handler) (ctxt : Nat)
  | revoke (listener : Nat)

/-- The handle a registry call returns (when it returns one) and the world after it. -/
def registry_call.run (w : World) (v : purc_variant) : registry_call → Option Nat × World
  | .register_pre op handler ctxt =>
    purc_variant_register_pre_listener w (some v) op (some handler) ctxt
  | .register_post op handler ctxt =>
    purc_variant_register_post_listener w (some v) op (some handler) ctxt
  | .revoke listener => (none, (purc_variant_revoke_listener w (some v) (some listener)).2)

/-- The world after a sequence of registry calls on one container. -/
def run_registry (v : purc_variant) : List registry_call → World → World
  | [], w => w
  | c :: cs, w => run_registry v cs (c.run w v).2

/-- The listeners that a sequence of registry calls hands out, oldest first: one for each
registration that returns a handle, with that handle and the phase, mask, context and
handler given in the call. -/
def registered (v : purc_variant) : List registry_call → World → List pcvar_listener
  | [], _ => []
  | c :: cs, w =>
    match c, (c.run w v).1 with
    | .register_pre op handler ctxt, some l =>
      ⟨l, PCVAR_LISTENER_PRE, op, ctxt, handler⟩ :: registered v cs (c.run w v).2
    | .register_post op handler ctxt, some l =>
      ⟨l, PCVAR_LISTENER_POST, op, ctxt, handler⟩ :: registered v cs (c.run w v).2
    | _, _ => registered v cs (c.run w v).2

/-- The listener is a pre-listener registered for the operation. -/
def matches_pre (op : Nat) (l : pcvar_listener) : Bool :=
  decide (l.flags &&& PCVAR_LISTENER_PRE_OR_POST = PCVAR_LISTENER_PRE) && decide (l.op &&& op ≠ 0)

/-- The listener is a post-listener registered for the operation. -/
def matches_post (op : Nat) (l : pcvar_listener) : Bool :=
  decide (l.flags &&& PCVAR_LISTENER_PRE_OR_POST ≠ PCVAR_LISTENER_PRE) && decide (l.op &&& op ≠ 0)

/-- Call the handlers of the given listeners one after the other and stop after the first
that does not return true (it returns false, or it ends in a fatal assertion): the listeners
called. -/
def called_until_veto (mem : pcvar_memory) (source : purc_variant) (op : Nat)
    (argv : List purc_variant) : List pcvar_listener → List pcvar_listener
  | [] => []
  | l :: ls =>
    if l.handler mem source op l.ctxt argv = some true then
      l :: called_until_veto mem source op argv ls
    else [l]

/-- The result and the calls of the loop of the pre fire when it returns. -/
def on_pre_fired_result (mem : pcvar_memory) (source : purc_variant) (op : Nat)
    (argv : List purc_variant) (ls : List pcvar_listener) : Bool × List pcvar_call :=
  (on_pre_fired_loop mem source op argv ls).getD (false, [])

/-- The record of the call of one listener. -/
def pcvar_listener.call (op : Nat) (argv : List purc_variant) (l : pcvar_listener) : pcvar_call :=
  ⟨l.addr, l.flags, op, argv⟩

/-- The operation mask names some but not all of the three operations, as
`pcvariant_on_pre_fired` asserts. -/
def proper_op (op : Nat) : Prop :=
  op &&& PCVAR_OPERATION_ALL = op ∧ op ≠ PCVAR_OPERATION_ALL

/-- The operation is one of GROW, SHRINK and CHANGE. -/
def single_op (op : Nat) : Prop :=
  op = PCVAR_OPERATION_GROW ∨ op = PCVAR_OPERATION_SHRINK ∨ op = PCVAR_OPERATION_CHANGE

/-- A listener list is well formed when no post-listener stands before a pre-listener. -/
def pre_then_post (ls : List pcvar_listener) : Prop :=
  ls.Pairwise (fun a b =>
    a.flags &&& PCVAR_LISTENER_PRE_OR_POST ≠ PCVAR_LISTENER_PRE →
    b.flags &&& PCVAR_LISTENER_PRE_OR_POST ≠ PCVAR_LISTENER_PRE)

/-- The fields of the key projection of a value in the set of this world. -/
def World.kvs_of (w : World) (value : pcv_object) : List (String × pcv_value) :=
  (variant_set_kvs_from_val w value).1.fields

/-- The key tuple of an object: for each key name the value of that field, `undefined`
where the object has no such field. -/
def key_values (keynames : List String) (v : pcv_object) : List purc_variant :=
  keynames.map (fun k =>
    match purc_variant_object_get_by_ckey v.fields k with
    | some x => .scalar x
    | none => .undefined)

/-- A client walk with a cursor: read the value at the cursor, call `next`, and go on while
`next` returns true. Each step records the value read and what `next` returned. -/
def walk_next (w : World) : Nat → purc_variant_set_iterator → List (pcv_object × Bool)
  | 0, _ => []
  | fuel + 1, it =>
    match (purc_variant_set_iterator_get_value w it).1 with
    | none => []
    | some v =>
      let r := purc_variant_set_iterator_next w it
      if r.1 then (v, true) :: walk_next r.2.2 fuel r.2.1 else [(v, false)]

/-- The same client walk backward, with `prev`. -/
def walk_prev (w : World) : Nat → purc_variant_set_iterator → List (pcv_object × Bool)
  | 0, _ => []
  | fuel + 1, it =>
    match (purc_variant_set_iterator_get_value w it).1 with
    | none => []
    | some v =>
      let r := purc_variant_set_iterator_prev w it
      if r.1 then (v, true) :: walk_prev r.2.2 fuel r.2.1 else [(v, false)]

/-- Replace by index as the spec words it: `remove_by_index(idx)`, then
`add(val, overwrite = true)` on the set that the removal leaves. -/
def spec_set_by_index (cmp : variant_cmp) (w : World) (idx : Int) (val : purc_variant) :
    Option (Bool × World) :=
  match purc_variant_set_remove_by_index w idx with
  | none => none
  | some (_, w1) => purc_variant_set_add cmp w1 val true

/-- No listener of the set ever vetoes: every handler registered on the set returns true
on every call. -/
def World.listeners_allow (w : World) : Prop :=
  ∀ l ∈ w.listeners w.set, ∀ mem source op argv,
    l.handler mem source op l.ctxt argv = some true

/-- Every handler registered on the set returns, whatever the call: none ends in a fatal
assertion. -/
def World.handlers_return (w : World) : Prop :=
  ∀ l ∈ w.listeners w.set, ∀ mem source op argv,
    (l.handler mem source op l.ctxt argv).isSome = true

/-- Some pre-listener of the set, registered for the operation, returns false on every
call for that operation, and every handler registered on the set returns. -/
def World.always_vetoes (w : World) (op : Nat) : Prop :=
  (∃ l ∈ w.listeners w.set,
    l.flags &&& PCVAR_LISTENER_PRE_OR_POST = PCVAR_LISTENER_PRE ∧ l.op &&& op ≠ 0 ∧
    ∀ mem argv, l.handler mem (.set w.set) op l.ctxt argv = some false) ∧
  w.handlers_return

/-- The value `t` is reached from the value `v` by following parent links of the edge
slots, zero or more times. -/
inductive reaches (s : rue_world) : purc_variant → purc_variant → Prop where
  | here (v : purc_variant) : reaches s v v
  | up (v p t : purc_variant) :
      (s.rev_update_chain v.addr).parent = some p → reaches s p t → reaches s v t

/-- The maximal runs of characters other than the space in a string, in order of
appearance: the string is a run of spaces, then a run without space that is not empty and is
followed by a space or by the end, then the rest with its own runs. -/
inductive space_runs : List Char → List (List Char) → Prop where
  | done (g : List Char) (hg : ∀ c ∈ g, c = KEY_DELIM) : space_runs g []
  | run (g t rest : List Char) (ts : List (List Char)) (hg : ∀ c ∈ g, c = KEY_DELIM)
      (ht : t ≠ []) (hts : KEY_DELIM ∉ t) (hrest : rest = [] ∨ rest.head? = some KEY_DELIM)
      (h : space_runs rest ts) : space_runs (g ++ t ++ rest) (t :: ts)

/-- The slots of `keynames` after the tokens are stored from the slot `idx` on. -/
def store_tokens : List (Option (List Char)) → Nat → List (List Char) →
    List (Option (List Char))
  | keynames, _, [] => keynames
  | keynames, idx, t :: ts => store_tokens (keynames.set idx (some t)) (idx + 1) ts

/-- The tokens joined by single dots. -/
def join_dots : List (List Char) → List Char
  | [] => []
  | [t] => t
  | t :: ts => t ++ '.' :: join_dots ts

/-- No pre-listener of the set vetoes the operation on these changed values: the fire of
the pre-listeners returns true. -/
def World.allows (w : World) (op : Nat) (argv : List purc_variant) : Prop :=
  (on_pre_fired_loop w.mem (.set w.set) op argv (w.listeners w.set)).map Prod.fst = some true

/-- Some pre-listener of the set, registered for the operation, returns false on these
changed values, and the pre-listeners of the set registered for the operation all return on
them. -/
def World.vetoes (w : World) (op : Nat) (argv : List purc_variant) : Prop :=
  (∃ l ∈ w.listeners w.set,
    l.flags &&& PCVAR_LISTENER_PRE_OR_POST = PCVAR_LISTENER_PRE ∧ l.op &&& op ≠ 0 ∧
    l.handler w.mem (.set w.set) op l.ctxt argv = some false) ∧
  ∀ l ∈ w.listeners w.set,
    l.flags &&& PCVAR_LISTENER_PRE_OR_POST = PCVAR_LISTENER_PRE → l.op &&& op ≠ 0 →
    (l.handler w.mem (.set w.set) op l.ctxt argv).isSome = true

/-- The post-listeners of the set keep to the protocol: a notification is always answered
with true (false would be a fatal assertion in `pcvariant_on_post_fired`). -/
def World.post_listeners_ok (w : World) : Prop :=
  ∀ l ∈ w.listeners w.set, l.flags &&& PCVAR_LISTENER_PRE_OR_POST ≠ PCVAR_LISTENER_PRE →
    ∀ mem source op argv, l.handler mem source op l.ctxt argv = some true

/-- The union object that `add(v, overwrite)` builds for the member value `m` whose key
`v` has. -/
def World.union_of (w : World) (m v : pcv_object) : pcv_object :=
  (variant_set_union (variant_set_kvs_from_val w v).2 m v).1

/-- An object is well formed when its field names are distinct. -/
def pcv_object.wf (o : pcv_object) : Prop := (o.fields.map Prod.fst).Nodup

/-- The call left the set as it was: the array, the ordered index, every node record (value,
key projection, cached position) and every listener list are the same, and the handlers
called during the call were all pre-listeners. -/
def World.untouched (w w' : World) : Prop :=
  w'.data.arr = w.data.arr ∧ w'.data.elems = w.data.elems ∧ w'.data.node = w.data.node ∧
  w'.data.keynames = w.data.keynames ∧ w'.listeners = w.listeners ∧
  ∃ calls, w'.fired = w.fired ++ calls ∧
    ∀ c ∈ calls, c.flags &&& PCVAR_LISTENER_PRE_OR_POST = PCVAR_LISTENER_PRE

/-- The key projection cached in the member node at an address. -/
def World.key (w : World) (p : Nat) : List (String × pcv_value) := (w.data.node p).kvs.fields

/-- The member value at each array position, in document order. -/
def World.members (w : World) : List pcv_object := w.data.arr.map (fun p => (w.data.node p).elem)

/-- Strictly ascending keys along a list of nodes. -/
def ascending (cmp : variant_cmp) (key : Nat → List (String × pcv_value)) (l : List Nat) : Prop :=
  l.Pairwise (fun a b => cmp (key a) (key b) < 0)

/-- The invariant of the set container. -/
structure set_inv (cmp : variant_cmp) (w : World) : Prop where
  perm : w.data.elems.inorder.Perm w.data.arr
  nodup : w.data.arr.Nodup
  idx : ∀ i p, w.data.arr[i]? = some p → (w.data.node p).idx = i
  sorted : ascending cmp w.key w.data.elems.inorder
  fresh : ∀ p ∈ w.data.arr, p < w.brk
  capacity : w.data.arr.length ≤ SIZE_MAX
  constraints : ∀ p ∈ w.data.arr, ∃ l, (w.data.node p).constraints = some l ∧ l < w.brk ∧
    ∃ x ∈ w.listeners (w.data.node p).elem.addr, x.addr = l
  handles : ∀ p ∈ w.data.arr, ∀ q ∈ w.data.arr,
    (w.data.node p).constraints = (w.data.node q).constraints → p = q
  shape : ∀ a, pre_then_post (w.listeners a)

/-! ## The states that the mutations reach -/

/-- The world that `insert` reaches, once the pre-listeners have allowed the GROW, just
before it fires the post-listeners: the new node, at the next free address, is the last
entry of the array and is linked into the ordered index at `pnode`, and its constraint
listener is registered on the value. -/
def World.inserted (cmp : variant_cmp) (w : World) (val : pcv_object) (pnode : List Bool) :
    World :=
  let k := variant_set_kvs_from_val { w with brk := w.brk + 1 } val
  { set := w.set
    data :=
      { keynames := w.data.keynames
        elems := pcutils_rbtree_link_node w.brk pnode w.data.elems
        arr := w.data.arr ++ [w.brk]
        node := Function.update w.data.node w.brk
          ⟨some w.set, val, k.1, w.data.arr.length, some k.2.brk⟩ }
    listeners := Function.update w.listeners val.addr
      (⟨k.2.brk, PCVAR_LISTENER_PRE, PCVAR_OPERATION_ALL, w.set,
          variant_set_constraints_handler cmp⟩ :: w.listeners val.addr)
    brk := k.2.brk + 1
    last_error := w.last_error
    fired := w.fired
    rev_update_chain := w.rev_update_chain }

/-- The world that `elem_node_replace` reaches: the node holds the new value and key
projection, the constraint listener of the old value is gone (`rest` is what is left of the
old value's listener list) and a new one is registered on the new value. -/
def World.replaced (cmp : variant_cmp) (w : World) (curr : Nat) (val kvs : pcv_object)
    (rest : List pcvar_listener) : World :=
  let n := w.data.node curr
  let ls := Function.update w.listeners n.elem.addr rest
  { w with
    data := { w.data with
      node := Function.update w.data.node curr ⟨n.set, val, kvs, n.idx, some w.brk⟩ }
    listeners := Function.update ls val.addr
      (⟨w.brk, PCVAR_LISTENER_PRE, PCVAR_OPERATION_ALL, n.set.getD 0,
          variant_set_constraints_handler cmp⟩ :: ls val.addr)
    brk := w.brk + 1 }

/-- The world in which `set_remove` fires the post-listeners: the node is out of the
ordered index and out of the array. -/
def World.unlinked (w : World) (node : Nat) : World :=
  { w with data := { w.data with
      elems := pcutils_rbtree_erase node w.data.elems
      arr := w.data.arr.eraseIdx (w.data.node node).idx } }

/-- The world that `set_remove` reaches from the one in which the post-listeners were
fired: the cached positions from `idx` on are refreshed and the node is released (`rest` is
what is left of its value's listener list). -/
def World.released (w : World) (node idx : Nat) (rest : List pcvar_listener) : World :=
  let d := refresh_arr w.data idx
  { w with
    data := { d with
      node := Function.update d.node node
        { d.node node with idx := SIZE_MAX, constraints := none, set := none } }
    listeners := Function.update w.listeners (d.node node).elem.addr rest }

/-! ## Examples -/

/-- An example comparator: objects are ordered by the number in their field `id` (a missing
or non-numeric `id` counts as 0). -/
def ex_cmp : variant_cmp := fun a b =>
  (match purc_variant_object_get_by_ckey a "id" with
    | some (.number n) => n
    | _ => 0) -
  (match purc_variant_object_get_by_ckey b "id" with
    | some (.number n) => n
    | _ => 0)

/-- An example handler that allows everything. -/
def ex_allow : pcvar_op_handler := fun _ _ _ _ _ => some true

/-- An example handler that vetoes everything. -/
def ex_veto : pcvar_op_handler := fun _ _ _ _ _ => some false

/-- An example world: an empty set at address 100, keyed by `id`, no listener registered. -/
def ex_world : World :=
  { set := 100
    data := { keynames := some ["id"], elems := .nil, arr := [],
              node := fun _ => ⟨none, ⟨0, []⟩, ⟨0, []⟩, 0, none⟩ }
    listeners := fun _ => []
    brk := 1000
    last_error := .OK
    fired := []
    rev_update_chain := fun _ => ⟨none, none, none, none⟩ }

/-- An example member: the object `id: 1, name: a` at address 1. -/
def ex_obj_a : pcv_object := ⟨1, [("id", .number 1), ("name", .string "a")]⟩

/-- An example member: the object `id: 1, name: b` at address 2. -/
def ex_obj_b : pcv_object := ⟨2, [("id", .number 1), ("name", .string "b")]⟩

/-- An example member: the object `id: 2, name: c` at address 3. -/
def ex_obj_c : pcv_object := ⟨3, [("id", .number 2), ("name", .string "c")]⟩

/-- An example member: the object `id: 0, name: z` at address 4. -/
def ex_obj_z : pcv_object := ⟨4, [("id", .number 0), ("name", .string "z")]⟩

/-- An example history of a set: a pre- and a post-listener are registered, then the
objects a, b (overwriting a), c and z are added. -/
def ex_calls : List set_call :=
  [ .register_pre PCVAR_OPERATION_ALL ex_allow 0,
    .register_post PCVAR_OPERATION_ALL ex_allow 0,
    .add (.object ex_obj_a) false,
    .add (.object ex_obj_b) true,
    .add (.object ex_obj_c) false,
    .add (.object ex_obj_z) false ]

/-- The example set that the example history builds: three members, in document order
b (merged into a), c, z. -/
def ex_set : World := (run_calls ex_cmp ex_calls ex_world).getD ex_world

/-- The example set after `remove_by_index(0)`. -/
def ex_removed : World :=
  ((purc_variant_set_remove_by_index ex_set ((0 : Nat) : Int)).getD (none, ex_set)).2

/-- The example history followed by the registration of a pre-listener that vetoes every
operation. -/
def ex_guarded_calls : List set_call :=
  ex_calls ++ [.register_pre PCVAR_OPERATION_ALL ex_veto 9]

/-- The example set guarded by a vetoing pre-listener. -/
def ex_guarded : World := (run_calls ex_cmp ex_guarded_calls ex_world).getD ex_world

/-- An example member without the key field: the object `name: q` at address 6. -/
def ex_obj_q : pcv_object := ⟨6, [("name", .string "q")]⟩

/-- An example set keyed by `id` that holds the object a and the object q, which has no
`id` field. -/
def ex_sparse : World :=
  (run_calls ex_cmp [.add (.object ex_obj_a) false, .add (.object ex_obj_q) false]
    ex_world).getD ex_world

/-- An example object with a key that the example set does not hold: `id: 5` at address 5. -/
def ex_obj_n : pcv_object := ⟨5, [("id", .number 5)]⟩

/-- The example set after `add` of the object n. -/
def ex_added : World :=
  ((purc_variant_set_add ex_cmp ex_set (.object ex_obj_n) false).getD (false, ex_set)).2

/-- The example set guarded by a pre-listener that vetoes every GROW and nothing else. -/
def ex_grow_guarded : World :=
  (run_calls ex_cmp (ex_calls ++ [.register_pre PCVAR_OPERATION_GROW ex_veto 9])
    ex_world).getD ex_world

/-- The example set with an empty edge slot for every container. -/
def ex_rue : rue_world := ex_set

/-- An example child: the member of the example set at address 1007. -/
def ex_child : purc_variant := .object ⟨1007, [("id", .number 1), ("name", .string "b")]⟩

/-- An example edge descriptor: the parent is the example set, the anchor is the member
node at address 1003, which holds the child. -/
def ex_edge : pcvar_rev_update_edge := ⟨some (.set 100), some ⟨1003, 1007⟩, none, none⟩

/-- The example world after the edge from the child to the set is built. -/
def ex_edged : rue_world := ((pcvar_build_edge ex_rue ex_child 1007 ex_edge).getD (0, ex_rue)).2

/-- An example post-listener that reads the member at position 0 of the set it is fired
for with `purc_variant_set_get_by_index` and then returns true; a fatal assertion of that
call ends the handler. -/
def ex_probe : pcvar_op_handler :=
  fun mem _ _ _ _ =>
    (purc_variant_set_get_by_index { ex_world with data := mem.data } 0).map (fun _ => true)

/-- The example set with the probing post-listener registered for SHRINK. -/
def ex_probed : World :=
  (purc_variant_register_post_listener ex_set (some (.set 100)) PCVAR_OPERATION_SHRINK
    (some ex_probe) 0).2

/-- An example object whose key field `id` holds a nested container, at address 50. -/
def ex_obj_nested : pcv_object := ⟨8, [("id", .container 50), ("name", .string "n")]⟩

/-- The empty example set in a world without edges. -/
def ex_rue_empty : rue_world := ex_world

/-- An example history of registrations on the set: pre-listeners L1, L2, L3 and
post-listeners P1, P2, P3, interleaved. -/
def ex_registrations : List registry_call :=
  [ .register_pre PCVAR_OPERATION_GROW ex_allow 1,
    .register_post PCVAR_OPERATION_ALL ex_allow 11,
    .register_pre PCVAR_OPERATION_ALL ex_allow 2,
    .register_post PCVAR_OPERATION_GROW ex_allow 12,
    .register_pre PCVAR_OPERATION_GROW ex_allow 3,
    .register_post PCVAR_OPERATION_GROW ex_allow 13 ]

/-! ## Lemmas: the comparator -/

theorem cmp_total.eq_symm {cmp : variant_cmp} (hc : cmp_total cmp) {a b}
    (h : cmp a b = 0) : cmp b a = 0 := by
  have h1 := hc.antisymm a b
  have h2 := hc.antisymm b a
  omega

theorem cmp_total.refl {cmp : variant_cmp} (hc : cmp_total cmp) (a) : cmp a a = 0 := by
  have h1 := hc.antisymm a a
  omega

theorem cmp_total.lt_of_le_of_lt {cmp : variant_cmp} (hc : cmp_total cmp) {a b c}
    (h1 : cmp a b ≤ 0) (h2 : cmp b c < 0) : cmp a c < 0 := by
  have h3 := hc.trans a b c h1 (by omega)
  by_contra hcon
  have h4 : cmp a c = 0 := by omega
  have h5 := hc.eq_symm h4
  have h6 := hc.trans c a b (by omega) h1
  have h7 := hc.antisymm b c
  omega

theorem cmp_total.lt_of_lt_of_le {cmp : variant_cmp} (hc : cmp_total cmp) {a b c}
    (h1 : cmp a b < 0) (h2 : cmp b c ≤ 0) : cmp a c < 0 := by
  have h3 := hc.trans a b c (by omega) h2
  by_contra hcon
  have h4 : cmp a c = 0 := by omega
  have h5 := hc.eq_symm h4
  have h6 := hc.trans b c a h2 (by omega)
  have h7 := hc.antisymm a b
  omega

theorem cmp_total.lt_flip {cmp : variant_cmp} (hc : cmp_total cmp) {a b}
    (h : 0 < cmp a b) : cmp b a < 0 := (hc.antisymm b a).2 h

/-! ## Lemmas: the ordered index -/

theorem inorder_join (l r : rb_node) : (l.join r).inorder = l.inorder ++ r.inorder := by
  induction l with
  | nil => simp [rb_node.join, rb_node.inorder]
  | node a p b _ ihb => simp [rb_node.join, rb_node.inorder, ihb]

theorem inorder_erase (n : Nat) (t : rb_node) (h : t.inorder.Nodup) :
    (pcutils_rbtree_erase n t).inorder = t.inorder.erase n := by
  induction t with
  | nil => simp [pcutils_rbtree_erase, rb_node.inorder]
  | node l p r ihl ihr =>
    simp only [rb_node.inorder] at h ⊢
    have hl : l.inorder.Nodup := (List.nodup_append.1 h).1
    have hr : r.inorder.Nodup := ((List.nodup_cons.1 (List.nodup_append.1 h).2.1)).2
    have hpl : p ∉ l.inorder := fun hp => (List.nodup_append.1 h).2.2 hp (List.mem_cons_self _ _)
    have hdis : ∀ x, x ∈ l.inorder → x ∉ r.inorder := fun x hx hxr =>
      (List.nodup_append.1 h).2.2 hx (List.mem_cons_of_mem _ hxr)
    unfold pcutils_rbtree_erase
    by_cases hp : p = n
    · subst hp
      simp only [if_true, inorder_join]
      rw [List.erase_append_right _ hpl]
      simp
    · simp only [hp, if_false, rb_node.inorder, ihl hl, ihr hr]
      by_cases hn : n ∈ l.inorder
      · rw [List.erase_append_left _ hn]
        have : n ∉ r.inorder := hdis n hn
        rw [List.erase_of_not_mem this]
      · rw [List.erase_append_right _ hn, List.erase_of_not_mem hn]
        rw [List.erase_cons_tail (by simpa using hp)]

theorem find_loop_some (cmp : variant_cmp) (node : Nat → set_node) (kvs : pcv_object) :
    ∀ (t : rb_node) (parent : Option Nat) (p : Nat),
      (find_element_rb_node_loop cmp node kvs t parent).entry = some p →
      p ∈ t.inorder ∧ cmp kvs.fields (node p).kvs.fields = 0 := by
  intro t
  induction t with
  | nil => intro parent p h; simp [find_element_rb_node_loop] at h
  | node l q r ihl ihr =>
    intro parent p h
    unfold find_element_rb_node_loop at h
    simp only at h
    split_ifs at h with h1 h2
    · have := ihl _ _ h
      exact ⟨by simp [rb_node.inorder, this.1], this.2⟩
    · have := ihr _ _ h
      exact ⟨by simp [rb_node.inorder, this.1], this.2⟩
    · simp only [Option.some.injEq] at h
      subst h
      exact ⟨by simp [rb_node.inorder], by omega⟩

theorem find_loop_none {cmp : variant_cmp} (hc : cmp_total cmp) (node : Nat → set_node)
    (kvs : pcv_object) (n : Nat) :
    ∀ (t : rb_node) (parent : Option Nat),
      ascending cmp (fun a => (node a).kvs.fields) t.inorder →
      (find_element_rb_node_loop cmp node kvs t parent).entry = none →
      ∃ L R, t.inorder = L ++ R ∧
        (pcutils_rbtree_link_node n
          (find_element_rb_node_loop cmp node kvs t parent).pnode t).inorder = L ++ n :: R ∧
        (∀ a ∈ L, cmp (node a).kvs.fields kvs.fields < 0) ∧
        (∀ b ∈ R, cmp kvs.fields (node b).kvs.fields < 0) := by
  intro t
  induction t with
  | nil =>
    intro parent _ _
    exact ⟨[], [], by simp [rb_node.inorder, find_element_rb_node_loop,
      pcutils_rbtree_link_node]⟩
  | node l q r ihl ihr =>
    intro parent hs h
    unfold find_element_rb_node_loop at h ⊢
    simp only [ascending, rb_node.inorder, List.pairwise_append, List.pairwise_cons] at hs
    obtain ⟨hsl, ⟨hqr, hsr⟩, hlr⟩ := hs
    simp only at h ⊢
    split_ifs at h ⊢ with h1 h2
    · obtain ⟨L, R, e1, e2, hL, hR⟩ := ihl (some q) hsl h
      refine ⟨L, R ++ q :: r.inorder, by simp [rb_node.inorder, e1], ?_, hL, ?_⟩
      · simp [pcutils_rbtree_link_node, rb_node.inorder, e2]
      · intro b hb
        rcases List.mem_append.1 hb with hb | hb
        · exact hR b hb
        · rcases List.mem_cons.1 hb with hb | hb
          · subst hb; exact h1
          · exact hc.lt_of_lt_of_le h1 (le_of_lt (hqr b hb))
    · obtain ⟨L, R, e1, e2, hL, hR⟩ := ihr (some q) hsr h
      have hq : cmp (node q).kvs.fields kvs.fields < 0 := hc.lt_flip h2
      refine ⟨l.inorder ++ q :: L, R, by simp [rb_node.inorder, e1], ?_, ?_, hR⟩
      · simp [pcutils_rbtree_link_node, rb_node.inorder, e2]
      · intro a ha
        rcases List.mem_append.1 ha with ha | ha
        · exact hc.lt_of_lt_of_le (hlr a ha q (List.mem_cons_self _ _)) (le_of_lt hq)
        · rcases List.mem_cons.1 ha with ha | ha
          · subst ha; exact hq
          · exact hL a ha

/-! ## Lemmas: the listener registry -/

theorem single_op_proper {op : Nat} (h : single_op op) : proper_op op := by
  rcases h with h | h | h <;> subst h <;> exact ⟨by decide, by decide⟩

theorem pre_fired_single (mem : pcvar_memory) (source : purc_variant)
    (ls : List pcvar_listener) {op : Nat} (h : proper_op op) (argv : List purc_variant) :
    pcvariant_on_pre_fired mem source ls op argv
      = on_pre_fired_loop mem source op argv ls := by
  simp [pcvariant_on_pre_fired, h.1, h.2]

theorem post_fired_single (mem : pcvar_memory) (source : purc_variant)
    (ls : List pcvar_listener) {op : Nat} (h : proper_op op) (argv : List purc_variant) :
    pcvariant_on_post_fired mem source ls op argv
      = on_post_fired_loop mem source op argv ls.reverse := by
  simp [pcvariant_on_post_fired, h.1, h.2]

/-- What the loop of the pre fire does on a well-formed list: it ends in a fatal assertion
exactly when a handler it calls does; otherwise it returns the calls it made, true exactly
when every matching pre-listener returns true, false exactly when one returns false. -/
theorem pre_loop_spec (mem : pcvar_memory) (source : purc_variant) (op : Nat)
    (argv : List purc_variant) :
    ∀ ls : List pcvar_listener, pre_then_post ls →
      (on_pre_fired_loop mem source op argv ls = none ↔
        ∃ l ∈ called_until_veto mem source op argv (ls.filter (matches_pre op)),
          l.handler mem source op l.ctxt argv = none) ∧
      ∀ r, on_pre_fired_loop mem source op argv ls = some r →
        r.2 = (called_until_veto mem source op argv (ls.filter (matches_pre op))).map
              (pcvar_listener.call op argv) ∧
        (r.1 = true ↔
          ∀ l ∈ ls.filter (matches_pre op), l.handler mem source op l.ctxt argv = some true) ∧
        (r.1 = false ↔
          ∃ l ∈ ls, l.flags &&& PCVAR_LISTENER_PRE_OR_POST = PCVAR_LISTENER_PRE ∧
            l.op &&& op ≠ 0 ∧ l.handler mem source op l.ctxt argv = some false) := by
  intro ls
  induction ls with
  | nil =>
    intro _
    refine ⟨by simp [on_pre_fired_loop, called_until_veto], ?_⟩
    intro r hr
    simp only [on_pre_fired_loop, Option.some.injEq] at hr
    subst hr
    simp [called_until_veto]
  | cons curr rest ih =>
    intro hs
    have hs' := List.pairwise_cons.1 hs
    have ih := ih hs'.2
    unfold on_pre_fired_loop
    by_cases h1 : curr.op &&& op = 0
    · have hm : matches_pre op curr = false := by simp [matches_pre, h1]
      simp only [h1, if_true, List.filter_cons, hm, Bool.false_eq_true, if_false]
      refine ⟨ih.1, fun r hr => ⟨(ih.2 r hr).1, (ih.2 r hr).2.1, ?_⟩⟩
      rw [(ih.2 r hr).2.2]
      constructor
      · rintro ⟨l, hl, h⟩
        exact ⟨l, List.mem_cons_of_mem _ hl, h⟩
      · rintro ⟨l, hl, hp, hmm, hh⟩
        rcases List.mem_cons.1 hl with rfl | hl
        · exact absurd h1 hmm
        · exact ⟨l, hl, hp, hmm, hh⟩
    · by_cases h2 : curr.flags &&& PCVAR_LISTENER_PRE_OR_POST ≠ PCVAR_LISTENER_PRE
      · have hm : matches_pre op curr = false := by simp [matches_pre, h2]
        have hrest : rest.filter (matches_pre op) = [] := by
          rw [List.filter_eq_nil_iff]
          intro b hb
          have := hs'.1 b hb h2
          simp [matches_pre, this]
        rw [if_neg h1, if_pos h2]
        simp only [List.filter_cons, hm, Bool.false_eq_true, if_false, hrest,
          called_until_veto, List.map_nil]
        refine ⟨by simp, ?_⟩
        intro r hr
        simp only [Option.some.injEq] at hr
        subst hr
        refine ⟨rfl, by simp, ?_⟩
        simp only [Bool.true_eq_false, false_iff, not_exists, not_and]
        intro l hl hp
        rcases List.mem_cons.1 hl with rfl | hl
        · exact absurd hp h2
        · exact absurd hp (hs'.1 l hl h2)
      · have h2' : curr.flags &&& PCVAR_LISTENER_PRE_OR_POST = PCVAR_LISTENER_PRE := by
          simpa using h2
        have hm : matches_pre op curr = true := by simp [matches_pre, h1, h2']
        rw [if_neg h1, if_neg h2]
        simp only [List.filter_cons, hm, if_true]
        cases h3 : curr.handler mem source op curr.ctxt argv with
        | none =>
          simp only [called_until_veto, h3, reduceCtorEq, if_false, List.mem_singleton,
            exists_eq_left, true_iff]
          exact ⟨trivial, fun r hr => by cases hr⟩
        | some b =>
          cases b with
          | false =>
            simp only [called_until_veto, h3, Option.some.injEq, Bool.false_eq_true, if_false,
              List.mem_singleton, exists_eq_left, reduceCtorEq, false_iff, not_false_eq_true,
              true_and, List.map_cons, List.map_nil]
            intro r hr
            subst hr
            refine ⟨by simp [pcvar_listener.call], ?_, ?_⟩
            · simp only [Bool.false_eq_true, false_iff, not_forall]
              exact ⟨curr, List.mem_cons_self _ _, by simp [h3]⟩
            · simp only [true_iff]
              exact ⟨curr, List.mem_cons_self _ _, h2', h1, h3⟩
          | true =>
            simp only [called_until_veto, h3, if_true]
            refine ⟨?_, ?_⟩
            · simp only [Option.map_eq_none', List.mem_cons, exists_eq_or_imp, h3, reduceCtorEq,
                false_or]
              exact ih.1
            · intro r hr
              simp only [Option.map_eq_some'] at hr
              obtain ⟨r', hr', rfl⟩ := hr
              obtain ⟨g1, g2, g3⟩ := ih.2 r' hr'
              refine ⟨by simp [g1, pcvar_listener.call], ?_, ?_⟩
              · simp only [g2, List.mem_cons, forall_eq_or_imp, h3, true_and]
              · simp only [g3]
                constructor
                · rintro ⟨l, hl, h⟩
                  exact ⟨l, List.mem_cons_of_mem _ hl, h⟩
                · rintro ⟨l, hl, hp, hmm, hh⟩
                  rcases List.mem_cons.1 hl with rfl | hl
                  · rw [h3] at hh; cases hh
                  · exact ⟨l, hl, hp, hmm, hh⟩

theorem pre_loop_eq_scan (mem : pcvar_memory) (source : purc_variant) (op : Nat)
    (argv : List purc_variant) (ls : List pcvar_listener) (hs : pre_then_post ls)
    (r : Bool × List pcvar_call) (hr : on_pre_fired_loop mem source op argv ls = some r) :
    r.2 = (called_until_veto mem source op argv (ls.filter (matches_pre op))).map
          (pcvar_listener.call op argv) ∧
      (r.1 = true ↔
        ∀ l ∈ ls.filter (matches_pre op), l.handler mem source op l.ctxt argv = some true) :=
  ⟨((pre_loop_spec mem source op argv ls hs).2 r hr).1,
    ((pre_loop_spec mem source op argv ls hs).2 r hr).2.1⟩

theorem called_all (mem : pcvar_memory) (source : purc_variant) (op : Nat)
    (argv : List purc_variant) :
    ∀ ls : List pcvar_listener, (∀ l ∈ ls, l.handler mem source op l.ctxt argv = some true) →
      called_until_veto mem source op argv ls = ls := by
  intro ls
  induction ls with
  | nil => intro _; rfl
  | cons l ls ih =>
    intro h
    simp [called_until_veto, h l (List.mem_cons_self _ _),
      ih (fun x hx => h x (List.mem_cons_of_mem _ hx))]

/-- The listeners that a fire calls return true, but the last one when it is the one that
stops the fire. -/
theorem called_until_veto_mem (mem : pcvar_memory) (source : purc_variant) (op : Nat)
    (argv : List purc_variant) :
    ∀ ls : List pcvar_listener, ∀ l ∈ called_until_veto mem source op argv ls, l ∈ ls := by
  intro ls
  induction ls with
  | nil => intro l hl; simp [called_until_veto] at hl
  | cons x xs ih =>
    intro l hl
    unfold called_until_veto at hl
    split_ifs at hl
    · rcases List.mem_cons.1 hl with hl | hl
      · subst hl; exact List.mem_cons_self _ _
      · exact List.mem_cons_of_mem _ (ih l hl)
    · rw [List.mem_singleton] at hl
      subst hl; exact List.mem_cons_self _ _

/-- When the matching pre-listeners all return, the loop of the pre fire returns. -/
theorem pre_loop_returns (mem : pcvar_memory) (source : purc_variant) (op : Nat)
    (argv : List purc_variant) (ls : List pcvar_listener) (hs : pre_then_post ls)
    (hret : ∀ l ∈ ls.filter (matches_pre op),
      (l.handler mem source op l.ctxt argv).isSome = true) :
    ∃ r, on_pre_fired_loop mem source op argv ls = some r := by
  cases h : on_pre_fired_loop mem source op argv ls with
  | some r => exact ⟨r, rfl⟩
  | none =>
    obtain ⟨l, hl, hn⟩ := (pre_loop_spec mem source op argv ls hs).1.1 h
    have := hret l (called_until_veto_mem mem source op argv _ l hl)
    rw [hn] at this
    cases this

/-- When the matching pre-listeners all return true, the loop of the pre fire returns true
and has called them all. -/
theorem pre_loop_all (mem : pcvar_memory) (source : purc_variant) (op : Nat)
    (argv : List purc_variant) (ls : List pcvar_listener) (hs : pre_then_post ls)
    (hok : ∀ l ∈ ls.filter (matches_pre op),
      l.handler mem source op l.ctxt argv = some true) :
    on_pre_fired_loop mem source op argv ls =
      some (true, (ls.filter (matches_pre op)).map (pcvar_listener.call op argv)) := by
  obtain ⟨r, hr⟩ := pre_loop_returns mem source op argv ls hs
    (fun l hl => by rw [hok l hl]; rfl)
  obtain ⟨g1, g2, _⟩ := (pre_loop_spec mem source op argv ls hs).2 r hr
  rw [hr, called_all mem source op argv _ hok] at *
  obtain ⟨a, b⟩ := r
  simp only at g1 g2
  rw [g1, g2.2 hok]

theorem post_loop_eq_scan (mem : pcvar_memory) (source : purc_variant) (op : Nat)
    (argv : List purc_variant) :
    ∀ rs : List pcvar_listener,
      rs.Pairwise (fun a b =>
        a.flags &&& PCVAR_LISTENER_PRE_OR_POST = PCVAR_LISTENER_PRE →
        b.flags &&& PCVAR_LISTENER_PRE_OR_POST = PCVAR_LISTENER_PRE) →
      (∀ calls, on_post_fired_loop mem source op argv rs = some calls →
        calls = (rs.filter (matches_post op)).map (pcvar_listener.call op argv)) ∧
      (on_post_fired_loop mem source op argv rs ≠ none ↔
        ∀ l ∈ rs.filter (matches_post op),
          l.handler mem source op l.ctxt argv = some true) := by
  intro rs
  induction rs with
  | nil => intro _; simp [on_post_fired_loop]
  | cons curr rest ih =>
    intro hs
    have hs' := List.pairwise_cons.1 hs
    have ih := ih hs'.2
    unfold on_post_fired_loop
    by_cases h1 : curr.op &&& op = 0
    · have hm : matches_post op curr = false := by simp [matches_post, h1]
      simp only [h1, if_true, List.filter_cons, hm]
      exact ih
    · by_cases h2 : curr.flags &&& PCVAR_LISTENER_PRE_OR_POST = PCVAR_LISTENER_PRE
      · have hm : matches_post op curr = false := by simp [matches_post, h2]
        have hrest : rest.filter (matches_post op) = [] := by
          rw [List.filter_eq_nil_iff]
          intro b hb
          have := hs'.1 b hb h2
          simp [matches_post, this]
        simp [h1, h2, List.filter_cons, hm, hrest]
      · have hm : matches_post op curr = true := by simp [matches_post, h1, h2]
        rw [if_neg h1, if_neg h2]
        simp only [List.filter_cons, hm, if_true]
        cases h3 : curr.handler mem source op curr.ctxt argv with
        | none => simp [h3]
        | some b =>
          cases b with
          | false => simp [h3]
          | true =>
            simp only
            constructor
            · intro calls hc
              simp only [Option.map_eq_some'] at hc
              obtain ⟨c', hc', rfl⟩ := hc
              simp [ih.1 c' hc', pcvar_listener.call]
            · simp only [ne_eq, Option.map_eq_none', List.mem_cons, forall_eq_or_imp, h3,
                true_and]
              exact ih.2

theorem shape_cons_pre {l : pcvar_listener} {ls : List pcvar_listener}
    (hl : l.flags &&& PCVAR_LISTENER_PRE_OR_POST = PCVAR_LISTENER_PRE)
    (h : pre_then_post ls) : pre_then_post (l :: ls) := by
  refine List.pairwise_cons.2 ⟨?_, h⟩
  intro b _ hcon
  exact absurd hl hcon

theorem shape_append_post {l : pcvar_listener} {ls : List pcvar_listener}
    (hl : l.flags &&& PCVAR_LISTENER_PRE_OR_POST ≠ PCVAR_LISTENER_PRE)
    (h : pre_then_post ls) : pre_then_post (ls ++ [l]) := by
  refine List.pairwise_append.2 ⟨h, List.pairwise_singleton _ _, ?_⟩
  intro a _ b hb _
  rw [List.mem_singleton] at hb
  subst hb
  exact hl

theorem revoke_loop_sublist (l : Nat) :
    ∀ (ls rest : List pcvar_listener), revoke_loop l ls = some rest → rest.Sublist ls := by
  intro ls
  induction ls with
  | nil => intro rest h; simp [revoke_loop] at h
  | cons curr tl ih =>
    intro rest h
    unfold revoke_loop at h
    split_ifs at h with h1
    · simp only [Option.map_eq_some'] at h
      obtain ⟨r, hr, rfl⟩ := h
      exact (ih r hr).cons₂ curr
    · simp only [Option.some.injEq] at h
      subst h
      exact List.sublist_cons_self _ _

theorem revoke_loop_mem (l : Nat) :
    ∀ (ls rest : List pcvar_listener), revoke_loop l ls = some rest →
      ∀ x ∈ ls, x.addr ≠ l → x ∈ rest := by
  intro ls
  induction ls with
  | nil => intro rest h; simp [revoke_loop] at h
  | cons curr tl ih =>
    intro rest h x hx hne
    unfold revoke_loop at h
    split_ifs at h with h1
    · simp only [Option.map_eq_some'] at h
      obtain ⟨r, hr, rfl⟩ := h
      rcases List.mem_cons.1 hx with hx | hx
      · subst hx; exact List.mem_cons_self _ _
      · exact List.mem_cons_of_mem _ (ih r hr x hx hne)
    · simp only [Option.some.injEq] at h
      subst h
      rcases List.mem_cons.1 hx with hx | hx
      · subst hx
        simp only [ne_eq, not_not] at h1
        exact absurd h1 hne
      · exact hx

theorem revoke_loop_some (l : Nat) :
    ∀ (ls : List pcvar_listener), (∃ x ∈ ls, x.addr = l) → ∃ rest, revoke_loop l ls = some rest := by
  intro ls
  induction ls with
  | nil => intro h; simp at h
  | cons curr tl ih =>
    intro h
    unfold revoke_loop
    by_cases h1 : curr.addr = l
    · exact ⟨tl, by simp [h1]⟩
    · obtain ⟨x, hx, hxl⟩ := h
      rcases List.mem_cons.1 hx with hx | hx
      · subst hx; exact absurd hxl h1
      · obtain ⟨r, hr⟩ := ih ⟨x, hx, hxl⟩
        exact ⟨curr :: r, by simp [h1, hr]⟩

theorem shape_sublist {ls rest : List pcvar_listener} (hs : rest.Sublist ls)
    (h : pre_then_post ls) : pre_then_post rest :=
  List.Pairwise.sublist hs h

/-- What a successful registration does to the world. -/
theorem register_pre_ok (w : World) (v : purc_variant) (op : Nat) (h : pcvar_op_handler)
    (ctxt : Nat) (hv : IS_CONTAINER v = true) (hop : op &&& PCVAR_OPERATION_ALL = op)
    (h0 : op ≠ 0) :
    purc_variant_register_pre_listener w (some v) op (some h) ctxt =
      (some w.brk, { w with brk := w.brk + 1,
                            listeners := Function.update w.listeners v.addr
                              (⟨w.brk, PCVAR_LISTENER_PRE, op, ctxt, h⟩ :: w.listeners v.addr) }) := by
  simp [purc_variant_register_pre_listener, hop, h0, hv, register_listener,
    PCVAR_LISTENER_PRE, PCVAR_LISTENER_PRE_OR_POST]

theorem register_post_ok (w : World) (v : purc_variant) (op : Nat) (h : pcvar_op_handler)
    (ctxt : Nat) (hv : IS_CONTAINER v = true) (hop : op &&& PCVAR_OPERATION_ALL = op)
    (h0 : op ≠ 0) :
    purc_variant_register_post_listener w (some v) op (some h) ctxt =
      (some w.brk, { w with brk := w.brk + 1,
                            listeners := Function.update w.listeners v.addr
                              (w.listeners v.addr ++ [⟨w.brk, PCVAR_LISTENER_POST, op, ctxt, h⟩]) }) := by
  simp [purc_variant_register_post_listener, hop, h0, hv, register_listener,
    PCVAR_LISTENER_POST, PCVAR_LISTENER_PRE, PCVAR_LISTENER_PRE_OR_POST]

theorem register_pre_fail (w : World) (v : purc_variant) (op : Nat) (h : pcvar_op_handler)
    (ctxt : Nat) (hbad : ¬ (IS_CONTAINER v = true ∧ op &&& PCVAR_OPERATION_ALL = op ∧ op ≠ 0)) :
    ∃ e, purc_variant_register_pre_listener w (some v) op (some h) ctxt =
      (none, pcinst_set_error w e) := by
  unfold purc_variant_register_pre_listener
  by_cases h1 : op &&& PCVAR_OPERATION_ALL = op
  · by_cases h2 : op = 0
    · exact ⟨.WRONG_ARGS, by simp [h1, h2]⟩
    · have h3 : IS_CONTAINER v = false := by
        cases hv : IS_CONTAINER v
        · rfl
        · exact absurd ⟨hv, h1, h2⟩ hbad
      exact ⟨.NOT_SUPPORTED, by simp [h1, h2, h3]⟩
  · exact ⟨.WRONG_ARGS, by simp [h1]⟩

theorem register_post_fail (w : World) (v : purc_variant) (op : Nat) (h : pcvar_op_handler)
    (ctxt : Nat) (hbad : ¬ (IS_CONTAINER v = true ∧ op &&& PCVAR_OPERATION_ALL = op ∧ op ≠ 0)) :
    ∃ e, purc_variant_register_post_listener w (some v) op (some h) ctxt =
      (none, pcinst_set_error w e) := by
  unfold purc_variant_register_post_listener
  by_cases h1 : op &&& PCVAR_OPERATION_ALL = op
  · by_cases h2 : op = 0
    · exact ⟨.WRONG_ARGS, by simp [h1, h2]⟩
    · have h3 : IS_CONTAINER v = false := by
        cases hv : IS_CONTAINER v
        · rfl
        · exact absurd ⟨hv, h1, h2⟩ hbad
      exact ⟨.NOT_SUPPORTED, by simp [h1, h2, h3]⟩
  · exact ⟨.WRONG_ARGS, by simp [h1]⟩

theorem registry_shape (v : purc_variant) :
    ∀ (calls : List registry_call) (w : World) (a : Nat), pre_then_post (w.listeners a) →
      pre_then_post ((run_registry v calls w).listeners a) := by
  intro calls
  induction calls with
  | nil => intro w a h; exact h
  | cons c cs ih =>
    intro w a h
    apply ih
    cases c with
    | register_pre op handler ctxt =>
      by_cases hok : IS_CONTAINER v = true ∧ op &&& PCVAR_OPERATION_ALL = op ∧ op ≠ 0
      · simp only [registry_call.run, register_pre_ok w v op handler ctxt hok.1 hok.2.1 hok.2.2]
        by_cases ha : a = v.addr
        · subst ha
          simp only [Function.update_same]
          exact shape_cons_pre (by simp [PCVAR_LISTENER_PRE, PCVAR_LISTENER_PRE_OR_POST]) h
        · simp only [Function.update_noteq ha]
          exact h
      · obtain ⟨e, he⟩ := register_pre_fail w v op handler ctxt hok
        simp only [registry_call.run, he, pcinst_set_error]
        exact h
    | register_post op handler ctxt =>
      by_cases hok : IS_CONTAINER v = true ∧ op &&& PCVAR_OPERATION_ALL = op ∧ op ≠ 0
      · simp only [registry_call.run, register_post_ok w v op handler ctxt hok.1 hok.2.1 hok.2.2]
        by_cases ha : a = v.addr
        · subst ha
          simp only [Function.update_same]
          exact shape_append_post
            (by simp [PCVAR_LISTENER_PRE, PCVAR_LISTENER_POST, PCVAR_LISTENER_PRE_OR_POST]) h
        · simp only [Function.update_noteq ha]
          exact h
      · obtain ⟨e, he⟩ := register_post_fail w v op handler ctxt hok
        simp only [registry_call.run, he, pcinst_set_error]
        exact h
    | revoke l =>
      simp only [registry_call.run, purc_variant_revoke_listener]
      by_cases hv : IS_CONTAINER v = true
      · simp only [hv, Bool.not_true, Bool.false_eq_true, if_false]
        cases hr : revoke_loop l (w.listeners v.addr) with
        | none => exact h
        | some rest =>
          simp only
          by_cases ha : a = v.addr
          · subst ha
            simp only [Function.update_same]
            exact shape_sublist (revoke_loop_sublist l _ _ hr) h
          · simp only [Function.update_noteq ha]
            exact h
      · simp only [hv, Bool.not_false, if_true, pcinst_set_error]
        exact h

theorem registry_listeners (v : purc_variant) :
    ∀ (calls : List registry_call) (w : World), (∀ c ∈ calls, ∀ l, c ≠ .revoke l) →
      (run_registry v calls w).listeners v.addr =
        ((registered v calls w).filter (matches_pre PCVAR_OPERATION_ALL)).reverse
          ++ w.listeners v.addr
          ++ (registered v calls w).filter (matches_post PCVAR_OPERATION_ALL) ∧
      ∀ l ∈ registered v calls w, l.op &&& PCVAR_OPERATION_ALL = l.op ∧ l.op ≠ 0 ∧
        (l.flags = PCVAR_LISTENER_PRE ∨ l.flags = PCVAR_LISTENER_POST) := by
  intro calls
  induction calls with
  | nil => intro w _; simp [run_registry, registered]
  | cons c cs ih =>
    intro w hno
    have hcs : ∀ c ∈ cs, ∀ l, c ≠ .revoke l := fun c hc => hno c (List.mem_cons_of_mem _ hc)
    cases c with
    | register_pre op handler ctxt =>
      by_cases hok : IS_CONTAINER v = true ∧ op &&& PCVAR_OPERATION_ALL = op ∧ op ≠ 0
      · have hrun := register_pre_ok w v op handler ctxt hok.1 hok.2.1 hok.2.2
        have ih := ih (purc_variant_register_pre_listener w (some v) op (some handler) ctxt).2 hcs
        simp only [run_registry, registered, registry_call.run] at ih ⊢
        rw [hrun] at ih ⊢
        simp only [Function.update_same] at ih ⊢
        have hm : matches_pre PCVAR_OPERATION_ALL
            ⟨w.brk, PCVAR_LISTENER_PRE, op, ctxt, handler⟩ = true := by
          have : op &&& 7 ≠ 0 := by
            have := hok.2.1; have := hok.2.2
            simp only [PCVAR_OPERATION_ALL] at *
            omega
          simpa [matches_pre, PCVAR_LISTENER_PRE, PCVAR_LISTENER_PRE_OR_POST,
            PCVAR_OPERATION_ALL] using this
        have hm' : matches_post PCVAR_OPERATION_ALL
            ⟨w.brk, PCVAR_LISTENER_PRE, op, ctxt, handler⟩ = false := by
          simp [matches_post, PCVAR_LISTENER_PRE, PCVAR_LISTENER_PRE_OR_POST]
        refine ⟨?_, ?_⟩
        · rw [ih.1]
          simp [List.filter_cons, hm, hm']
        · intro l hl
          rcases List.mem_cons.1 hl with hl | hl
          · subst hl
            exact ⟨hok.2.1, hok.2.2, Or.inl rfl⟩
          · exact ih.2 l hl
      · obtain ⟨e, he⟩ := register_pre_fail w v op handler ctxt hok
        have ih := ih (purc_variant_register_pre_listener w (some v) op (some handler) ctxt).2 hcs
        simp only [run_registry, registered, registry_call.run] at ih ⊢
        rw [he] at ih ⊢
        exact ih
    | register_post op handler ctxt =>
      by_cases hok : IS_CONTAINER v = true ∧ op &&& PCVAR_OPERATION_ALL = op ∧ op ≠ 0
      · have hrun := register_post_ok w v op handler ctxt hok.1 hok.2.1 hok.2.2
        have ih := ih (purc_variant_register_post_listener w (some v) op (some handler) ctxt).2 hcs
        simp only [run_registry, registered, registry_call.run] at ih ⊢
        rw [hrun] at ih ⊢
        simp only [Function.update_same] at ih ⊢
        have hm : matches_post PCVAR_OPERATION_ALL
            ⟨w.brk, PCVAR_LISTENER_POST, op, ctxt, handler⟩ = true := by
          have : op &&& 7 ≠ 0 := by
            have := hok.2.1; have := hok.2.2
            simp only [PCVAR_OPERATION_ALL] at *
            omega
          simpa [matches_post, PCVAR_LISTENER_PRE, PCVAR_LISTENER_POST,
            PCVAR_LISTENER_PRE_OR_POST, PCVAR_OPERATION_ALL] using this
        have hm' : matches_pre PCVAR_OPERATION_ALL
            ⟨w.brk, PCVAR_LISTENER_POST, op, ctxt, handler⟩ = false := by
          simp [matches_pre, PCVAR_LISTENER_PRE, PCVAR_LISTENER_POST, PCVAR_LISTENER_PRE_OR_POST]
        refine ⟨?_, ?_⟩
        · rw [ih.1]
          simp [List.filter_cons, hm, hm']
        · intro l hl
          rcases List.mem_cons.1 hl with hl | hl
          · subst hl
            exact ⟨hok.2.1, hok.2.2, Or.inr rfl⟩
          · exact ih.2 l hl
      · obtain ⟨e, he⟩ := register_post_fail w v op handler ctxt hok
        have ih := ih (purc_variant_register_post_listener w (some v) op (some handler) ctxt).2 hcs
        simp only [run_registry, registered, registry_call.run] at ih ⊢
        rw [he] at ih ⊢
        exact ih
    | revoke l => exact absurd rfl (hno _ (List.mem_cons_self _ _) l)

theorem called_until_veto_pre (mem : pcvar_memory) (source : purc_variant) (op : Nat)
    (argv : List purc_variant) :
    ∀ ls : List pcvar_listener,
      (∀ l ∈ ls, l.flags &&& PCVAR_LISTENER_PRE_OR_POST = PCVAR_LISTENER_PRE) →
      ∀ l ∈ called_until_veto mem source op argv ls,
        l.flags &&& PCVAR_LISTENER_PRE_OR_POST = PCVAR_LISTENER_PRE := by
  intro ls
  induction ls with
  | nil => intro _ l hl; simp [called_until_veto] at hl
  | cons x xs ih =>
    intro h l hl
    unfold called_until_veto at hl
    split_ifs at hl
    · rcases List.mem_cons.1 hl with hl | hl
      · subst hl; exact h _ (List.mem_cons_self _ _)
      · exact ih (fun y hy => h y (List.mem_cons_of_mem _ hy)) l hl
    · rw [List.mem_singleton] at hl
      subst hl; exact h _ (List.mem_cons_self _ _)

theorem matches_pre_flag {op : Nat} {l : pcvar_listener} (h : matches_pre op l = true) :
    l.flags &&& PCVAR_LISTENER_PRE_OR_POST = PCVAR_LISTENER_PRE ∧ l.op &&& op ≠ 0 := by
  simpa [matches_pre] using h

theorem matches_post_flag {op : Nat} {l : pcvar_listener} (h : matches_post op l = true) :
    l.flags &&& PCVAR_LISTENER_PRE_OR_POST ≠ PCVAR_LISTENER_PRE ∧ l.op &&& op ≠ 0 := by
  simpa [matches_post] using h

/-- What firing the pre-listeners of a well-formed list does, when it returns. -/
theorem pre_fired_shape (mem : pcvar_memory) (source : purc_variant) (ls : List pcvar_listener)
    (hs : pre_then_post ls) (op : Nat) (argv : List purc_variant)
    (r : Bool × List pcvar_call) (hr : on_pre_fired_loop mem source op argv ls = some r) :
    (r.1 = false ↔
      ∃ l ∈ ls, l.flags &&& PCVAR_LISTENER_PRE_OR_POST = PCVAR_LISTENER_PRE ∧ l.op &&& op ≠ 0 ∧
        l.handler mem source op l.ctxt argv = some false) ∧
    r.2 =
      (called_until_veto mem source op argv (ls.filter (matches_pre op))).map
        (pcvar_listener.call op argv) ∧
    ∀ c ∈ r.2, c.flags &&& PCVAR_LISTENER_PRE_OR_POST = PCVAR_LISTENER_PRE := by
  obtain ⟨g1, _, g3⟩ := (pre_loop_spec mem source op argv ls hs).2 r hr
  refine ⟨g3, g1, ?_⟩
  intro c hc
  rw [g1, List.mem_map] at hc
  obtain ⟨l, hl, rfl⟩ := hc
  exact called_until_veto_pre mem source op argv _
    (fun x hx => (matches_pre_flag (List.mem_filter.1 hx).2).1) l hl

/-- When a matching pre-listener returns false and the matching pre-listeners all return,
the loop of the pre fire returns false. -/
theorem pre_loop_veto (mem : pcvar_memory) (source : purc_variant) (op : Nat)
    (argv : List purc_variant) (ls : List pcvar_listener) (hs : pre_then_post ls)
    (hveto : ∃ l ∈ ls, l.flags &&& PCVAR_LISTENER_PRE_OR_POST = PCVAR_LISTENER_PRE ∧
      l.op &&& op ≠ 0 ∧ l.handler mem source op l.ctxt argv = some false)
    (hret : ∀ l ∈ ls, l.flags &&& PCVAR_LISTENER_PRE_OR_POST = PCVAR_LISTENER_PRE →
      l.op &&& op ≠ 0 → (l.handler mem source op l.ctxt argv).isSome = true) :
    ∃ calls, on_pre_fired_loop mem source op argv ls = some (false, calls) ∧
      ∀ c ∈ calls, c.flags &&& PCVAR_LISTENER_PRE_OR_POST = PCVAR_LISTENER_PRE := by
  obtain ⟨r, hr⟩ := pre_loop_returns mem source op argv ls hs (fun l hl => by
    rw [List.mem_filter] at hl
    have hm := matches_pre_flag hl.2
    exact hret l hl.1 hm.1 hm.2)
  obtain ⟨g1, _, g3⟩ := pre_fired_shape mem source ls hs op argv r hr
  obtain ⟨a, calls⟩ := r
  have : a = false := g1.2 hveto
  subst this
  exact ⟨calls, hr, g3⟩

theorem ex_cmp_total : cmp_total ex_cmp := by
  constructor
  · intro a b; simp only [ex_cmp]; omega
  · intro a b c; simp only [ex_cmp]; omega

/-! ## Claims on the listener registry -/

/-- C9: after any sequence of `register_pre` and `register_post` calls on one container
(none revoked), firing a single operation with no handler answering false calls exactly
the pre-listeners whose mask contains the operation, most recently registered first, and
`fire_post` calls exactly the post-listeners whose mask contains it, most recently
registered first. -/
theorem C9_fire_most_recent_first (w0 : World) (v : purc_variant) (calls : List registry_call)
    (hnew : w0.listeners v.addr = []) (hcalls : ∀ c ∈ calls, ∀ l, c ≠ .revoke l)
    (op : Nat) (hop : single_op op) (mem : pcvar_memory) (argv : List purc_variant)
    (hpre : ∀ l ∈ registered v calls w0, matches_pre op l = true →
      l.handler mem v op l.ctxt argv = some true)
    (hpost : ∀ l ∈ registered v calls w0, matches_post op l = true →
      l.handler mem v op l.ctxt argv = some true) :
    (∃ trace,
      pcvariant_on_pre_fired mem v ((run_registry v calls w0).listeners v.addr) op argv
        = some (true, trace) ∧
      trace.map (fun c => c.listener)
        = (((registered v calls w0).reverse).filter (matches_pre op)).map (fun l => l.addr)) ∧
    (∃ trace,
      pcvariant_on_post_fired mem v ((run_registry v calls w0).listeners v.addr) op argv
        = some trace ∧
      trace.map (fun c => c.listener)
        = (((registered v calls w0).reverse).filter (matches_post op)).map (fun l => l.addr)) := by
  obtain ⟨hls, hreg⟩ := registry_listeners v calls w0 hcalls
  rw [hnew, List.append_nil] at hls
  have hshape : pre_then_post ((run_registry v calls w0).listeners v.addr) :=
    registry_shape v calls w0 v.addr (by rw [hnew]; exact List.Pairwise.nil)
  have hproper := single_op_proper hop
  -- the two phases of the list
  have hA : ∀ l ∈ (registered v calls w0).filter (matches_pre PCVAR_OPERATION_ALL),
      matches_post op l = false := by
    intro l hl
    have := (matches_pre_flag (List.mem_filter.1 hl).2).1
    simp [matches_post, this]
  have hB : ∀ l ∈ (registered v calls w0).filter (matches_post PCVAR_OPERATION_ALL),
      matches_pre op l = false := by
    intro l hl
    have := (matches_post_flag (List.mem_filter.1 hl).2).1
    simp [matches_pre, this]
  have hall : ∀ l ∈ registered v calls w0, l.op &&& PCVAR_OPERATION_ALL ≠ 0 := by
    intro l hl
    have := hreg l hl
    rw [this.1]; exact this.2.1
  have hpreF : ((run_registry v calls w0).listeners v.addr).filter (matches_pre op)
      = ((registered v calls w0).reverse).filter (matches_pre op) := by
    have hnil : ((registered v calls w0).filter (matches_post PCVAR_OPERATION_ALL)).filter
        (matches_pre op) = [] :=
      List.filter_eq_nil_iff.2 (fun l hl => by simp [hB l hl])
    rw [hls, List.filter_append, hnil,
      List.append_nil, List.filter_reverse, List.filter_reverse, List.filter_filter]
    congr 1
    apply List.filter_congr
    intro l hl
    have := hall l hl
    simp only [matches_pre, Bool.and_eq_true, decide_eq_true_eq, ne_eq]
    by_cases h1 : l.flags &&& PCVAR_LISTENER_PRE_OR_POST = PCVAR_LISTENER_PRE <;>
      simp [h1, this]
  have hpostF : (((run_registry v calls w0).listeners v.addr).reverse).filter (matches_post op)
      = ((registered v calls w0).reverse).filter (matches_post op) := by
    have hnil : ((registered v calls w0).filter (matches_pre PCVAR_OPERATION_ALL)).filter
        (matches_post op) = [] :=
      List.filter_eq_nil_iff.2 (fun l hl => by simp [hA l hl])
    rw [hls, List.reverse_append, List.reverse_reverse, List.filter_append,
      hnil, List.append_nil,
      List.filter_reverse, List.filter_reverse, List.filter_filter]
    congr 1
    apply List.filter_congr
    intro l hl
    have := hall l hl
    simp only [matches_post, Bool.and_eq_true, decide_eq_true_eq, ne_eq]
    by_cases h1 : l.flags &&& PCVAR_LISTENER_PRE_OR_POST = PCVAR_LISTENER_PRE <;>
      simp [h1, this]
  constructor
  · have hok : ∀ l ∈ ((run_registry v calls w0).listeners v.addr).filter (matches_pre op),
        l.handler mem v op l.ctxt argv = some true := by
      intro l hl
      rw [hpreF, List.mem_filter, List.mem_reverse] at hl
      exact hpre l hl.1 hl.2
    refine ⟨(((run_registry v calls w0).listeners v.addr).filter (matches_pre op)).map
      (pcvar_listener.call op argv), ?_, ?_⟩
    · rw [pre_fired_single mem v _ hproper argv]
      exact pre_loop_all mem v op argv _ hshape hok
    · rw [hpreF]
      simp [pcvar_listener.call, List.map_map, Function.comp_def]
  · have hrs : (((run_registry v calls w0).listeners v.addr).reverse).Pairwise (fun a b =>
        a.flags &&& PCVAR_LISTENER_PRE_OR_POST = PCVAR_LISTENER_PRE →
        b.flags &&& PCVAR_LISTENER_PRE_OR_POST = PCVAR_LISTENER_PRE) := by
      rw [List.pairwise_reverse]
      refine List.Pairwise.imp ?_ hshape
      intro a b hab hb
      by_contra ha
      exact hab ha hb
    have h := post_loop_eq_scan mem v op argv _ hrs
    have hok : ∀ l ∈ (((run_registry v calls w0).listeners v.addr).reverse).filter
        (matches_post op), l.handler mem v op l.ctxt argv = some true := by
      intro l hl
      rw [hpostF, List.mem_filter, List.mem_reverse] at hl
      exact hpost l hl.1 hl.2
    have hsome := h.2.2 hok
    obtain ⟨trace, htrace⟩ := Option.ne_none_iff_exists'.1 hsome
    refine ⟨trace, ?_, ?_⟩
    · rw [post_fired_single mem v _ hproper argv]
      exact htrace
    · rw [h.1 trace htrace, hpostF]
      simp [pcvar_listener.call, List.map_map, Function.comp_def]

/-- C10: `fire_pre` returns false exactly when some pre-listener whose mask intersects the
operation returns false; it calls the matching pre-handlers in list order from the head,
none after the first that returns false, and never a post-handler. It returns whenever the
matching pre-listeners all return; it ends without a result exactly when a handler it calls
ends in a fatal assertion. -/
theorem C10_fire_pre_veto (w0 : World) (v : purc_variant) (calls : List registry_call)
    (hnew : w0.listeners v.addr = []) (op : Nat) (hop : proper_op op)
    (mem : pcvar_memory) (argv : List purc_variant) :
    ((∀ l ∈ (run_registry v calls w0).listeners v.addr, matches_pre op l = true →
        (l.handler mem v op l.ctxt argv).isSome = true) →
      ∃ ok trace,
        pcvariant_on_pre_fired mem v ((run_registry v calls w0).listeners v.addr) op argv
          = some (ok, trace)) ∧
    (∀ ok trace,
      pcvariant_on_pre_fired mem v ((run_registry v calls w0).listeners v.addr) op argv
        = some (ok, trace) →
      (ok = false ↔ ∃ l ∈ (run_registry v calls w0).listeners v.addr,
        l.flags &&& PCVAR_LISTENER_PRE_OR_POST = PCVAR_LISTENER_PRE ∧ l.op &&& op ≠ 0 ∧
        l.handler mem v op l.ctxt argv = some false) ∧
      trace = (called_until_veto mem v op argv
        (((run_registry v calls w0).listeners v.addr).filter (matches_pre op))).map
          (pcvar_listener.call op argv) ∧
      ∀ c ∈ trace, c.flags &&& PCVAR_LISTENER_PRE_OR_POST = PCVAR_LISTENER_PRE) ∧
    (pcvariant_on_pre_fired mem v ((run_registry v calls w0).listeners v.addr) op argv = none ↔
      ∃ l ∈ called_until_veto mem v op argv
          (((run_registry v calls w0).listeners v.addr).filter (matches_pre op)),
        l.handler mem v op l.ctxt argv = none) := by
  have hshape : pre_then_post ((run_registry v calls w0).listeners v.addr) :=
    registry_shape v calls w0 v.addr (by rw [hnew]; exact List.Pairwise.nil)
  rw [pre_fired_single mem v _ hop argv]
  refine ⟨fun hret => ?_, fun ok trace hr => ?_, (pre_loop_spec mem v op argv _ hshape).1⟩
  · obtain ⟨r, hr⟩ := pre_loop_returns mem v op argv _ hshape
      (fun l hl => hret l (List.mem_filter.1 hl).1 (List.mem_filter.1 hl).2)
    exact ⟨r.1, r.2, hr⟩
  · exact pre_fired_shape mem v _ hshape op argv (ok, trace) hr

theorem ex_registered_handlers :
    ∀ l ∈ registered (.set 100) ex_registrations ex_world, l.handler = ex_allow := by
  intro l hl
  simp [registered, ex_registrations, registry_call.run, purc_variant_register_pre_listener,
    purc_variant_register_post_listener, register_listener, IS_CONTAINER,
    PCVAR_OPERATION_GROW, PCVAR_OPERATION_ALL, PCVAR_LISTENER_PRE, PCVAR_LISTENER_POST] at hl
  rcases hl with rfl | rfl | rfl | rfl | rfl | rfl <;> rfl

theorem C9_fire_most_recent_first_witness :
    ex_world.listeners (purc_variant.set 100).addr = [] ∧
    single_op PCVAR_OPERATION_GROW ∧
    ((registered (.set 100) ex_registrations ex_world).reverse.filter
      (matches_pre PCVAR_OPERATION_GROW)).map (fun l => (l.addr, l.ctxt))
        = [(1004, 3), (1002, 2), (1000, 1)] ∧
    ((registered (.set 100) ex_registrations ex_world).reverse.filter
      (matches_post PCVAR_OPERATION_GROW)).map (fun l => (l.addr, l.ctxt))
        = [(1005, 13), (1003, 12), (1001, 11)] ∧
    ((∃ trace,
      pcvariant_on_pre_fired ex_world.mem (.set 100)
        ((run_registry (.set 100) ex_registrations ex_world).listeners
          (purc_variant.set 100).addr) PCVAR_OPERATION_GROW [] = some (true, trace) ∧
      trace.map (fun c => c.listener)
        = (((registered (.set 100) ex_registrations ex_world).reverse).filter
            (matches_pre PCVAR_OPERATION_GROW)).map (fun l => l.addr)) ∧
    (∃ trace,
      pcvariant_on_post_fired ex_world.mem (.set 100)
        ((run_registry (.set 100) ex_registrations ex_world).listeners
          (purc_variant.set 100).addr) PCVAR_OPERATION_GROW [] = some trace ∧
      trace.map (fun c => c.listener)
        = (((registered (.set 100) ex_registrations ex_world).reverse).filter
            (matches_post PCVAR_OPERATION_GROW)).map (fun l => l.addr))) :=
  ⟨rfl, Or.inl rfl, by decide, by decide,
    C9_fire_most_recent_first ex_world (.set 100) ex_registrations rfl
      (fun c hc l h => by subst h; simp [ex_registrations] at hc)
      PCVAR_OPERATION_GROW (Or.inl rfl) ex_world.mem []
      (fun l hl _ => by rw [ex_registered_handlers l hl]; rfl)
      (fun l hl _ => by rw [ex_registered_handlers l hl]; rfl)⟩

theorem C10_fire_pre_veto_witness :
    ex_world.listeners (purc_variant.set 100).addr = [] ∧
    proper_op PCVAR_OPERATION_SHRINK ∧
    ∃ ok trace,
      pcvariant_on_pre_fired ex_world.mem (.set 100)
        ((run_registry (.set 100)
          [.register_pre PCVAR_OPERATION_ALL ex_veto 1, .register_post PCVAR_OPERATION_ALL ex_allow 2,
           .register_pre PCVAR_OPERATION_SHRINK ex_allow 3] ex_world).listeners
          (purc_variant.set 100).addr) PCVAR_OPERATION_SHRINK [] = some (ok, trace) ∧
      (ok = false ↔ ∃ l ∈ (run_registry (.set 100)
          [.register_pre PCVAR_OPERATION_ALL ex_veto 1, .register_post PCVAR_OPERATION_ALL ex_allow 2,
           .register_pre PCVAR_OPERATION_SHRINK ex_allow 3] ex_world).listeners
          (purc_variant.set 100).addr,
        l.flags &&& PCVAR_LISTENER_PRE_OR_POST = PCVAR_LISTENER_PRE ∧
        l.op &&& PCVAR_OPERATION_SHRINK ≠ 0 ∧
        l.handler ex_world.mem (.set 100) PCVAR_OPERATION_SHRINK l.ctxt [] = some false) ∧
      trace = (called_until_veto ex_world.mem (.set 100) PCVAR_OPERATION_SHRINK []
        (((run_registry (.set 100)
          [.register_pre PCVAR_OPERATION_ALL ex_veto 1, .register_post PCVAR_OPERATION_ALL ex_allow 2,
           .register_pre PCVAR_OPERATION_SHRINK ex_allow 3] ex_world).listeners
          (purc_variant.set 100).addr).filter (matches_pre PCVAR_OPERATION_SHRINK))).map
          (pcvar_listener.call PCVAR_OPERATION_SHRINK []) ∧
      ∀ c ∈ trace, c.flags &&& PCVAR_LISTENER_PRE_OR_POST = PCVAR_LISTENER_PRE :=
  ⟨rfl, ⟨by decide, by decide⟩,
    _, _, rfl,
    (C10_fire_pre_veto ex_world (.set 100) _ rfl PCVAR_OPERATION_SHRINK ⟨by decide, by decide⟩
      ex_world.mem []).2.1 _ _ rfl⟩

/-! ## Lemmas: the set container -/

theorem grow_checked (w : World) (v : pcv_object) :
    grow w v true =
      (on_pre_fired_loop w.mem (.set w.set) PCVAR_OPERATION_GROW [.object v]
        (w.listeners w.set)).map (fun r => (r.1, { w with fired := w.fired ++ r.2 })) := by
  simp [grow, pre_fired_single _ _ _ (single_op_proper (Or.inl rfl))]

theorem shrink_checked (w : World) (v : pcv_object) :
    shrink w v true =
      (on_pre_fired_loop w.mem (.set w.set) PCVAR_OPERATION_SHRINK [.object v]
        (w.listeners w.set)).map (fun r => (r.1, { w with fired := w.fired ++ r.2 })) := by
  simp [shrink, pre_fired_single _ _ _ (single_op_proper (Or.inr (Or.inl rfl)))]

theorem change_checked (w : World) (o n : pcv_object) :
    change w o n true =
      (on_pre_fired_loop w.mem (.set w.set) PCVAR_OPERATION_CHANGE [.object o, .object n]
        (w.listeners w.set)).map (fun r => (r.1, { w with fired := w.fired ++ r.2 })) := by
  simp [change, pre_fired_single _ _ _ (single_op_proper (Or.inr (Or.inr rfl)))]

theorem pre_result_some {mem : pcvar_memory} {source : purc_variant} {op : Nat}
    {argv : List purc_variant} {ls : List pcvar_listener}
    (h : (on_pre_fired_loop mem source op argv ls).isSome = true) :
    on_pre_fired_loop mem source op argv ls = some (on_pre_fired_result mem source op argv ls) := by
  unfold on_pre_fired_result
  cases hl : on_pre_fired_loop mem source op argv ls with
  | none => rw [hl] at h; cases h
  | some r => rfl

theorem grow_returns (w : World) (v : pcv_object)
    (h : (on_pre_fired_loop w.mem (.set w.set) PCVAR_OPERATION_GROW [.object v]
      (w.listeners w.set)).isSome = true) :
    grow w v true = some
      ((on_pre_fired_result w.mem (.set w.set) PCVAR_OPERATION_GROW [.object v]
          (w.listeners w.set)).1,
       { w with fired := w.fired ++
          (on_pre_fired_result w.mem (.set w.set) PCVAR_OPERATION_GROW [.object v]
            (w.listeners w.set)).2 }) := by
  rw [grow_checked, pre_result_some h]
  rfl

theorem shrink_returns (w : World) (v : pcv_object)
    (h : (on_pre_fired_loop w.mem (.set w.set) PCVAR_OPERATION_SHRINK [.object v]
      (w.listeners w.set)).isSome = true) :
    shrink w v true = some
      ((on_pre_fired_result w.mem (.set w.set) PCVAR_OPERATION_SHRINK [.object v]
          (w.listeners w.set)).1,
       { w with fired := w.fired ++
          (on_pre_fired_result w.mem (.set w.set) PCVAR_OPERATION_SHRINK [.object v]
            (w.listeners w.set)).2 }) := by
  rw [shrink_checked, pre_result_some h]
  rfl

theorem change_returns (w : World) (o n : pcv_object)
    (h : (on_pre_fired_loop w.mem (.set w.set) PCVAR_OPERATION_CHANGE [.object o, .object n]
      (w.listeners w.set)).isSome = true) :
    change w o n true = some
      ((on_pre_fired_result w.mem (.set w.set) PCVAR_OPERATION_CHANGE [.object o, .object n]
          (w.listeners w.set)).1,
       { w with fired := w.fired ++
          (on_pre_fired_result w.mem (.set w.set) PCVAR_OPERATION_CHANGE [.object o, .object n]
            (w.listeners w.set)).2 }) := by
  rw [change_checked, pre_result_some h]
  rfl

/-- What `World.allows` says of the result of the pre fire. -/
theorem allows_result {w : World} {op : Nat} {argv : List purc_variant} (h : w.allows op argv) :
    (on_pre_fired_loop w.mem (.set w.set) op argv (w.listeners w.set)).isSome = true ∧
    (on_pre_fired_result w.mem (.set w.set) op argv (w.listeners w.set)).1 = true := by
  unfold World.allows at h
  unfold on_pre_fired_result
  cases hl : on_pre_fired_loop w.mem (.set w.set) op argv (w.listeners w.set) with
  | none => rw [hl] at h; cases h
  | some r =>
    rw [hl] at h
    simp only [Option.map_some', Option.some.injEq] at h
    exact ⟨rfl, h⟩

/-- What `World.allows` says of the loop of the pre fire. -/
theorem allows_loop {w : World} {op : Nat} {argv : List purc_variant} (h : w.allows op argv) :
    ∃ calls, on_pre_fired_loop w.mem (.set w.set) op argv (w.listeners w.set)
      = some (true, calls) := by
  unfold World.allows at h
  simp only [Option.map_eq_some'] at h
  obtain ⟨r, hr, h1⟩ := h
  obtain ⟨a, calls⟩ := r
  simp only at h1
  subst h1
  exact ⟨calls, hr⟩

theorem kvs_from_val_world (w : World) (v : pcv_object) :
    (variant_set_kvs_from_val w v).2 = { w with brk := (variant_set_kvs_from_val w v).2.brk } ∧
    w.brk ≤ (variant_set_kvs_from_val w v).2.brk := by
  unfold variant_set_kvs_from_val
  cases w.data.keynames <;> simp

theorem setup_constraints_eq (cmp : variant_cmp) (w : World) (elem : Nat) :
    elem_node_setup_constraints cmp w elem =
      (true,
       { w with
          brk := w.brk + 1
          listeners := Function.update w.listeners (w.data.node elem).elem.addr
            (⟨w.brk, PCVAR_LISTENER_PRE, PCVAR_OPERATION_ALL, (w.data.node elem).set.getD 0,
                variant_set_constraints_handler cmp⟩ ::
              w.listeners (w.data.node elem).elem.addr)
          data := { w.data with
            node := Function.update w.data.node elem
              { w.data.node elem with constraints := some w.brk } } }) := by
  unfold elem_node_setup_constraints
  simp only [register_pre_ok w (.object (w.data.node elem).elem) PCVAR_OPERATION_ALL
    (variant_set_constraints_handler cmp) ((w.data.node elem).set.getD 0) rfl (by decide)
    (by decide)]
  simp [World.set_node, purc_variant.addr]

theorem insert_allowed (cmp : variant_cmp) (w wg : World) (val kvs : pcv_object)
    (parent : Option Nat) (pnode : List Bool) (check : Bool)
    (hg : grow w val check = some (true, wg)) (hcap : wg.data.arr.length < SIZE_MAX) :
    insert cmp w val kvs parent pnode check =
      (grown (wg.inserted cmp val pnode) val check).map (fun w => (0, w)) := by
  unfold insert
  rw [hg]
  have hk := kvs_from_val_world { wg with brk := wg.brk + 1 } val
  simp only [variant_set_create_elem_node, World.set_node, pcutils_arrlist_add,
    pcutils_rbtree_insert_color, setup_constraints_eq]
  rw [hk.1]
  simp only [not_le.2 hcap, if_false, List.length_append, List.length_singleton,
    Nat.add_sub_cancel, Function.update_same, Function.update_idem, Bool.not_true,
    Bool.false_eq_true, Option.getD_some]
  rfl

theorem refresh_arr_fields (node : Nat → set_node) :
    ∀ (ps : List Nat) (idx : Nat) (p : Nat),
      (refresh_arr_loop node ps idx p).elem = (node p).elem ∧
      (refresh_arr_loop node ps idx p).kvs = (node p).kvs ∧
      (refresh_arr_loop node ps idx p).set = (node p).set ∧
      (refresh_arr_loop node ps idx p).constraints = (node p).constraints ∧
      (p ∉ ps → refresh_arr_loop node ps idx p = node p) := by
  intro ps
  induction ps generalizing node with
  | nil => intro idx p; simp [refresh_arr_loop]
  | cons q qs ih =>
    intro idx p
    unfold refresh_arr_loop
    have h := ih (Function.update node q { node q with idx := idx }) (idx + 1) p
    by_cases hpq : p = q
    · subst hpq
      simp only [Function.update_same] at h
      exact ⟨h.1, h.2.1, h.2.2.1, h.2.2.2.1, fun hn => absurd (List.mem_cons_self _ _) hn⟩
    · simp only [Function.update_noteq hpq] at h
      exact ⟨h.1, h.2.1, h.2.2.1, h.2.2.2.1,
        fun hn => h.2.2.2.2 (fun hm => hn (List.mem_cons_of_mem _ hm))⟩

theorem refresh_arr_idx (node : Nat → set_node) :
    ∀ (ps : List Nat) (idx : Nat), ps.Nodup →
      ∀ j p, ps[j]? = some p → (refresh_arr_loop node ps idx p).idx = idx + j := by
  intro ps
  induction ps generalizing node with
  | nil => intro idx _ j p h; simp at h
  | cons q qs ih =>
    intro idx hnd j p h
    have hnd' := List.nodup_cons.1 hnd
    unfold refresh_arr_loop
    cases j with
    | zero =>
      simp only [List.getElem?_cons_zero, Option.some.injEq] at h
      subst h
      rw [(refresh_arr_fields _ qs (idx + 1) q).2.2.2.2 hnd'.1]
      simp
    | succ j =>
      simp only [List.getElem?_cons_succ] at h
      rw [ih _ (idx + 1) hnd'.2 j p h]
      omega

theorem replace_eq (cmp : variant_cmp) (w : World) (curr : Nat) (val kvs : pcv_object)
    (l : Nat) (rest : List pcvar_listener)
    (hl : (w.data.node curr).constraints = some l)
    (hr : revoke_loop l (w.listeners (w.data.node curr).elem.addr) = some rest) :
    elem_node_replace cmp w curr val kvs = some (0, w.replaced cmp curr val kvs rest) := by
  unfold elem_node_replace elem_node_revoke_constraints
  simp only [hl, purc_variant_revoke_listener, IS_CONTAINER, purc_variant.addr, hr,
    Bool.not_true, Bool.false_eq_true, if_false, if_true, setup_constraints_eq,
    World.set_node, Function.update_same, Function.update_idem]
  unfold World.replaced
  simp only
  congr 3
  rw [Function.update_same]

theorem release_eq (w : World) (node : Nat) (l : Nat) (rest : List pcvar_listener)
    (hl : (w.data.node node).constraints = some l)
    (hr : revoke_loop l (w.listeners (w.data.node node).elem.addr) = some rest) :
    elem_node_release w node = some
      { w with
        data := { w.data with
          node := Function.update w.data.node node
            { w.data.node node with constraints := none, set := none } }
        listeners := Function.update w.listeners (w.data.node node).elem.addr rest } := by
  unfold elem_node_release elem_node_revoke_constraints
  simp only [hl, purc_variant_revoke_listener, IS_CONTAINER, purc_variant.addr, hr,
    Bool.not_true, Bool.false_eq_true, if_false, if_true,
    World.set_node, Function.update_same, Function.update_idem, Option.map_some']

theorem refresh_arr_frame (d : variant_set) (idx : Nat) :
    (refresh_arr d idx).arr = d.arr ∧ (refresh_arr d idx).elems = d.elems ∧
    (refresh_arr d idx).keynames = d.keynames ∧
    ∀ p, ((refresh_arr d idx).node p).elem = (d.node p).elem ∧
      ((refresh_arr d idx).node p).kvs = (d.node p).kvs ∧
      ((refresh_arr d idx).node p).set = (d.node p).set ∧
      ((refresh_arr d idx).node p).constraints = (d.node p).constraints := by
  unfold refresh_arr
  split_ifs
  · simp
  · refine ⟨rfl, rfl, rfl, fun p => ?_⟩
    have := refresh_arr_fields d.node (d.arr.drop idx) idx p
    exact ⟨this.1, this.2.1, this.2.2.1, this.2.2.2.1⟩

theorem shrunk_frame (w w3 : World) (v : pcv_object) (check : Bool)
    (h : shrunk w v check = some w3) :
    ∃ calls, w3 = { w with fired := w.fired ++ calls } := by
  unfold shrunk at h
  split_ifs at h
  · simp only [Option.some.injEq] at h
    exact ⟨[], by rw [← h]; simp⟩
  · simp only [Option.map_eq_some'] at h
    obtain ⟨calls, _, rfl⟩ := h
    exact ⟨calls, rfl⟩

theorem grown_frame (w w3 : World) (v : pcv_object) (check : Bool)
    (h : grown w v check = some w3) :
    ∃ calls, w3 = { w with fired := w.fired ++ calls } := by
  unfold grown at h
  split_ifs at h
  · simp only [Option.some.injEq] at h
    exact ⟨[], by rw [← h]; simp⟩
  · simp only [Option.map_eq_some'] at h
    obtain ⟨calls, _, rfl⟩ := h
    exact ⟨calls, rfl⟩

theorem changed_frame (w w3 : World) (o n : pcv_object) (check : Bool)
    (h : changed w o n check = some w3) :
    ∃ calls, w3 = { w with fired := w.fired ++ calls } := by
  unfold changed at h
  split_ifs at h
  · simp only [Option.some.injEq] at h
    exact ⟨[], by rw [← h]; simp⟩
  · simp only [Option.map_eq_some'] at h
    obtain ⟨calls, _, rfl⟩ := h
    exact ⟨calls, rfl⟩

theorem grow_frame (w wg : World) (v : pcv_object) (check : Bool) (b : Bool)
    (h : grow w v check = some (b, wg)) :
    ∃ calls, wg = { w with fired := w.fired ++ calls } := by
  unfold grow at h
  split_ifs at h
  · simp only [Option.some.injEq, Prod.mk.injEq] at h
    exact ⟨[], by rw [← h.2]; simp⟩
  · simp only [Option.map_eq_some', Prod.mk.injEq] at h
    obtain ⟨r, _, _, rfl⟩ := h
    exact ⟨r.2, rfl⟩

theorem shrink_frame (w wg : World) (v : pcv_object) (check : Bool) (b : Bool)
    (h : shrink w v check = some (b, wg)) :
    ∃ calls, wg = { w with fired := w.fired ++ calls } := by
  unfold shrink at h
  split_ifs at h
  · simp only [Option.some.injEq, Prod.mk.injEq] at h
    exact ⟨[], by rw [← h.2]; simp⟩
  · simp only [Option.map_eq_some', Prod.mk.injEq] at h
    obtain ⟨r, _, _, rfl⟩ := h
    exact ⟨r.2, rfl⟩

theorem change_frame (w wg : World) (o n : pcv_object) (check : Bool) (b : Bool)
    (h : change w o n check = some (b, wg)) :
    ∃ calls, wg = { w with fired := w.fired ++ calls } := by
  unfold change at h
  split_ifs at h
  · simp only [Option.some.injEq, Prod.mk.injEq] at h
    exact ⟨[], by rw [← h.2]; simp⟩
  · simp only [Option.map_eq_some', Prod.mk.injEq] at h
    obtain ⟨r, _, _, rfl⟩ := h
    exact ⟨r.2, rfl⟩

theorem set_remove_vetoed (w ws : World) (node : Nat) (check : Bool)
    (hs : shrink w (w.data.node node).elem check = some (false, ws)) :
    set_remove w node check = some (-1, ws) := by
  unfold set_remove
  rw [hs]

theorem set_remove_allowed (w ws w3 : World) (node : Nat) (check : Bool) (l : Nat)
    (rest : List pcvar_listener)
    (hs : shrink w (w.data.node node).elem check = some (true, ws))
    (hidx : (ws.data.node node).idx < ws.data.arr.length)
    (hp : shrunk (ws.unlinked node) (ws.data.node node).elem check = some w3)
    (hl : (ws.data.node node).constraints = some l)
    (hr : revoke_loop l (ws.listeners (ws.data.node node).elem.addr) = some rest) :
    set_remove w node check = some (0, w3.released node (ws.data.node node).idx rest) := by
  obtain ⟨calls, rfl⟩ := shrunk_frame _ _ _ _ hp
  unfold set_remove
  rw [hs]
  simp only [not_le.2 hidx, if_false]
  have hp' : shrunk (ws.unlinked node) (ws.data.node node).elem check
      = some { ws.unlinked node with fired := (ws.unlinked node).fired ++ calls } := hp
  simp only [World.unlinked] at hp'
  simp only [hp']
  have hf := (refresh_arr_frame
    { keynames := ws.data.keynames, elems := pcutils_rbtree_erase node ws.data.elems,
      arr := ws.data.arr.eraseIdx (ws.data.node node).idx, node := ws.data.node }
    (ws.data.node node).idx).2.2.2 node
  rw [release_eq _ node l rest]
  · simp only [World.set_node, Function.update_same, Function.update_idem, Option.map_some',
      World.released, World.unlinked]
  · simp only [World.set_node, Function.update_same]
    rw [hf.2.2.2]; exact hl
  · simp only [World.set_node, Function.update_same]
    rw [hf.1]; exact hr

theorem ascending_congr {cmp : variant_cmp} {key key' : Nat → List (String × pcv_value)}
    {l : List Nat} (h : ascending cmp key l) (hk : ∀ p ∈ l, key' p = key p) :
    ascending cmp key' l := by
  refine List.Pairwise.imp_of_mem ?_ h
  intro a b ha hb hab
  rw [hk a ha, hk b hb]
  exact hab

theorem set_inv_frame {cmp : variant_cmp} {w w' : World} (h : set_inv cmp w)
    (harr : w'.data.arr = w.data.arr) (helems : w'.data.elems = w.data.elems)
    (hnode : ∀ p ∈ w.data.arr, w'.data.node p = w.data.node p)
    (hl : w'.listeners = w.listeners) (hb : w.brk ≤ w'.brk) : set_inv cmp w' := by
  constructor
  · rw [harr, helems]; exact h.perm
  · rw [harr]; exact h.nodup
  · intro i p hp
    rw [harr] at hp
    rw [hnode p (List.getElem?_mem hp)]
    exact h.idx i p hp
  · rw [helems]
    refine ascending_congr h.sorted ?_
    intro p hp
    simp only [World.key, hnode p (h.perm.mem_iff.1 hp)]
  · intro p hp
    rw [harr] at hp
    exact lt_of_lt_of_le (h.fresh p hp) hb
  · rw [harr]; exact h.capacity
  · intro p hp
    rw [harr] at hp
    obtain ⟨l, h1, h2, h3⟩ := h.constraints p hp
    rw [hnode p hp, hl]
    exact ⟨l, h1, lt_of_lt_of_le h2 hb, h3⟩
  · intro p hp q hq
    rw [harr] at hp hq
    rw [hnode p hp, hnode q hq]
    exact h.handles p hp q hq
  · intro a
    rw [hl]; exact h.shape a

theorem kvs_fields_indep (w w' : World) (v : pcv_object)
    (h : w'.data.keynames = w.data.keynames) :
    (variant_set_kvs_from_val w' v).1.fields = (variant_set_kvs_from_val w v).1.fields := by
  unfold variant_set_kvs_from_val
  rw [h]
  cases w.data.keynames <;> rfl

theorem inv_inserted {cmp : variant_cmp} (hc : cmp_total cmp) {w : World} (h : set_inv cmp w)
    (val kvs : pcv_object) (parent : Option Nat)
    (hk : kvs.fields = w.kvs_of val)
    (hnone : (find_element_rb_node_loop cmp w.data.node kvs w.data.elems parent).entry = none)
    (hcap : w.data.arr.length < SIZE_MAX) :
    set_inv cmp (w.inserted cmp val
      (find_element_rb_node_loop cmp w.data.node kvs w.data.elems parent).pnode) := by
  obtain ⟨L, R, e1, e2, hL, hR⟩ := find_loop_none hc w.data.node kvs w.brk w.data.elems parent
    h.sorted hnone
  have hkb := (kvs_from_val_world { w with brk := w.brk + 1 } val).2
  have hkf : (variant_set_kvs_from_val { w with brk := w.brk + 1 } val).1.fields = kvs.fields := by
    rw [hk]; exact kvs_fields_indep w _ val rfl
  have hfresh : w.brk ∉ w.data.arr := fun hm => lt_irrefl _ (h.fresh _ hm)
  have hne : ∀ p ∈ w.data.arr, p ≠ w.brk := fun p hp e => hfresh (e ▸ hp)
  have hin : ∀ p ∈ w.data.elems.inorder, p ≠ w.brk := fun p hp => hne p (h.perm.mem_iff.1 hp)
  constructor
  · show (pcutils_rbtree_link_node w.brk _ w.data.elems).inorder.Perm (w.data.arr ++ [w.brk])
    rw [e2]
    refine (List.perm_middle).trans ?_
    refine List.Perm.trans ?_ (List.perm_append_singleton _ _).symm
    rw [← e1]
    exact List.Perm.cons _ h.perm
  · show (w.data.arr ++ [w.brk]).Nodup
    rw [List.nodup_append]
    exact ⟨h.nodup, List.nodup_singleton _, fun a ha hb => hne a ha (List.mem_singleton.1 hb)⟩
  · intro i p hp
    change (w.data.arr ++ [w.brk])[i]? = some p at hp
    show (Function.update w.data.node w.brk _ p).idx = i
    by_cases hi : i < w.data.arr.length
    · rw [List.getElem?_append_left hi] at hp
      rw [Function.update_noteq (hne p (List.getElem?_mem hp))]
      exact h.idx i p hp
    · rw [List.getElem?_append_right (not_lt.1 hi)] at hp
      have hi0 : i - w.data.arr.length = 0 := by
        by_contra hcon
        obtain ⟨m, hm⟩ := Nat.exists_eq_succ_of_ne_zero hcon
        rw [hm] at hp
        simp at hp
      rw [hi0] at hp
      simp only [List.getElem?_cons_zero, Option.some.injEq] at hp
      subst hp
      simp only [Function.update_same]
      omega
  · show ascending cmp _ (pcutils_rbtree_link_node w.brk _ w.data.elems).inorder
    rw [e2]
    have hs := h.sorted
    rw [e1] at hs hin
    have hs' := List.pairwise_append.1 hs
    have key_old : ∀ p, p ≠ w.brk →
        (w.inserted cmp val
          (find_element_rb_node_loop cmp w.data.node kvs w.data.elems parent).pnode).key p
        = w.key p := by
      intro p hp
      simp only [World.key, World.inserted, Function.update_noteq hp]
    have key_new : (w.inserted cmp val
          (find_element_rb_node_loop cmp w.data.node kvs w.data.elems parent).pnode).key w.brk
        = kvs.fields := by
      simp only [World.key, World.inserted, Function.update_same]
      exact hkf
    refine List.pairwise_append.2 ⟨?_, List.pairwise_cons.2 ⟨?_, ?_⟩, ?_⟩
    · exact ascending_congr hs'.1 (fun p hp => key_old p (hin p (List.mem_append_left _ hp)))
    · intro b hb
      rw [key_new, key_old b (hin b (List.mem_append_right _ hb))]
      exact hR b hb
    · exact ascending_congr hs'.2.1 (fun p hp => key_old p (hin p (List.mem_append_right _ hp)))
    · intro a ha b hb
      rw [key_old a (hin a (List.mem_append_left _ ha))]
      rcases List.mem_cons.1 hb with hb | hb
      · subst hb
        rw [key_new]
        exact hL a ha
      · rw [key_old b (hin b (List.mem_append_right _ hb))]
        exact hs'.2.2 a ha b hb
  · intro p hp
    change p ∈ w.data.arr ++ [w.brk] at hp
    show p < (variant_set_kvs_from_val { w with brk := w.brk + 1 } val).2.brk + 1
    simp only at hkb
    rcases List.mem_append.1 hp with hp | hp
    · have := h.fresh p hp
      omega
    · rw [List.mem_singleton] at hp
      omega
  · show (w.data.arr ++ [w.brk]).length ≤ SIZE_MAX
    simp only [List.length_append, List.length_singleton]
    omega
  · intro p hp
    change p ∈ w.data.arr ++ [w.brk] at hp
    simp only at hkb
    rcases List.mem_append.1 hp with hp | hp
    · obtain ⟨l, h1, h2, x, hx, hxl⟩ := h.constraints p hp
      refine ⟨l, ?_, ?_, x, ?_, hxl⟩
      · simp only [World.inserted, Function.update_noteq (hne p hp)]
        exact h1
      · show l < (variant_set_kvs_from_val { w with brk := w.brk + 1 } val).2.brk + 1
        omega
      · simp only [World.inserted, Function.update_noteq (hne p hp)]
        by_cases ha : (w.data.node p).elem.addr = val.addr
        · rw [ha, Function.update_same]
          rw [← ha]
          exact List.mem_cons_of_mem _ hx
        · rw [Function.update_noteq ha]
          exact hx
    · rw [List.mem_singleton] at hp
      subst hp
      refine ⟨(variant_set_kvs_from_val { w with brk := w.brk + 1 } val).2.brk, ?_, ?_, ?_⟩
      · simp only [World.inserted, Function.update_same]
      · show _ < (variant_set_kvs_from_val { w with brk := w.brk + 1 } val).2.brk + 1
        omega
      · simp only [World.inserted, Function.update_same]
        exact ⟨_, List.mem_cons_self _ _, rfl⟩
  · intro p hp q hq hpq
    change p ∈ w.data.arr ++ [w.brk] at hp
    change q ∈ w.data.arr ++ [w.brk] at hq
    simp only at hkb
    simp only [World.inserted] at hpq
    rcases List.mem_append.1 hp with hp | hp <;> rcases List.mem_append.1 hq with hq | hq
    · rw [Function.update_noteq (hne p hp), Function.update_noteq (hne q hq)] at hpq
      exact h.handles p hp q hq hpq
    · rw [List.mem_singleton] at hq
      subst hq
      obtain ⟨l, h1, h2, _⟩ := h.constraints p hp
      rw [Function.update_noteq (hne p hp), Function.update_same, h1] at hpq
      simp only [Option.some.injEq] at hpq
      omega
    · rw [List.mem_singleton] at hp
      subst hp
      obtain ⟨l, h1, h2, _⟩ := h.constraints q hq
      rw [Function.update_noteq (hne q hq), Function.update_same, h1] at hpq
      simp only [Option.some.injEq] at hpq
      omega
    · rw [List.mem_singleton] at hp hq
      rw [hp, hq]
  · intro a
    show pre_then_post (Function.update w.listeners val.addr _ a)
    by_cases ha : a = val.addr
    · subst ha
      rw [Function.update_same]
      exact shape_cons_pre (by simp [PCVAR_LISTENER_PRE, PCVAR_LISTENER_PRE_OR_POST]) (h.shape _)
    · rw [Function.update_noteq ha]
      exact h.shape a

theorem inv_replaced {cmp : variant_cmp} (hc : cmp_total cmp) {w : World} (h : set_inv cmp w)
    (curr : Nat) (val kvs : pcv_object) (l : Nat) (rest : List pcvar_listener)
    (hcurr : curr ∈ w.data.arr)
    (hk : cmp kvs.fields (w.key curr) = 0)
    (hl : (w.data.node curr).constraints = some l)
    (hr : revoke_loop l (w.listeners (w.data.node curr).elem.addr) = some rest) :
    set_inv cmp (w.replaced cmp curr val kvs rest) := by
  have key_old : ∀ p, p ≠ curr → (w.replaced cmp curr val kvs rest).key p = w.key p := by
    intro p hp
    simp only [World.key, World.replaced, Function.update_noteq hp]
  have key_new : (w.replaced cmp curr val kvs rest).key curr = kvs.fields := by
    simp only [World.key, World.replaced, Function.update_same]
  have hlist : ∀ p ∈ w.data.arr, p ≠ curr → ∀ x ∈ w.listeners (w.data.node p).elem.addr,
      x.addr ≠ l → x ∈ (w.replaced cmp curr val kvs rest).listeners (w.data.node p).elem.addr := by
    intro p _ _ x hx hxl
    have h1 : x ∈ Function.update w.listeners (w.data.node curr).elem.addr rest
        (w.data.node p).elem.addr := by
      by_cases ha : (w.data.node p).elem.addr = (w.data.node curr).elem.addr
      · rw [ha, Function.update_same]
        rw [ha] at hx
        exact revoke_loop_mem l _ _ hr x hx hxl
      · rw [Function.update_noteq ha]; exact hx
    simp only [World.replaced]
    by_cases hb : (w.data.node p).elem.addr = val.addr
    · rw [hb, Function.update_same]
      rw [hb] at h1
      exact List.mem_cons_of_mem _ h1
    · rw [Function.update_noteq hb]; exact h1
  constructor
  · exact h.perm
  · exact h.nodup
  · intro i p hp
    change w.data.arr[i]? = some p at hp
    show (Function.update w.data.node curr _ p).idx = i
    by_cases hpc : p = curr
    · subst hpc
      rw [Function.update_same]
      exact h.idx i p hp
    · rw [Function.update_noteq hpc]
      exact h.idx i p hp
  · show ascending cmp _ w.data.elems.inorder
    refine List.Pairwise.imp_of_mem ?_ h.sorted
    intro a b _ _ hab
    by_cases ha : a = curr
    · by_cases hb : b = curr
      · rw [ha, hb] at hab
        have := hc.refl (w.key curr)
        omega
      · rw [ha, key_new, key_old b hb]
        rw [ha] at hab
        exact hc.lt_of_le_of_lt (le_of_eq hk) hab
    · by_cases hb : b = curr
      · rw [hb, key_new, key_old a ha]
        rw [hb] at hab
        exact hc.lt_of_lt_of_le hab (le_of_eq (hc.eq_symm hk))
      · rw [key_old a ha, key_old b hb]
        exact hab
  · intro p hp
    exact Nat.lt_succ_of_lt (h.fresh p hp)
  · exact h.capacity
  · intro p hp
    change p ∈ w.data.arr at hp
    by_cases hpc : p = curr
    · subst hpc
      refine ⟨w.brk, ?_, Nat.lt_succ_self _, ?_⟩
      · simp only [World.replaced, Function.update_same]
      · simp only [World.replaced, Function.update_same]
        exact ⟨_, List.mem_cons_self _ _, rfl⟩
    · obtain ⟨lp, h1, h2, x, hx, hxl⟩ := h.constraints p hp
      have hne : lp ≠ l := by
        intro e
        apply hpc
        apply h.handles p hp curr hcurr
        rw [h1, hl, e]
      have hnode : (w.replaced cmp curr val kvs rest).data.node p = w.data.node p := by
        simp only [World.replaced, Function.update_noteq hpc]
      rw [hnode]
      exact ⟨lp, h1, Nat.lt_succ_of_lt h2, x, hlist p hp hpc x hx (hxl ▸ hne), hxl⟩
  · intro p hp q hq hpq
    change p ∈ w.data.arr at hp
    change q ∈ w.data.arr at hq
    simp only [World.replaced] at hpq
    by_cases hpc : p = curr <;> by_cases hqc : q = curr
    · rw [hpc, hqc]
    · obtain ⟨lq, h1, h2, _⟩ := h.constraints q hq
      rw [hpc, Function.update_same, Function.update_noteq hqc, h1] at hpq
      simp only [Option.some.injEq] at hpq
      omega
    · obtain ⟨lp, h1, h2, _⟩ := h.constraints p hp
      rw [hqc, Function.update_same, Function.update_noteq hpc, h1] at hpq
      simp only [Option.some.injEq] at hpq
      omega
    · rw [Function.update_noteq hpc, Function.update_noteq hqc] at hpq
      exact h.handles p hp q hq hpq
  · intro a
    have h1 : ∀ a, pre_then_post
        (Function.update w.listeners (w.data.node curr).elem.addr rest a) := by
      intro a
      by_cases ha : a = (w.data.node curr).elem.addr
      · subst ha
        rw [Function.update_same]
        exact shape_sublist (revoke_loop_sublist l _ _ hr) (h.shape _)
      · rw [Function.update_noteq ha]; exact h.shape a
    simp only [World.replaced]
    by_cases ha : a = val.addr
    · subst ha
      rw [Function.update_same]
      exact shape_cons_pre (by simp [PCVAR_LISTENER_PRE, PCVAR_LISTENER_PRE_OR_POST]) (h1 _)
    · rw [Function.update_noteq ha]
      exact h1 a

theorem not_mem_drop_of_lt {l : List Nat} (hnd : l.Nodup) {i j p : Nat}
    (hp : l[i]? = some p) (hij : i < j) : p ∉ l.drop j := by
  intro hm
  obtain ⟨m, hm⟩ := List.getElem?_of_mem hm
  rw [List.getElem?_drop] at hm
  have hi : i < l.length := (List.getElem?_eq_some.1 hp).1
  have := (List.getElem?_inj hi hnd (hp.trans hm.symm))
  omega

theorem released_node_of_ne (w3 : World) (node idx : Nat) (rest : List pcvar_listener)
    (p : Nat) (hp : p ≠ node) :
    ((w3.released node idx rest).data.node p).elem = (w3.data.node p).elem ∧
    ((w3.released node idx rest).data.node p).kvs = (w3.data.node p).kvs ∧
    ((w3.released node idx rest).data.node p).constraints = (w3.data.node p).constraints ∧
    ((w3.released node idx rest).data.node p).idx = ((refresh_arr w3.data idx).node p).idx := by
  have hf := (refresh_arr_frame w3.data idx).2.2.2 p
  simp only [World.released, Function.update_noteq hp]
  exact ⟨hf.1, hf.2.1, hf.2.2.2, trivial⟩

theorem inv_released {cmp : variant_cmp} {w w3 : World} (h : set_inv cmp w)
    (node l : Nat) (rest : List pcvar_listener) (hnode : node ∈ w.data.arr)
    (h3 : ∃ calls, w3 = { w.unlinked node with fired := (w.unlinked node).fired ++ calls })
    (hl : (w.data.node node).constraints = some l)
    (hr : revoke_loop l (w.listeners (w.data.node node).elem.addr) = some rest) :
    set_inv cmp (w3.released node (w.data.node node).idx rest) ∧
    (w3.released node (w.data.node node).idx rest).data.arr
      = w.data.arr.eraseIdx (w.data.node node).idx ∧
    w.data.arr[(w.data.node node).idx]? = some node := by
  obtain ⟨calls, rfl⟩ := h3
  obtain ⟨j, hj⟩ := List.getElem?_of_mem hnode
  have hidx : (w.data.node node).idx = j := h.idx j node hj
  rw [hidx]
  have hjlt : j < w.data.arr.length := (List.getElem?_eq_some.1 hj).1
  have hjmax : j ≠ SIZE_MAX := by have := h.capacity; omega
  have hget : w.data.arr[j] = node := by
    have := (List.getElem?_eq_some.1 hj).2; exact this
  have harr : w.data.arr.eraseIdx j = w.data.arr.erase node := by
    rw [← hget]; exact (List.Nodup.erase_getElem h.nodup j hjlt).symm
  have hnd' : (w.data.arr.eraseIdx j).Nodup := by rw [harr]; exact h.nodup.erase _
  have hnot : node ∉ w.data.arr.eraseIdx j := by
    rw [harr]; exact h.nodup.not_mem_erase
  have hsub : ∀ p ∈ w.data.arr.eraseIdx j, p ∈ w.data.arr := by
    intro p hp; rw [harr] at hp; exact List.mem_of_mem_erase hp
  have hne : ∀ p ∈ w.data.arr.eraseIdx j, p ≠ node := fun p hp e => hnot (e ▸ hp)
  have hindup : w.data.elems.inorder.Nodup := h.perm.nodup_iff.2 h.nodup
  have hin : (pcutils_rbtree_erase node w.data.elems).inorder = w.data.elems.inorder.erase node :=
    inorder_erase node _ hindup
  -- the world after the release
  have hWarr : ({ w.unlinked node with fired := (w.unlinked node).fired ++ calls }.released
      node j rest).data.arr = w.data.arr.eraseIdx j := by
    simp only [World.released, World.unlinked, (refresh_arr_frame _ _).1, hidx]
  have hWelems : ({ w.unlinked node with fired := (w.unlinked node).fired ++ calls }.released
      node j rest).data.elems = pcutils_rbtree_erase node w.data.elems := by
    simp only [World.released, World.unlinked, (refresh_arr_frame _ _).2.1]
  have hWnode : ∀ p, p ≠ node →
      (({ w.unlinked node with fired := (w.unlinked node).fired ++ calls }.released
        node j rest).data.node p).elem = (w.data.node p).elem ∧
      (({ w.unlinked node with fired := (w.unlinked node).fired ++ calls }.released
        node j rest).data.node p).kvs = (w.data.node p).kvs ∧
      (({ w.unlinked node with fired := (w.unlinked node).fired ++ calls }.released
        node j rest).data.node p).constraints = (w.data.node p).constraints := by
    intro p hp
    have := released_node_of_ne { w.unlinked node with fired := (w.unlinked node).fired ++ calls }
      node j rest p hp
    exact ⟨this.1, this.2.1, this.2.2.1⟩
  have hWidx : ∀ p, p ≠ node →
      (({ w.unlinked node with fired := (w.unlinked node).fired ++ calls }.released
        node j rest).data.node p).idx
        = (refresh_arr_loop w.data.node ((w.data.arr.eraseIdx j).drop j) j p).idx := by
    intro p hp
    rw [(released_node_of_ne _ node j rest p hp).2.2.2]
    simp only [refresh_arr, hjmax, if_false, World.unlinked, hidx]
  have hWls : ({ w.unlinked node with fired := (w.unlinked node).fired ++ calls }.released
      node j rest).listeners = Function.update w.listeners (w.data.node node).elem.addr rest := by
    simp only [World.released, World.unlinked, ((refresh_arr_frame _ _).2.2.2 node).1]
  have hWbrk : ({ w.unlinked node with fired := (w.unlinked node).fired ++ calls }.released
      node j rest).brk = w.brk := rfl
  refine ⟨?_, hWarr, hj⟩
  constructor
  · rw [hWarr, hWelems, hin, harr]
    exact h.perm.erase _
  · rw [hWarr]; exact hnd'
  · intro i p hp
    rw [hWarr] at hp
    have hpm : p ∈ w.data.arr.eraseIdx j := List.getElem?_mem hp
    rw [hWidx p (hne p hpm)]
    by_cases hij : i < j
    · rw [(refresh_arr_fields w.data.node _ j p).2.2.2.2 (not_mem_drop_of_lt hnd' hp hij)]
      rw [List.getElem?_eraseIdx_of_lt _ _ _ hij] at hp
      exact h.idx i p hp
    · have hd : ((w.data.arr.eraseIdx j).drop j)[i - j]? = some p := by
        rw [List.getElem?_drop]
        have : j + (i - j) = i := by omega
        rw [this]; exact hp
      rw [refresh_arr_idx w.data.node _ j (hnd'.sublist (List.drop_sublist _ _)) (i - j) p hd]
      omega
  · rw [hWelems, hin]
    have hs : ascending cmp w.key (w.data.elems.inorder.erase node) :=
      List.Pairwise.sublist (List.erase_sublist _ _) h.sorted
    refine ascending_congr hs ?_
    intro p hp
    have hpn : p ≠ node := fun e => (hindup.not_mem_erase) (e ▸ hp)
    simp only [World.key, (hWnode p hpn).2.1]
  · intro p hp
    rw [hWarr] at hp
    rw [hWbrk]
    exact h.fresh p (hsub p hp)
  · rw [hWarr]
    exact le_trans (List.length_eraseIdx_le _ _) h.capacity
  · intro p hp
    rw [hWarr] at hp
    obtain ⟨lp, h1, h2, x, hx, hxl⟩ := h.constraints p (hsub p hp)
    have hlne : lp ≠ l := by
      intro e
      apply hne p hp
      apply h.handles p (hsub p hp) node hnode
      rw [h1, hl, e]
    rw [(hWnode p (hne p hp)).2.2, (hWnode p (hne p hp)).1, hWls, hWbrk]
    refine ⟨lp, h1, h2, x, ?_, hxl⟩
    by_cases ha : (w.data.node p).elem.addr = (w.data.node node).elem.addr
    · rw [ha, Function.update_same]
      rw [ha] at hx
      exact revoke_loop_mem l _ _ hr x hx (hxl ▸ hlne)
    · rw [Function.update_noteq ha]; exact hx
  · intro p hp q hq hpq
    rw [hWarr] at hp hq
    rw [(hWnode p (hne p hp)).2.2, (hWnode q (hne q hq)).2.2] at hpq
    exact h.handles p (hsub p hp) q (hsub q hq) hpq
  · intro a
    rw [hWls]
    by_cases ha : a = (w.data.node node).elem.addr
    · subst ha
      rw [Function.update_same]
      exact shape_sublist (revoke_loop_sublist l _ _ hr) (h.shape _)
    · rw [Function.update_noteq ha]; exact h.shape a

theorem set_inv_fired {cmp : variant_cmp} {w : World} (h : set_inv cmp w)
    (calls : List pcvar_call) : set_inv cmp { w with fired := w.fired ++ calls } :=
  set_inv_frame h rfl rfl (fun _ _ => rfl) rfl (le_refl _)

theorem set_inv_error {cmp : variant_cmp} {w : World} (h : set_inv cmp w)
    (e : purc_error) : set_inv cmp (pcinst_set_error w e) :=
  set_inv_frame h rfl rfl (fun _ _ => rfl) rfl (le_refl _)

/-- Every way `set_remove` can return on a member of a well-formed set: vetoed by a
pre-listener (nothing but the trace changes), or done. -/
theorem set_remove_cases {cmp : variant_cmp} {w : World} (h : set_inv cmp w)
    (node : Nat) (hnode : node ∈ w.data.arr) (check : Bool) (r : Int) (w' : World)
    (hrun : set_remove w node check = some (r, w')) :
    (r = -1 ∧ shrink w (w.data.node node).elem check = some (false, w')) ∨
    (r = 0 ∧ ∃ ws w3 l rest,
      shrink w (w.data.node node).elem check = some (true, ws) ∧
      shrunk (ws.unlinked node) (ws.data.node node).elem check = some w3 ∧
      (w.data.node node).constraints = some l ∧
      revoke_loop l (w.listeners (w.data.node node).elem.addr) = some rest ∧
      w' = w3.released node (w.data.node node).idx rest) := by
  obtain ⟨l, hl, _, hx⟩ := h.constraints node hnode
  obtain ⟨rest, hr⟩ := revoke_loop_some l _ hx
  obtain ⟨j, hj⟩ := List.getElem?_of_mem hnode
  have hidx : (w.data.node node).idx = j := h.idx j node hj
  have hjlt : j < w.data.arr.length := (List.getElem?_eq_some.1 hj).1
  cases hs : shrink w (w.data.node node).elem check with
  | none => unfold set_remove at hrun; rw [hs] at hrun; simp at hrun
  | some res =>
    obtain ⟨b, ws⟩ := res
    obtain ⟨calls, hws⟩ := shrink_frame _ _ _ _ _ hs
    subst hws
    cases b with
    | false =>
      rw [set_remove_vetoed w _ node check hs] at hrun
      simp only [Option.some.injEq, Prod.mk.injEq] at hrun
      left
      rw [← hrun.1, ← hrun.2]
      exact ⟨rfl, rfl⟩
    | true =>
      right
      cases hp : shrunk (World.unlinked { w with fired := w.fired ++ calls } node)
          (w.data.node node).elem check with
      | none =>
        unfold set_remove at hrun
        rw [hs] at hrun
        simp only [hidx, not_le.2 hjlt, if_false] at hrun
        simp only [World.unlinked, hidx] at hp
        rw [hp] at hrun
        simp at hrun
      | some w3 =>
        rw [set_remove_allowed w _ w3 node check l rest hs
          (by rw [hidx]; exact hjlt) hp hl hr] at hrun
        simp only [Option.some.injEq, Prod.mk.injEq] at hrun
        exact ⟨hrun.1.symm, _, w3, l, rest, rfl, hp, hl, hr, hrun.2.symm⟩

theorem set_remove_inv {cmp : variant_cmp} {w : World} (h : set_inv cmp w)
    (node : Nat) (hnode : node ∈ w.data.arr) (check : Bool) (r : Int) (w' : World)
    (hrun : set_remove w node check = some (r, w')) : set_inv cmp w' := by
  rcases set_remove_cases h node hnode check r w' hrun with ⟨_, hs⟩ | ⟨_, ws, w3, l, rest, hs, hp, hl, hr, rfl⟩
  · obtain ⟨calls, rfl⟩ := shrink_frame _ _ _ _ _ hs
    exact set_inv_fired h calls
  · obtain ⟨calls, rfl⟩ := shrink_frame _ _ _ _ _ hs
    obtain ⟨calls3, h3⟩ := shrunk_frame _ _ _ _ hp
    have := inv_released (set_inv_fired h calls) node l rest hnode ⟨calls3, h3⟩ hl hr
    exact this.1

theorem kvs_from_val_frame (w : World) (v : pcv_object) :
    (variant_set_kvs_from_val w v).2.data = w.data ∧
    (variant_set_kvs_from_val w v).2.listeners = w.listeners ∧
    (variant_set_kvs_from_val w v).2.set = w.set ∧
    (variant_set_kvs_from_val w v).2.fired = w.fired ∧
    (variant_set_kvs_from_val w v).2.last_error = w.last_error ∧
    w.brk ≤ (variant_set_kvs_from_val w v).2.brk := by
  unfold variant_set_kvs_from_val
  cases w.data.keynames <;> simp

theorem kvs_from_val_mem (w : World) (v : pcv_object) :
    (variant_set_kvs_from_val w v).2.mem = w.mem := by
  unfold variant_set_kvs_from_val
  cases w.data.keynames <;> rfl

theorem set_inv_kvs {cmp : variant_cmp} {w : World} (h : set_inv cmp w) (v : pcv_object) :
    set_inv cmp (variant_set_kvs_from_val w v).2 := by
  have hf := kvs_from_val_frame w v
  exact set_inv_frame h (by rw [hf.1]) (by rw [hf.1]) (fun p _ => by rw [hf.1]) hf.2.1
    hf.2.2.2.2.2

theorem insert_full (cmp : variant_cmp) (w wg : World) (val kvs : pcv_object)
    (parent : Option Nat) (pnode : List Bool) (check : Bool)
    (hg : grow w val check = some (true, wg)) (hcap : SIZE_MAX ≤ wg.data.arr.length) :
    ∃ w', insert cmp w val kvs parent pnode check = some (-1, w') ∧
      w'.data.arr = wg.data.arr ∧ w'.data.elems = wg.data.elems ∧
      (∀ p, p ≠ wg.brk → w'.data.node p = wg.data.node p) ∧
      w'.listeners = wg.listeners ∧ wg.brk ≤ w'.brk ∧ w'.fired = wg.fired := by
  have hk := kvs_from_val_frame { wg with brk := wg.brk + 1 } val
  unfold insert
  rw [hg]
  simp only [variant_set_create_elem_node, World.set_node, hk.1, hcap, if_true,
    elem_node_release, elem_node_revoke_constraints, Function.update_same,
    Function.update_idem, Option.map_some']
  refine ⟨_, rfl, rfl, rfl, ?_, hk.2.1, ?_, hk.2.2.2.1⟩
  · intro p hp
    simp only [Function.update_noteq hp]
  · have := hk.2.2.2.2.2
    show wg.brk ≤ (variant_set_kvs_from_val { wg with brk := wg.brk + 1 } val).2.brk
    exact le_trans (Nat.le_succ _) this

theorem insert_inv {cmp : variant_cmp} (hc : cmp_total cmp) {w : World} (h : set_inv cmp w)
    (val kvs : pcv_object) (parent : Option Nat) (check : Bool)
    (hk : kvs.fields = w.kvs_of val)
    (hnone : (find_element_rb_node_loop cmp w.data.node kvs w.data.elems parent).entry = none)
    (r : Int) (w' : World)
    (hrun : insert cmp w val kvs parent
      (find_element_rb_node_loop cmp w.data.node kvs w.data.elems parent).pnode check
        = some (r, w')) : set_inv cmp w' := by
  cases hg : grow w val check with
  | none => unfold insert at hrun; rw [hg] at hrun; simp at hrun
  | some res =>
    obtain ⟨b, wg⟩ := res
    obtain ⟨calls, hwg⟩ := grow_frame _ _ _ _ _ hg
    subst hwg
    cases b with
    | false =>
      unfold insert at hrun
      rw [hg] at hrun
      simp only [Option.some.injEq, Prod.mk.injEq] at hrun
      rw [← hrun.2]
      exact set_inv_fired h calls
    | true =>
      by_cases hcap : w.data.arr.length < SIZE_MAX
      · rw [insert_allowed cmp w _ val kvs parent _ check hg hcap] at hrun
        simp only [Option.map_eq_some', Prod.mk.injEq] at hrun
        obtain ⟨w3, hw3, _, rfl⟩ := hrun
        obtain ⟨calls3, rfl⟩ := grown_frame _ _ _ _ hw3
        have := inv_inserted hc (set_inv_fired h calls) val kvs parent
          (hk.trans (kvs_fields_indep w { w with fired := w.fired ++ calls } val rfl).symm)
          hnone hcap
        exact set_inv_fired this calls3
      · obtain ⟨w2, h2, ha, he, hn, hl, hb, _⟩ :=
          insert_full cmp w _ val kvs parent
            (find_element_rb_node_loop cmp w.data.node kvs w.data.elems parent).pnode check hg
            (not_lt.1 hcap)
        rw [h2] at hrun
        simp only [Option.some.injEq, Prod.mk.injEq] at hrun
        rw [← hrun.2]
        refine set_inv_frame h ha he ?_ hl hb
        intro p hp
        exact hn p (fun e => lt_irrefl _ (e ▸ h.fresh p hp))

theorem set_inv_union {cmp : variant_cmp} {w : World} (h : set_inv cmp w)
    (old new : pcv_object) : set_inv cmp (variant_set_union w old new).2 :=
  set_inv_frame h rfl rfl (fun _ _ => rfl) rfl (Nat.le_succ _)

theorem insert_or_replace_inv {cmp : variant_cmp} (hc : cmp_total cmp) {w : World}
    (h : set_inv cmp w) (val : pcv_object) (overwrite check : Bool) (r : Int) (w' : World)
    (hrun : insert_or_replace cmp w val overwrite check = some (r, w')) : set_inv cmp w' := by
  have h1 := set_inv_kvs h val
  have hf := kvs_from_val_frame w val
  unfold insert_or_replace at hrun
  simp only at hrun
  cases he : (find_element_rb_node cmp (variant_set_kvs_from_val w val).2.data
      (variant_set_kvs_from_val w val).1).entry with
  | none =>
    rw [he] at hrun
    simp only [Option.map_eq_some', Prod.mk.injEq] at hrun
    obtain ⟨⟨r0, w0⟩, hins, _, rfl⟩ := hrun
    exact insert_inv hc h1 val _ none check
      (kvs_fields_indep w (variant_set_kvs_from_val w val).2 val (by rw [hf.1])).symm he r0 _ hins
  | some curr =>
    rw [he] at hrun
    simp only at hrun
    obtain ⟨hmem, hkey⟩ := find_loop_some cmp _ _ _ none curr he
    have hcurr : curr ∈ (variant_set_kvs_from_val w val).2.data.arr := h1.perm.mem_iff.1 hmem
    by_cases how : overwrite = true
    · simp only [how, Bool.not_true, Bool.false_eq_true, if_false] at hrun
      split_ifs at hrun with hptr
      · simp only [Option.some.injEq, Prod.mk.injEq] at hrun
        rw [← hrun.2]; exact h1
      · have hu := set_inv_union h1
          ((variant_set_kvs_from_val w val).2.data.node curr).elem val
        cases hch : change (variant_set_union (variant_set_kvs_from_val w val).2
            ((variant_set_kvs_from_val w val).2.data.node curr).elem val).2
            ((variant_set_union (variant_set_kvs_from_val w val).2
              ((variant_set_kvs_from_val w val).2.data.node curr).elem val).2.data.node curr).elem
            (variant_set_union (variant_set_kvs_from_val w val).2
              ((variant_set_kvs_from_val w val).2.data.node curr).elem val).1 check with
        | none => rw [hch] at hrun; simp at hrun
        | some res =>
          obtain ⟨b, wc⟩ := res
          rw [hch] at hrun
          obtain ⟨calls, hwc⟩ := change_frame _ _ _ _ _ _ hch
          have hinvc : set_inv cmp wc := by rw [hwc]; exact set_inv_fired hu calls
          cases b with
          | false =>
            simp only [Option.some.injEq, Prod.mk.injEq] at hrun
            rw [← hrun.2]; exact hinvc
          | true =>
            simp only at hrun
            have hcurrc : curr ∈ wc.data.arr := by rw [hwc]; exact hcurr
            obtain ⟨l, hl, _, hx⟩ := hinvc.constraints curr hcurrc
            obtain ⟨rest, hr⟩ := revoke_loop_some l _ hx
            rw [replace_eq cmp wc curr _ _ l rest hl hr] at hrun
            simp only [ne_eq, not_true_eq_false, if_false, Option.map_eq_some',
              Prod.mk.injEq] at hrun
            obtain ⟨w3, hw3, _, rfl⟩ := hrun
            obtain ⟨calls3, rfl⟩ := changed_frame _ _ _ _ _ hw3
            refine set_inv_fired (inv_replaced hc hinvc curr _ _ l rest hcurrc ?_ hl hr) calls3
            rw [hwc]
            exact hkey
    · simp only [how, Bool.not_false, if_true, Option.some.injEq, Prod.mk.injEq] at hrun
      rw [← hrun.2]
      exact set_inv_error h1 _

theorem inv_sort {cmp : variant_cmp} {w : World} (h : set_inv cmp w) :
    set_inv cmp (pcvariant_set_sort cmp w).2 := by
  have hperm : (w.data.arr.insertionSort
      (fun l r => cmp_variant cmp w.data.node l r ≤ 0)).Perm w.data.arr :=
    List.perm_insertionSort _ _
  have hnd : (w.data.arr.insertionSort
      (fun l r => cmp_variant cmp w.data.node l r ≤ 0)).Nodup := hperm.nodup_iff.2 h.nodup
  have h0 : (0 : Nat) ≠ SIZE_MAX := by decide
  have hnode : ∀ p, ((pcvariant_set_sort cmp w).2.data.node p).elem = (w.data.node p).elem ∧
      ((pcvariant_set_sort cmp w).2.data.node p).kvs = (w.data.node p).kvs ∧
      ((pcvariant_set_sort cmp w).2.data.node p).constraints = (w.data.node p).constraints := by
    intro p
    simp only [pcvariant_set_sort]
    exact ⟨((refresh_arr_frame _ 0).2.2.2 p).1, ((refresh_arr_frame _ 0).2.2.2 p).2.1,
      ((refresh_arr_frame _ 0).2.2.2 p).2.2.2⟩
  have harr : (pcvariant_set_sort cmp w).2.data.arr = w.data.arr.insertionSort
      (fun l r => cmp_variant cmp w.data.node l r ≤ 0) := by
    simp only [pcvariant_set_sort, (refresh_arr_frame _ _).1]
  have helems : (pcvariant_set_sort cmp w).2.data.elems = w.data.elems := by
    simp only [pcvariant_set_sort, (refresh_arr_frame _ _).2.1]
  constructor
  · rw [harr, helems]; exact h.perm.trans hperm.symm
  · rw [harr]; exact hnd
  · intro i p hp
    rw [harr] at hp
    simp only [pcvariant_set_sort, refresh_arr, h0, if_false, List.drop_zero]
    rw [refresh_arr_idx w.data.node _ 0 hnd i p hp]
    omega
  · rw [helems]
    refine ascending_congr h.sorted ?_
    intro p _
    simp only [World.key, (hnode p).2.1]
  · intro p hp
    rw [harr] at hp
    exact h.fresh p (hperm.mem_iff.1 hp)
  · rw [harr, hperm.length_eq]; exact h.capacity
  · intro p hp
    rw [harr] at hp
    rw [(hnode p).2.2, (hnode p).1]
    exact h.constraints p (hperm.mem_iff.1 hp)
  · intro p hp q hq
    rw [harr] at hp hq
    rw [(hnode p).2.2, (hnode q).2.2]
    exact h.handles p (hperm.mem_iff.1 hp) q (hperm.mem_iff.1 hq)
  · exact h.shape

theorem inv_register_pre {cmp : variant_cmp} {w : World} (h : set_inv cmp w)
    (v : purc_variant) (op : Nat) (handler : pcvar_op_handler) (ctxt : Nat) :
    set_inv cmp (purc_variant_register_pre_listener w (some v) op (some handler) ctxt).2 := by
  by_cases hok : IS_CONTAINER v = true ∧ op &&& PCVAR_OPERATION_ALL = op ∧ op ≠ 0
  · rw [register_pre_ok w v op handler ctxt hok.1 hok.2.1 hok.2.2]
    constructor
    · exact h.perm
    · exact h.nodup
    · exact h.idx
    · exact h.sorted
    · intro p hp; exact Nat.lt_succ_of_lt (h.fresh p hp)
    · exact h.capacity
    · intro p hp
      obtain ⟨l, h1, h2, x, hx, hxl⟩ := h.constraints p hp
      refine ⟨l, h1, Nat.lt_succ_of_lt h2, x, ?_, hxl⟩
      show x ∈ Function.update w.listeners v.addr _ _
      by_cases ha : (w.data.node p).elem.addr = v.addr
      · rw [ha, Function.update_same]
        rw [ha] at hx
        exact List.mem_cons_of_mem _ hx
      · rw [Function.update_noteq ha]; exact hx
    · exact h.handles
    · intro a
      show pre_then_post (Function.update w.listeners v.addr _ a)
      by_cases ha : a = v.addr
      · subst ha
        rw [Function.update_same]
        exact shape_cons_pre (by simp [PCVAR_LISTENER_PRE, PCVAR_LISTENER_PRE_OR_POST])
          (h.shape _)
      · rw [Function.update_noteq ha]; exact h.shape a
  · obtain ⟨e, he⟩ := register_pre_fail w v op handler ctxt hok
    rw [he]
    exact set_inv_error h e

theorem inv_register_post {cmp : variant_cmp} {w : World} (h : set_inv cmp w)
    (v : purc_variant) (op : Nat) (handler : pcvar_op_handler) (ctxt : Nat) :
    set_inv cmp (purc_variant_register_post_listener w (some v) op (some handler) ctxt).2 := by
  by_cases hok : IS_CONTAINER v = true ∧ op &&& PCVAR_OPERATION_ALL = op ∧ op ≠ 0
  · rw [register_post_ok w v op handler ctxt hok.1 hok.2.1 hok.2.2]
    constructor
    · exact h.perm
    · exact h.nodup
    · exact h.idx
    · exact h.sorted
    · intro p hp; exact Nat.lt_succ_of_lt (h.fresh p hp)
    · exact h.capacity
    · intro p hp
      obtain ⟨l, h1, h2, x, hx, hxl⟩ := h.constraints p hp
      refine ⟨l, h1, Nat.lt_succ_of_lt h2, x, ?_, hxl⟩
      show x ∈ Function.update w.listeners v.addr _ _
      by_cases ha : (w.data.node p).elem.addr = v.addr
      · rw [ha, Function.update_same]
        rw [ha] at hx
        exact List.mem_append_left _ hx
      · rw [Function.update_noteq ha]; exact hx
    · exact h.handles
    · intro a
      show pre_then_post (Function.update w.listeners v.addr _ a)
      by_cases ha : a = v.addr
      · subst ha
        rw [Function.update_same]
        exact shape_append_post
          (by simp [PCVAR_LISTENER_PRE, PCVAR_LISTENER_POST, PCVAR_LISTENER_PRE_OR_POST])
          (h.shape _)
      · rw [Function.update_noteq ha]; exact h.shape a
  · obtain ⟨e, he⟩ := register_post_fail w v op handler ctxt hok
    rw [he]
    exact set_inv_error h e

theorem set_add_inv {cmp : variant_cmp} (hc : cmp_total cmp) {w : World} (h : set_inv cmp w)
    (value : purc_variant) (overwrite : Bool) (r : Bool) (w' : World)
    (hrun : purc_variant_set_add cmp w value overwrite = some (r, w')) : set_inv cmp w' := by
  cases value with
  | object o =>
    simp only [purc_variant_set_add, variant_set_add_val, Option.map_map,
      Option.map_eq_some', Function.comp, Prod.mk.injEq] at hrun
    obtain ⟨⟨r0, w0⟩, hior, _, rfl⟩ := hrun
    exact insert_or_replace_inv hc h o overwrite true r0 _ hior
  | undefined =>
    simp only [purc_variant_set_add, Option.some.injEq, Prod.mk.injEq] at hrun
    rw [← hrun.2]; exact set_inv_error h _
  | scalar v =>
    simp only [purc_variant_set_add, Option.some.injEq, Prod.mk.injEq] at hrun
    rw [← hrun.2]; exact set_inv_error h _
  | array a =>
    simp only [purc_variant_set_add, Option.some.injEq, Prod.mk.injEq] at hrun
    rw [← hrun.2]; exact set_inv_error h _
  | set a =>
    simp only [purc_variant_set_add, Option.some.injEq, Prod.mk.injEq] at hrun
    rw [← hrun.2]; exact set_inv_error h _

theorem set_remove_by_index_inv {cmp : variant_cmp} {w : World} (h : set_inv cmp w)
    (idx : Int) (r : Option pcv_object) (w' : World)
    (hrun : purc_variant_set_remove_by_index w idx = some (r, w')) : set_inv cmp w' := by
  unfold purc_variant_set_remove_by_index at hrun
  split_ifs at hrun with hneg
  · simp only [Option.some.injEq, Prod.mk.injEq] at hrun
    rw [← hrun.2]; exact set_inv_error h _
  · cases hget : w.data.arr[idx.toNat]? with
    | none =>
      rw [hget] at hrun
      simp only [Option.some.injEq, Prod.mk.injEq] at hrun
      rw [← hrun.2]; exact set_inv_error h _
    | some elem =>
      rw [hget] at hrun
      simp only at hrun
      split_ifs at hrun
      simp only [Option.map_eq_some', Prod.mk.injEq] at hrun
      obtain ⟨⟨r0, w0⟩, hrem, _, rfl⟩ := hrun
      exact set_remove_inv h elem (List.getElem?_mem hget) true r0 _ hrem

theorem set_remove_value_inv {cmp : variant_cmp} {w : World} (h : set_inv cmp w)
    (value : purc_variant) (silently : Bool) (r : Bool) (w' : World)
    (hrun : purc_variant_set_remove cmp w value silently = some (r, w')) : set_inv cmp w' := by
  cases value with
  | object o =>
    simp only [purc_variant_set_remove] at hrun
    have h1 := set_inv_kvs h o
    cases hf : find_element cmp (variant_set_kvs_from_val w o).2.data
        (variant_set_kvs_from_val w o).1 with
    | none =>
      rw [hf] at hrun
      simp only [Option.some.injEq, Prod.mk.injEq] at hrun
      rw [← hrun.2]; exact h1
    | some p =>
      rw [hf] at hrun
      simp only [Option.map_eq_some', Prod.mk.injEq] at hrun
      obtain ⟨⟨r0, w0⟩, hrem, _, rfl⟩ := hrun
      have hp := (find_loop_some cmp _ _ _ none p hf).1
      exact set_remove_inv h1 p (h1.perm.mem_iff.1 hp) true r0 _ hrem
  | undefined => simp [purc_variant_set_remove] at hrun
  | scalar v => simp [purc_variant_set_remove] at hrun
  | array a => simp [purc_variant_set_remove] at hrun
  | set a => simp [purc_variant_set_remove] at hrun

theorem set_remove_key_inv {cmp : variant_cmp} {w : World} (h : set_inv cmp w)
    (vs : List purc_variant) (r : Option pcv_object) (w' : World)
    (hrun : purc_variant_set_remove_member_by_key_values cmp w vs = some (r, w')) :
    set_inv cmp w' := by
  unfold purc_variant_set_remove_member_by_key_values at hrun
  cases hk : w.data.keynames with
  | none =>
    rw [hk] at hrun
    simp only [Option.some.injEq, Prod.mk.injEq] at hrun
    rw [← hrun.2]; exact set_inv_error h _
  | some keynames =>
    rw [hk] at hrun
    simp only [variant_set_create_kvs_n] at hrun
    have hb : set_inv cmp { w with brk := w.brk + 1 } :=
      set_inv_frame h rfl rfl (fun _ _ => rfl) rfl (Nat.le_succ _)
    cases hc : create_kvs_n_loop keynames vs [] with
    | none =>
      rw [hc] at hrun
      simp only [Option.some.injEq, Prod.mk.injEq] at hrun
      rw [← hrun.2]; exact set_inv_error hb _
    | some kvs =>
      rw [hc] at hrun
      simp only at hrun
      cases hf : find_element cmp w.data ⟨w.brk, kvs⟩ with
      | none =>
        rw [hf] at hrun
        simp only [Option.some.injEq, Prod.mk.injEq] at hrun
        rw [← hrun.2]; exact set_inv_error hb _
      | some p =>
        rw [hf] at hrun
        simp only [Option.map_eq_some', Prod.mk.injEq] at hrun
        obtain ⟨⟨r0, w0⟩, hrem, _, rfl⟩ := hrun
        have hp := (find_loop_some cmp _ _ _ none p hf).1
        exact set_remove_inv hb p (h.perm.mem_iff.1 hp) true r0 _ hrem

theorem set_by_index_inv {cmp : variant_cmp} (hc : cmp_total cmp) {w : World}
    (h : set_inv cmp w) (idx : Int) (val : purc_variant) (r : Bool) (w' : World)
    (hrun : purc_variant_set_set_by_index cmp w idx val = some (r, w')) : set_inv cmp w' := by
  unfold purc_variant_set_set_by_index at hrun
  split_ifs at hrun with hneg
  · simp only [Option.some.injEq, Prod.mk.injEq] at hrun
    rw [← hrun.2]; exact set_inv_error h _
  · cases hget : w.data.arr[idx.toNat]? with
    | none =>
      rw [hget] at hrun
      simp only [Option.some.injEq, Prod.mk.injEq] at hrun
      rw [← hrun.2]; exact set_inv_error h _
    | some elem =>
      rw [hget] at hrun
      simp only at hrun
      split_ifs at hrun with hsame
      · simp only [Option.some.injEq, Prod.mk.injEq] at hrun
        rw [← hrun.2]; exact h
      · cases hrem : purc_variant_set_remove_by_index w idx with
        | none => rw [hrem] at hrun; simp at hrun
        | some res =>
          obtain ⟨v, w1⟩ := res
          rw [hrem] at hrun
          have h1 := set_remove_by_index_inv h idx v w1 hrem
          cases v with
          | none => simp at hrun
          | some v =>
            simp only at hrun
            cases hadd : purc_variant_set_add cmp w1 val true with
            | none => rw [hadd] at hrun; simp at hrun
            | some res2 =>
              obtain ⟨b, w2⟩ := res2
              rw [hadd] at hrun
              have h2 := set_add_inv hc h1 val true b w2 hadd
              cases b with
              | false => simp at hrun
              | true =>
                simp only [Option.some.injEq, Prod.mk.injEq] at hrun
                rw [← hrun.2]; exact h2

theorem set_call_inv {cmp : variant_cmp} (hc : cmp_total cmp) {w : World}
    (h : set_inv cmp w) (c : set_call) (w' : World) (hrun : c.run cmp w = some w') :
    set_inv cmp w' := by
  cases c with
  | add value overwrite =>
    simp only [set_call.run, Option.map_eq_some'] at hrun
    obtain ⟨⟨r, w0⟩, h0, rfl⟩ := hrun
    exact set_add_inv hc h value overwrite r _ h0
  | remove value silently =>
    simp only [set_call.run, Option.map_eq_some'] at hrun
    obtain ⟨⟨r, w0⟩, h0, rfl⟩ := hrun
    exact set_remove_value_inv h value silently r _ h0
  | remove_member_by_key_values vs =>
    simp only [set_call.run, Option.map_eq_some'] at hrun
    obtain ⟨⟨r, w0⟩, h0, rfl⟩ := hrun
    exact set_remove_key_inv h vs r _ h0
  | remove_by_index idx =>
    simp only [set_call.run, Option.map_eq_some'] at hrun
    obtain ⟨⟨r, w0⟩, h0, rfl⟩ := hrun
    exact set_remove_by_index_inv h idx r _ h0
  | set_by_index idx val =>
    simp only [set_call.run, Option.map_eq_some'] at hrun
    obtain ⟨⟨r, w0⟩, h0, rfl⟩ := hrun
    exact set_by_index_inv hc h idx val r _ h0
  | sort =>
    simp only [set_call.run, Option.some.injEq] at hrun
    rw [← hrun]; exact inv_sort h
  | register_pre op handler ctxt =>
    simp only [set_call.run, Option.some.injEq] at hrun
    rw [← hrun]; exact inv_register_pre h _ op handler ctxt
  | register_post op handler ctxt =>
    simp only [set_call.run, Option.some.injEq] at hrun
    rw [← hrun]; exact inv_register_post h _ op handler ctxt

theorem run_calls_inv {cmp : variant_cmp} (hc : cmp_total cmp) :
    ∀ (calls : List set_call) (w w' : World), set_inv cmp w →
      run_calls cmp calls w = some w' → set_inv cmp w' := by
  intro calls
  induction calls with
  | nil =>
    intro w w' h hrun
    simp only [run_calls, Option.some.injEq] at hrun
    rw [← hrun]; exact h
  | cons c cs ih =>
    intro w w' h hrun
    unfold run_calls at hrun
    cases hc1 : c.run cmp w with
    | none => rw [hc1] at hrun; simp at hrun
    | some w1 =>
      rw [hc1] at hrun
      exact ih w1 w' (set_call_inv hc h c w1 hc1) hrun

theorem set_inv_empty (cmp : variant_cmp) (w : World) (he : w.data.elems = .nil)
    (ha : w.data.arr = []) (hl : ∀ a, w.listeners a = []) : set_inv cmp w := by
  constructor
  · rw [he, ha]; exact List.Perm.nil
  · rw [ha]; exact List.nodup_nil
  · intro i p hp; rw [ha] at hp; simp at hp
  · rw [he]; exact List.Pairwise.nil
  · intro p hp; rw [ha] at hp; simp at hp
  · rw [ha]; simp
  · intro p hp; rw [ha] at hp; simp at hp
  · intro p hp; rw [ha] at hp; simp at hp
  · intro a; rw [hl a]; exact List.Pairwise.nil

/-- Every reachable world satisfies the invariant of the set container. -/
theorem reachable_inv {cmp : variant_cmp} (hc : cmp_total cmp) {w : World}
    (h : reachable cmp w) : set_inv cmp w := by
  obtain ⟨w0, calls, he, ha, hl, hrun⟩ := h
  exact run_calls_inv hc calls w0 w (set_inv_empty cmp w0 he ha hl) hrun

theorem ex_set_run : run_calls ex_cmp ex_calls ex_world = some ex_set := by
  rfl

theorem ex_set_reachable : reachable ex_cmp ex_set :=
  ⟨ex_world, ex_calls, rfl, rfl, fun _ => rfl, ex_set_run⟩

theorem sort_of_ascending {cmp : variant_cmp} (hc : cmp_total cmp)
    (key : Nat → List (String × pcv_value)) (l1 l2 : List Nat) (hp : l1.Perm l2)
    (hs : ascending cmp key l1) :
    l2.insertionSort (fun a b => cmp (key a) (key b) ≤ 0) = l1 := by
  have htot : IsTotal Nat (fun a b => cmp (key a) (key b) ≤ 0) :=
    ⟨fun a b => by
      have := hc.antisymm (key b) (key a)
      by_cases h : cmp (key a) (key b) ≤ 0
      · exact Or.inl h
      · exact Or.inr (le_of_lt (this.2 (by omega)))⟩
  have htr : IsTrans Nat (fun a b => cmp (key a) (key b) ≤ 0) :=
    ⟨fun a b c hab hbc => hc.trans _ _ _ hab hbc⟩
  have hanti : IsAntisymm Nat (fun a b => cmp (key a) (key b) < 0) :=
    ⟨fun a b hab hba => by
      have := hc.antisymm (key a) (key b)
      have := this.1 hab
      omega⟩
  have hsorted : (l2.insertionSort (fun a b => cmp (key a) (key b) ≤ 0)).Pairwise
      (fun a b => cmp (key a) (key b) ≤ 0) := List.sorted_insertionSort _ l2
  have hperm : (l2.insertionSort (fun a b => cmp (key a) (key b) ≤ 0)).Perm l1 :=
    (List.perm_insertionSort _ l2).trans hp.symm
  have hnd1 : l1.Nodup := by
    refine List.Pairwise.imp ?_ hs
    intro a b hab e
    rw [e] at hab
    have := hc.refl (key b)
    omega
  have hnd : (l2.insertionSort (fun a b => cmp (key a) (key b) ≤ 0)).Nodup :=
    hperm.nodup_iff.2 hnd1
  have hsym : Symmetric (fun a b : Nat => cmp (key a) (key b) < 0 ∨ cmp (key b) (key a) < 0) :=
    fun a b h => h.symm
  have hall := List.Pairwise.forall hsym (List.Pairwise.imp (fun h => Or.inl h) hs)
  have hstrict : (l2.insertionSort (fun a b => cmp (key a) (key b) ≤ 0)).Pairwise
      (fun a b => cmp (key a) (key b) < 0) := by
    refine List.Pairwise.imp_of_mem ?_ (List.Pairwise.and hsorted hnd)
    intro a b ha hb hab
    rcases hall (hperm.mem_iff.1 ha) (hperm.mem_iff.1 hb) hab.2 with h | h
    · exact h
    · have := (hc.antisymm (key b) (key a)).1 h
      omega
  exact List.eq_of_perm_of_sorted hperm hstrict hs

/-! ## Claims on the invariants of the set container -/

/-- C1: in every set reached from an empty one by add, remove (by value, by key values, by
index), replace-by-index and sort, the ordered index and the positional array hold the
same member nodes, and the ascending traversal of the ordered index is the array sorted by
the cached key projections. -/
theorem C1_indices_agree {cmp : variant_cmp} (hc : cmp_total cmp) (w : World)
    (hw : reachable cmp w) :
    w.data.elems.inorder.Perm w.data.arr ∧ w.data.arr.Nodup ∧
    w.data.elems.inorder
      = w.data.arr.insertionSort (fun l r => cmp_variant cmp w.data.node l r ≤ 0) := by
  have h := reachable_inv hc hw
  exact ⟨h.perm, h.nodup, (sort_of_ascending hc w.key _ _ h.perm h.sorted).symm⟩

theorem C1_indices_agree_witness :
    cmp_total ex_cmp ∧ reachable ex_cmp ex_set ∧
    ex_set.data.arr = [1003, 1010, 1014] ∧
    ex_set.data.elems.inorder = [1014, 1003, 1010] ∧
    (ex_set.data.elems.inorder.Perm ex_set.data.arr ∧ ex_set.data.arr.Nodup ∧
      ex_set.data.elems.inorder
        = ex_set.data.arr.insertionSort
            (fun l r => cmp_variant ex_cmp ex_set.data.node l r ≤ 0)) :=
  ⟨ex_cmp_total, ex_set_reachable, by decide, by decide,
    C1_indices_agree ex_cmp_total ex_set ex_set_reachable⟩

/-- C2: in every reachable set each member node's cached position is the index at which
the node is stored in the array, so the assertion `node->idx == idx` of `get_by_index` and
of `remove_by_index` holds for every index in range. -/
theorem C2_cached_position {cmp : variant_cmp} (hc : cmp_total cmp) (w : World)
    (hw : reachable cmp w) (i p : Nat) (hp : w.data.arr[i]? = some p) :
    (w.data.node p).idx = i ∧
    purc_variant_set_get_by_index w (i : Int) = some (some (w.data.node p).elem) ∧
    purc_variant_set_remove_by_index w (i : Int) =
      (set_remove w p true).map
        (fun r => (if r.1 ≠ 0 then none else some (w.data.node p).elem, r.2)) := by
  have h := reachable_inv hc hw
  have hidx := h.idx i p hp
  refine ⟨hidx, ?_, ?_⟩
  · simp [purc_variant_set_get_by_index, hp, hidx]
  · simp [purc_variant_set_remove_by_index, hp, hidx]

theorem C2_cached_position_witness :
    cmp_total ex_cmp ∧ reachable ex_cmp ex_set ∧ ex_set.data.arr[1]? = some 1010 ∧
    ((ex_set.data.node 1010).idx = 1 ∧
    purc_variant_set_get_by_index ex_set ((1 : Nat) : Int)
      = some (some (ex_set.data.node 1010).elem) ∧
    purc_variant_set_remove_by_index ex_set ((1 : Nat) : Int) =
      (set_remove ex_set 1010 true).map
        (fun r => (if r.1 ≠ 0 then none else some (ex_set.data.node 1010).elem, r.2))) :=
  ⟨ex_cmp_total, ex_set_reachable, by decide,
    C2_cached_position ex_cmp_total ex_set ex_set_reachable 1 1010 (by decide)⟩

/-- C3: in every reachable set no two distinct members have key projections that compare
equal under the comparator of the set. -/
theorem C3_unique_keys {cmp : variant_cmp} (hc : cmp_total cmp) (w : World)
    (hw : reachable cmp w) (i j p q : Nat) (hp : w.data.arr[i]? = some p)
    (hq : w.data.arr[j]? = some q) (hij : i ≠ j) :
    cmp (w.data.node p).kvs.fields (w.data.node q).kvs.fields ≠ 0 := by
  have h := reachable_inv hc hw
  have hpq : p ≠ q := by
    intro e
    rw [e] at hp
    exact hij (List.getElem?_inj (List.getElem?_eq_some.1 hp).1 h.nodup (hp.trans hq.symm))
  have hsym : Symmetric (fun a b : Nat => cmp (w.key a) (w.key b) < 0 ∨
      cmp (w.key b) (w.key a) < 0) := fun a b h => h.symm
  have hall := List.Pairwise.forall hsym (List.Pairwise.imp (fun h => Or.inl h) h.sorted)
  rcases hall (h.perm.mem_iff.2 (List.getElem?_mem hp)) (h.perm.mem_iff.2 (List.getElem?_mem hq))
    hpq with h1 | h1
  · exact ne_of_lt h1
  · have := (hc.antisymm _ _).1 h1
    exact (ne_of_lt this).symm

theorem C3_unique_keys_witness :
    cmp_total ex_cmp ∧ reachable ex_cmp ex_set ∧ ex_set.data.arr[0]? = some 1003 ∧
    ex_set.data.arr[2]? = some 1014 ∧ (0 : Nat) ≠ 2 ∧
    ex_cmp (ex_set.data.node 1003).kvs.fields (ex_set.data.node 1014).kvs.fields ≠ 0 :=
  ⟨ex_cmp_total, ex_set_reachable, by decide, by decide, by decide,
    C3_unique_keys ex_cmp_total ex_set ex_set_reachable 0 2 1003 1014 (by decide) (by decide)
      (by decide)⟩

/-! ## Lemmas: lookup and fire in a well-formed set -/

theorem find_loop_of_mem {cmp : variant_cmp} (hc : cmp_total cmp) (node : Nat → set_node)
    (kvs : pcv_object) (t : rb_node) (parent : Option Nat)
    (hs : ascending cmp (fun a => (node a).kvs.fields) t.inorder)
    (p : Nat) (hp : p ∈ t.inorder) (hk : cmp kvs.fields (node p).kvs.fields = 0) :
    (find_element_rb_node_loop cmp node kvs t parent).entry = some p := by
  cases he : (find_element_rb_node_loop cmp node kvs t parent).entry with
  | none =>
    obtain ⟨L, R, e1, _, hL, hR⟩ := find_loop_none hc node kvs 0 t parent hs he
    rw [e1] at hp
    rcases List.mem_append.1 hp with hp | hp
    · have := hL p hp
      have := hc.eq_symm hk
      omega
    · have := hR p hp
      omega
  | some q =>
    obtain ⟨hq, hkq⟩ := find_loop_some cmp node kvs t parent q he
    by_cases hpq : q = p
    · rw [hpq]
    · exfalso
      have hsym : Symmetric (fun a b : Nat => cmp (node a).kvs.fields (node b).kvs.fields < 0 ∨
          cmp (node b).kvs.fields (node a).kvs.fields < 0) := fun a b h => h.symm
      have hall := List.Pairwise.forall hsym (List.Pairwise.imp (fun h => Or.inl h) hs)
      rcases hall hq hp hpq with h1 | h1
      · have := hc.lt_of_le_of_lt (le_of_eq hkq) h1
        omega
      · have := hc.lt_of_le_of_lt (le_of_eq hk) h1
        omega

theorem find_none_of_new {cmp : variant_cmp} (node : Nat → set_node)
    (kvs : pcv_object) (t : rb_node) (parent : Option Nat)
    (hnew : ∀ p ∈ t.inorder, cmp kvs.fields (node p).kvs.fields ≠ 0) :
    (find_element_rb_node_loop cmp node kvs t parent).entry = none := by
  cases he : (find_element_rb_node_loop cmp node kvs t parent).entry with
  | none => rfl
  | some q =>
    obtain ⟨hq, hkq⟩ := find_loop_some cmp node kvs t parent q he
    exact absurd hkq (hnew q hq)

theorem post_loop_some (mem : pcvar_memory) (source : purc_variant) (op : Nat)
    (argv : List purc_variant) :
    ∀ rs : List pcvar_listener,
      (∀ l ∈ rs, l.flags &&& PCVAR_LISTENER_PRE_OR_POST ≠ PCVAR_LISTENER_PRE →
        l.handler mem source op l.ctxt argv = some true) →
      ∃ calls, on_post_fired_loop mem source op argv rs = some calls := by
  intro rs
  induction rs with
  | nil => intro _; exact ⟨[], rfl⟩
  | cons curr rest ih =>
    intro h
    obtain ⟨calls, hc⟩ := ih (fun l hl => h l (List.mem_cons_of_mem _ hl))
    unfold on_post_fired_loop
    by_cases h1 : curr.op &&& op = 0
    · exact ⟨calls, by simp [h1, hc]⟩
    · by_cases h2 : curr.flags &&& PCVAR_LISTENER_PRE_OR_POST = PCVAR_LISTENER_PRE
      · exact ⟨[], by simp [h1, h2]⟩
      · have := h curr (List.mem_cons_self _ _) h2
        refine ⟨⟨curr.addr, curr.flags, op, argv⟩ :: calls, ?_⟩
        rw [if_neg h1, if_neg h2]
        simp only [this, hc, Option.map_some']

/-- The post-listeners of the set answer true in a world whose listener list of the set
differs from the one of an approved world by pre-listeners only. -/
theorem post_fire_some (w W : World) (op : Nat) (hop : single_op op)
    (argv : List purc_variant) (hpost : w.post_listeners_ok)
    (hls : ∀ l ∈ W.listeners W.set,
      l.flags &&& PCVAR_LISTENER_PRE_OR_POST ≠ PCVAR_LISTENER_PRE → l ∈ w.listeners w.set) :
    ∃ calls, pcvariant_on_post_fired W.mem (.set W.set) (W.listeners W.set) op argv
      = some calls := by
  rw [post_fired_single _ _ _ (single_op_proper hop)]
  apply post_loop_some
  intro l hl hflag
  rw [List.mem_reverse] at hl
  exact hpost l (hls l hl hflag) hflag _ _ _ _

theorem set_add_object (cmp : variant_cmp) (w : World) (o : pcv_object) (overwrite : Bool) :
    purc_variant_set_add cmp w (.object o) overwrite =
      (insert_or_replace cmp w o overwrite true).map (fun r => (decide (r.1 = 0), r.2)) := by
  simp only [purc_variant_set_add, variant_set_add_val, Option.map_map]
  congr 1
  funext r
  simp only [Function.comp, Prod.mk.injEq, and_true]
  by_cases h : r.1 = 0 <;> simp [h]

/-- The key of the value is found in the ordered index when a member has it. -/
theorem find_member {cmp : variant_cmp} (hc : cmp_total cmp) {w : World} (h : set_inv cmp w)
    (v : pcv_object) (p : Nat) (hp : p ∈ w.data.arr)
    (hkey : cmp (w.kvs_of v) (w.data.node p).kvs.fields = 0) :
    (find_element_rb_node cmp (variant_set_kvs_from_val w v).2.data
      (variant_set_kvs_from_val w v).1).entry = some p := by
  have hf := kvs_from_val_frame w v
  unfold find_element_rb_node
  rw [hf.1]
  exact find_loop_of_mem hc _ _ _ none h.sorted p (h.perm.mem_iff.2 hp) hkey

theorem find_new {cmp : variant_cmp} {w : World} (h : set_inv cmp w)
    (v : pcv_object)
    (hnew : ∀ p ∈ w.data.arr, cmp (w.kvs_of v) (w.data.node p).kvs.fields ≠ 0) :
    (find_element_rb_node cmp (variant_set_kvs_from_val w v).2.data
      (variant_set_kvs_from_val w v).1).entry = none := by
  have hf := kvs_from_val_frame w v
  unfold find_element_rb_node
  rw [hf.1]
  exact find_none_of_new _ _ _ none (fun p hp => hnew p (h.perm.mem_iff.1 hp))

/-! ## Claims on add and remove -/

/-- C5: when the key projection of the object equals that of a member, `add` without
overwrite fails with the not-supported error, calls no listener, and leaves the array, the
ordered index, every member node and every listener list as they were. -/
theorem C5_duplicate_rejected {cmp : variant_cmp} (hc : cmp_total cmp) (w : World)
    (hw : reachable cmp w) (v : pcv_object) (p : Nat) (hp : p ∈ w.data.arr)
    (hkey : cmp (w.kvs_of v) (w.data.node p).kvs.fields = 0) :
    ∃ w', purc_variant_set_add cmp w (.object v) false = some (false, w') ∧
      w'.last_error = .NOT_SUPPORTED ∧ w'.fired = w.fired ∧
      w'.data.arr = w.data.arr ∧ w'.data.elems = w.data.elems ∧
      w'.data.node = w.data.node ∧ w'.listeners = w.listeners := by
  have h := reachable_inv hc hw
  have hfind := find_member hc h v p hp hkey
  have hf := kvs_from_val_frame w v
  refine ⟨pcinst_set_error (variant_set_kvs_from_val w v).2 .NOT_SUPPORTED, ?_, rfl, hf.2.2.2.1,
    by rw [← hf.1]; rfl, by rw [← hf.1]; rfl, by rw [← hf.1]; rfl, hf.2.1⟩
  rw [set_add_object]
  unfold insert_or_replace
  simp only [hfind]
  simp

theorem C5_duplicate_rejected_witness :
    cmp_total ex_cmp ∧ reachable ex_cmp ex_set ∧ 1010 ∈ ex_set.data.arr ∧
    ex_cmp (ex_set.kvs_of ⟨9, [("id", .number 2)]⟩) (ex_set.data.node 1010).kvs.fields = 0 ∧
    ∃ w', purc_variant_set_add ex_cmp ex_set (.object ⟨9, [("id", .number 2)]⟩) false
        = some (false, w') ∧
      w'.last_error = .NOT_SUPPORTED ∧ w'.fired = ex_set.fired ∧
      w'.data.arr = ex_set.data.arr ∧ w'.data.elems = ex_set.data.elems ∧
      w'.data.node = ex_set.data.node ∧ w'.listeners = ex_set.listeners :=
  ⟨ex_cmp_total, ex_set_reachable, by decide, by decide,
    C5_duplicate_rejected ex_cmp_total ex_set ex_set_reachable _ 1010 (by decide) (by decide)⟩

theorem inserted_post_listeners (cmp : variant_cmp) (w : World) (val : pcv_object)
    (pnode : List Bool) :
    ∀ l ∈ (w.inserted cmp val pnode).listeners (w.inserted cmp val pnode).set,
      l.flags &&& PCVAR_LISTENER_PRE_OR_POST ≠ PCVAR_LISTENER_PRE → l ∈ w.listeners w.set := by
  intro l hl hflag
  simp only [World.inserted] at hl
  by_cases ha : w.set = val.addr
  · rw [ha, Function.update_same] at hl
    rcases List.mem_cons.1 hl with hl | hl
    · subst hl
      exact absurd (by simp [PCVAR_LISTENER_PRE, PCVAR_LISTENER_PRE_OR_POST]) hflag
    · rw [ha]; exact hl
  · rw [Function.update_noteq ha] at hl
    exact hl

theorem inserted_node (cmp : variant_cmp) (w : World) (val : pcv_object) (pnode : List Bool) :
    ((w.inserted cmp val pnode).data.node w.brk).elem = val ∧
    ((w.inserted cmp val pnode).data.node w.brk).idx = w.data.arr.length ∧
    ∀ p, p ≠ w.brk → (w.inserted cmp val pnode).data.node p = w.data.node p := by
  refine ⟨by simp [World.inserted], by simp [World.inserted], ?_⟩
  intro p hp
  simp only [World.inserted, Function.update_noteq hp]

/-- What `add` of an object with a new key does to a well-formed set. -/
theorem add_new_appends {cmp : variant_cmp} (_hc : cmp_total cmp) (w : World)
    (h : set_inv cmp w) (v : pcv_object) (overwrite : Bool)
    (hnew : ∀ p ∈ w.data.arr, cmp (w.kvs_of v) (w.data.node p).kvs.fields ≠ 0)
    (hallow : w.allows PCVAR_OPERATION_GROW [.object v])
    (hpost : w.post_listeners_ok)
    (hcap : w.data.arr.length < SIZE_MAX) :
    ∃ w' q, purc_variant_set_add cmp w (.object v) overwrite = some (true, w') ∧
      w'.data.arr = w.data.arr ++ [q] ∧
      purc_variant_set_size w' = purc_variant_set_size w + 1 ∧
      (w'.data.node q).elem = v ∧
      purc_variant_set_get_by_index w' (w.data.arr.length : Int) = some (some v) ∧
      (∀ p ∈ w.data.arr, w'.data.node p = w.data.node p) ∧
      w'.members = w.members ++ [v] := by
  have hfind := find_new h v hnew
  have hf := kvs_from_val_frame w v
  have hfresh : ∀ p ∈ w.data.arr, p ≠ (variant_set_kvs_from_val w v).2.brk := fun p hp e => by
    have := h.fresh p hp
    have := hf.2.2.2.2.2
    omega
  -- the pre fire
  obtain ⟨pcalls, hpc⟩ := allows_loop hallow
  have hpc' : on_pre_fired_loop (variant_set_kvs_from_val w v).2.mem
      (.set (variant_set_kvs_from_val w v).2.set) PCVAR_OPERATION_GROW [.object v]
      ((variant_set_kvs_from_val w v).2.listeners (variant_set_kvs_from_val w v).2.set)
        = some (true, pcalls) := by
    rw [kvs_from_val_mem, hf.2.2.1, hf.2.1]; exact hpc
  have hg : grow (variant_set_kvs_from_val w v).2 v true = some (true,
      { (variant_set_kvs_from_val w v).2 with
        fired := (variant_set_kvs_from_val w v).2.fired ++ pcalls }) := by
    rw [grow_checked, hpc']
    rfl
  -- the insertion
  have hins := insert_allowed cmp (variant_set_kvs_from_val w v).2 _ v
    (variant_set_kvs_from_val w v).1
    (find_element_rb_node cmp (variant_set_kvs_from_val w v).2.data
      (variant_set_kvs_from_val w v).1).parent
    (find_element_rb_node cmp (variant_set_kvs_from_val w v).2.data
      (variant_set_kvs_from_val w v).1).pnode true hg (by rw [hf.1]; exact hcap)
  obtain ⟨W, hW⟩ : ∃ W, W = World.inserted cmp
      { (variant_set_kvs_from_val w v).2 with
        fired := (variant_set_kvs_from_val w v).2.fired ++
          pcalls } v
      (find_element_rb_node cmp (variant_set_kvs_from_val w v).2.data
        (variant_set_kvs_from_val w v).1).pnode := ⟨_, rfl⟩
  rw [← hW] at hins
  -- the post fire
  obtain ⟨calls, hcalls⟩ := post_fire_some w W PCVAR_OPERATION_GROW (Or.inl rfl)
    [.object v] hpost (by
      intro l hl hflag
      rw [hW] at hl
      have := inserted_post_listeners cmp _ v _ l hl hflag
      simp only at this
      rw [hf.2.1, hf.2.2.1] at this
      exact this)
  have hWarr : W.data.arr = w.data.arr ++ [(variant_set_kvs_from_val w v).2.brk] := by
    rw [hW]
    show (variant_set_kvs_from_val w v).2.data.arr ++ _ = _
    rw [hf.1]
  have hWn := inserted_node cmp
      { (variant_set_kvs_from_val w v).2 with
        fired := (variant_set_kvs_from_val w v).2.fired ++
          pcalls } v
      (find_element_rb_node cmp (variant_set_kvs_from_val w v).2.data
        (variant_set_kvs_from_val w v).1).pnode
  rw [← hW] at hWn
  simp only [hf.1] at hWn
  obtain ⟨hn1, hn2, hn3⟩ := hWn
  refine ⟨{ W with fired := W.fired ++ calls }, (variant_set_kvs_from_val w v).2.brk,
    ?_, hWarr, ?_, hn1, ?_, ?_, ?_⟩
  · rw [set_add_object]
    unfold insert_or_replace
    simp only [hfind]
    rw [hins]
    simp only [grown, Bool.not_true, Bool.false_eq_true, if_false, hcalls, Option.map_some']
    rfl
  · simp [purc_variant_set_size, hWarr]
  · simp [purc_variant_set_get_by_index, hWarr, hn1, hn2]
  · intro p hp
    exact hn3 p (hfresh p hp)
  · simp only [World.members, hWarr, List.map_append, List.map_cons, List.map_nil, hn1]
    congr 1
    apply List.map_congr_left
    intro p hp
    rw [hn3 p (hfresh p hp)]

/-- C6: when the key projection of the object equals no member's, no pre-listener vetoes
the GROW and the post-listeners keep to the protocol, `add` succeeds: the array grows by one
node, appended at the end, whose value is the object itself, and the nodes and values at
the earlier positions are unchanged. -/
theorem C6_insert_appends {cmp : variant_cmp} (hc : cmp_total cmp) (w : World)
    (hw : reachable cmp w) (v : pcv_object) (overwrite : Bool)
    (hnew : ∀ p ∈ w.data.arr, cmp (w.kvs_of v) (w.data.node p).kvs.fields ≠ 0)
    (hallow : w.allows PCVAR_OPERATION_GROW [.object v])
    (hpost : w.post_listeners_ok)
    (hcap : w.data.arr.length < SIZE_MAX) :
    ∃ w' q, purc_variant_set_add cmp w (.object v) overwrite = some (true, w') ∧
      w'.data.arr = w.data.arr ++ [q] ∧
      purc_variant_set_size w' = purc_variant_set_size w + 1 ∧
      (w'.data.node q).elem = v ∧
      purc_variant_set_get_by_index w' (w.data.arr.length : Int) = some (some v) ∧
      (∀ p ∈ w.data.arr, w'.data.node p = w.data.node p) ∧
      w'.members = w.members ++ [v] :=
  add_new_appends hc w (reachable_inv hc hw) v overwrite hnew hallow hpost hcap

theorem ex_set_listeners :
    ex_set.listeners ex_set.set =
      [⟨1000, PCVAR_LISTENER_PRE, PCVAR_OPERATION_ALL, 0, ex_allow⟩,
       ⟨1001, PCVAR_LISTENER_POST, PCVAR_OPERATION_ALL, 0, ex_allow⟩] := by
  rfl

theorem ex_set_post_ok : ex_set.post_listeners_ok := by
  intro l hl _ mem source op argv
  rw [ex_set_listeners] at hl
  simp only [List.mem_cons, List.mem_singleton, List.not_mem_nil, or_false] at hl
  rcases hl with rfl | rfl <;> rfl

theorem C6_insert_appends_witness :
    cmp_total ex_cmp ∧ reachable ex_cmp ex_set ∧
    (∀ p ∈ ex_set.data.arr,
      ex_cmp (ex_set.kvs_of ⟨5, [("id", .number 5)]⟩) (ex_set.data.node p).kvs.fields ≠ 0) ∧
    ex_set.allows PCVAR_OPERATION_GROW [.object ⟨5, [("id", .number 5)]⟩] ∧
    ex_set.post_listeners_ok ∧ ex_set.data.arr.length < SIZE_MAX ∧
    ∃ w' q, purc_variant_set_add ex_cmp ex_set (.object ⟨5, [("id", .number 5)]⟩) false
        = some (true, w') ∧
      w'.data.arr = ex_set.data.arr ++ [q] ∧
      purc_variant_set_size w' = purc_variant_set_size ex_set + 1 ∧
      (w'.data.node q).elem = ⟨5, [("id", .number 5)]⟩ ∧
      purc_variant_set_get_by_index w' (ex_set.data.arr.length : Int)
        = some (some ⟨5, [("id", .number 5)]⟩) ∧
      (∀ p ∈ ex_set.data.arr, w'.data.node p = ex_set.data.node p) ∧
      w'.members = ex_set.members ++ [⟨5, [("id", .number 5)]⟩] :=
  ⟨ex_cmp_total, ex_set_reachable, by decide, by unfold World.allows; decide, ex_set_post_ok,
    by decide,
    C6_insert_appends ex_cmp_total ex_set ex_set_reachable _ false (by decide)
      (by unfold World.allows; decide) ex_set_post_ok (by decide)⟩

theorem object_get_set (f : List (String × pcv_value)) (k : String) (v : pcv_value)
    (k' : String) :
    purc_variant_object_get_by_ckey (purc_variant_object_set f k v) k' =
      if k = k' then some v else purc_variant_object_get_by_ckey f k' := by
  induction f with
  | nil => simp [purc_variant_object_set, purc_variant_object_get_by_ckey]
  | cons kv rest ih =>
    obtain ⟨k0, v0⟩ := kv
    unfold purc_variant_object_set
    by_cases h0 : k0 = k
    · subst h0
      by_cases h1 : k0 = k' <;> simp [purc_variant_object_get_by_ckey, h1]
    · simp only [h0, if_false]
      by_cases h1 : k0 = k'
      · subst h1
        simp [purc_variant_object_get_by_ckey, Ne.symm h0]
      · simp only [purc_variant_object_get_by_ckey, h1, if_false, ih]

theorem object_get_none (f : List (String × pcv_value)) (k : String)
    (h : k ∉ f.map Prod.fst) : purc_variant_object_get_by_ckey f k = none := by
  induction f with
  | nil => rfl
  | cons kv rest ih =>
    obtain ⟨k0, v0⟩ := kv
    simp only [List.map_cons, List.mem_cons, not_or] at h
    simp only [purc_variant_object_get_by_ckey, Ne.symm h.1, if_false]
    exact ih h.2

theorem union_new_get :
    ∀ (new out : List (String × pcv_value)) (k : String), (new.map Prod.fst).Nodup →
      purc_variant_object_get_by_ckey (union_new_loop new out) k =
        match purc_variant_object_get_by_ckey new k with
        | some x => some x
        | none => purc_variant_object_get_by_ckey out k := by
  intro new
  induction new with
  | nil => intro out k _; simp [union_new_loop, purc_variant_object_get_by_ckey]
  | cons kv rest ih =>
    intro out k hnd
    obtain ⟨k0, v0⟩ := kv
    simp only [List.map_cons, List.nodup_cons] at hnd
    unfold union_new_loop
    rw [ih _ k hnd.2, object_get_set]
    by_cases h0 : k0 = k
    · subst h0
      simp [purc_variant_object_get_by_ckey, object_get_none rest k0 hnd.1]
    · simp [purc_variant_object_get_by_ckey, h0]

theorem union_old_get :
    ∀ (old out : List (String × pcv_value)) (k : String),
      purc_variant_object_get_by_ckey (union_old_loop old out) k =
        match purc_variant_object_get_by_ckey out k with
        | some x => some x
        | none => purc_variant_object_get_by_ckey old k := by
  intro old
  induction old with
  | nil =>
    intro out k
    simp only [union_old_loop, purc_variant_object_get_by_ckey]
    cases purc_variant_object_get_by_ckey out k <;> rfl
  | cons kv rest ih =>
    intro out k
    obtain ⟨k0, v0⟩ := kv
    unfold union_old_loop
    cases hout : purc_variant_object_get_by_ckey out k0 with
    | some y =>
      simp only
      rw [ih out k]
      cases hk : purc_variant_object_get_by_ckey out k with
      | some x => rfl
      | none =>
        have hne : k0 ≠ k := by
          intro e; rw [e] at hout; rw [hout] at hk; exact absurd hk (by simp)
        simp [purc_variant_object_get_by_ckey, hne]
    | none =>
      simp only
      rw [ih _ k, object_get_set]
      by_cases h0 : k0 = k
      · subst h0
        simp [purc_variant_object_get_by_ckey, hout]
      · simp only [h0, if_false, purc_variant_object_get_by_ckey]

/-- The fields of the union: the new value's field where it has one, the old value's
otherwise. -/
theorem union_fields_get (w : World) (old new : pcv_object) (hnew : new.wf) (k : String) :
    purc_variant_object_get_by_ckey (variant_set_union w old new).1.fields k =
      match purc_variant_object_get_by_ckey new.fields k with
      | some x => some x
      | none => purc_variant_object_get_by_ckey old.fields k := by
  simp only [variant_set_union]
  rw [union_old_get, union_new_get _ _ _ hnew]
  cases purc_variant_object_get_by_ckey new.fields k <;>
    simp [purc_variant_object_get_by_ckey]

theorem replaced_post_listeners (cmp : variant_cmp) (w : World) (curr : Nat)
    (val kvs : pcv_object) (l : Nat) (rest : List pcvar_listener)
    (hr : revoke_loop l (w.listeners (w.data.node curr).elem.addr) = some rest) :
    ∀ x ∈ (w.replaced cmp curr val kvs rest).listeners (w.replaced cmp curr val kvs rest).set,
      x.flags &&& PCVAR_LISTENER_PRE_OR_POST ≠ PCVAR_LISTENER_PRE → x ∈ w.listeners w.set := by
  intro x hx hflag
  have h1 : ∀ y ∈ Function.update w.listeners (w.data.node curr).elem.addr rest w.set,
      y ∈ w.listeners w.set := by
    intro y hy
    by_cases ha : w.set = (w.data.node curr).elem.addr
    · rw [ha, Function.update_same] at hy
      rw [ha]
      exact (revoke_loop_sublist l _ _ hr).subset hy
    · rw [Function.update_noteq ha] at hy
      exact hy
  simp only [World.replaced] at hx
  by_cases hb : w.set = val.addr
  · rw [hb, Function.update_same] at hx
    rcases List.mem_cons.1 hx with hx | hx
    · subst hx
      exact absurd (by simp [PCVAR_LISTENER_PRE, PCVAR_LISTENER_PRE_OR_POST]) hflag
    · rw [← hb] at hx
      exact h1 x hx
  · rw [Function.update_noteq hb] at hx
    exact h1 x hx

theorem replaced_node (cmp : variant_cmp) (w : World) (curr : Nat)
    (val kvs : pcv_object) (rest : List pcvar_listener) :
    ((w.replaced cmp curr val kvs rest).data.node curr).elem = val ∧
    ((w.replaced cmp curr val kvs rest).data.node curr).kvs = kvs ∧
    ((w.replaced cmp curr val kvs rest).data.node curr).idx = (w.data.node curr).idx ∧
    (w.replaced cmp curr val kvs rest).data.arr = w.data.arr ∧
    (w.replaced cmp curr val kvs rest).data.elems = w.data.elems ∧
    ∀ q, q ≠ curr → (w.replaced cmp curr val kvs rest).data.node q = w.data.node q := by
  refine ⟨by simp [World.replaced], by simp [World.replaced], by simp [World.replaced], rfl, rfl,
    ?_⟩
  intro q hq
  simp only [World.replaced, Function.update_noteq hq]

/-- What `add` with overwrite of an object with the key of a member does to a well-formed
set. -/
theorem add_overwrite_union {cmp : variant_cmp} (hc : cmp_total cmp) (w : World)
    (h : set_inv cmp w) (v : pcv_object) (hv : v.wf) (i p : Nat)
    (hp : w.data.arr[i]? = some p)
    (hkey : cmp (w.kvs_of v) (w.data.node p).kvs.fields = 0)
    (hne : (w.data.node p).elem.addr ≠ v.addr)
    (hallow : w.allows PCVAR_OPERATION_CHANGE
      [.object (w.data.node p).elem, .object (w.union_of (w.data.node p).elem v)])
    (hpost : w.post_listeners_ok) :
    ∃ w', purc_variant_set_add cmp w (.object v) true = some (true, w') ∧
      w'.data.arr = w.data.arr ∧ w'.data.elems = w.data.elems ∧
      purc_variant_set_size w' = purc_variant_set_size w ∧
      (∀ q, q ≠ p → w'.data.node q = w.data.node q) ∧
      (w'.data.node p).idx = i ∧
      purc_variant_set_get_by_index w' (i : Int) = some (some (w'.data.node p).elem) ∧
      ∀ k, purc_variant_object_get_by_ckey (w'.data.node p).elem.fields k =
        match purc_variant_object_get_by_ckey v.fields k with
        | some x => some x
        | none => purc_variant_object_get_by_ckey (w.data.node p).elem.fields k := by
  have hpm : p ∈ w.data.arr := List.getElem?_mem hp
  have hfind := find_member hc h v p hpm hkey
  have hf := kvs_from_val_frame w v
  obtain ⟨l, hl, _, hx⟩ := h.constraints p hpm
  obtain ⟨rest, hr⟩ := revoke_loop_some l _ hx
  -- the pre fire
  have hall := allows_result hallow
  have hsome : (on_pre_fired_loop (variant_set_kvs_from_val w v).2.mem
      (.set (variant_set_kvs_from_val w v).2.set) PCVAR_OPERATION_CHANGE
      [.object ((variant_set_kvs_from_val w v).2.data.node p).elem,
        .object (variant_set_union (variant_set_kvs_from_val w v).2
          ((variant_set_kvs_from_val w v).2.data.node p).elem v).1]
      ((variant_set_kvs_from_val w v).2.listeners
        (variant_set_kvs_from_val w v).2.set)).isSome = true := by
    rw [kvs_from_val_mem, hf.1, hf.2.2.1, hf.2.1]
    exact hall.1
  have hch := change_returns
    (variant_set_union (variant_set_kvs_from_val w v).2
      ((variant_set_kvs_from_val w v).2.data.node p).elem v).2
    ((variant_set_union (variant_set_kvs_from_val w v).2
      ((variant_set_kvs_from_val w v).2.data.node p).elem v).2.data.node p).elem
    (variant_set_union (variant_set_kvs_from_val w v).2
      ((variant_set_kvs_from_val w v).2.data.node p).elem v).1 hsome
  have hl1 : (on_pre_fired_result
      (variant_set_union (variant_set_kvs_from_val w v).2
        ((variant_set_kvs_from_val w v).2.data.node p).elem v).2.mem
      (.set (variant_set_union (variant_set_kvs_from_val w v).2
        ((variant_set_kvs_from_val w v).2.data.node p).elem v).2.set)
      PCVAR_OPERATION_CHANGE
      [.object ((variant_set_union (variant_set_kvs_from_val w v).2
          ((variant_set_kvs_from_val w v).2.data.node p).elem v).2.data.node p).elem,
        .object (variant_set_union (variant_set_kvs_from_val w v).2
          ((variant_set_kvs_from_val w v).2.data.node p).elem v).1]
      ((variant_set_union (variant_set_kvs_from_val w v).2
        ((variant_set_kvs_from_val w v).2.data.node p).elem v).2.listeners
        (variant_set_union (variant_set_kvs_from_val w v).2
          ((variant_set_kvs_from_val w v).2.data.node p).elem v).2.set)).1 = true := by
    show (on_pre_fired_result (variant_set_kvs_from_val w v).2.mem
      (.set (variant_set_kvs_from_val w v).2.set) PCVAR_OPERATION_CHANGE
      [.object ((variant_set_kvs_from_val w v).2.data.node p).elem,
        .object (variant_set_union (variant_set_kvs_from_val w v).2
          ((variant_set_kvs_from_val w v).2.data.node p).elem v).1]
      ((variant_set_kvs_from_val w v).2.listeners (variant_set_kvs_from_val w v).2.set)).1 = true
    rw [kvs_from_val_mem, hf.1, hf.2.2.1, hf.2.1]
    exact hall.2
  rw [hl1] at hch
  obtain ⟨wc, hwc⟩ : ∃ wc, wc =
      { (variant_set_union (variant_set_kvs_from_val w v).2
          ((variant_set_kvs_from_val w v).2.data.node p).elem v).2 with
        fired := (variant_set_union (variant_set_kvs_from_val w v).2
            ((variant_set_kvs_from_val w v).2.data.node p).elem v).2.fired ++
          (on_pre_fired_result
            (variant_set_union (variant_set_kvs_from_val w v).2
              ((variant_set_kvs_from_val w v).2.data.node p).elem v).2.mem
            (.set (variant_set_union (variant_set_kvs_from_val w v).2
              ((variant_set_kvs_from_val w v).2.data.node p).elem v).2.set)
            PCVAR_OPERATION_CHANGE
            [.object ((variant_set_union (variant_set_kvs_from_val w v).2
                ((variant_set_kvs_from_val w v).2.data.node p).elem v).2.data.node p).elem,
              .object (variant_set_union (variant_set_kvs_from_val w v).2
                ((variant_set_kvs_from_val w v).2.data.node p).elem v).1]
            ((variant_set_union (variant_set_kvs_from_val w v).2
              ((variant_set_kvs_from_val w v).2.data.node p).elem v).2.listeners
              (variant_set_union (variant_set_kvs_from_val w v).2
                ((variant_set_kvs_from_val w v).2.data.node p).elem v).2.set)).2 } := ⟨_, rfl⟩
  rw [← hwc] at hch
  have hwc_data : wc.data = w.data := by rw [hwc]; exact hf.1
  have hwc_ls : wc.listeners = w.listeners := by rw [hwc]; exact hf.2.1
  have hwc_set : wc.set = w.set := by rw [hwc]; exact hf.2.2.1
  -- the replacement
  have hrep := replace_eq cmp wc p
    (variant_set_union (variant_set_kvs_from_val w v).2
      ((variant_set_kvs_from_val w v).2.data.node p).elem v).1
    (variant_set_kvs_from_val w v).1 l rest (by rw [hwc_data]; exact hl)
    (by rw [hwc_data, hwc_ls]; exact hr)
  obtain ⟨W, hW⟩ : ∃ W, W = wc.replaced cmp p
    (variant_set_union (variant_set_kvs_from_val w v).2
      ((variant_set_kvs_from_val w v).2.data.node p).elem v).1
    (variant_set_kvs_from_val w v).1 rest := ⟨_, rfl⟩
  rw [← hW] at hrep
  have hWn := replaced_node cmp wc p
    (variant_set_union (variant_set_kvs_from_val w v).2
      ((variant_set_kvs_from_val w v).2.data.node p).elem v).1
    (variant_set_kvs_from_val w v).1 rest
  rw [← hW, hwc_data] at hWn
  obtain ⟨hn1, _, hn3, hn4, hn5, hn6⟩ := hWn
  -- the post fire
  obtain ⟨calls, hcalls⟩ := post_fire_some w W PCVAR_OPERATION_CHANGE (Or.inr (Or.inr rfl))
    [.object (W.data.node p).elem, .object (variant_set_union (variant_set_kvs_from_val w v).2
      ((variant_set_kvs_from_val w v).2.data.node p).elem v).1] hpost (by
      intro x hx hflag
      rw [hW] at hx
      have := replaced_post_listeners cmp wc p _ _ l rest
        (by rw [hwc_data, hwc_ls]; exact hr) x hx hflag
      rw [hwc_ls, hwc_set] at this
      exact this)
  have hidx : (w.data.node p).idx = i := h.idx i p hp
  refine ⟨{ W with fired := W.fired ++ calls }, ?_, hn4, hn5, ?_, hn6, by rw [← hidx]; exact hn3,
    ?_, ?_⟩
  · rw [set_add_object]
    unfold insert_or_replace
    simp only [hfind, Bool.not_true, Bool.false_eq_true, if_false]
    rw [if_neg (by rw [hf.1]; exact hne), hch]
    simp only [hrep, ne_eq, not_true_eq_false, if_false, changed, Bool.not_true,
      Bool.false_eq_true, hcalls, Option.map_some']
    rfl
  · simp [purc_variant_set_size, hn4]
  · simp [purc_variant_set_get_by_index, hn4, hp, hn3, hidx]
  · intro k
    show purc_variant_object_get_by_ckey (W.data.node p).elem.fields k = _
    rw [hn1, union_fields_get _ _ _ hv k, hf.1]

/-- C4: when the set holds member `m` at position `i`, the object `v` is another object
with the key projection of `m`, no pre-listener vetoes the CHANGE and the post-listeners
keep to the protocol, `add(v, overwrite = true)` succeeds: the array and the ordered index
are unchanged (same size, same positions), every other node is unchanged, and the member at
position `i` becomes the union, whose field `k` is that of `v` where `v` has one and that
of `m` otherwise. -/
theorem C4_overwrite_union {cmp : variant_cmp} (hc : cmp_total cmp) (w : World)
    (hw : reachable cmp w) (v : pcv_object) (hv : v.wf) (i p : Nat)
    (hp : w.data.arr[i]? = some p)
    (hkey : cmp (w.kvs_of v) (w.data.node p).kvs.fields = 0)
    (hne : (w.data.node p).elem.addr ≠ v.addr)
    (hallow : w.allows PCVAR_OPERATION_CHANGE
      [.object (w.data.node p).elem, .object (w.union_of (w.data.node p).elem v)])
    (hpost : w.post_listeners_ok) :
    ∃ w', purc_variant_set_add cmp w (.object v) true = some (true, w') ∧
      w'.data.arr = w.data.arr ∧ w'.data.elems = w.data.elems ∧
      purc_variant_set_size w' = purc_variant_set_size w ∧
      (∀ q, q ≠ p → w'.data.node q = w.data.node q) ∧
      (w'.data.node p).idx = i ∧
      purc_variant_set_get_by_index w' (i : Int) = some (some (w'.data.node p).elem) ∧
      ∀ k, purc_variant_object_get_by_ckey (w'.data.node p).elem.fields k =
        match purc_variant_object_get_by_ckey v.fields k with
        | some x => some x
        | none => purc_variant_object_get_by_ckey (w.data.node p).elem.fields k :=
  add_overwrite_union hc w (reachable_inv hc hw) v hv i p hp hkey hne hallow hpost

theorem C4_overwrite_union_witness :
    cmp_total ex_cmp ∧ reachable ex_cmp ex_set ∧
    pcv_object.wf ⟨9, [("id", .number 2), ("age", .number 7)]⟩ ∧
    ex_set.data.arr[1]? = some 1010 ∧
    ex_cmp (ex_set.kvs_of ⟨9, [("id", .number 2), ("age", .number 7)]⟩)
      (ex_set.data.node 1010).kvs.fields = 0 ∧
    (ex_set.data.node 1010).elem.addr ≠ 9 ∧
    ex_set.allows PCVAR_OPERATION_CHANGE
      [.object (ex_set.data.node 1010).elem,
       .object (ex_set.union_of (ex_set.data.node 1010).elem
         ⟨9, [("id", .number 2), ("age", .number 7)]⟩)] ∧
    ex_set.post_listeners_ok ∧
    (ex_set.union_of (ex_set.data.node 1010).elem
      ⟨9, [("id", .number 2), ("age", .number 7)]⟩).fields
        = [("id", .number 2), ("age", .number 7), ("name", .string "c")] ∧
    ∃ w', purc_variant_set_add ex_cmp ex_set
        (.object ⟨9, [("id", .number 2), ("age", .number 7)]⟩) true = some (true, w') ∧
      w'.data.arr = ex_set.data.arr ∧ w'.data.elems = ex_set.data.elems ∧
      purc_variant_set_size w' = purc_variant_set_size ex_set ∧
      (∀ q, q ≠ 1010 → w'.data.node q = ex_set.data.node q) ∧
      (w'.data.node 1010).idx = 1 ∧
      purc_variant_set_get_by_index w' ((1 : Nat) : Int) = some (some (w'.data.node 1010).elem) ∧
      ∀ k, purc_variant_object_get_by_ckey (w'.data.node 1010).elem.fields k =
        match purc_variant_object_get_by_ckey
          (pcv_object.mk 9 [("id", .number 2), ("age", .number 7)]).fields k with
        | some x => some x
        | none => purc_variant_object_get_by_ckey (ex_set.data.node 1010).elem.fields k :=
  ⟨ex_cmp_total, ex_set_reachable, by unfold pcv_object.wf; decide, by decide, by decide,
    by decide, by unfold World.allows; decide, ex_set_post_ok, by decide,
    C4_overwrite_union ex_cmp_total ex_set ex_set_reachable _ (by unfold pcv_object.wf; decide)
      1 1010 (by decide) (by decide) (by decide) (by unfold World.allows; decide)
      ex_set_post_ok⟩

theorem map_eraseIdx {α β : Type} (f : α → β) :
    ∀ (l : List α) (i : Nat), (l.eraseIdx i).map f = (l.map f).eraseIdx i := by
  intro l
  induction l with
  | nil => intro i; rfl
  | cons a l ih =>
    intro i
    cases i with
    | zero => rfl
    | succ i => simp [List.eraseIdx, ih]

/-- What a completed `set_remove` of a member does to a well-formed set. -/
theorem set_remove_done {cmp : variant_cmp} {w : World} (h : set_inv cmp w)
    (node : Nat) (hnode : node ∈ w.data.arr) (check : Bool) (w' : World)
    (hrun : set_remove w node check = some (0, w')) :
    set_inv cmp w' ∧ w.data.arr[(w.data.node node).idx]? = some node ∧
    w'.data.arr = w.data.arr.eraseIdx (w.data.node node).idx ∧
    w'.data.elems = pcutils_rbtree_erase node w.data.elems ∧
    (∀ q ∈ w'.data.arr, (w'.data.node q).elem = (w.data.node q).elem ∧
      (w'.data.node q).kvs = (w.data.node q).kvs) ∧
    w'.members = w.members.eraseIdx (w.data.node node).idx := by
  rcases set_remove_cases h node hnode check 0 w' hrun with ⟨h0, _⟩ | ⟨_, ws, w3, l, rest, hs, hp, hl, hr, rfl⟩
  · exact absurd h0 (by decide)
  · obtain ⟨calls, rfl⟩ := shrink_frame _ _ _ _ _ hs
    obtain ⟨calls3, h3⟩ := shrunk_frame _ _ _ _ hp
    have hrel := inv_released (set_inv_fired h calls) node l rest hnode ⟨calls3, h3⟩ hl hr
    simp only at hrel
    obtain ⟨hinv, harr, hget⟩ := hrel
    have hne : ∀ q ∈ (w3.released node (w.data.node node).idx rest).data.arr, q ≠ node := by
      intro q hq e
      rw [harr, e] at hq
      have hjlt := (List.getElem?_eq_some.1 hget).1
      have hge := (List.getElem?_eq_some.1 hget).2
      have : w.data.arr.eraseIdx (w.data.node node).idx = w.data.arr.erase node := by
        have h1 := (List.Nodup.erase_getElem h.nodup _ hjlt).symm
        rw [hge] at h1
        exact h1
      rw [this] at hq
      exact h.nodup.not_mem_erase hq
    have hnodes : ∀ q ∈ (w3.released node (w.data.node node).idx rest).data.arr,
        ((w3.released node (w.data.node node).idx rest).data.node q).elem = (w.data.node q).elem ∧
        ((w3.released node (w.data.node node).idx rest).data.node q).kvs
          = (w.data.node q).kvs := by
      intro q hq
      have := released_node_of_ne w3 node (w.data.node node).idx rest q (hne q hq)
      rw [this.1, this.2.1, h3]
      exact ⟨rfl, rfl⟩
    refine ⟨hinv, hget, harr, ?_, hnodes, ?_⟩
    · rw [h3]
      simp only [World.released, (refresh_arr_frame _ _).2.1, World.unlinked]
    · simp only [World.members]
      rw [← map_eraseIdx, ← harr]
      apply List.map_congr_left
      intro q hq
      exact (hnodes q hq).1

/-- C7: a successful `remove_by_index(N)` returns the member that was at position `N`,
leaves the members at the positions before `N` in place, moves every member from a
position `i > N` to position `i - 1`, and makes the size one less; the cached positions
agree with the new array. -/
theorem C7_remove_by_index_shifts {cmp : variant_cmp} (hc : cmp_total cmp) (w : World)
    (hw : reachable cmp w) (N : Nat) (v : pcv_object) (w' : World)
    (hrun : purc_variant_set_remove_by_index w (N : Int) = some (some v, w')) :
    w.members[N]? = some v ∧
    purc_variant_set_size w' + 1 = purc_variant_set_size w ∧
    w'.data.arr = w.data.arr.eraseIdx N ∧
    w'.members = w.members.eraseIdx N ∧
    (∀ i, i < N → w'.data.arr[i]? = w.data.arr[i]? ∧ w'.members[i]? = w.members[i]?) ∧
    (∀ i, N < i → w'.data.arr[i - 1]? = w.data.arr[i]? ∧ w'.members[i - 1]? = w.members[i]?) ∧
    (∀ i q, w'.data.arr[i]? = some q → (w'.data.node q).idx = i) := by
  have h := reachable_inv hc hw
  unfold purc_variant_set_remove_by_index at hrun
  simp only [Int.toNat_ofNat, Int.natCast_nonneg, not_lt.2, if_false] at hrun
  cases hget : w.data.arr[N]? with
  | none => rw [hget] at hrun; simp at hrun
  | some elem =>
    rw [hget] at hrun
    have hidx := h.idx N elem hget
    simp only [hidx, if_true, Option.map_eq_some', Prod.mk.injEq] at hrun
    obtain ⟨⟨r, w0⟩, hrem, hr, rfl⟩ := hrun
    have hr0 : r = 0 := by
      by_contra hne
      simp [hne] at hr
    subst hr0
    simp only [ne_eq, not_true_eq_false, if_false, Option.some.injEq] at hr
    obtain ⟨hinv, _, harr, _, _, hmem⟩ :=
      set_remove_done h elem (List.getElem?_mem hget) true w0 hrem
    rw [hidx] at harr hmem
    have hN : N < w.data.arr.length := (List.getElem?_eq_some.1 hget).1
    refine ⟨?_, ?_, harr, hmem, ?_, ?_, hinv.idx⟩
    · simp only [World.members, List.getElem?_map, hget, Option.map_some', hr]
    · simp only [purc_variant_set_size, harr, List.length_eraseIdx, hN, if_true]
      omega
    · intro i hi
      rw [harr, hmem]
      exact ⟨List.getElem?_eraseIdx_of_lt _ _ _ hi, List.getElem?_eraseIdx_of_lt _ _ _ hi⟩
    · intro i hi
      rw [harr, hmem]
      have : i - 1 + 1 = i := by omega
      constructor
      · rw [List.getElem?_eraseIdx_of_ge _ _ _ (by omega), this]
      · rw [List.getElem?_eraseIdx_of_ge _ _ _ (by omega), this]

theorem C7_remove_by_index_shifts_witness :
    cmp_total ex_cmp ∧ reachable ex_cmp ex_set ∧
    purc_variant_set_remove_by_index ex_set ((0 : Nat) : Int)
      = some (some ⟨1007, [("id", .number 1), ("name", .string "b")]⟩, ex_removed) ∧
    ex_set.members = [⟨1007, [("id", .number 1), ("name", .string "b")]⟩, ex_obj_c, ex_obj_z] ∧
    (ex_set.members[0]? = some ⟨1007, [("id", .number 1), ("name", .string "b")]⟩ ∧
    purc_variant_set_size ex_removed + 1 = purc_variant_set_size ex_set ∧
    ex_removed.data.arr = ex_set.data.arr.eraseIdx 0 ∧
    ex_removed.members = ex_set.members.eraseIdx 0 ∧
    (∀ i, i < 0 → ex_removed.data.arr[i]? = ex_set.data.arr[i]? ∧
      ex_removed.members[i]? = ex_set.members[i]?) ∧
    (∀ i, 0 < i → ex_removed.data.arr[i - 1]? = ex_set.data.arr[i]? ∧
      ex_removed.members[i - 1]? = ex_set.members[i]?) ∧
    (∀ i q, ex_removed.data.arr[i]? = some q → (ex_removed.data.node q).idx = i)) :=
  ⟨ex_cmp_total, ex_set_reachable, rfl, by decide,
    C7_remove_by_index_shifts ex_cmp_total ex_set ex_set_reachable 0
      ⟨1007, [("id", .number 1), ("name", .string "b")]⟩ ex_removed rfl⟩

theorem veto_some {cmp : variant_cmp} {w : World} (h : set_inv cmp w) (op : Nat)
    (argv : List purc_variant) (hv : w.vetoes op argv) :
    (on_pre_fired_loop w.mem (.set w.set) op argv (w.listeners w.set)).isSome = true := by
  obtain ⟨calls, hc, _⟩ := pre_loop_veto w.mem (.set w.set) op argv _ (h.shape _) hv.1 hv.2
  rw [hc]
  rfl

theorem veto_loop {cmp : variant_cmp} {w : World} (h : set_inv cmp w) (op : Nat)
    (argv : List purc_variant) (hv : w.vetoes op argv) :
    (on_pre_fired_result w.mem (.set w.set) op argv (w.listeners w.set)).1 = false := by
  obtain ⟨calls, hc, _⟩ := pre_loop_veto w.mem (.set w.set) op argv _ (h.shape _) hv.1 hv.2
  unfold on_pre_fired_result
  rw [hc]
  rfl

theorem pre_loop_calls {cmp : variant_cmp} {w : World} (h : set_inv cmp w) (op : Nat)
    (argv : List purc_variant) :
    ∀ c ∈ (on_pre_fired_result w.mem (.set w.set) op argv (w.listeners w.set)).2,
      c.flags &&& PCVAR_LISTENER_PRE_OR_POST = PCVAR_LISTENER_PRE := by
  unfold on_pre_fired_result
  cases hl : on_pre_fired_loop w.mem (.set w.set) op argv (w.listeners w.set) with
  | none => intro c hc; simp at hc
  | some r => exact (pre_fired_shape w.mem (.set w.set) _ (h.shape _) op argv r hl).2.2

/-- A vetoed `set_remove` leaves the set untouched. -/
theorem set_remove_veto {cmp : variant_cmp} {w : World} (h : set_inv cmp w) (node : Nat)
    (hv : w.vetoes PCVAR_OPERATION_SHRINK [.object (w.data.node node).elem]) :
    ∃ w', set_remove w node true = some (-1, w') ∧ w.untouched w' := by
  have hs := shrink_returns w (w.data.node node).elem (veto_some h _ _ hv)
  rw [veto_loop h _ _ hv] at hs
  exact ⟨_, set_remove_vetoed w _ node true hs, rfl, rfl, rfl, rfl, rfl, _, rfl,
    pre_loop_calls h _ _⟩

theorem untouched_of_frame {w w1 w' : World} (hd : w1.data = w.data)
    (hl : w1.listeners = w.listeners) (hf : w1.fired = w.fired) (h : w1.untouched w') :
    w.untouched w' := by
  obtain ⟨h1, h2, h3, h4, h5, calls, h6, h7⟩ := h
  exact ⟨by rw [h1, hd], by rw [h2, hd], by rw [h3, hd], by rw [h4, hd], by rw [h5, hl],
    calls, by rw [h6, hf], h7⟩

theorem vetoes_of_frame {w w1 : World} (hd : w1.mem = w.mem)
    (hl : w1.listeners = w.listeners) (hs : w1.set = w.set) {op : Nat}
    {argv : List purc_variant} (h : w.vetoes op argv) : w1.vetoes op argv := by
  unfold World.vetoes at h ⊢
  rw [hd, hl, hs]
  exact h

/-- A vetoed `grow` reports false and leaves the set untouched. -/
theorem grow_veto {cmp : variant_cmp} {w : World} (h : set_inv cmp w) (v : pcv_object)
    (hv : w.vetoes PCVAR_OPERATION_GROW [.object v]) :
    ∃ w', grow w v true = some (false, w') ∧ w.untouched w' := by
  have hg := grow_returns w v (veto_some h _ _ hv)
  rw [veto_loop h _ _ hv] at hg
  exact ⟨_, hg, rfl, rfl, rfl, rfl, rfl, _, rfl, pre_loop_calls h _ _⟩

/-- A vetoed `change` reports false and leaves the set untouched. -/
theorem change_veto {cmp : variant_cmp} {w : World} (h : set_inv cmp w) (o n : pcv_object)
    (hv : w.vetoes PCVAR_OPERATION_CHANGE [.object o, .object n]) :
    ∃ w', change w o n true = some (false, w') ∧ w.untouched w' := by
  have hg := change_returns w o n (veto_some h _ _ hv)
  rw [veto_loop h _ _ hv] at hg
  exact ⟨_, hg, rfl, rfl, rfl, rfl, rfl, _, rfl, pre_loop_calls h _ _⟩

theorem add_new_veto {cmp : variant_cmp} {w : World} (h : set_inv cmp w)
    (v : pcv_object) (overwrite : Bool)
    (hnew : ∀ p ∈ w.data.arr, cmp (w.kvs_of v) (w.data.node p).kvs.fields ≠ 0)
    (hv : w.vetoes PCVAR_OPERATION_GROW [.object v]) :
    ∃ w', purc_variant_set_add cmp w (.object v) overwrite = some (false, w') ∧
      w.untouched w' := by
  have hfind := find_new h v hnew
  have hf := kvs_from_val_frame w v
  have h1 := set_inv_kvs h v
  obtain ⟨w', hg, hun⟩ := grow_veto h1 v (vetoes_of_frame (kvs_from_val_mem w v) hf.2.1 hf.2.2.1 hv)
  refine ⟨w', ?_, untouched_of_frame hf.1 hf.2.1 hf.2.2.2.1 hun⟩
  rw [set_add_object]
  unfold insert_or_replace
  simp only [hfind]
  unfold insert
  rw [hg]
  simp

theorem add_overwrite_veto {cmp : variant_cmp} (hc : cmp_total cmp) {w : World}
    (h : set_inv cmp w) (v : pcv_object) (p : Nat) (hp : p ∈ w.data.arr)
    (hkey : cmp (w.kvs_of v) (w.data.node p).kvs.fields = 0)
    (hne : (w.data.node p).elem.addr ≠ v.addr)
    (hv : w.vetoes PCVAR_OPERATION_CHANGE
      [.object (w.data.node p).elem, .object (w.union_of (w.data.node p).elem v)]) :
    ∃ w', purc_variant_set_add cmp w (.object v) true = some (false, w') ∧
      w.untouched w' := by
  have hfind := find_member hc h v p hp hkey
  have hf := kvs_from_val_frame w v
  have hu := set_inv_union (set_inv_kvs h v)
    ((variant_set_kvs_from_val w v).2.data.node p).elem v
  have hv' : (variant_set_union (variant_set_kvs_from_val w v).2
      ((variant_set_kvs_from_val w v).2.data.node p).elem v).2.vetoes PCVAR_OPERATION_CHANGE
      [.object ((variant_set_union (variant_set_kvs_from_val w v).2
          ((variant_set_kvs_from_val w v).2.data.node p).elem v).2.data.node p).elem,
        .object (variant_set_union (variant_set_kvs_from_val w v).2
          ((variant_set_kvs_from_val w v).2.data.node p).elem v).1] := by
    show World.vetoes _ PCVAR_OPERATION_CHANGE
      [.object ((variant_set_kvs_from_val w v).2.data.node p).elem,
        .object (variant_set_union (variant_set_kvs_from_val w v).2
          ((variant_set_kvs_from_val w v).2.data.node p).elem v).1]
    rw [hf.1]
    exact vetoes_of_frame (w := w) (kvs_from_val_mem w v) hf.2.1 hf.2.2.1 hv
  obtain ⟨w', hch, hun⟩ := change_veto hu _ _ hv'
  refine ⟨w', ?_, @untouched_of_frame w (variant_set_union (variant_set_kvs_from_val w v).2
      ((variant_set_kvs_from_val w v).2.data.node p).elem v).2 w' hf.1 hf.2.1 hf.2.2.2.1 hun⟩
  rw [set_add_object]
  unfold insert_or_replace
  simp only [hfind, Bool.not_true, Bool.false_eq_true, if_false]
  rw [if_neg (by rw [hf.1]; exact hne), hch]
  simp

theorem remove_by_index_veto {cmp : variant_cmp} {w : World} (h : set_inv cmp w)
    (N p : Nat) (hp : w.data.arr[N]? = some p)
    (hv : w.vetoes PCVAR_OPERATION_SHRINK [.object (w.data.node p).elem]) :
    ∃ w', purc_variant_set_remove_by_index w (N : Int) = some (none, w') ∧
      w.untouched w' := by
  obtain ⟨w', hrem, hun⟩ := set_remove_veto h p hv
  refine ⟨w', ?_, hun⟩
  simp [purc_variant_set_remove_by_index, hp, h.idx N p hp, hrem]

theorem remove_value_veto {cmp : variant_cmp} (hc : cmp_total cmp) {w : World}
    (h : set_inv cmp w) (v : pcv_object) (silently : Bool) (p : Nat) (hp : p ∈ w.data.arr)
    (hkey : cmp (w.kvs_of v) (w.data.node p).kvs.fields = 0)
    (hv : w.vetoes PCVAR_OPERATION_SHRINK [.object (w.data.node p).elem]) :
    ∃ w', purc_variant_set_remove cmp w (.object v) silently = some (false, w') ∧
      w.untouched w' := by
  have hfind := find_member hc h v p hp hkey
  have hf := kvs_from_val_frame w v
  have h1 := set_inv_kvs h v
  obtain ⟨w', hrem, hun⟩ := set_remove_veto h1 p
    (by rw [hf.1]; exact vetoes_of_frame (w := w) (kvs_from_val_mem w v) hf.2.1 hf.2.2.1 hv)
  refine ⟨w', ?_, untouched_of_frame hf.1 hf.2.1 hf.2.2.2.1 hun⟩
  simp only [purc_variant_set_remove, find_element, hfind, hrem, Option.map_some']
  simp

theorem remove_key_veto {cmp : variant_cmp} (hc : cmp_total cmp) {w : World}
    (h : set_inv cmp w) (keynames : List String) (vs : List purc_variant)
    (kvs : List (String × pcv_value)) (p : Nat)
    (hkn : w.data.keynames = some keynames) (hkvs : create_kvs_n_loop keynames vs [] = some kvs)
    (hp : p ∈ w.data.arr) (hkey : cmp kvs (w.data.node p).kvs.fields = 0)
    (hv : w.vetoes PCVAR_OPERATION_SHRINK [.object (w.data.node p).elem]) :
    ∃ w', purc_variant_set_remove_member_by_key_values cmp w vs = some (none, w') ∧
      w.untouched w' := by
  have hb : set_inv cmp { w with brk := w.brk + 1 } :=
    set_inv_frame h rfl rfl (fun _ _ => rfl) rfl (Nat.le_succ _)
  have hfind : find_element cmp w.data ⟨w.brk, kvs⟩ = some p :=
    find_loop_of_mem hc _ ⟨w.brk, kvs⟩ _ none h.sorted p (h.perm.mem_iff.2 hp) hkey
  obtain ⟨w', hrem, hun⟩ := set_remove_veto hb p hv
  refine ⟨w', ?_, @untouched_of_frame w { w with brk := w.brk + 1 } w' rfl rfl rfl hun⟩
  simp only [purc_variant_set_remove_member_by_key_values, hkn, variant_set_create_kvs_n, hkvs,
    hfind, hrem, Option.map_some']
  simp

/-- C8: in a reachable set, when a pre-listener registered on the set for the operation
returns false, each mutation reports failure and leaves the set untouched: the insert of
a new key (GROW), the overwrite of an existing key (CHANGE) and the remove of a member
(SHRINK) by index, by value and by key values. The array, the ordered index, every node
record and every listener list are as before, and only pre-listeners were called. -/
theorem C8_veto_leaves_set {cmp : variant_cmp} (hc : cmp_total cmp) (w : World)
    (hw : reachable cmp w) :
    (∀ (v : pcv_object) (overwrite : Bool),
      (∀ p ∈ w.data.arr, cmp (w.kvs_of v) (w.data.node p).kvs.fields ≠ 0) →
      w.vetoes PCVAR_OPERATION_GROW [.object v] →
      ∃ w', purc_variant_set_add cmp w (.object v) overwrite = some (false, w') ∧
        w.untouched w') ∧
    (∀ (v : pcv_object) (p : Nat), p ∈ w.data.arr →
      cmp (w.kvs_of v) (w.data.node p).kvs.fields = 0 →
      (w.data.node p).elem.addr ≠ v.addr →
      w.vetoes PCVAR_OPERATION_CHANGE
        [.object (w.data.node p).elem, .object (w.union_of (w.data.node p).elem v)] →
      ∃ w', purc_variant_set_add cmp w (.object v) true = some (false, w') ∧
        w.untouched w') ∧
    (∀ (N p : Nat), w.data.arr[N]? = some p →
      w.vetoes PCVAR_OPERATION_SHRINK [.object (w.data.node p).elem] →
      ∃ w', purc_variant_set_remove_by_index w (N : Int) = some (none, w') ∧
        w.untouched w') ∧
    (∀ (v : pcv_object) (silently : Bool) (p : Nat), p ∈ w.data.arr →
      cmp (w.kvs_of v) (w.data.node p).kvs.fields = 0 →
      w.vetoes PCVAR_OPERATION_SHRINK [.object (w.data.node p).elem] →
      ∃ w', purc_variant_set_remove cmp w (.object v) silently = some (false, w') ∧
        w.untouched w') ∧
    (∀ (keynames : List String) (vs : List purc_variant) (kvs : List (String × pcv_value))
      (p : Nat), w.data.keynames = some keynames →
      create_kvs_n_loop keynames vs [] = some kvs → p ∈ w.data.arr →
      cmp kvs (w.data.node p).kvs.fields = 0 →
      w.vetoes PCVAR_OPERATION_SHRINK [.object (w.data.node p).elem] →
      ∃ w', purc_variant_set_remove_member_by_key_values cmp w vs = some (none, w') ∧
        w.untouched w') := by
  have h := reachable_inv hc hw
  exact ⟨fun v ow hnew hv => add_new_veto h v ow hnew hv,
    fun v p hp hkey hne hv => add_overwrite_veto hc h v p hp hkey hne hv,
    fun N p hp hv => remove_by_index_veto h N p hp hv,
    fun v s p hp hkey hv => remove_value_veto hc h v s p hp hkey hv,
    fun kn vs kvs p hkn hkvs hp hkey hv => remove_key_veto hc h kn vs kvs p hkn hkvs hp hkey hv⟩

theorem ex_guarded_reachable : reachable ex_cmp ex_guarded :=
  ⟨ex_world, ex_guarded_calls, rfl, rfl, fun _ => rfl, rfl⟩

theorem ex_guarded_listeners :
    ex_guarded.listeners ex_guarded.set =
      [⟨1017, PCVAR_LISTENER_PRE, PCVAR_OPERATION_ALL, 9, ex_veto⟩,
       ⟨1000, PCVAR_LISTENER_PRE, PCVAR_OPERATION_ALL, 0, ex_allow⟩,
       ⟨1001, PCVAR_LISTENER_POST, PCVAR_OPERATION_ALL, 0, ex_allow⟩] := by
  rfl

theorem ex_guarded_vetoes (op : Nat) (hop : PCVAR_OPERATION_ALL &&& op ≠ 0)
    (argv : List purc_variant) : ex_guarded.vetoes op argv := by
  refine ⟨⟨⟨1017, PCVAR_LISTENER_PRE, PCVAR_OPERATION_ALL, 9, ex_veto⟩,
    by rw [ex_guarded_listeners]; exact List.mem_cons_self _ _, by decide, hop, rfl⟩, ?_⟩
  intro l hl _ _
  rw [ex_guarded_listeners] at hl
  simp only [List.mem_cons, List.mem_singleton, List.not_mem_nil, or_false] at hl
  rcases hl with rfl | rfl | rfl <;> rfl

theorem C8_veto_leaves_set_witness :
    cmp_total ex_cmp ∧ reachable ex_cmp ex_guarded ∧
    ex_guarded.data.arr = [1003, 1010, 1014] ∧
    (∃ w', purc_variant_set_add ex_cmp ex_guarded (.object ⟨5, [("id", .number 5)]⟩) false
        = some (false, w') ∧ ex_guarded.untouched w') ∧
    (∃ w', purc_variant_set_add ex_cmp ex_guarded
        (.object ⟨9, [("id", .number 2), ("age", .number 7)]⟩) true
        = some (false, w') ∧ ex_guarded.untouched w') ∧
    (∃ w', purc_variant_set_remove_by_index ex_guarded ((0 : Nat) : Int) = some (none, w') ∧
      ex_guarded.untouched w') ∧
    (∃ w', purc_variant_set_remove ex_cmp ex_guarded (.object ex_obj_c) false
        = some (false, w') ∧ ex_guarded.untouched w') ∧
    (∃ w', purc_variant_set_remove_member_by_key_values ex_cmp ex_guarded [.scalar (.number 0)]
        = some (none, w') ∧ ex_guarded.untouched w') :=
  ⟨ex_cmp_total, ex_guarded_reachable, rfl,
    (C8_veto_leaves_set ex_cmp_total ex_guarded ex_guarded_reachable).1
      ⟨5, [("id", .number 5)]⟩ false (by decide) (ex_guarded_vetoes _ (by decide) _),
    (C8_veto_leaves_set ex_cmp_total ex_guarded ex_guarded_reachable).2.1
      ⟨9, [("id", .number 2), ("age", .number 7)]⟩ 1010 (by decide) (by decide) (by decide)
      (ex_guarded_vetoes _ (by decide) _),
    (C8_veto_leaves_set ex_cmp_total ex_guarded ex_guarded_reachable).2.2.1
      0 1003 rfl (ex_guarded_vetoes _ (by decide) _),
    (C8_veto_leaves_set ex_cmp_total ex_guarded ex_guarded_reachable).2.2.2.1
      ex_obj_c false 1010 (by decide) (by decide) (ex_guarded_vetoes _ (by decide) _),
    (C8_veto_leaves_set ex_cmp_total ex_guarded ex_guarded_reachable).2.2.2.2
      ["id"] [.scalar (.number 0)] [("id", .number 0)] 1014 rfl rfl (by decide) (by decide)
      (ex_guarded_vetoes _ (by decide) _)⟩

/-! ## Claims on registration and revocation -/

theorem register_pre_cases (w : World) (v : Option purc_variant) (op : Nat)
    (handler : Option pcvar_op_handler) (ctxt : Nat) :
    (∃ c h, v = some c ∧ handler = some h ∧ IS_CONTAINER c = true ∧
        op &&& PCVAR_OPERATION_ALL = op ∧ op ≠ 0 ∧
        purc_variant_register_pre_listener w v op handler ctxt =
          (some w.brk, { w with brk := w.brk + 1,
                                listeners := Function.update w.listeners c.addr
                                  (⟨w.brk, PCVAR_LISTENER_PRE, op, ctxt, h⟩ ::
                                    w.listeners c.addr) })) ∨
    ((¬ ∃ c h, v = some c ∧ handler = some h ∧ IS_CONTAINER c = true ∧
        op &&& PCVAR_OPERATION_ALL = op ∧ op ≠ 0) ∧
      ∃ e, purc_variant_register_pre_listener w v op handler ctxt =
        (none, pcinst_set_error w e)) := by
  by_cases hgood : ∃ c h, v = some c ∧ handler = some h ∧ IS_CONTAINER c = true ∧
        op &&& PCVAR_OPERATION_ALL = op ∧ op ≠ 0
  · obtain ⟨c, h, rfl, rfl, hc, hop, h0⟩ := hgood
    exact Or.inl ⟨c, h, rfl, rfl, hc, hop, h0, register_pre_ok w c op h ctxt hc hop h0⟩
  · refine Or.inr ⟨hgood, ?_⟩
    cases v with
    | none =>
      refine ⟨.WRONG_ARGS, ?_⟩
      unfold purc_variant_register_pre_listener
      split_ifs <;> rfl
    | some c =>
      cases handler with
      | none =>
        refine ⟨.WRONG_ARGS, ?_⟩
        unfold purc_variant_register_pre_listener
        split_ifs <;> rfl
      | some h =>
        exact register_pre_fail w c op h ctxt
          (fun hh => hgood ⟨c, h, rfl, rfl, hh.1, hh.2.1, hh.2.2⟩)

theorem register_post_cases (w : World) (v : Option purc_variant) (op : Nat)
    (handler : Option pcvar_op_handler) (ctxt : Nat) :
    (∃ c h, v = some c ∧ handler = some h ∧ IS_CONTAINER c = true ∧
        op &&& PCVAR_OPERATION_ALL = op ∧ op ≠ 0 ∧
        purc_variant_register_post_listener w v op handler ctxt =
          (some w.brk, { w with brk := w.brk + 1,
                                listeners := Function.update w.listeners c.addr
                                  (w.listeners c.addr ++
                                    [⟨w.brk, PCVAR_LISTENER_POST, op, ctxt, h⟩]) })) ∨
    ((¬ ∃ c h, v = some c ∧ handler = some h ∧ IS_CONTAINER c = true ∧
        op &&& PCVAR_OPERATION_ALL = op ∧ op ≠ 0) ∧
      ∃ e, purc_variant_register_post_listener w v op handler ctxt =
        (none, pcinst_set_error w e)) := by
  by_cases hgood : ∃ c h, v = some c ∧ handler = some h ∧ IS_CONTAINER c = true ∧
        op &&& PCVAR_OPERATION_ALL = op ∧ op ≠ 0
  · obtain ⟨c, h, rfl, rfl, hc, hop, h0⟩ := hgood
    exact Or.inl ⟨c, h, rfl, rfl, hc, hop, h0, register_post_ok w c op h ctxt hc hop h0⟩
  · refine Or.inr ⟨hgood, ?_⟩
    cases v with
    | none =>
      refine ⟨.WRONG_ARGS, ?_⟩
      unfold purc_variant_register_post_listener
      split_ifs <;> rfl
    | some c =>
      cases handler with
      | none =>
        refine ⟨.WRONG_ARGS, ?_⟩
        unfold purc_variant_register_post_listener
        split_ifs <;> rfl
      | some h =>
        exact register_post_fail w c op h ctxt
          (fun hh => hgood ⟨c, h, rfl, rfl, hh.1, hh.2.1, hh.2.2⟩)

/-- C11: `purc_variant_register_pre_listener` and `purc_variant_register_post_listener`
return a listener exactly when the value is a container, the operation mask is a non-empty
subset of GROW, SHRINK, CHANGE and the handler is not null; the new entry then carries the
mask and the handler. In every other case they return no listener and the listener list of
every container is as before. -/
theorem C11_register_validates (w : World) (v : Option purc_variant) (op : Nat)
    (handler : Option pcvar_op_handler) (ctxt : Nat) :
    (((purc_variant_register_pre_listener w v op handler ctxt).1.isSome = true ↔
        ∃ c h, v = some c ∧ handler = some h ∧ IS_CONTAINER c = true ∧
          op &&& PCVAR_OPERATION_ALL = op ∧ op ≠ 0) ∧
      (∀ c h l, v = some c → handler = some h →
        (purc_variant_register_pre_listener w v op handler ctxt).1 = some l →
        (purc_variant_register_pre_listener w v op handler ctxt).2.listeners c.addr =
          ⟨l, PCVAR_LISTENER_PRE, op, ctxt, h⟩ :: w.listeners c.addr) ∧
      ((purc_variant_register_pre_listener w v op handler ctxt).1 = none →
        (purc_variant_register_pre_listener w v op handler ctxt).2.listeners = w.listeners)) ∧
    (((purc_variant_register_post_listener w v op handler ctxt).1.isSome = true ↔
        ∃ c h, v = some c ∧ handler = some h ∧ IS_CONTAINER c = true ∧
          op &&& PCVAR_OPERATION_ALL = op ∧ op ≠ 0) ∧
      (∀ c h l, v = some c → handler = some h →
        (purc_variant_register_post_listener w v op handler ctxt).1 = some l →
        (purc_variant_register_post_listener w v op handler ctxt).2.listeners c.addr =
          w.listeners c.addr ++ [⟨l, PCVAR_LISTENER_POST, op, ctxt, h⟩]) ∧
      ((purc_variant_register_post_listener w v op handler ctxt).1 = none →
        (purc_variant_register_post_listener w v op handler ctxt).2.listeners = w.listeners)) := by
  constructor
  · rcases register_pre_cases w v op handler ctxt with
      ⟨c, h, rfl, rfl, hc, hop, h0, heq⟩ | ⟨hbad, e, heq⟩
    · rw [heq]
      refine ⟨⟨fun _ => ⟨c, h, rfl, rfl, hc, hop, h0⟩, fun _ => rfl⟩, ?_, ?_⟩
      · intro c' h' l hc' hh' hl
        cases hc'; cases hh'
        simp only [Option.some.injEq] at hl
        subst hl
        simp
      · intro hn; simp at hn
    · rw [heq]
      refine ⟨⟨fun hs => by simp at hs, fun hg => absurd hg hbad⟩, ?_, fun _ => rfl⟩
      intro c' h' l _ _ hl
      simp at hl
  · rcases register_post_cases w v op handler ctxt with
      ⟨c, h, rfl, rfl, hc, hop, h0, heq⟩ | ⟨hbad, e, heq⟩
    · rw [heq]
      refine ⟨⟨fun _ => ⟨c, h, rfl, rfl, hc, hop, h0⟩, fun _ => rfl⟩, ?_, ?_⟩
      · intro c' h' l hc' hh' hl
        cases hc'; cases hh'
        simp only [Option.some.injEq] at hl
        subst hl
        simp
      · intro hn; simp at hn
    · rw [heq]
      refine ⟨⟨fun hs => by simp at hs, fun hg => absurd hg hbad⟩, ?_, fun _ => rfl⟩
      intro c' h' l _ _ hl
      simp at hl

theorem C11_register_validates_witness :
    (purc_variant_register_pre_listener ex_world (some (.set 100)) PCVAR_OPERATION_GROW
        (some ex_allow) 0).1 = some 1000 ∧
    (purc_variant_register_pre_listener ex_world (some (.set 100)) 8 (some ex_allow) 0).1
      = none ∧
    (purc_variant_register_pre_listener ex_world (some (.set 100)) PCVAR_OPERATION_GROW
        (some ex_allow) 0).2.listeners 100 =
      ⟨1000, PCVAR_LISTENER_PRE, PCVAR_OPERATION_GROW, 0, ex_allow⟩ :: ex_world.listeners 100 ∧
    (purc_variant_register_post_listener ex_world (some (.scalar .null)) PCVAR_OPERATION_GROW
        (some ex_allow) 0).2.listeners = ex_world.listeners :=
  ⟨rfl, rfl,
    (C11_register_validates ex_world (some (.set 100)) PCVAR_OPERATION_GROW
      (some ex_allow) 0).1.2.1 (.set 100) ex_allow 1000 rfl rfl rfl,
    (C11_register_validates ex_world (some (.scalar .null)) PCVAR_OPERATION_GROW
      (some ex_allow) 0).2.2.2 rfl⟩

theorem revoke_loop_split (l : Nat) :
    ∀ (ls rest : List pcvar_listener), revoke_loop l ls = some rest →
      ∃ pre x post, ls = pre ++ x :: post ∧ x.addr = l ∧ (∀ y ∈ pre, y.addr ≠ l) ∧
        rest = pre ++ post := by
  intro ls
  induction ls with
  | nil => intro rest h; simp [revoke_loop] at h
  | cons curr tl ih =>
    intro rest h
    unfold revoke_loop at h
    split_ifs at h with h1
    · simp only [Option.map_eq_some'] at h
      obtain ⟨r, hr, rfl⟩ := h
      obtain ⟨pre, x, post, htl, hx, hpre, hr2⟩ := ih r hr
      refine ⟨curr :: pre, x, post, by rw [htl]; rfl, hx, ?_, by rw [hr2]; rfl⟩
      intro y hy
      rcases List.mem_cons.1 hy with hy | hy
      · subst hy; exact h1
      · exact hpre y hy
    · simp only [Option.some.injEq] at h
      subst h
      simp only [ne_eq, not_not] at h1
      exact ⟨[], curr, tl, rfl, h1, fun y hy => by simp at hy, rfl⟩

theorem revoke_loop_none (l : Nat) :
    ∀ (ls : List pcvar_listener), (∀ x ∈ ls, x.addr ≠ l) → revoke_loop l ls = none := by
  intro ls
  induction ls with
  | nil => intro _; rfl
  | cons curr tl ih =>
    intro h
    unfold revoke_loop
    rw [if_pos (h curr (List.mem_cons_self _ _)),
      ih (fun x hx => h x (List.mem_cons_of_mem _ hx))]
    rfl

/-- C12: on a container, `purc_variant_revoke_listener` returns true exactly when an entry
with the given handle is in the listener list of the container. When it returns true that
one entry is gone and the others keep their order, and the lists of the other containers
are as before; when it returns false every list is as before. Handles being distinct, a
second revoke of the same handle returns false. -/
theorem C12_revoke_exact (w : World) (v : purc_variant) (l : Nat)
    (hv : IS_CONTAINER v = true) :
    ((purc_variant_revoke_listener w (some v) (some l)).1 = true ↔
      ∃ x ∈ w.listeners v.addr, x.addr = l) ∧
    ((purc_variant_revoke_listener w (some v) (some l)).1 = true →
      ∃ pre x post, w.listeners v.addr = pre ++ x :: post ∧ x.addr = l ∧
        (∀ y ∈ pre, y.addr ≠ l) ∧
        (purc_variant_revoke_listener w (some v) (some l)).2.listeners v.addr = pre ++ post ∧
        ∀ a, a ≠ v.addr →
          (purc_variant_revoke_listener w (some v) (some l)).2.listeners a = w.listeners a) ∧
    ((purc_variant_revoke_listener w (some v) (some l)).1 = false →
      (purc_variant_revoke_listener w (some v) (some l)).2.listeners = w.listeners) ∧
    (((w.listeners v.addr).map (fun x => x.addr)).Nodup →
      (purc_variant_revoke_listener w (some v) (some l)).1 = true →
      (purc_variant_revoke_listener (purc_variant_revoke_listener w (some v) (some l)).2
        (some v) (some l)).1 = false) := by
  cases hr : revoke_loop l (w.listeners v.addr) with
  | none =>
    have heq : purc_variant_revoke_listener w (some v) (some l) = (false, w) := by
      simp [purc_variant_revoke_listener, hv, hr]
    rw [heq]
    refine ⟨⟨fun h => by simp at h, ?_⟩, fun h => by simp at h, fun _ => rfl,
      fun _ h => by simp at h⟩
    intro hex
    obtain ⟨rest, hrest⟩ := revoke_loop_some l _ hex
    rw [hr] at hrest
    cases hrest
  | some rest =>
    have heq : purc_variant_revoke_listener w (some v) (some l) =
        (true, { w with listeners := Function.update w.listeners v.addr rest }) := by
      simp [purc_variant_revoke_listener, hv, hr]
    rw [heq]
    obtain ⟨pre, x, post, hls, hx, hpre, hrest⟩ := revoke_loop_split l _ _ hr
    refine ⟨⟨fun _ => ⟨x, by rw [hls]; simp, hx⟩, fun _ => rfl⟩, ?_, fun h => by simp at h, ?_⟩
    · intro _
      refine ⟨pre, x, post, hls, hx, hpre, by simp [hrest], ?_⟩
      intro a ha
      simp [Function.update_noteq ha]
    · intro hnd _
      have hnone : revoke_loop l rest = none := by
        apply revoke_loop_none
        intro y hy
        rw [hrest] at hy
        rw [hls, List.map_append, List.map_cons] at hnd
        rcases List.mem_append.1 hy with hy | hy
        · exact hpre y hy
        · intro hyl
          have h1 := (List.nodup_append.1 hnd).2.1
          have h2 := (List.nodup_cons.1 h1).1
          apply h2
          rw [hx, ← hyl]
          exact List.mem_map_of_mem _ hy
      simp [purc_variant_revoke_listener, hv, hnone]

theorem C12_revoke_exact_witness :
    (purc_variant_revoke_listener ex_set (some (.set 100)) (some 1001)).1 = true ∧
    (purc_variant_revoke_listener ex_set (some (.set 100)) (some 1001)).2.listeners 100 =
      [⟨1000, PCVAR_LISTENER_PRE, PCVAR_OPERATION_ALL, 0, ex_allow⟩] ∧
    (purc_variant_revoke_listener
      (purc_variant_revoke_listener ex_set (some (.set 100)) (some 1001)).2
      (some (.set 100)) (some 1001)).1 = false :=
  ⟨((C12_revoke_exact ex_set (.set 100) 1001 rfl).1).2
      ⟨⟨1001, PCVAR_LISTENER_POST, PCVAR_OPERATION_ALL, 0, ex_allow⟩,
        by rw [show (purc_variant.set 100).addr = ex_set.set from rfl, ex_set_listeners]; simp,
        rfl⟩,
    rfl,
    (C12_revoke_exact ex_set (.set 100) 1001 rfl).2.2.2
      (by rw [show (purc_variant.set 100).addr = ex_set.set from rfl, ex_set_listeners]; decide)
      rfl⟩

/-! ## Claims on the constraint listener -/

theorem find_loop_fields (cmp : variant_cmp) (node : Nat → set_node) (kvs kvs' : pcv_object)
    (h : kvs.fields = kvs'.fields) :
    ∀ (t : rb_node) (parent : Option Nat),
      find_element_rb_node_loop cmp node kvs t parent =
        find_element_rb_node_loop cmp node kvs' t parent := by
  intro t
  induction t with
  | nil => intro parent; rfl
  | node l q r ihl ihr =>
    intro parent
    unfold find_element_rb_node_loop
    simp only [h, ihl, ihr]

theorem kvs_loop_set_other (f : List (String × pcv_value)) (kn : String) (fv : pcv_value) :
    ∀ (ks : List String) (acc : List (String × pcv_value)), kn ∉ ks →
      kvs_from_val_loop (purc_variant_object_set f kn fv) ks acc = kvs_from_val_loop f ks acc := by
  intro ks
  induction ks with
  | nil => intro acc _; rfl
  | cons sk rest ih =>
    intro acc hk
    have h1 : kn ≠ sk := fun e => hk (by rw [e]; exact List.mem_cons_self _ _)
    have h2 : kn ∉ rest := fun e => hk (List.mem_cons_of_mem _ e)
    unfold kvs_from_val_loop
    rw [object_get_set, if_neg h1]
    cases purc_variant_object_get_by_ckey f sk with
    | none => exact ih acc h2
    | some v => exact ih _ h2

/-- What the CHANGE handler computes: a lookup of the key projection of the changed clone. -/
theorem change_handler_eq (cmp : variant_cmp) (w : World) (s : pcv_object) (kn : String)
    (vo vn : purc_variant) (fv : pcv_value) (hvn : vn.as_field = some fv) (ctxt : Nat) :
    variant_set_constraints_handler cmp w.mem (.object s) PCVAR_OPERATION_CHANGE ctxt
        [.scalar (.string kn), vo, .scalar (.string kn), vn] =
      some (match (find_element_rb_node_loop cmp w.data.node
          ⟨0, w.kvs_of ⟨s.addr, purc_variant_object_set s.fields kn fv⟩⟩
          w.data.elems none).entry with
      | some p => decide ((w.data.node p).elem.addr = s.addr)
      | none => true) := by
  have hop1 : PCVAR_OPERATION_CHANGE ≠ PCVAR_OPERATION_GROW := by decide
  have hop2 : PCVAR_OPERATION_CHANGE ≠ PCVAR_OPERATION_SHRINK := by decide
  simp only [variant_set_constraints_handler, hop1, hop2, if_false, if_true,
    variant_set_constraint_change_handler, pcvariant_equal, ne_eq, not_true_eq_false, hvn,
    find_element, find_element_rb_node, World.mem]
  rw [find_loop_fields cmp w.data.node _
    ⟨0, w.kvs_of ⟨s.addr, purc_variant_object_set s.fields kn fv⟩⟩]
  · cases (find_element_rb_node_loop cmp w.data.node
        ⟨0, w.kvs_of ⟨s.addr, purc_variant_object_set s.fields kn fv⟩⟩
        w.data.elems none).entry <;> rfl
  · unfold World.kvs_of variant_set_kvs_from_val
    cases w.data.keynames <;> rfl

/-- The CHANGE handler ends in a fatal assertion when the old and the new key differ. -/
theorem change_handler_keys (cmp : variant_cmp) (mem : pcvar_memory) (source : purc_variant)
    (ko kn : String) (vo vn : purc_variant) (ctxt : Nat) (hk : ko ≠ kn) :
    variant_set_constraints_handler cmp mem source PCVAR_OPERATION_CHANGE ctxt
        [.scalar (.string ko), vo, .scalar (.string kn), vn] = none := by
  have hop1 : PCVAR_OPERATION_CHANGE ≠ PCVAR_OPERATION_GROW := by decide
  have hop2 : PCVAR_OPERATION_CHANGE ≠ PCVAR_OPERATION_SHRINK := by decide
  cases source <;>
    simp [variant_set_constraints_handler, hop1, hop2,
      variant_set_constraint_change_handler, pcvariant_equal, hk]

/-- C13: in a reachable set, the constraint listener of the set answers a CHANGE of the
field `kn` to the value `vn` on the object `s` with false exactly when a member that is not
`s` has, as its cached key projection, the key projection of `s` with `kn` set to `vn`. When
the set is keyed, `kn` is not a key name and the cached key of the member `s` is its key
projection, the CHANGE is allowed. A CHANGE that names two different keys ends in the fatal
assertion of the handler. -/
theorem C13_constraint_change {cmp : variant_cmp} (hc : cmp_total cmp) (w : World)
    (hw : reachable cmp w) (s : pcv_object) (kn : String) (vo vn : purc_variant)
    (fv : pcv_value) (hvn : vn.as_field = some fv) (ctxt : Nat) :
    (variant_set_constraints_handler cmp w.mem (.object s) PCVAR_OPERATION_CHANGE ctxt
        [.scalar (.string kn), vo, .scalar (.string kn), vn] = some false ↔
      ∃ q ∈ w.data.arr, (w.data.node q).elem.addr ≠ s.addr ∧
        cmp (w.kvs_of ⟨s.addr, purc_variant_object_set s.fields kn fv⟩)
          (w.data.node q).kvs.fields = 0) ∧
    (∀ keynames p, w.data.keynames = some keynames → kn ∉ keynames → p ∈ w.data.arr →
      (w.data.node p).elem.addr = s.addr →
      cmp (w.kvs_of s) (w.data.node p).kvs.fields = 0 →
      variant_set_constraints_handler cmp w.mem (.object s) PCVAR_OPERATION_CHANGE ctxt
        [.scalar (.string kn), vo, .scalar (.string kn), vn] = some true) ∧
    (∀ ko, ko ≠ kn →
      variant_set_constraints_handler cmp w.mem (.object s) PCVAR_OPERATION_CHANGE ctxt
        [.scalar (.string ko), vo, .scalar (.string kn), vn] = none) := by
  refine ⟨?_, ?_, fun ko hk => change_handler_keys cmp w.mem _ ko kn vo vn ctxt hk⟩ <;>
  have h := reachable_inv hc hw <;>
  rw [change_handler_eq cmp w s kn vo vn fv hvn ctxt]
  · cases he : (find_element_rb_node_loop cmp w.data.node
        ⟨0, w.kvs_of ⟨s.addr, purc_variant_object_set s.fields kn fv⟩⟩
        w.data.elems none).entry with
    | none =>
      simp only [Option.some.injEq, Bool.true_eq_false, false_iff, not_exists, not_and]
      intro q hq _ hk
      have := find_loop_of_mem hc w.data.node
        ⟨0, w.kvs_of ⟨s.addr, purc_variant_object_set s.fields kn fv⟩⟩
        w.data.elems none h.sorted q (h.perm.mem_iff.2 hq) hk
      rw [he] at this
      cases this
    | some p =>
      obtain ⟨hp, hkp⟩ := find_loop_some cmp w.data.node _ _ _ p he
      simp only [Option.some.injEq, decide_eq_false_iff_not]
      constructor
      · intro hne
        exact ⟨p, h.perm.mem_iff.1 hp, hne, hkp⟩
      · rintro ⟨q, hq, hne, hk⟩
        have := find_loop_of_mem hc w.data.node
          ⟨0, w.kvs_of ⟨s.addr, purc_variant_object_set s.fields kn fv⟩⟩
          w.data.elems none h.sorted q (h.perm.mem_iff.2 hq) hk
        rw [he] at this
        cases this
        exact hne
  · intro keynames p hkn hnot hp haddr hk
    have hsame : w.kvs_of ⟨s.addr, purc_variant_object_set s.fields kn fv⟩ = w.kvs_of s := by
      unfold World.kvs_of variant_set_kvs_from_val
      rw [hkn]
      exact kvs_loop_set_other s.fields kn fv keynames [] hnot
    rw [hsame]
    have := find_loop_of_mem hc w.data.node ⟨0, w.kvs_of s⟩
      w.data.elems none h.sorted p (h.perm.mem_iff.2 hp) hk
    rw [this]
    simp [haddr]

theorem C13_constraint_change_witness :
    cmp_total ex_cmp ∧ reachable ex_cmp ex_set ∧
    ex_set.members[1]? = some ex_obj_c ∧
    variant_set_constraints_handler ex_cmp ex_set.mem (.object ex_obj_c)
      PCVAR_OPERATION_CHANGE 100
      [.scalar (.string "id"), .scalar (.number 2), .scalar (.string "id"),
        .scalar (.number 1)] = some false ∧
    variant_set_constraints_handler ex_cmp ex_set.mem (.object ex_obj_c)
      PCVAR_OPERATION_CHANGE 100
      [.scalar (.string "name"), .scalar (.string "c"), .scalar (.string "name"),
        .scalar (.string "x")] = some true ∧
    variant_set_constraints_handler ex_cmp ex_set.mem (.object ex_obj_c)
      PCVAR_OPERATION_CHANGE 100
      [.scalar (.string "name"), .scalar (.string "c"), .scalar (.string "id"),
        .scalar (.number 1)] = none :=
  ⟨ex_cmp_total, ex_set_reachable, by decide,
    (C13_constraint_change ex_cmp_total ex_set ex_set_reachable ex_obj_c "id"
      (.scalar (.number 2)) (.scalar (.number 1)) (.number 1) rfl 100).1.2
      ⟨1003, by decide, by decide, by decide⟩,
    (C13_constraint_change ex_cmp_total ex_set ex_set_reachable ex_obj_c "name"
      (.scalar (.string "c")) (.scalar (.string "x")) (.string "x") rfl 100).2.1
      ["id"] 1010 rfl (by decide) (by decide) (by decide) (by decide),
    (C13_constraint_change ex_cmp_total ex_set ex_set_reachable ex_obj_c "id"
      (.scalar (.string "c")) (.scalar (.number 1)) (.number 1) rfl 100).2.2
      "name" (by decide)⟩

theorem ex_sparse_reachable : reachable ex_cmp ex_sparse :=
  ⟨ex_world, [.add (.object ex_obj_a) false, .add (.object ex_obj_q) false], rfl, rfl,
    fun _ => rfl, rfl⟩

/-- C14: the constraint listener does not check a GROW. In the example set keyed by `id`
with the members a (`id: 1`) and q (no `id`), the member q gains the field `id: 1` in
place: the resulting key projection is the cached key of the other member a, the constraint
listener registered on q is called and returns true, so the fire of the GROW pre-listeners
of q allows the edit. The same new key offered as a CHANGE is refused. The handler answers
every GROW and every SHRINK of a field of an object with true, and on no input does it
answer a GROW or a SHRINK with false. -/
theorem C14_grow_not_checked :
    reachable ex_cmp ex_sparse ∧
    ex_sparse.members = [ex_obj_a, ex_obj_q] ∧
    purc_variant_object_get_by_ckey ex_obj_q.fields "id" = none ∧
    (∃ p ∈ ex_sparse.data.arr, (ex_sparse.data.node p).elem.addr ≠ ex_obj_q.addr ∧
      ex_cmp (ex_sparse.kvs_of
          ⟨ex_obj_q.addr, purc_variant_object_set ex_obj_q.fields "id" (.number 1)⟩)
        (ex_sparse.data.node p).kvs.fields = 0) ∧
    on_pre_fired_loop ex_sparse.mem (.object ex_obj_q) PCVAR_OPERATION_GROW
        [.scalar (.string "id"), .scalar (.number 1)] (ex_sparse.listeners ex_obj_q.addr) =
      some (true, [⟨1007, PCVAR_LISTENER_PRE, PCVAR_OPERATION_GROW,
        [.scalar (.string "id"), .scalar (.number 1)]⟩]) ∧
    variant_set_constraints_handler ex_cmp ex_sparse.mem (.object ex_obj_q)
      PCVAR_OPERATION_CHANGE 100
      [.scalar (.string "id"), .scalar .null, .scalar (.string "id"), .scalar (.number 1)]
        = some false ∧
    (∀ (cmp : variant_cmp) (mem : pcvar_memory) (source : pcv_object) (ctxt : Nat)
        (k : String) (v : purc_variant),
      variant_set_constraints_handler cmp mem (.object source) PCVAR_OPERATION_GROW ctxt
        [.scalar (.string k), v] = some true ∧
      variant_set_constraints_handler cmp mem (.object source) PCVAR_OPERATION_SHRINK ctxt
        [.scalar (.string k), v] = some true) ∧
    (∀ (cmp : variant_cmp) (mem : pcvar_memory) (source : purc_variant) (ctxt : Nat)
        (argv : List purc_variant),
      variant_set_constraints_handler cmp mem source PCVAR_OPERATION_GROW ctxt argv
        ≠ some false ∧
      variant_set_constraints_handler cmp mem source PCVAR_OPERATION_SHRINK ctxt argv
        ≠ some false) := by
  refine ⟨ex_sparse_reachable, by decide, rfl, ⟨1001, by decide, by decide, by decide⟩,
    by decide, by decide, fun _ _ _ _ _ _ => ⟨rfl, rfl⟩, ?_⟩
  intro cmp mem source ctxt argv
  have hop : PCVAR_OPERATION_SHRINK ≠ PCVAR_OPERATION_GROW := by decide
  simp only [variant_set_constraints_handler, if_true, hop, if_false,
    variant_set_constraint_grow_handler, variant_set_constraint_shrink_handler]
  constructor <;> split <;> simp

/-! ## Claims on lookup -/

/-- What a lookup in the ordered index of a well-formed set returns. -/
theorem lookup_spec {cmp : variant_cmp} (hc : cmp_total cmp) {w : World} (h : set_inv cmp w)
    (k : pcv_object) :
    (∀ m, (find_element cmp w.data k).map (fun p => (w.data.node p).elem) = some m ↔
      ∃ p ∈ w.data.arr, (w.data.node p).elem = m ∧ cmp k.fields (w.data.node p).kvs.fields = 0) ∧
    ((find_element cmp w.data k).map (fun p => (w.data.node p).elem) = none ↔
      ∀ p ∈ w.data.arr, cmp k.fields (w.data.node p).kvs.fields ≠ 0) := by
  unfold find_element find_element_rb_node
  cases he : (find_element_rb_node_loop cmp w.data.node k w.data.elems none).entry with
  | none =>
    have hno : ∀ p ∈ w.data.arr, cmp k.fields (w.data.node p).kvs.fields ≠ 0 := by
      intro p hp hk
      have := find_loop_of_mem hc w.data.node k w.data.elems none h.sorted p
        (h.perm.mem_iff.2 hp) hk
      rw [he] at this
      cases this
    refine ⟨fun m => ⟨fun hm => by simp at hm, ?_⟩, ⟨fun _ => hno, fun _ => rfl⟩⟩
    rintro ⟨p, hp, _, hk⟩
    exact absurd hk (hno p hp)
  | some q =>
    obtain ⟨hq, hkq⟩ := find_loop_some cmp w.data.node k _ _ q he
    refine ⟨fun m => ⟨fun hm => ?_, ?_⟩, ⟨fun hn => by simp at hn, fun hno => ?_⟩⟩
    · simp only [Option.map_some', Option.some.injEq] at hm
      exact ⟨q, h.perm.mem_iff.1 hq, hm, hkq⟩
    · rintro ⟨p, hp, hm, hk⟩
      have := find_loop_of_mem hc w.data.node k w.data.elems none h.sorted p
        (h.perm.mem_iff.2 hp) hk
      rw [he] at this
      cases this
      simp [hm]
    · exact absurd hkq (hno q (h.perm.mem_iff.1 hq))

theorem create_kvs_key_values (v : pcv_object) :
    ∀ (keynames : List String) (acc : List (String × pcv_value)),
      create_kvs_n_loop keynames (key_values keynames v) acc =
        some (kvs_from_val_loop v.fields keynames acc) := by
  intro keynames
  induction keynames with
  | nil => intro acc; rfl
  | cons sk rest ih =>
    intro acc
    unfold key_values at ih ⊢
    simp only [List.map_cons]
    unfold create_kvs_n_loop kvs_from_val_loop
    cases purc_variant_object_get_by_ckey v.fields sk with
    | none => simp only [purc_variant.as_field]; exact ih acc
    | some x => simp only [purc_variant.as_field]; exact ih _

/-- A successful `insert` reaches the inserted world, up to the calls recorded. -/
theorem insert_success (cmp : variant_cmp) (w w' : World) (val kvs : pcv_object)
    (parent : Option Nat) (pnode : List Bool) (check : Bool)
    (hrun : insert cmp w val kvs parent pnode check = some (0, w')) :
    ∃ calls calls3, w.data.arr.length < SIZE_MAX ∧
      w' = { World.inserted cmp { w with fired := w.fired ++ calls } val pnode with
        fired := (World.inserted cmp { w with fired := w.fired ++ calls } val pnode).fired
          ++ calls3 } := by
  cases hg : grow w val check with
  | none => unfold insert at hrun; rw [hg] at hrun; simp at hrun
  | some res =>
    obtain ⟨b, wg⟩ := res
    obtain ⟨calls, hwg⟩ := grow_frame _ _ _ _ _ hg
    subst hwg
    cases b with
    | false =>
      unfold insert at hrun
      rw [hg] at hrun
      simp only [Option.some.injEq, Prod.mk.injEq] at hrun
      exact absurd hrun.1 (by decide)
    | true =>
      by_cases hcap : w.data.arr.length < SIZE_MAX
      · rw [insert_allowed cmp w _ val kvs parent _ check hg hcap] at hrun
        simp only [Option.map_eq_some', Prod.mk.injEq] at hrun
        obtain ⟨w3, hw3, _, rfl⟩ := hrun
        obtain ⟨calls3, rfl⟩ := grown_frame _ _ _ _ hw3
        exact ⟨calls, calls3, hcap, rfl⟩
      · obtain ⟨w2, h2, _⟩ := insert_full cmp w _ val kvs parent pnode check hg (not_lt.1 hcap)
        rw [h2] at hrun
        simp only [Option.some.injEq, Prod.mk.injEq] at hrun
        exact absurd hrun.1 (by decide)

/-- After a successful `add` of an object with a new key, the set holds a node for the
object itself, keyed by its key projection. -/
theorem add_new_success {cmp : variant_cmp} (hc : cmp_total cmp) {w : World}
    (h : set_inv cmp w) (v : pcv_object) (overwrite : Bool) (w' : World)
    (hnew : ∀ p ∈ w.data.arr, cmp (w.kvs_of v) (w.data.node p).kvs.fields ≠ 0)
    (hrun : purc_variant_set_add cmp w (.object v) overwrite = some (true, w')) :
    set_inv cmp w' ∧ w'.data.keynames = w.data.keynames ∧
    ∃ q ∈ w'.data.arr, (w'.data.node q).elem = v ∧ (w'.data.node q).kvs.fields = w.kvs_of v := by
  refine ⟨set_add_inv hc h _ _ _ _ hrun, ?_⟩
  have hfind := find_new h v hnew
  have hf := kvs_from_val_frame w v
  rw [set_add_object] at hrun
  unfold insert_or_replace at hrun
  simp only [hfind, Option.map_map, Option.map_eq_some', Function.comp, Prod.mk.injEq,
    decide_eq_true_eq] at hrun
  obtain ⟨⟨r, w2⟩, hins, hr, rfl⟩ := hrun
  have hr0 : r = 0 := by
    by_contra hne
    simp only [hne, ne_eq, not_false_eq_true, if_true] at hr
    exact absurd hr (by decide)
  subst hr0
  obtain ⟨calls, calls3, _, rfl⟩ := insert_success cmp _ _ v _ _ _ _ hins
  refine ⟨by simp only [World.inserted]; rw [hf.1], (variant_set_kvs_from_val w v).2.brk,
    by simp [World.inserted], by simp [World.inserted], ?_⟩
  simp only [World.inserted, Function.update_same]
  exact kvs_fields_indep w _ v (by simp only; rw [hf.1])

theorem get_member_eq (cmp : variant_cmp) (w : World) (keynames : List String)
    (vs : List purc_variant) (kvs : List (String × pcv_value))
    (hkn : w.data.keynames = some keynames) (hkvs : create_kvs_n_loop keynames vs [] = some kvs) :
    purc_variant_set_get_member_by_key_values cmp w vs =
      ((find_element cmp w.data ⟨w.brk, kvs⟩).map (fun p => (w.data.node p).elem),
        { w with brk := w.brk + 1 }) := by
  simp only [purc_variant_set_get_member_by_key_values, hkn, variant_set_create_kvs_n, hkvs]

theorem set_find_eq (cmp : variant_cmp) (w : World) (v : pcv_object) :
    pcvariant_set_find cmp w (.object v) =
      some ((find_element cmp w.data (variant_set_kvs_from_val w v).1).map
        (fun p => (w.data.node p).elem), (variant_set_kvs_from_val w v).2) := by
  simp only [pcvariant_set_find, (kvs_from_val_frame w v).1]

/-- C15: in a reachable set, the lookup by value (`pcvariant_set_find`) and the lookup by key
tuple (`purc_variant_set_get_member_by_key_values`, on a keyed set) return the member `m`
exactly when a node of the set holds `m` and its cached key projection equals the looked-up
key, and return nothing exactly when no node has that key; they leave the set as it is.
After a successful `add` of an object with a new key, the lookup of that object and the
lookup of its key tuple both return the object itself. -/
theorem C15_lookup_by_key {cmp : variant_cmp} (hc : cmp_total cmp) (w : World)
    (hw : reachable cmp w) :
    (∀ v : pcv_object, ∃ r w1, pcvariant_set_find cmp w (.object v) = some (r, w1) ∧
      w1.data = w.data ∧ w1.listeners = w.listeners ∧ w1.fired = w.fired ∧
      (∀ m, r = some m ↔ ∃ p ∈ w.data.arr, (w.data.node p).elem = m ∧
        cmp (w.kvs_of v) (w.data.node p).kvs.fields = 0) ∧
      (r = none ↔ ∀ p ∈ w.data.arr, cmp (w.kvs_of v) (w.data.node p).kvs.fields ≠ 0)) ∧
    (∀ keynames vs kvs, w.data.keynames = some keynames →
      create_kvs_n_loop keynames vs [] = some kvs →
      (purc_variant_set_get_member_by_key_values cmp w vs).2.data = w.data ∧
      (purc_variant_set_get_member_by_key_values cmp w vs).2.listeners = w.listeners ∧
      (purc_variant_set_get_member_by_key_values cmp w vs).2.fired = w.fired ∧
      (∀ m, (purc_variant_set_get_member_by_key_values cmp w vs).1 = some m ↔
        ∃ p ∈ w.data.arr, (w.data.node p).elem = m ∧
          cmp kvs (w.data.node p).kvs.fields = 0) ∧
      ((purc_variant_set_get_member_by_key_values cmp w vs).1 = none ↔
        ∀ p ∈ w.data.arr, cmp kvs (w.data.node p).kvs.fields ≠ 0)) ∧
    (∀ (v : pcv_object) (overwrite : Bool) (w' : World),
      (∀ p ∈ w.data.arr, cmp (w.kvs_of v) (w.data.node p).kvs.fields ≠ 0) →
      purc_variant_set_add cmp w (.object v) overwrite = some (true, w') →
      (∃ w1, pcvariant_set_find cmp w' (.object v) = some (some v, w1)) ∧
      (∀ keynames, w.data.keynames = some keynames →
        (purc_variant_set_get_member_by_key_values cmp w' (key_values keynames v)).1
          = some v)) := by
  have h := reachable_inv hc hw
  refine ⟨?_, ?_, ?_⟩
  · intro v
    have hf := kvs_from_val_frame w v
    have hl := lookup_spec hc h (variant_set_kvs_from_val w v).1
    exact ⟨_, _, set_find_eq cmp w v, hf.1, hf.2.1, hf.2.2.2.1, hl.1, hl.2⟩
  · intro keynames vs kvs hkn hkvs
    have hl := lookup_spec hc h ⟨w.brk, kvs⟩
    rw [get_member_eq cmp w keynames vs kvs hkn hkvs]
    exact ⟨rfl, rfl, rfl, hl.1, hl.2⟩
  · intro v overwrite w' hnew hrun
    obtain ⟨hinv, hkn', q, hq, hqe, hqk⟩ := add_new_success hc h v overwrite w' hnew hrun
    constructor
    · have hl := lookup_spec hc hinv (variant_set_kvs_from_val w' v).1
      refine ⟨(variant_set_kvs_from_val w' v).2, ?_⟩
      rw [set_find_eq cmp w' v, (hl.1 v).2 ⟨q, hq, hqe, ?_⟩]
      rw [hqk]
      show cmp (w'.kvs_of v) (w.kvs_of v) = 0
      rw [show w'.kvs_of v = w.kvs_of v from kvs_fields_indep w w' v hkn']
      exact hc.refl _
    · intro keynames hkn
      have hl := lookup_spec hc hinv ⟨w'.brk, kvs_from_val_loop v.fields keynames []⟩
      rw [get_member_eq cmp w' keynames _ _ (hkn'.trans hkn) (create_kvs_key_values v _ _)]
      refine (hl.1 v).2 ⟨q, hq, hqe, ?_⟩
      rw [hqk]
      show cmp (kvs_from_val_loop v.fields keynames []) (w.kvs_of v) = 0
      have : w.kvs_of v = kvs_from_val_loop v.fields keynames [] := by
        unfold World.kvs_of variant_set_kvs_from_val
        rw [hkn]
      rw [this]
      exact hc.refl _

theorem ex_added_run :
    purc_variant_set_add ex_cmp ex_set (.object ex_obj_n) false = some (true, ex_added) := by
  rfl

theorem C15_lookup_by_key_witness :
    cmp_total ex_cmp ∧ reachable ex_cmp ex_set ∧
    (purc_variant_set_get_member_by_key_values ex_cmp ex_set [.scalar (.number 2)]).1
      = some ex_obj_c ∧
    (purc_variant_set_get_member_by_key_values ex_cmp ex_set [.scalar (.number 9)]).1 = none ∧
    purc_variant_set_add ex_cmp ex_set (.object ex_obj_n) false = some (true, ex_added) ∧
    (purc_variant_set_get_member_by_key_values ex_cmp ex_added
      (key_values ["id"] ex_obj_n)).1 = some ex_obj_n :=
  ⟨ex_cmp_total, ex_set_reachable,
    (((C15_lookup_by_key ex_cmp_total ex_set ex_set_reachable).2.1 ["id"] [.scalar (.number 2)]
      [("id", .number 2)] rfl rfl).2.2.2.1 ex_obj_c).2 ⟨1010, by decide, by decide, by decide⟩,
    ((C15_lookup_by_key ex_cmp_total ex_set ex_set_reachable).2.1 ["id"] [.scalar (.number 9)]
      [("id", .number 9)] rfl rfl).2.2.2.2.2 (by decide),
    ex_added_run,
    ((C15_lookup_by_key ex_cmp_total ex_set ex_set_reachable).2.2
      ex_obj_n false ex_added (by decide) ex_added_run).2 ["id"] rfl⟩

/-! ## Claims on cursors -/

/-- The cursor refreshed at a node of the ordered index: its neighbours in the ascending
traversal. -/
theorem refresh_at (d : variant_set) (pre rest : List Nat) (c : Nat)
    (x y : Option Nat) (hL : d.elems.inorder = pre ++ c :: rest)
    (hnd : d.elems.inorder.Nodup) (hne : d.arr.length ≠ 0) :
    iterator_refresh d ⟨some c, x, y⟩ = ⟨some c, pre.getLast?, rest.head?⟩ := by
  rw [hL] at hnd
  have hcpre : c ∉ pre := fun hc =>
    (List.nodup_append.1 hnd).2.2 hc (List.mem_cons_self _ _)
  have hcrest : c ∉ rest := (List.nodup_cons.1 (List.nodup_append.1 hnd).2.1).1
  have hidx : (pre ++ c :: rest).indexOf c = pre.length := by
    rw [List.indexOf_append_of_not_mem hcpre, List.indexOf_cons_self]
    rfl
  have hprev : (if some c = (pre ++ c :: rest).head? then (none : Option Nat)
      else pcutils_rbtree_prev d.elems c) = pre.getLast? := by
    cases pre with
    | nil => simp
    | cons a pre' =>
      have hac : c ≠ a := fun e => hcpre (by rw [e]; exact List.mem_cons_self _ _)
      simp only [List.cons_append, List.head?_cons, Option.some.injEq, hac, if_false]
      unfold pcutils_rbtree_prev
      rw [hL, hidx]
      simp only [List.length_cons, Nat.succ_ne_zero, if_false, Nat.add_sub_cancel]
      rw [List.getElem?_append_left (by simp), List.getLast?_eq_getElem?]
      simp
  have hnext : (if some c = (pre ++ c :: rest).getLast? then (none : Option Nat)
      else pcutils_rbtree_next d.elems c) = rest.head? := by
    cases rest with
    | nil => simp
    | cons b rest' =>
      have hbc : c ≠ (b :: rest').getLast (by simp) := fun e =>
        hcrest (by rw [e]; exact List.getLast_mem _)
      have hlast : (pre ++ c :: b :: rest').getLast? = some ((b :: rest').getLast (by simp)) := by
        rw [List.getLast?_append_cons, List.getLast?_cons_cons, List.getLast?_eq_getLast]
      rw [hlast]
      simp only [Option.some.injEq, hbc, if_false]
      unfold pcutils_rbtree_next
      rw [hL, hidx, List.getElem?_append_right (by omega)]
      simp
  unfold iterator_refresh
  simp only [hne, if_false]
  unfold pcutils_rbtree_first pcutils_rbtree_last
  rw [hL]
  rw [← hprev, ← hnext]
  split_ifs <;> rfl

/-- The cursor refreshed with no current node. -/
theorem refresh_none (d : variant_set) (x y : Option Nat) :
    iterator_refresh d ⟨none, x, y⟩ = ⟨none, none, none⟩ := rfl

theorem walk_next_from (w : World) (hne : w.data.arr.length ≠ 0)
    (hnd : w.data.elems.inorder.Nodup) :
    ∀ (rest pre : List Nat) (c : Nat) (fuel : Nat),
      w.data.elems.inorder = pre ++ c :: rest → rest.length + 1 ≤ fuel →
      walk_next w fuel ⟨some c, pre.getLast?, rest.head?⟩ =
        ((c :: rest).map (fun p => (w.data.node p).elem)).zip
          (List.replicate rest.length true ++ [false]) := by
  intro rest
  induction rest with
  | nil =>
    intro pre c fuel _ hfuel
    obtain ⟨f, rfl⟩ : ∃ f, fuel = f + 1 := ⟨fuel - 1, by simp at hfuel; omega⟩
    simp [walk_next, purc_variant_set_iterator_get_value, purc_variant_set_iterator_next,
      refresh_none]
  | cons c' rest' ih =>
    intro pre c fuel hL hfuel
    obtain ⟨f, rfl⟩ : ∃ f, fuel = f + 1 := ⟨fuel - 1, by simp at hfuel; omega⟩
    have hL' : w.data.elems.inorder = (pre ++ [c]) ++ c' :: rest' := by
      rw [hL]; simp
    have hr := refresh_at w.data (pre ++ [c]) rest' c' pre.getLast? (some c') hL' hnd hne
    have hih := ih (pre ++ [c]) c' f hL' (by simp at hfuel ⊢; omega)
    simp only [walk_next, purc_variant_set_iterator_get_value, purc_variant_set_iterator_next,
      List.head?_cons, hr, Option.isSome_some, if_true, hih]
    simp [List.replicate_succ]

theorem walk_prev_from (w : World) (hne : w.data.arr.length ≠ 0)
    (hnd : w.data.elems.inorder.Nodup) :
    ∀ (pre rest : List Nat) (c : Nat) (fuel : Nat),
      w.data.elems.inorder = pre ++ c :: rest → pre.length + 1 ≤ fuel →
      walk_prev w fuel ⟨some c, pre.getLast?, rest.head?⟩ =
        ((c :: pre.reverse).map (fun p => (w.data.node p).elem)).zip
          (List.replicate pre.length true ++ [false]) := by
  intro pre
  induction pre using List.reverseRecOn with
  | nil =>
    intro rest c fuel _ hfuel
    obtain ⟨f, rfl⟩ : ∃ f, fuel = f + 1 := ⟨fuel - 1, by simp at hfuel; omega⟩
    simp [walk_prev, purc_variant_set_iterator_get_value, purc_variant_set_iterator_prev,
      refresh_none]
  | append_singleton pre' a ih =>
    intro rest c fuel hL hfuel
    obtain ⟨f, rfl⟩ : ∃ f, fuel = f + 1 := ⟨fuel - 1, by simp at hfuel; omega⟩
    have hL' : w.data.elems.inorder = pre' ++ a :: (c :: rest) := by
      rw [hL]; simp
    have hr := refresh_at w.data pre' (c :: rest) a (some a) rest.head? hL' hnd hne
    have hih := ih (c :: rest) a f hL' (by simp at hfuel ⊢; omega)
    simp only [List.head?_cons] at hr hih
    simp only [walk_prev, purc_variant_set_iterator_get_value, purc_variant_set_iterator_prev,
      List.getLast?_concat, hr, Option.isSome_some, if_true, hih]
    simp [List.replicate_succ]

/-- C16: in a reachable set that is not empty and is not changed during the walk, the cursor
made by `begin` and moved with `next` reads the values of the nodes of the ordered index, in
the order of the ascending traversal: strictly ascending cached keys, every node of the
array once. `next` returns true for all but the last of them and false at the last. The
cursor made by `end` and moved with `prev` reads them in the reverse order. The walk ends
as soon as its fuel is the size of the set. -/
theorem C16_cursor_walk {cmp : variant_cmp} (hc : cmp_total cmp) (w : World)
    (hw : reachable cmp w) (hne : w.data.arr ≠ []) :
    ascending cmp w.key w.data.elems.inorder ∧
    w.data.elems.inorder.Perm w.data.arr ∧ w.data.arr.Nodup ∧
    (∃ it w1, purc_variant_set_make_iterator_begin w = some (some it, w1) ∧
      w1.data = w.data ∧
      ∀ fuel, w.data.arr.length ≤ fuel →
        walk_next w1 fuel it =
          (w.data.elems.inorder.map (fun p => (w.data.node p).elem)).zip
            (List.replicate (w.data.arr.length - 1) true ++ [false])) ∧
    (∃ it w1, purc_variant_set_make_iterator_end w = some (some it, w1) ∧
      w1.data = w.data ∧
      ∀ fuel, w.data.arr.length ≤ fuel →
        walk_prev w1 fuel it =
          (w.data.elems.inorder.reverse.map (fun p => (w.data.node p).elem)).zip
            (List.replicate (w.data.arr.length - 1) true ++ [false])) := by
  have h := reachable_inv hc hw
  have hnd : w.data.elems.inorder.Nodup := h.perm.nodup_iff.2 h.nodup
  have hlen : w.data.elems.inorder.length = w.data.arr.length := h.perm.length_eq
  have hne0 : w.data.arr.length ≠ 0 := fun e => hne (List.length_eq_zero.1 e)
  refine ⟨h.sorted, h.perm, h.nodup, ?_, ?_⟩
  · cases hL : w.data.elems.inorder with
    | nil => rw [hL] at hlen; exact absurd hlen.symm hne0
    | cons c rest =>
      have hr := refresh_at w.data [] rest c none none hL hnd hne0
      refine ⟨⟨some c, none, rest.head?⟩, { w with brk := w.brk + 1 }, ?_, rfl, ?_⟩
      · simp only [purc_variant_set_make_iterator_begin, hne0, if_false,
          pcutils_rbtree_first, hL, List.head?_cons]
        rw [hr]
        rfl
      · intro fuel hfuel
        rw [hL] at hlen
        have := walk_next_from { w with brk := w.brk + 1 } hne0 hnd rest [] c fuel hL
          (by simp at hlen; omega)
        simp only [List.getLast?_nil] at this
        rw [this, ← hlen]
        simp
  · obtain ⟨pre, c, hL⟩ : ∃ pre c, w.data.elems.inorder = pre ++ [c] := by
      rcases List.eq_nil_or_concat w.data.elems.inorder with hnil | ⟨pre, c, hL⟩
      · rw [hnil] at hlen; exact absurd hlen.symm hne0
      · exact ⟨pre, c, by rw [hL, List.concat_eq_append]⟩
    have hr := refresh_at w.data pre [] c none none hL hnd hne0
    refine ⟨⟨some c, pre.getLast?, none⟩, { w with brk := w.brk + 1 }, ?_, rfl, ?_⟩
    · simp only [purc_variant_set_make_iterator_end, hne0, if_false,
        pcutils_rbtree_last, hL, List.getLast?_concat]
      rw [hr]
      rfl
    · intro fuel hfuel
      rw [hL] at hlen
      have := walk_prev_from { w with brk := w.brk + 1 } hne0 hnd pre [] c fuel hL
        (by simp at hlen; omega)
      simp only [List.head?_nil] at this
      rw [this, hL, ← hlen]
      simp

theorem C16_cursor_walk_witness :
    cmp_total ex_cmp ∧ reachable ex_cmp ex_set ∧ ex_set.data.arr ≠ [] ∧
    ex_set.data.arr = [1003, 1010, 1014] ∧ ex_set.data.elems.inorder = [1014, 1003, 1010] ∧
    ex_set.data.elems.inorder.map (fun p => (ex_set.data.node p).elem) =
      [ex_obj_z, ⟨1007, [("id", .number 1), ("name", .string "b")]⟩, ex_obj_c] ∧
    ∃ it w1, purc_variant_set_make_iterator_begin ex_set = some (some it, w1) ∧
      walk_next w1 3 it =
        (ex_set.data.elems.inorder.map (fun p => (ex_set.data.node p).elem)).zip
          [true, true, false] :=
  ⟨ex_cmp_total, ex_set_reachable, by decide, by decide, by decide, by decide,
    by
      obtain ⟨it, w1, h1, _, h2⟩ :=
        (C16_cursor_walk ex_cmp_total ex_set ex_set_reachable (by decide)).2.2.2.1
      exact ⟨it, w1, h1, h2 3 (by decide)⟩⟩

/-! ## Claims on the key projection -/

theorem object_get_isSome (f : List (String × pcv_value)) (k : String) :
    (purc_variant_object_get_by_ckey f k).isSome = true ↔ k ∈ f.map Prod.fst := by
  induction f with
  | nil => simp [purc_variant_object_get_by_ckey]
  | cons kv rest ih =>
    obtain ⟨k0, v0⟩ := kv
    unfold purc_variant_object_get_by_ckey
    by_cases h : k0 = k
    · simp [h]
    · simp only [h, if_false, List.map_cons, List.mem_cons, ih]
      constructor
      · exact Or.inr
      · rintro (e | e)
        · exact absurd e.symm h
        · exact e

theorem object_set_names (f : List (String × pcv_value)) (k : String) (v : pcv_value) :
    (purc_variant_object_set f k v).map Prod.fst =
      if k ∈ f.map Prod.fst then f.map Prod.fst else f.map Prod.fst ++ [k] := by
  induction f with
  | nil => simp [purc_variant_object_set]
  | cons kv rest ih =>
    obtain ⟨k0, v0⟩ := kv
    unfold purc_variant_object_set
    by_cases h : k0 = k
    · simp [h]
    · have h' : ¬ k = k0 := fun e => h e.symm
      simp only [h, if_false, List.map_cons, ih, List.mem_cons, h', false_or]
      split_ifs <;> simp

theorem object_set_nodup (f : List (String × pcv_value)) (k : String) (v : pcv_value)
    (h : (f.map Prod.fst).Nodup) : ((purc_variant_object_set f k v).map Prod.fst).Nodup := by
  rw [object_set_names]
  split_ifs with hk
  · exact h
  · exact List.nodup_append.2 ⟨h, List.nodup_singleton _, by
      intro a ha hb
      simp only [List.mem_singleton] at hb
      subst hb
      exact hk ha⟩

theorem kvs_loop_nodup (value : List (String × pcv_value)) :
    ∀ (keynames : List String) (acc : List (String × pcv_value)),
      (acc.map Prod.fst).Nodup →
      ((kvs_from_val_loop value keynames acc).map Prod.fst).Nodup := by
  intro keynames
  induction keynames with
  | nil => intro acc h; exact h
  | cons sk rest ih =>
    intro acc h
    unfold kvs_from_val_loop
    cases purc_variant_object_get_by_ckey value sk with
    | none => exact ih acc h
    | some x => exact ih _ (object_set_nodup acc sk x h)

theorem kvs_loop_get (value : List (String × pcv_value)) (k : String) :
    ∀ (keynames : List String) (acc : List (String × pcv_value)),
      purc_variant_object_get_by_ckey (kvs_from_val_loop value keynames acc) k =
        if k ∈ keynames then
          (match purc_variant_object_get_by_ckey value k with
            | some x => some x
            | none => purc_variant_object_get_by_ckey acc k)
        else purc_variant_object_get_by_ckey acc k := by
  intro keynames
  induction keynames with
  | nil => intro acc; simp [kvs_from_val_loop]
  | cons sk rest ih =>
    intro acc
    unfold kvs_from_val_loop
    cases hv : purc_variant_object_get_by_ckey value sk with
    | none =>
      simp only [ih, List.mem_cons]
      by_cases h1 : k = sk
      · subst h1
        simp [hv]
      · simp [h1]
    | some x =>
      simp only [ih, List.mem_cons, object_get_set]
      by_cases h1 : k = sk
      · subst h1
        simp [hv]
      · have h2 : ¬ sk = k := fun e => h1 e.symm
        simp [h1, h2]

/-- C17: for a set with the key names `K`, the key projection of an object is a newly
allocated object whose fields are those names of `K` that the object has, each with the
value the object gives it, and no other field; each name is there once. For a set with no
key names the key projection is the object itself and nothing is allocated. -/
theorem C17_key_projection (w : World) (v : pcv_object) :
    (∀ K, w.data.keynames = some K →
      (variant_set_kvs_from_val w v).1.addr = w.brk ∧
      (variant_set_kvs_from_val w v).2 = { w with brk := w.brk + 1 } ∧
      (∀ k, purc_variant_object_get_by_ckey (variant_set_kvs_from_val w v).1.fields k =
        if k ∈ K then purc_variant_object_get_by_ckey v.fields k else none) ∧
      (∀ k, k ∈ (variant_set_kvs_from_val w v).1.fields.map Prod.fst ↔
        k ∈ K ∧ k ∈ v.fields.map Prod.fst) ∧
      ((variant_set_kvs_from_val w v).1.fields.map Prod.fst).Nodup) ∧
    (w.data.keynames = none → variant_set_kvs_from_val w v = (v, w)) := by
  constructor
  · intro K hK
    have hget : ∀ k, purc_variant_object_get_by_ckey (kvs_from_val_loop v.fields K []) k =
        if k ∈ K then purc_variant_object_get_by_ckey v.fields k else none := by
      intro k
      rw [kvs_loop_get]
      by_cases hk : k ∈ K
      · simp only [hk, if_true]
        cases purc_variant_object_get_by_ckey v.fields k <;> rfl
      · simp only [hk, if_false]
        rfl
    have heq : variant_set_kvs_from_val w v =
        (⟨w.brk, kvs_from_val_loop v.fields K []⟩, { w with brk := w.brk + 1 }) := by
      simp only [variant_set_kvs_from_val, hK]
    rw [heq]
    refine ⟨rfl, rfl, hget, ?_, kvs_loop_nodup v.fields K [] (by simp)⟩
    intro k
    rw [← object_get_isSome, hget, ← object_get_isSome]
    by_cases hk : k ∈ K <;> simp [hk]
  · intro hK
    simp only [variant_set_kvs_from_val, hK]

theorem C17_key_projection_witness :
    (variant_set_kvs_from_val ex_set ⟨9, [("name", .string "x"), ("id", .number 2)]⟩).1
      = ⟨1017, [("id", .number 2)]⟩ ∧
    (variant_set_kvs_from_val ex_set ex_obj_q).1 = ⟨1017, []⟩ ∧
    (variant_set_kvs_from_val ex_set ex_obj_q).1.addr = ex_set.brk ∧
    variant_set_kvs_from_val { ex_set with data := { ex_set.data with keynames := none } }
      ex_obj_q = (ex_obj_q, { ex_set with data := { ex_set.data with keynames := none } }) :=
  ⟨by decide, by decide,
    ((C17_key_projection ex_set ex_obj_q).1 ["id"] rfl).1,
    (C17_key_projection { ex_set with data := { ex_set.data with keynames := none } }
      ex_obj_q).2 rfl⟩

/-! ## Claims on replace by index -/

theorem pre_loop_all_true (mem : pcvar_memory) (source : purc_variant) (op : Nat)
    (argv : List purc_variant) :
    ∀ ls : List pcvar_listener,
      (∀ l ∈ ls, l.handler mem source op l.ctxt argv = some true) →
      ∃ calls, on_pre_fired_loop mem source op argv ls = some (true, calls) := by
  intro ls
  induction ls with
  | nil => intro _; exact ⟨[], rfl⟩
  | cons curr rest ih =>
    intro h
    obtain ⟨calls, hr⟩ := ih (fun l hl => h l (List.mem_cons_of_mem _ hl))
    unfold on_pre_fired_loop
    by_cases h1 : curr.op &&& op = 0
    · exact ⟨calls, by rw [if_pos h1, hr]⟩
    · by_cases h2 : curr.flags &&& PCVAR_LISTENER_PRE_OR_POST ≠ PCVAR_LISTENER_PRE
      · exact ⟨[], by rw [if_neg h1, if_pos h2]⟩
      · refine ⟨⟨curr.addr, curr.flags, op, argv⟩ :: calls, ?_⟩
        rw [if_neg h1, if_neg h2]
        simp only [h curr (List.mem_cons_self _ _), hr, Option.map_some']

theorem allows_of_listeners_allow {w : World} (h : w.listeners_allow) (op : Nat)
    (argv : List purc_variant) : w.allows op argv := by
  obtain ⟨calls, hc⟩ := pre_loop_all_true w.mem (.set w.set) op argv _
    (fun l hl => h l hl _ _ _ _)
  unfold World.allows
  rw [hc]
  rfl

theorem post_ok_of_listeners_allow {w : World} (h : w.listeners_allow) :
    w.post_listeners_ok :=
  fun l hl _ mem source op argv => h l hl mem source op argv

/-- With no vetoing listener, `remove_by_index` of a position of a well-formed set
succeeds. -/
theorem remove_by_index_ok {cmp : variant_cmp} {w : World} (h : set_inv cmp w)
    (N p : Nat) (hp : w.data.arr[N]? = some p)
    (hallow : w.allows PCVAR_OPERATION_SHRINK [.object (w.data.node p).elem])
    (hpost : w.post_listeners_ok) :
    ∃ w1, purc_variant_set_remove_by_index w (N : Int) = some (some (w.data.node p).elem, w1) ∧
      set_inv cmp w1 ∧ w1.data.arr = w.data.arr.eraseIdx N ∧
      (∀ q ∈ w1.data.arr, (w1.data.node q).elem = (w.data.node q).elem ∧
        (w1.data.node q).kvs = (w.data.node q).kvs) ∧
      w1.members = w.members.eraseIdx N ∧ w1.set = w.set ∧
      w1.data.keynames = w.data.keynames ∧
      (∀ l ∈ w1.listeners w1.set, l ∈ w.listeners w.set) ∧
      ((w.data.node p).elem.addr ≠ w.set → w1.listeners w1.set = w.listeners w.set) := by
  have hpm : p ∈ w.data.arr := List.getElem?_mem hp
  have hidx := h.idx N p hp
  have hN : N < w.data.arr.length := (List.getElem?_eq_some.1 hp).1
  obtain ⟨l, hl, _, hx⟩ := h.constraints p hpm
  obtain ⟨rest, hr⟩ := revoke_loop_some l _ hx
  have hs := shrink_returns w (w.data.node p).elem (allows_result hallow).1
  rw [show (on_pre_fired_result w.mem (.set w.set) PCVAR_OPERATION_SHRINK
      [.object (w.data.node p).elem] (w.listeners w.set)).1 = true from
    (allows_result hallow).2] at hs
  obtain ⟨ws, hws⟩ : ∃ ws, ws = { w with fired := w.fired ++
      (on_pre_fired_result w.mem (.set w.set) PCVAR_OPERATION_SHRINK
        [.object (w.data.node p).elem] (w.listeners w.set)).2 } := ⟨_, rfl⟩
  rw [← hws] at hs
  have hwd : ws.data = w.data := by rw [hws]
  have hwl : ws.listeners = w.listeners := by rw [hws]
  have hwset : ws.set = w.set := by rw [hws]
  obtain ⟨calls, hcalls⟩ := post_fire_some w (ws.unlinked p) PCVAR_OPERATION_SHRINK
    (Or.inr (Or.inl rfl)) [.object (ws.data.node p).elem] hpost
    (by
      intro x hx2 _
      simp only [World.unlinked] at hx2
      rw [hwl, hwset] at hx2
      exact hx2)
  have hsh : shrunk (ws.unlinked p) (ws.data.node p).elem true =
      some { ws.unlinked p with fired := (ws.unlinked p).fired ++ calls } := by
    simp only [shrunk, Bool.not_true, Bool.false_eq_true, if_false, hcalls, Option.map_some']
  have hrem := set_remove_allowed w ws _ p true l rest hs (by rw [hwd, hidx]; exact hN) hsh
    (by rw [hwd]; exact hl) (by rw [hwd, hwl]; exact hr)
  obtain ⟨hinv, _, harr, _, hnodes, hmem⟩ := set_remove_done h p hpm true _ hrem
  rw [hidx] at harr hmem
  have helem : ((refresh_arr { ws.data with
      elems := pcutils_rbtree_erase p ws.data.elems,
      arr := ws.data.arr.eraseIdx (ws.data.node p).idx } (ws.data.node p).idx).node p).elem
        = (w.data.node p).elem := by
    simp only [refresh_arr]
    split_ifs
    · rw [hwd]
    · rw [(refresh_arr_fields _ _ _ p).1, hwd]
  refine ⟨_, ?_, hinv, harr, hnodes, hmem, ?_, ?_, ?_, ?_⟩
  · simp only [purc_variant_set_remove_by_index, Int.toNat_ofNat, Int.natCast_nonneg, not_lt.2,
      if_false, hp, hidx, if_true, hrem, Option.map_some']
    rfl
  · simp only [World.released, World.unlinked, hwset]
  · simp only [World.released, World.unlinked, refresh_arr, hwd]
    split_ifs <;> rfl
  · intro x hx2
    simp only [World.released, World.unlinked, hwset, hwl] at hx2
    by_cases ha : w.set = ((refresh_arr { ws.data with
        elems := pcutils_rbtree_erase p ws.data.elems,
        arr := ws.data.arr.eraseIdx (ws.data.node p).idx } (ws.data.node p).idx).node p).elem.addr
    · rw [← ha, Function.update_same] at hx2
      have hsub := revoke_loop_sublist l _ _ hr
      have helem : (w.data.node p).elem.addr = w.set := by
        rw [ha]
        simp only [refresh_arr]
        split_ifs
        · rw [hwd]
        · rw [(refresh_arr_fields _ _ _ p).1, hwd]
      rw [helem] at hsub
      exact hsub.subset hx2
    · rw [Function.update_noteq ha] at hx2
      exact hx2
  · intro hne2
    simp only [World.released, World.unlinked, hwset, hwl, helem]
    rw [Function.update_noteq (fun e => hne2 e.symm)]

theorem add_same_pointer {cmp : variant_cmp} (hc : cmp_total cmp) {w : World}
    (h : set_inv cmp w) (v : pcv_object) (p : Nat) (hp : p ∈ w.data.arr)
    (hkey : cmp (w.kvs_of v) (w.data.node p).kvs.fields = 0)
    (heq : (w.data.node p).elem.addr = v.addr) :
    purc_variant_set_add cmp w (.object v) true =
      some (true, (variant_set_kvs_from_val w v).2) := by
  have hfind := find_member hc h v p hp hkey
  have hf := kvs_from_val_frame w v
  rw [set_add_object]
  unfold insert_or_replace
  simp only [hfind, Bool.not_true, Bool.false_eq_true, if_false]
  rw [if_pos (by rw [hf.1]; exact heq)]
  rfl

theorem mem_eraseIdx_nodup {l : List Nat} (hnd : l.Nodup) (N p : Nat)
    (hp : l[N]? = some p) (q : Nat) : q ∈ l.eraseIdx N ↔ q ∈ l ∧ q ≠ p := by
  have hN : N < l.length := (List.getElem?_eq_some.1 hp).1
  have hpe : l[N] = p := (List.getElem?_eq_some.1 hp).2
  rw [← hnd.erase_getElem N hN, hpe, hnd.mem_erase_iff]
  exact And.comm

/-- With no vetoing listener, `add` with overwrite of a well-formed object whose key a
member has succeeds and keeps the array. -/
theorem add_merge_ok {cmp : variant_cmp} (hc : cmp_total cmp) {w : World}
    (h : set_inv cmp w) (hnv : w.listeners_allow) (v : pcv_object) (hv : v.wf) (q : Nat)
    (hq : q ∈ w.data.arr) (hkey : cmp (w.kvs_of v) (w.data.node q).kvs.fields = 0) :
    ∃ w', purc_variant_set_add cmp w (.object v) true = some (true, w') ∧
      w'.data.arr = w.data.arr ∧
      ((w.data.node q).elem.addr ≠ v.addr →
        ∀ k, purc_variant_object_get_by_ckey (w'.data.node q).elem.fields k =
          match purc_variant_object_get_by_ckey v.fields k with
          | some x => some x
          | none => purc_variant_object_get_by_ckey (w.data.node q).elem.fields k) ∧
      ((w.data.node q).elem.addr = v.addr → w'.data = w.data) := by
  by_cases heq : (w.data.node q).elem.addr = v.addr
  · refine ⟨_, add_same_pointer hc h v q hq hkey heq, ?_, fun hne => absurd heq hne, fun _ => ?_⟩
    · rw [(kvs_from_val_frame w v).1]
    · exact (kvs_from_val_frame w v).1
  · obtain ⟨i, hi⟩ := List.getElem?_of_mem hq
    obtain ⟨w', hadd, harr, _, _, _, _, _, hfields⟩ :=
      add_overwrite_union hc w h v hv i q hi hkey heq (allows_of_listeners_allow hnv _ _)
        (post_ok_of_listeners_allow hnv)
    exact ⟨w', hadd, harr, fun _ => hfields, fun he => absurd he heq⟩

/-- C18: in a reachable set with no vetoing listener, for a position `N` of the array and a
well-formed object `val` that is not the object stored there, `set_by_index(N, val)`
succeeds and leaves the set in the state that `remove_by_index(N)` followed by
`add(val, overwrite = true)` produces. When no other member has the key of `val`, the size
is as before, the members after position `N` move down by one and `val` is the member at
the last position. When another member has the key of `val`, the size is one less, the
array is the old one without position `N`, and that member becomes the union with `val`
(or stays, when it is `val` itself). -/
theorem C18_set_by_index_refines {cmp : variant_cmp} (hc : cmp_total cmp) (w : World)
    (hw : reachable cmp w) (N p : Nat) (val : pcv_object) (hwf : val.wf)
    (hp : w.data.arr[N]? = some p)
    (hne : val.addr ≠ (w.data.node p).elem.addr)
    (hnv : w.listeners_allow) :
    ∃ w1 w2,
      purc_variant_set_remove_by_index w (N : Int) = some (some (w.data.node p).elem, w1) ∧
      purc_variant_set_add cmp w1 (.object val) true = some (true, w2) ∧
      purc_variant_set_set_by_index cmp w (N : Int) (.object val) = some (true, w2) ∧
      spec_set_by_index cmp w (N : Int) (.object val) = some (true, w2) ∧
      ((∀ q ∈ w.data.arr, q ≠ p → cmp (w.kvs_of val) (w.data.node q).kvs.fields ≠ 0) →
        purc_variant_set_size w2 = purc_variant_set_size w ∧
        w2.members = w.members.eraseIdx N ++ [val] ∧
        purc_variant_set_get_by_index w2 ((purc_variant_set_size w - 1 : Nat) : Int)
          = some (some val)) ∧
      (∀ q ∈ w.data.arr, q ≠ p → cmp (w.kvs_of val) (w.data.node q).kvs.fields = 0 →
        purc_variant_set_size w2 + 1 = purc_variant_set_size w ∧
        w2.data.arr = w.data.arr.eraseIdx N ∧
        ((w.data.node q).elem.addr ≠ val.addr →
          ∀ k, purc_variant_object_get_by_ckey (w2.data.node q).elem.fields k =
            match purc_variant_object_get_by_ckey val.fields k with
            | some x => some x
            | none => purc_variant_object_get_by_ckey (w.data.node q).elem.fields k) ∧
        ((w.data.node q).elem.addr = val.addr →
          (w2.data.node q).elem = (w.data.node q).elem)) := by
  have h := reachable_inv hc hw
  have hN : N < w.data.arr.length := (List.getElem?_eq_some.1 hp).1
  obtain ⟨w1, hrem, hinv1, harr1, hnodes1, hmem1, hset1, hkn1, hls1, _⟩ :=
    remove_by_index_ok h N p hp (allows_of_listeners_allow hnv _ _)
      (post_ok_of_listeners_allow hnv)
  have hnv1 : w1.listeners_allow := fun l hl => hnv l (hls1 l hl)
  have hkvs1 : w1.kvs_of val = w.kvs_of val := kvs_fields_indep w w1 val hkn1
  have hlen1 : w1.data.arr.length + 1 = w.data.arr.length := by
    rw [harr1, List.length_eraseIdx]
    simp only [hN, if_true]
    omega
  have hmem1' : ∀ q, q ∈ w1.data.arr ↔ q ∈ w.data.arr ∧ q ≠ p := by
    intro q
    rw [harr1]
    exact mem_eraseIdx_nodup h.nodup N p hp q
  -- what `add` does on the set that the removal leaves
  have hA : (∀ q ∈ w.data.arr, q ≠ p → cmp (w.kvs_of val) (w.data.node q).kvs.fields ≠ 0) →
      ∃ w2, purc_variant_set_add cmp w1 (.object val) true = some (true, w2) ∧
        purc_variant_set_size w2 = purc_variant_set_size w ∧
        w2.members = w.members.eraseIdx N ++ [val] ∧
        purc_variant_set_get_by_index w2 ((purc_variant_set_size w - 1 : Nat) : Int)
          = some (some val) := by
    intro hnew
    obtain ⟨w2, q', hadd, _, hsize, _, hget, _, hmem⟩ := add_new_appends hc w1 hinv1 val true
      (by
        intro q hq
        rw [hkvs1, (hnodes1 q hq).2]
        exact hnew q ((hmem1' q).1 hq).1 ((hmem1' q).1 hq).2)
      (allows_of_listeners_allow hnv1 _ _) (post_ok_of_listeners_allow hnv1)
      (by have := h.capacity; omega)
    refine ⟨w2, hadd, ?_, by rw [hmem, hmem1], ?_⟩
    · simp only [purc_variant_set_size] at hsize ⊢
      omega
    · have : purc_variant_set_size w - 1 = w1.data.arr.length := by
        simp only [purc_variant_set_size]; omega
      rw [this]
      exact hget
  have hB : ∀ q ∈ w.data.arr, q ≠ p → cmp (w.kvs_of val) (w.data.node q).kvs.fields = 0 →
      ∃ w2, purc_variant_set_add cmp w1 (.object val) true = some (true, w2) ∧
        purc_variant_set_size w2 + 1 = purc_variant_set_size w ∧
        w2.data.arr = w.data.arr.eraseIdx N ∧
        ((w.data.node q).elem.addr ≠ val.addr →
          ∀ k, purc_variant_object_get_by_ckey (w2.data.node q).elem.fields k =
            match purc_variant_object_get_by_ckey val.fields k with
            | some x => some x
            | none => purc_variant_object_get_by_ckey (w.data.node q).elem.fields k) ∧
        ((w.data.node q).elem.addr = val.addr →
          (w2.data.node q).elem = (w.data.node q).elem) := by
    intro q hq hqp hkey
    have hq1 : q ∈ w1.data.arr := (hmem1' q).2 ⟨hq, hqp⟩
    obtain ⟨w2, hadd, harr, hf1, hf2⟩ := add_merge_ok hc hinv1 hnv1 val hwf q hq1
      (by rw [hkvs1, (hnodes1 q hq1).2]; exact hkey)
    rw [(hnodes1 q hq1).1] at hf1 hf2
    refine ⟨w2, hadd, ?_, by rw [harr, harr1], hf1, fun he => ?_⟩
    · simp only [purc_variant_set_size, harr]
      exact hlen1
    · rw [hf2 he, (hnodes1 q hq1).1]
  have hex : ∃ w2, purc_variant_set_add cmp w1 (.object val) true = some (true, w2) := by
    by_cases hdup : ∃ q ∈ w.data.arr, q ≠ p ∧ cmp (w.kvs_of val) (w.data.node q).kvs.fields = 0
    · obtain ⟨q, hq, hqp, hkey⟩ := hdup
      obtain ⟨w2, hadd, _⟩ := hB q hq hqp hkey
      exact ⟨w2, hadd⟩
    · obtain ⟨w2, hadd, _⟩ := hA (fun q hq hqp hk => hdup ⟨q, hq, hqp, hk⟩)
      exact ⟨w2, hadd⟩
  obtain ⟨w2, hadd⟩ := hex
  refine ⟨w1, w2, hrem, hadd, ?_, ?_, ?_, ?_⟩
  · have hsp : same_pointer (.object val) (w.data.node p).elem = false := by
      simp [same_pointer, hne]
    simp only [purc_variant_set_set_by_index, Int.toNat_ofNat, Int.natCast_nonneg, not_lt.2,
      if_false, hp, hsp, Bool.false_eq_true, hrem, hadd]
  · simp only [spec_set_by_index, hrem, hadd]
  · intro hnew
    obtain ⟨w2', hadd', hprops⟩ := hA hnew
    rw [hadd] at hadd'
    cases hadd'
    exact hprops
  · intro q hq hqp hkey
    obtain ⟨w2', hadd', hprops⟩ := hB q hq hqp hkey
    rw [hadd] at hadd'
    cases hadd'
    exact hprops

theorem ex_set_listeners_allow : ex_set.listeners_allow := by
  intro l hl mem source op argv
  rw [ex_set_listeners] at hl
  simp only [List.mem_cons, List.mem_singleton, List.not_mem_nil, or_false] at hl
  rcases hl with rfl | rfl <;> rfl

theorem C18_set_by_index_refines_witness :
    cmp_total ex_cmp ∧ reachable ex_cmp ex_set ∧ ex_obj_n.wf ∧
    ex_set.data.arr[0]? = some 1003 ∧ ex_obj_n.addr ≠ (ex_set.data.node 1003).elem.addr ∧
    ex_set.listeners_allow ∧
    ex_set.members = [⟨1007, [("id", .number 1), ("name", .string "b")]⟩, ex_obj_c, ex_obj_z] ∧
    ∃ w2, purc_variant_set_set_by_index ex_cmp ex_set ((0 : Nat) : Int) (.object ex_obj_n)
        = some (true, w2) ∧
      spec_set_by_index ex_cmp ex_set ((0 : Nat) : Int) (.object ex_obj_n) = some (true, w2) ∧
      purc_variant_set_size w2 = 3 ∧
      w2.members = [ex_obj_c, ex_obj_z, ex_obj_n] :=
  ⟨ex_cmp_total, ex_set_reachable, by unfold pcv_object.wf; decide, by decide, by decide,
    ex_set_listeners_allow, by decide,
    by
      obtain ⟨w1, w2, _, _, h3, h4, h5, _⟩ :=
        C18_set_by_index_refines ex_cmp_total ex_set ex_set_reachable 0 1003 ex_obj_n
          (by unfold pcv_object.wf; decide) (by decide) (by decide) ex_set_listeners_allow
      obtain ⟨h6, h7, _⟩ := h5 (by decide)
      refine ⟨w2, h3, h4, h6, ?_⟩
      rw [h7, show ex_set.members =
        [⟨1007, [("id", .number 1), ("name", .string "b")]⟩, ex_obj_c, ex_obj_z] from by decide]
      rfl⟩

theorem vetoes_of_always {w w1 : World} (op : Nat) (h : w.always_vetoes op)
    (hl : w1.listeners w1.set = w.listeners w.set) (hs : w1.set = w.set)
    (argv : List purc_variant) : w1.vetoes op argv := by
  obtain ⟨⟨l, hmem, hflag, hop, hfalse⟩, hret⟩ := h
  refine ⟨⟨l, by rw [hl]; exact hmem, hflag, hop, by rw [hs]; exact hfalse _ _⟩, ?_⟩
  intro x hx _ _
  rw [hl] at hx
  exact hret x hx _ _ _ _

/-- A vetoed SHRINK of the old member trips the first assertion of `set_by_index`. -/
theorem set_by_index_shrink_veto {cmp : variant_cmp} {w : World} (h : set_inv cmp w)
    (N p : Nat) (val : pcv_object) (hp : w.data.arr[N]? = some p)
    (hne : val.addr ≠ (w.data.node p).elem.addr)
    (hv : w.vetoes PCVAR_OPERATION_SHRINK [.object (w.data.node p).elem]) :
    purc_variant_set_set_by_index cmp w (N : Int) (.object val) = none := by
  obtain ⟨w', hrem, _⟩ := remove_by_index_veto h N p hp hv
  have hsp : same_pointer (.object val) (w.data.node p).elem = false := by
    simp [same_pointer, hne]
  simp only [purc_variant_set_set_by_index, Int.toNat_ofNat, Int.natCast_nonneg, not_lt.2,
    if_false, hp, hsp, Bool.false_eq_true, hrem]

/-- A failed `add` of the incoming value trips the second assertion of `set_by_index`. -/
theorem set_by_index_add_fails (cmp : variant_cmp) (w w1 w2 : World) (N p : Nat)
    (val old : pcv_object) (hp : w.data.arr[N]? = some p)
    (hne : val.addr ≠ (w.data.node p).elem.addr)
    (hrem : purc_variant_set_remove_by_index w (N : Int) = some (some old, w1))
    (hadd : purc_variant_set_add cmp w1 (.object val) true = some (false, w2)) :
    purc_variant_set_set_by_index cmp w (N : Int) (.object val) = none := by
  have hsp : same_pointer (.object val) (w.data.node p).elem = false := by
    simp [same_pointer, hne]
  simp only [purc_variant_set_set_by_index, Int.toNat_ofNat, Int.natCast_nonneg, not_lt.2,
    if_false, hp, hsp, Bool.false_eq_true, hrem, hadd]

theorem set_by_index_false (cmp : variant_cmp) (w w' : World) (idx : Int) (val : purc_variant)
    (h : purc_variant_set_set_by_index cmp w idx val = some (false, w')) :
    (idx < 0 ∨ (w.data.arr.length : Int) ≤ idx) ∧ w' = pcinst_set_error w .OUT_OF_BOUNDS := by
  unfold purc_variant_set_set_by_index at h
  by_cases h0 : idx < 0
  · simp only [h0, if_true, Option.some.injEq, Prod.mk.injEq, true_and] at h
    exact ⟨Or.inl h0, h.symm⟩
  · simp only [h0, if_false] at h
    cases hget : w.data.arr[idx.toNat]? with
    | none =>
      simp only [hget, Option.some.injEq, Prod.mk.injEq, true_and] at h
      refine ⟨Or.inr ?_, h.symm⟩
      have := List.getElem?_eq_none_iff.1 hget
      omega
    | some elem =>
      simp only [hget] at h
      split_ifs at h
      · simp at h
      · split at h
        · split at h
          · simp at h
          · simp at h
        · simp at h

theorem members_of_untouched {w w' : World} (h : w.untouched w') : w'.members = w.members := by
  obtain ⟨h1, _, h3, _⟩ := h
  simp only [World.members, h1, h3]

/-- C19: what `set_by_index` does when a pre-listener vetoes, in a reachable set, for a
position `N` of the array and an object `val` that is not the object stored there. A veto
of the SHRINK of the old member fails the assertion on the removed value: the call does not
return. When the SHRINK is allowed and a pre-listener vetoes the GROW (new key) or the
CHANGE (key of another member) of `val`, the old member is removed, `add` returns false
with the array one member short, and the assertion on its result fails. For a position of
the array `set_by_index` never returns false. -/
theorem C19_set_by_index_veto {cmp : variant_cmp} (hc : cmp_total cmp) (w : World)
    (hw : reachable cmp w) (N p : Nat) (val : pcv_object)
    (hp : w.data.arr[N]? = some p) (hne : val.addr ≠ (w.data.node p).elem.addr) :
    (w.vetoes PCVAR_OPERATION_SHRINK [.object (w.data.node p).elem] →
      purc_variant_set_set_by_index cmp w (N : Int) (.object val) = none) ∧
    (w.allows PCVAR_OPERATION_SHRINK [.object (w.data.node p).elem] → w.post_listeners_ok →
      (w.data.node p).elem.addr ≠ w.set →
      ((w.always_vetoes PCVAR_OPERATION_GROW ∧
          ∀ q ∈ w.data.arr, q ≠ p → cmp (w.kvs_of val) (w.data.node q).kvs.fields ≠ 0) ∨
        (w.always_vetoes PCVAR_OPERATION_CHANGE ∧
          ∃ q ∈ w.data.arr, q ≠ p ∧ cmp (w.kvs_of val) (w.data.node q).kvs.fields = 0 ∧
            (w.data.node q).elem.addr ≠ val.addr)) →
      purc_variant_set_set_by_index cmp w (N : Int) (.object val) = none ∧
      ∃ w1 w2,
        purc_variant_set_remove_by_index w (N : Int) = some (some (w.data.node p).elem, w1) ∧
        purc_variant_set_add cmp w1 (.object val) true = some (false, w2) ∧
        w2.data.arr = w.data.arr.eraseIdx N ∧ w2.members = w.members.eraseIdx N) ∧
    (∀ w', purc_variant_set_set_by_index cmp w (N : Int) (.object val) ≠ some (false, w')) := by
  have h := reachable_inv hc hw
  have hN : N < w.data.arr.length := (List.getElem?_eq_some.1 hp).1
  refine ⟨fun hv => set_by_index_shrink_veto h N p val hp hne hv, ?_, ?_⟩
  · intro hallow hpost haddr hveto
    obtain ⟨w1, hrem, hinv1, harr1, hnodes1, hmem1, hset1, hkn1, _, hls1⟩ :=
      remove_by_index_ok h N p hp hallow hpost
    have hkvs1 : w1.kvs_of val = w.kvs_of val := kvs_fields_indep w w1 val hkn1
    have hmem1' : ∀ q, q ∈ w1.data.arr ↔ q ∈ w.data.arr ∧ q ≠ p := by
      intro q
      rw [harr1]
      exact mem_eraseIdx_nodup h.nodup N p hp q
    have hadd : ∃ w2, purc_variant_set_add cmp w1 (.object val) true = some (false, w2) ∧
        w1.untouched w2 := by
      rcases hveto with ⟨hv, hnew⟩ | ⟨hv, q, hq, hqp, hkey, hqne⟩
      · exact add_new_veto hinv1 val true
          (by
            intro q hq
            rw [hkvs1, (hnodes1 q hq).2]
            exact hnew q ((hmem1' q).1 hq).1 ((hmem1' q).1 hq).2)
          (vetoes_of_always _ hv (hls1 haddr) hset1 _)
      · have hq1 : q ∈ w1.data.arr := (hmem1' q).2 ⟨hq, hqp⟩
        exact add_overwrite_veto hc hinv1 val q hq1
          (by rw [hkvs1, (hnodes1 q hq1).2]; exact hkey)
          (by rw [(hnodes1 q hq1).1]; exact hqne)
          (vetoes_of_always _ hv (hls1 haddr) hset1 _)
    obtain ⟨w2, hadd, hun⟩ := hadd
    exact ⟨set_by_index_add_fails cmp w w1 w2 N p val _ hp hne hrem hadd,
      w1, w2, hrem, hadd, by rw [hun.1, harr1], by rw [members_of_untouched hun, hmem1]⟩
  · intro w' hfalse
    have := (set_by_index_false cmp w w' N (.object val) hfalse).1
    omega

theorem ex_grow_guarded_listeners :
    ex_grow_guarded.listeners ex_grow_guarded.set =
      [⟨1017, PCVAR_LISTENER_PRE, PCVAR_OPERATION_GROW, 9, ex_veto⟩,
       ⟨1000, PCVAR_LISTENER_PRE, PCVAR_OPERATION_ALL, 0, ex_allow⟩,
       ⟨1001, PCVAR_LISTENER_POST, PCVAR_OPERATION_ALL, 0, ex_allow⟩] := by
  rfl

theorem ex_grow_guarded_reachable : reachable ex_cmp ex_grow_guarded :=
  ⟨ex_world, ex_calls ++ [set_call.register_pre PCVAR_OPERATION_GROW ex_veto 9], rfl, rfl,
    fun _ => rfl, rfl⟩

theorem ex_grow_guarded_always : ex_grow_guarded.always_vetoes PCVAR_OPERATION_GROW := by
  refine ⟨⟨⟨1017, PCVAR_LISTENER_PRE, PCVAR_OPERATION_GROW, 9, ex_veto⟩,
    by rw [ex_grow_guarded_listeners]; exact List.mem_cons_self _ _, by decide, by decide,
    fun _ _ => rfl⟩, ?_⟩
  intro l hl mem source op argv
  rw [ex_grow_guarded_listeners] at hl
  simp only [List.mem_cons, List.mem_singleton, List.not_mem_nil, or_false] at hl
  rcases hl with rfl | rfl | rfl <;> rfl

theorem ex_grow_guarded_post_ok : ex_grow_guarded.post_listeners_ok := by
  intro l hl hflag mem source op argv
  rw [ex_grow_guarded_listeners] at hl
  simp only [List.mem_cons, List.mem_singleton, List.not_mem_nil, or_false] at hl
  rcases hl with rfl | rfl | rfl
  · exact absurd rfl hflag
  · rfl
  · rfl

theorem C19_set_by_index_veto_witness :
    cmp_total ex_cmp ∧ reachable ex_cmp ex_guarded ∧ reachable ex_cmp ex_grow_guarded ∧
    ex_guarded.data.arr[0]? = some 1003 ∧ ex_grow_guarded.data.arr[0]? = some 1003 ∧
    ex_guarded.vetoes PCVAR_OPERATION_SHRINK [.object (ex_guarded.data.node 1003).elem] ∧
    purc_variant_set_set_by_index ex_cmp ex_guarded ((0 : Nat) : Int) (.object ex_obj_n)
      = none ∧
    ex_grow_guarded.allows PCVAR_OPERATION_SHRINK
      [.object (ex_grow_guarded.data.node 1003).elem] ∧
    ex_grow_guarded.always_vetoes PCVAR_OPERATION_GROW ∧
    purc_variant_set_set_by_index ex_cmp ex_grow_guarded ((0 : Nat) : Int) (.object ex_obj_n)
      = none ∧
    ∃ w1 w2, purc_variant_set_remove_by_index ex_grow_guarded ((0 : Nat) : Int)
        = some (some (ex_grow_guarded.data.node 1003).elem, w1) ∧
      purc_variant_set_add ex_cmp w1 (.object ex_obj_n) true = some (false, w2) ∧
      w2.members = ex_grow_guarded.members.eraseIdx 0 :=
  ⟨ex_cmp_total, ex_guarded_reachable, ex_grow_guarded_reachable, by decide, by decide,
    ex_guarded_vetoes _ (by decide) _,
    (C19_set_by_index_veto ex_cmp_total ex_guarded ex_guarded_reachable 0 1003 ex_obj_n
      (by decide) (by decide)).1 (ex_guarded_vetoes _ (by decide) _),
    by unfold World.allows; decide,
    ex_grow_guarded_always,
    ((C19_set_by_index_veto ex_cmp_total ex_grow_guarded ex_grow_guarded_reachable 0 1003
      ex_obj_n (by decide) (by decide)).2.1 (by unfold World.allows; decide)
      ex_grow_guarded_post_ok (by decide)
      (Or.inl ⟨ex_grow_guarded_always, by decide⟩)).1,
    by
      obtain ⟨_, w1, w2, h1, h2, _, h4⟩ :=
        (C19_set_by_index_veto ex_cmp_total ex_grow_guarded ex_grow_guarded_reachable 0 1003
          ex_obj_n (by decide) (by decide)).2.1 (by unfold World.allows; decide)
          ex_grow_guarded_post_ok (by decide)
          (Or.inl ⟨ex_grow_guarded_always, by decide⟩)
      exact ⟨w1, w2, h1, h2, h4⟩⟩

/-! ## Claims on a remove that names no member -/

/-- C20: in a reachable set, a remove that names no member removes nothing and calls no
listener. For an object whose key no member has, remove by value returns `silently` and
reports no error. For a key tuple whose key no member has, remove by key values returns
nothing and reports not-found. For an index that is negative or not below the size, remove
by index returns nothing and reports out-of-bounds, and `get_by_index` returns nothing.
Each time the array, the ordered index, the member nodes, the listener lists and the trace
of calls are as before. -/
theorem C20_remove_nothing {cmp : variant_cmp} (hc : cmp_total cmp) (w : World)
    (hw : reachable cmp w) :
    (∀ (v : pcv_object) (silently : Bool),
      (∀ p ∈ w.data.arr, cmp (w.kvs_of v) (w.data.node p).kvs.fields ≠ 0) →
      ∃ w', purc_variant_set_remove cmp w (.object v) silently = some (silently, w') ∧
        w'.data = w.data ∧ w'.listeners = w.listeners ∧ w'.fired = w.fired ∧
        w'.last_error = w.last_error) ∧
    (∀ (keynames : List String) (vs : List purc_variant) (kvs : List (String × pcv_value)),
      w.data.keynames = some keynames → create_kvs_n_loop keynames vs [] = some kvs →
      (∀ p ∈ w.data.arr, cmp kvs (w.data.node p).kvs.fields ≠ 0) →
      ∃ w', purc_variant_set_remove_member_by_key_values cmp w vs = some (none, w') ∧
        w'.data = w.data ∧ w'.listeners = w.listeners ∧ w'.fired = w.fired ∧
        w'.last_error = .NOT_FOUND) ∧
    (∀ idx : Int, idx < 0 ∨ (purc_variant_set_size w : Int) ≤ idx →
      purc_variant_set_remove_by_index w idx
        = some (none, pcinst_set_error w .OUT_OF_BOUNDS) ∧
      (pcinst_set_error w .OUT_OF_BOUNDS).data = w.data ∧
      (pcinst_set_error w .OUT_OF_BOUNDS).listeners = w.listeners ∧
      (pcinst_set_error w .OUT_OF_BOUNDS).fired = w.fired ∧
      purc_variant_set_get_by_index w idx = some none) := by
  have h := reachable_inv hc hw
  refine ⟨?_, ?_, ?_⟩
  · intro v silently hnew
    have hfind := find_new h v hnew
    have hf := kvs_from_val_frame w v
    refine ⟨(variant_set_kvs_from_val w v).2, ?_, hf.1, hf.2.1, hf.2.2.2.1, hf.2.2.2.2.1⟩
    simp only [purc_variant_set_remove, find_element, hfind]
  · intro keynames vs kvs hkn hkvs hnew
    have hfind : find_element cmp w.data ⟨w.brk, kvs⟩ = none :=
      find_none_of_new w.data.node ⟨w.brk, kvs⟩ w.data.elems none
        (fun p hp => hnew p (h.perm.mem_iff.1 hp))
    refine ⟨pcinst_set_error { w with brk := w.brk + 1 } .NOT_FOUND, ?_, rfl, rfl, rfl, rfl⟩
    simp only [purc_variant_set_remove_member_by_key_values, hkn, variant_set_create_kvs_n,
      hkvs, hfind]
  · intro idx hidx
    refine ⟨?_, rfl, rfl, rfl, ?_⟩
    · unfold purc_variant_set_remove_by_index
      by_cases h0 : idx < 0
      · simp only [h0, if_true]
      · have hlen : w.data.arr.length ≤ idx.toNat := by
          simp only [purc_variant_set_size] at hidx
          omega
        simp only [h0, if_false, List.getElem?_eq_none_iff.2 hlen]
    · unfold purc_variant_set_get_by_index
      by_cases h0 : idx < 0
      · simp only [h0, if_true]
      · have hlen : w.data.arr.length ≤ idx.toNat := by
          simp only [purc_variant_set_size] at hidx
          omega
        simp only [h0, if_false, List.getElem?_eq_none_iff.2 hlen]

theorem C20_remove_nothing_witness :
    cmp_total ex_cmp ∧ reachable ex_cmp ex_set ∧ purc_variant_set_size ex_set = 3 ∧
    (∃ w', purc_variant_set_remove ex_cmp ex_set (.object ex_obj_n) false = some (false, w') ∧
      w'.data = ex_set.data) ∧
    (∃ w', purc_variant_set_remove ex_cmp ex_set (.object ex_obj_n) true = some (true, w') ∧
      w'.data = ex_set.data) ∧
    (∃ w', purc_variant_set_remove_member_by_key_values ex_cmp ex_set [.scalar (.number 9)]
        = some (none, w') ∧ w'.data = ex_set.data ∧ w'.last_error = .NOT_FOUND) ∧
    purc_variant_set_remove_by_index ex_set 3
      = some (none, pcinst_set_error ex_set .OUT_OF_BOUNDS) ∧
    purc_variant_set_get_by_index ex_set (-1) = some none :=
  ⟨ex_cmp_total, ex_set_reachable, by decide,
    by
      obtain ⟨w', h1, h2, _⟩ :=
        (C20_remove_nothing ex_cmp_total ex_set ex_set_reachable).1 ex_obj_n false (by decide)
      exact ⟨w', h1, h2⟩,
    by
      obtain ⟨w', h1, h2, _⟩ :=
        (C20_remove_nothing ex_cmp_total ex_set ex_set_reachable).1 ex_obj_n true (by decide)
      exact ⟨w', h1, h2⟩,
    by
      obtain ⟨w', h1, h2, _, _, h5⟩ :=
        (C20_remove_nothing ex_cmp_total ex_set ex_set_reachable).2.1 ["id"]
          [.scalar (.number 9)] [("id", .number 9)] rfl rfl (by decide)
      exact ⟨w', h1, h2, h5⟩,
    ((C20_remove_nothing ex_cmp_total ex_set ex_set_reachable).2.2 3
      (Or.inr (by decide))).1,
    ((C20_remove_nothing ex_cmp_total ex_set ex_set_reachable).2.2 (-1)
      (Or.inl (by decide))).2.2.2.2⟩

/-! ## Claims on sort -/

/-- C21: in a reachable set, `pcvariant_set_sort` returns 0, leaves the ordered index, the
values and the key projections of the nodes, the listener lists and the trace of calls as
they are, and makes the array the ascending traversal of the ordered index: a permutation
of the old array in strictly ascending key order. Every cached position is the new position,
so `get_by_index(i)` is the `i`-th value of the ascending walk for every `i` below the
size. -/
theorem C21_sort_by_key {cmp : variant_cmp} (hc : cmp_total cmp) (w : World)
    (hw : reachable cmp w) :
    (pcvariant_set_sort cmp w).1 = 0 ∧
    (pcvariant_set_sort cmp w).2.data.elems = w.data.elems ∧
    (pcvariant_set_sort cmp w).2.data.arr.Perm w.data.arr ∧
    (pcvariant_set_sort cmp w).2.data.arr = w.data.elems.inorder ∧
    ascending cmp w.key (pcvariant_set_sort cmp w).2.data.arr ∧
    (∀ p, ((pcvariant_set_sort cmp w).2.data.node p).elem = (w.data.node p).elem ∧
      ((pcvariant_set_sort cmp w).2.data.node p).kvs = (w.data.node p).kvs) ∧
    (pcvariant_set_sort cmp w).2.listeners = w.listeners ∧
    (pcvariant_set_sort cmp w).2.fired = w.fired ∧
    (∀ i p, (pcvariant_set_sort cmp w).2.data.arr[i]? = some p →
      ((pcvariant_set_sort cmp w).2.data.node p).idx = i) ∧
    (∀ i : Nat, i < purc_variant_set_size w →
      purc_variant_set_get_by_index (pcvariant_set_sort cmp w).2 (i : Int) =
        some ((w.data.elems.inorder.map (fun p => (w.data.node p).elem))[i]?)) := by
  have h := reachable_inv hc hw
  have hinv := inv_sort h
  have harr : (pcvariant_set_sort cmp w).2.data.arr = w.data.elems.inorder := by
    have h1 : (pcvariant_set_sort cmp w).2.data.arr = w.data.arr.insertionSort
        (fun l r => cmp_variant cmp w.data.node l r ≤ 0) := by
      simp only [pcvariant_set_sort, (refresh_arr_frame _ _).1]
    rw [h1]
    exact sort_of_ascending hc w.key _ _ h.perm h.sorted
  have hnode : ∀ p, ((pcvariant_set_sort cmp w).2.data.node p).elem = (w.data.node p).elem ∧
      ((pcvariant_set_sort cmp w).2.data.node p).kvs = (w.data.node p).kvs := by
    intro p
    simp only [pcvariant_set_sort]
    exact ⟨((refresh_arr_frame _ 0).2.2.2 p).1, ((refresh_arr_frame _ 0).2.2.2 p).2.1⟩
  refine ⟨rfl, ?_, ?_, harr, ?_, hnode, rfl, rfl, hinv.idx, ?_⟩
  · simp only [pcvariant_set_sort, (refresh_arr_frame _ _).2.1]
  · rw [harr]; exact h.perm
  · rw [harr]; exact h.sorted
  · intro i hi
    have hlen : i < w.data.elems.inorder.length := by
      rw [h.perm.length_eq]; exact hi
    have hget : (pcvariant_set_sort cmp w).2.data.arr[i]? = some (w.data.elems.inorder[i]) := by
      rw [harr]; exact List.getElem?_eq_getElem hlen
    simp only [purc_variant_set_get_by_index, Int.toNat_ofNat, Int.natCast_nonneg, not_lt.2,
      if_false, hget, hinv.idx i _ hget, if_true, (hnode _).1, List.getElem?_map,
      List.getElem?_eq_getElem hlen, Option.map_some']

theorem C21_sort_by_key_witness :
    cmp_total ex_cmp ∧ reachable ex_cmp ex_set ∧
    ex_set.data.arr = [1003, 1010, 1014] ∧
    (pcvariant_set_sort ex_cmp ex_set).2.data.arr = [1014, 1003, 1010] ∧
    purc_variant_set_get_by_index (pcvariant_set_sort ex_cmp ex_set).2 ((0 : Nat) : Int)
      = some (some ex_obj_z) :=
  ⟨ex_cmp_total, ex_set_reachable, by decide,
    by
      rw [(C21_sort_by_key ex_cmp_total ex_set ex_set_reachable).2.2.2.1]
      decide,
    by
      rw [(C21_sort_by_key ex_cmp_total ex_set ex_set_reachable).2.2.2.2.2.2.2.2.2 0
        (by decide)]
      decide⟩

/-! ## Claims on reverse-update edges -/

/-- What `pcvar_build_edge` does on a container whose slot is empty. -/
theorem build_edge_ok (s : rue_world) (val : purc_variant) (k : Nat)
    (edge : pcvar_rev_update_edge) (parent : purc_variant)
    (hv : IS_CONTAINER val = true)
    (hpre : edge.pre_listener = none) (hpost : edge.post_listener = none)
    (hparent : edge.parent = some parent)
    (hup : purc_variant_is_set parent = true ∨ pcvar_container_belongs_to_set s parent = true)
    (h1 : (s.rev_update_chain k).parent = none)
    (h2 : (s.rev_update_chain k).pre_listener = none)
    (h3 : (s.rev_update_chain k).post_listener = none) :
    pcvar_build_edge_steps s val k edge = .ok (0,
      { s with
        brk := s.brk + 2
        listeners := Function.update s.listeners val.addr
          (⟨s.brk, PCVAR_LISTENER_PRE, PCVAR_OPERATION_ALL, k,
              rev_update_chain_pre_handler⟩ :: s.listeners val.addr ++
            [⟨s.brk + 1, PCVAR_LISTENER_POST, PCVAR_OPERATION_ALL, k,
              rev_update_chain_post_handler⟩])
        rev_update_chain := Function.update s.rev_update_chain k
          ⟨edge.parent, edge.me, some s.brk, some (s.brk + 1)⟩ }) := by
  have hcond : (!purc_variant_is_set parent && !pcvar_container_belongs_to_set s parent)
      = false := by
    rcases hup with h | h <;> simp [h]
  unfold pcvar_build_edge_steps
  simp only [hpre, hpost, hparent, Option.isSome_none, Bool.false_eq_true, if_false, hcond,
    h1, h2, h3]
  rw [register_pre_ok s val PCVAR_OPERATION_ALL rev_update_chain_pre_handler k hv
    (by decide) (by decide)]
  simp only
  rw [register_post_ok _ val PCVAR_OPERATION_ALL rev_update_chain_post_handler k hv
    (by decide) (by decide)]
  simp only [Function.update_same, Function.update_idem, List.cons_append, hpre, hpost,
    hparent]

/-- What `pcvar_build_edge` does on a value that is not a container: the registration is
refused and -1 is returned, the error apart nothing is changed. -/
theorem build_edge_refused (s : rue_world) (val : purc_variant) (k : Nat)
    (edge : pcvar_rev_update_edge) (parent : purc_variant)
    (hv : ¬ IS_CONTAINER val = true)
    (hpre : edge.pre_listener = none) (hpost : edge.post_listener = none)
    (hparent : edge.parent = some parent)
    (hup : purc_variant_is_set parent = true ∨ pcvar_container_belongs_to_set s parent = true)
    (h1 : (s.rev_update_chain k).parent = none)
    (h2 : (s.rev_update_chain k).pre_listener = none)
    (h3 : (s.rev_update_chain k).post_listener = none) :
    ∃ e, pcvar_build_edge_steps s val k edge = .ok (-1, pcinst_set_error s e) := by
  have hcond : (!purc_variant_is_set parent && !pcvar_container_belongs_to_set s parent)
      = false := by
    rcases hup with h | h <;> simp [h]
  obtain ⟨e, he⟩ := register_pre_fail s val PCVAR_OPERATION_ALL
    rev_update_chain_pre_handler k (fun hh => hv hh.1)
  refine ⟨e, ?_⟩
  unfold pcvar_build_edge_steps
  simp only [hpre, hpost, hparent, Option.isSome_none, Bool.false_eq_true, if_false, hcond,
    h1, h2, h3, he]

/-- Every end of `pcvar_build_edge` in a fatal assertion is raised in the world it was
called in, before any listener is registered: an edge that carries listener handles or no
parent, a parent that is no set and belongs to none, or a slot that is not empty. -/
theorem build_edge_fatal (s t : rue_world) (val : purc_variant) (k : Nat)
    (edge : pcvar_rev_update_edge)
    (hrun : pcvar_build_edge_steps s val k edge = .error t) :
    t = s ∧
    (edge.pre_listener ≠ none ∨ edge.post_listener ≠ none ∨ edge.parent = none ∨
      (∃ parent, edge.parent = some parent ∧ purc_variant_is_set parent = false ∧
        pcvar_container_belongs_to_set s parent = false) ∨
      (s.rev_update_chain k).parent ≠ none ∨ (s.rev_update_chain k).pre_listener ≠ none ∨
      (s.rev_update_chain k).post_listener ≠ none) := by
  by_cases a1 : edge.pre_listener.isSome = true
  · have ht : s = t := by simpa [pcvar_build_edge_steps, a1] using hrun
    exact ⟨ht.symm, Or.inl (by intro h; rw [h] at a1; cases a1)⟩
  by_cases a2 : edge.post_listener.isSome = true
  · have ht : s = t := by simpa [pcvar_build_edge_steps, a1, a2] using hrun
    exact ⟨ht.symm, Or.inr (Or.inl (by intro h; rw [h] at a2; cases a2))⟩
  cases hp : edge.parent with
  | none =>
    have ht : s = t := by simpa [pcvar_build_edge_steps, a1, a2, hp] using hrun
    exact ⟨ht.symm, Or.inr (Or.inr (Or.inl rfl))⟩
  | some parent =>
    by_cases b1 : (!purc_variant_is_set parent && !pcvar_container_belongs_to_set s parent) = true
    · have ht : s = t := by simpa [pcvar_build_edge_steps, a1, a2, hp, b1] using hrun
      refine ⟨ht.symm, Or.inr (Or.inr (Or.inr (Or.inl ⟨parent, rfl, ?_⟩)))⟩
      simpa using b1
    by_cases b2 : (s.rev_update_chain k).parent.isSome = true
    · have ht : s = t := by simpa [pcvar_build_edge_steps, a1, a2, hp, b1, b2] using hrun
      exact ⟨ht.symm, Or.inr (Or.inr (Or.inr (Or.inr (Or.inl
        (by intro h; rw [h] at b2; cases b2)))))⟩
    by_cases b3 : (s.rev_update_chain k).pre_listener.isSome = true
    · have ht : s = t := by simpa [pcvar_build_edge_steps, a1, a2, hp, b1, b2, b3] using hrun
      exact ⟨ht.symm, Or.inr (Or.inr (Or.inr (Or.inr (Or.inr (Or.inl
        (by intro h; rw [h] at b3; cases b3))))))⟩
    by_cases b4 : (s.rev_update_chain k).post_listener.isSome = true
    · have ht : s = t := by simpa [pcvar_build_edge_steps, a1, a2, hp, b1, b2, b3, b4] using hrun
      exact ⟨ht.symm, Or.inr (Or.inr (Or.inr (Or.inr (Or.inr (Or.inr
        (by intro h; rw [h] at b4; cases b4))))))⟩
    exfalso
    have e1 : edge.pre_listener = none := by simpa using a1
    have e2 : edge.post_listener = none := by simpa using a2
    have c1 : (s.rev_update_chain k).parent = none := by simpa using b2
    have c2 : (s.rev_update_chain k).pre_listener = none := by simpa using b3
    have c3 : (s.rev_update_chain k).post_listener = none := by simpa using b4
    have hup : purc_variant_is_set parent = true ∨
        pcvar_container_belongs_to_set s parent = true := by
      by_contra hcon
      simp only [not_or, Bool.not_eq_true] at hcon
      apply b1
      simp [hcon.1, hcon.2]
    by_cases hv : IS_CONTAINER val = true
    · rw [build_edge_ok s val k edge parent hv e1 e2 hp hup c1 c2 c3] at hrun
      cases hrun
    · obtain ⟨e, he⟩ := build_edge_refused s val k edge parent hv e1 e2 hp hup c1 c2 c3
      rw [he] at hrun
      cases hrun

/-- Every result of `pcvar_build_edge` comes from an empty slot and an edge without
listener handles, with a parent that is a set or belongs to one; it is 0 exactly for a
container. -/
theorem build_edge_result (s s' : rue_world) (val : purc_variant) (k : Nat)
    (edge : pcvar_rev_update_edge) (r : Int)
    (hrun : pcvar_build_edge s val k edge = some (r, s')) :
    edge.pre_listener = none ∧ edge.post_listener = none ∧
    (∃ parent, edge.parent = some parent ∧
      (purc_variant_is_set parent = true ∨ pcvar_container_belongs_to_set s parent = true)) ∧
    (s.rev_update_chain k).parent = none ∧ (s.rev_update_chain k).pre_listener = none ∧
    (s.rev_update_chain k).post_listener = none ∧
    (r = 0 ↔ IS_CONTAINER val = true) ∧
    (r ≠ 0 → s'.rev_update_chain = s.rev_update_chain ∧
      s'.listeners = s.listeners) := by
  unfold pcvar_build_edge at hrun
  cases hst : pcvar_build_edge_steps s val k edge with
  | error t => rw [hst] at hrun; cases hrun
  | ok res =>
    rw [hst] at hrun
    simp only [Except.toOption, Option.some.injEq] at hrun
    subst hrun
    by_cases a1 : edge.pre_listener.isSome = true
    · simp [pcvar_build_edge_steps, a1] at hst
    by_cases a2 : edge.post_listener.isSome = true
    · simp [pcvar_build_edge_steps, a1, a2] at hst
    cases hp : edge.parent with
    | none => simp [pcvar_build_edge_steps, a1, a2, hp] at hst
    | some parent =>
      by_cases b1 :
          (!purc_variant_is_set parent && !pcvar_container_belongs_to_set s parent) = true
      · simp [pcvar_build_edge_steps, a1, a2, hp, b1] at hst
      by_cases b2 : (s.rev_update_chain k).parent.isSome = true
      · simp [pcvar_build_edge_steps, a1, a2, hp, b1, b2] at hst
      by_cases b3 : (s.rev_update_chain k).pre_listener.isSome = true
      · simp [pcvar_build_edge_steps, a1, a2, hp, b1, b2, b3] at hst
      by_cases b4 : (s.rev_update_chain k).post_listener.isSome = true
      · simp [pcvar_build_edge_steps, a1, a2, hp, b1, b2, b3, b4] at hst
      have e1 : edge.pre_listener = none := by simpa using a1
      have e2 : edge.post_listener = none := by simpa using a2
      have c1 : (s.rev_update_chain k).parent = none := by simpa using b2
      have c2 : (s.rev_update_chain k).pre_listener = none := by simpa using b3
      have c3 : (s.rev_update_chain k).post_listener = none := by simpa using b4
      have hup : purc_variant_is_set parent = true ∨
          pcvar_container_belongs_to_set s parent = true := by
        by_contra hcon
        simp only [not_or, Bool.not_eq_true] at hcon
        apply b1
        simp [hcon.1, hcon.2]
      refine ⟨e1, e2, ⟨parent, rfl, hup⟩, c1, c2, c3, ?_⟩
      by_cases hv : IS_CONTAINER val = true
      · rw [build_edge_ok s val k edge parent hv e1 e2 hp hup c1 c2 c3] at hst
        cases hst
        exact ⟨⟨fun _ => hv, fun _ => rfl⟩, fun hne => absurd rfl hne⟩
      · obtain ⟨e, he⟩ := build_edge_refused s val k edge parent hv e1 e2 hp hup c1 c2 c3
        rw [he] at hst
        cases hst
        exact ⟨⟨fun h0 => absurd h0 (by decide), fun h => absurd h hv⟩, fun _ => ⟨rfl, rfl⟩⟩

/-- The result of `pcvar_build_edge` on a container whose slot is empty. -/
theorem build_edge_some (s : rue_world) (val : purc_variant) (k : Nat)
    (edge : pcvar_rev_update_edge) (parent : purc_variant)
    (hv : IS_CONTAINER val = true)
    (hpre : edge.pre_listener = none) (hpost : edge.post_listener = none)
    (hparent : edge.parent = some parent)
    (hup : purc_variant_is_set parent = true ∨ pcvar_container_belongs_to_set s parent = true)
    (h1 : (s.rev_update_chain k).parent = none)
    (h2 : (s.rev_update_chain k).pre_listener = none)
    (h3 : (s.rev_update_chain k).post_listener = none) :
    pcvar_build_edge s val k edge = some (0,
      { s with
        brk := s.brk + 2
        listeners := Function.update s.listeners val.addr
          (⟨s.brk, PCVAR_LISTENER_PRE, PCVAR_OPERATION_ALL, k,
              rev_update_chain_pre_handler⟩ :: s.listeners val.addr ++
            [⟨s.brk + 1, PCVAR_LISTENER_POST, PCVAR_OPERATION_ALL, k,
              rev_update_chain_post_handler⟩])
        rev_update_chain := Function.update s.rev_update_chain k
          ⟨edge.parent, edge.me, some s.brk, some (s.brk + 1)⟩ }) := by
  unfold pcvar_build_edge
  rw [build_edge_ok s val k edge parent hv hpre hpost hparent hup h1 h2 h3]
  rfl

/-- C22: a successful `pcvar_build_edge` on a child puts a pre-listener at the head and a
post-listener at the tail of the listener list of the child, both for GROW, SHRINK and
CHANGE and with the slot as context, and leaves the older entries between them in their
order. The slot, empty before, holds the parent and the anchor of the given edge and the
handles of the two listeners. The listener lists of the other values and the other slots
are as before. -/
theorem C22_build_edge_installs (s s' : rue_world) (val : purc_variant) (k : Nat)
    (edge : pcvar_rev_update_edge)
    (hrun : pcvar_build_edge s val k edge = some (0, s')) :
    (s.rev_update_chain k).parent = none ∧ (s.rev_update_chain k).pre_listener = none ∧
    (s.rev_update_chain k).post_listener = none ∧
    s'.listeners val.addr =
      ⟨s.brk, PCVAR_LISTENER_PRE, PCVAR_OPERATION_ALL, k, rev_update_chain_pre_handler⟩ ::
        s.listeners val.addr ++
        [⟨s.brk + 1, PCVAR_LISTENER_POST, PCVAR_OPERATION_ALL, k,
          rev_update_chain_post_handler⟩] ∧
    PCVAR_OPERATION_ALL =
      PCVAR_OPERATION_GROW ||| PCVAR_OPERATION_SHRINK ||| PCVAR_OPERATION_CHANGE ∧
    s'.rev_update_chain k = ⟨edge.parent, edge.me, some s.brk, some (s.brk + 1)⟩ ∧
    (∀ a, a ≠ val.addr → s'.listeners a = s.listeners a) ∧
    (∀ j, j ≠ k → s'.rev_update_chain j = s.rev_update_chain j) ∧
    s'.data = s.data := by
  obtain ⟨e1, e2, ⟨parent, hp, hup⟩, c1, c2, c3, hr, _⟩ :=
    build_edge_result s s' val k edge 0 hrun
  have hv := hr.1 rfl
  rw [build_edge_some s val k edge parent hv e1 e2 hp hup c1 c2 c3] at hrun
  simp only [Option.some.injEq, Prod.mk.injEq, true_and] at hrun
  subst hrun
  refine ⟨c1, c2, c3, by simp, by decide, by simp, ?_, ?_, rfl⟩
  · intro a ha
    simp [Function.update_noteq ha]
  · intro j hj
    simp [Function.update_noteq hj]

theorem ex_edged_run : pcvar_build_edge ex_rue ex_child 1007 ex_edge = some (0, ex_edged) := by
  rfl

theorem C22_build_edge_installs_witness :
    pcvar_build_edge ex_rue ex_child 1007 ex_edge = some (0, ex_edged) ∧
    ex_rue.listeners 1007 =
      [⟨1008, PCVAR_LISTENER_PRE, PCVAR_OPERATION_ALL, 100,
        variant_set_constraints_handler ex_cmp⟩] ∧
    ex_edged.listeners 1007 =
      [⟨1017, PCVAR_LISTENER_PRE, PCVAR_OPERATION_ALL, 1007, rev_update_chain_pre_handler⟩,
       ⟨1008, PCVAR_LISTENER_PRE, PCVAR_OPERATION_ALL, 100,
        variant_set_constraints_handler ex_cmp⟩,
       ⟨1018, PCVAR_LISTENER_POST, PCVAR_OPERATION_ALL, 1007, rev_update_chain_post_handler⟩] ∧
    ex_edged.rev_update_chain 1007 = ⟨some (.set 100), some ⟨1003, 1007⟩, some 1017, some 1018⟩ :=
  ⟨ex_edged_run, rfl,
    (C22_build_edge_installs ex_rue ex_edged ex_child 1007 ex_edge ex_edged_run).2.2.2.1,
    (C22_build_edge_installs ex_rue ex_edged ex_child 1007 ex_edge ex_edged_run).2.2.2.2.2.1⟩

/-- C23: `pcvar_build_edge` on a slot that holds a parent ends in the fatal assertion,
whatever the edge offered (the same parent or another one), and the assertion is raised in
the world of the call: no listener has been registered, and every listener list and every
slot, the occupied one with its edge included, is as it was. Every fatal assertion of a
build is raised in the world of the call. Every build that does return started from a slot
without parent and left every other slot as it was, so a slot never holds more than the one
edge it was given. -/
theorem C23_build_edge_occupied (s : rue_world) (val : purc_variant) (k : Nat)
    (edge : pcvar_rev_update_edge) (hocc : (s.rev_update_chain k).parent ≠ none) :
    pcvar_build_edge_steps s val k edge = .error s ∧
    pcvar_build_edge s val k edge = none ∧
    (∀ (val1 : purc_variant) (k1 : Nat) (edge1 : pcvar_rev_update_edge) (t : rue_world),
      pcvar_build_edge_steps s val1 k1 edge1 = .error t →
        t.listeners = s.listeners ∧ t.rev_update_chain = s.rev_update_chain ∧ t = s) ∧
    (∀ (val1 : purc_variant) (k1 : Nat) (edge1 : pcvar_rev_update_edge) (r : Int)
        (s1 : rue_world), pcvar_build_edge s val1 k1 edge1 = some (r, s1) →
      k1 ≠ k ∧ (s.rev_update_chain k1).parent = none ∧
      s1.rev_update_chain k = s.rev_update_chain k) := by
  have hsteps : pcvar_build_edge_steps s val k edge = .error s := by
    cases hst : pcvar_build_edge_steps s val k edge with
    | error t => rw [(build_edge_fatal s t val k edge hst).1]
    | ok res =>
      obtain ⟨r, s'⟩ := res
      have hres : pcvar_build_edge s val k edge = some (r, s') := by
        unfold pcvar_build_edge
        rw [hst]
        rfl
      exact absurd (build_edge_result s s' val k edge r hres).2.2.2.1 hocc
  refine ⟨hsteps, ?_, ?_, ?_⟩
  · unfold pcvar_build_edge
    rw [hsteps]
    rfl
  · intro val1 k1 edge1 t hst
    have := (build_edge_fatal s t val1 k1 edge1 hst).1
    subst this
    exact ⟨rfl, rfl, rfl⟩
  · intro val1 k1 edge1 r s1 hrun
    obtain ⟨e1, e2, ⟨parent, hp, hup⟩, c1, c2, c3, hr, hfail⟩ :=
      build_edge_result s s1 val1 k1 edge1 r hrun
    have hk : k1 ≠ k := fun e => hocc (e ▸ c1)
    refine ⟨hk, c1, ?_⟩
    by_cases h0 : r = 0
    · subst h0
      rw [build_edge_some s val1 k1 edge1 parent (hr.1 rfl) e1 e2 hp hup c1 c2 c3] at hrun
      simp only [Option.some.injEq, Prod.mk.injEq, true_and] at hrun
      subst hrun
      simp [Function.update_noteq (Ne.symm hk)]
    · rw [(hfail h0).1]

theorem C23_build_edge_occupied_witness :
    (ex_edged.rev_update_chain 1007).parent = some (.set 100) ∧
    pcvar_build_edge_steps ex_edged ex_child 1007 ex_edge = .error ex_edged ∧
    pcvar_build_edge_steps ex_edged ex_child 1007
      ⟨some (.set 200), some ⟨2003, 1007⟩, none, none⟩ = .error ex_edged ∧
    pcvar_build_edge ex_edged ex_child 1007 ex_edge = none ∧
    pcvar_build_edge ex_edged ex_child 1007 ⟨some (.set 200), some ⟨2003, 1007⟩, none, none⟩
      = none :=
  ⟨rfl,
    (C23_build_edge_occupied ex_edged ex_child 1007 ex_edge (by decide)).1,
    (C23_build_edge_occupied ex_edged ex_child 1007
      ⟨some (.set 200), some ⟨2003, 1007⟩, none, none⟩ (by decide)).1,
    (C23_build_edge_occupied ex_edged ex_child 1007 ex_edge (by decide)).2.1,
    (C23_build_edge_occupied ex_edged ex_child 1007
      ⟨some (.set 200), some ⟨2003, 1007⟩, none, none⟩ (by decide)).2.1⟩

theorem revoke_loop_last (l : Nat) (y : pcvar_listener) (hy : y.addr = l) :
    ∀ xs : List pcvar_listener, (∀ x ∈ xs, x.addr ≠ l) →
      revoke_loop l (xs ++ [y]) = some xs := by
  intro xs
  induction xs with
  | nil => intro _; simp [revoke_loop, hy]
  | cons x rest ih =>
    intro h
    have hx := h x (List.mem_cons_self _ _)
    have hrest := ih (fun z hz => h z (List.mem_cons_of_mem _ hz))
    rw [List.cons_append]
    unfold revoke_loop
    rw [if_pos hx, hrest]
    rfl

/-- A break on a slot without parent changes nothing. -/
theorem break_edge_empty (s : rue_world) (val : purc_variant) (k : Nat)
    (edge : pcvar_rev_update_edge) (h : (s.rev_update_chain k).parent = none) :
    pcvar_break_edge s val k edge = some s := by
  simp [pcvar_break_edge, h]

theorem container_of_up (s : rue_world) (parent : purc_variant)
    (hup : purc_variant_is_set parent = true ∨ pcvar_container_belongs_to_set s parent = true) :
    IS_CONTAINER parent = true := by
  cases parent <;>
    simp [purc_variant_is_set, pcvar_container_belongs_to_set, IS_CONTAINER] at hup ⊢

/-- C24: `pcvar_break_edge` undoes `pcvar_build_edge`. When the slot is empty, the handles of
the listeners of the child are below the next free address and the anchor of the edge holds
the child, a successful build followed by a break with the same edge gives back the
listener list of every value and every slot as they were before the build. A break on a
slot without parent changes nothing, so a second break changes nothing. -/
theorem C24_break_undoes_build (s s1 : rue_world) (val : purc_variant) (k : Nat)
    (edge : pcvar_rev_update_edge) (a : pcvar_anchor)
    (hempty : s.rev_update_chain k = ⟨none, none, none, none⟩)
    (hfresh : ∀ x ∈ s.listeners val.addr, x.addr < s.brk)
    (hme : edge.me = some a) (hval : a.val = val.addr)
    (hbuild : pcvar_build_edge s val k edge = some (0, s1)) :
    (∃ s2, pcvar_break_edge s1 val k edge = some s2 ∧
      s2.listeners = s.listeners ∧ s2.rev_update_chain = s.rev_update_chain ∧
      s2.data = s.data ∧
      pcvar_break_edge s2 val k edge = some s2) ∧
    (∀ (t : rue_world) (v : purc_variant) (j : Nat) (e : pcvar_rev_update_edge),
      (t.rev_update_chain j).parent = none → pcvar_break_edge t v j e = some t) := by
  refine ⟨?_, fun t v j e h => break_edge_empty t v j e h⟩
  obtain ⟨e1, e2, ⟨parent, hp, hup⟩, c1, c2, c3, hr, _⟩ :=
    build_edge_result s s1 val k edge 0 hbuild
  have hv := hr.1 rfl
  have hpc := container_of_up s parent hup
  rw [build_edge_some s val k edge parent hv e1 e2 hp hup c1 c2 c3] at hbuild
  simp only [Option.some.injEq, Prod.mk.injEq, true_and] at hbuild
  subst hbuild
  have hrev2 : revoke_loop (s.brk + 1) (s.listeners val.addr ++
      [⟨s.brk + 1, PCVAR_LISTENER_POST, PCVAR_OPERATION_ALL, k,
        rev_update_chain_post_handler⟩]) = some (s.listeners val.addr) :=
    revoke_loop_last (s.brk + 1)
      ⟨s.brk + 1, PCVAR_LISTENER_POST, PCVAR_OPERATION_ALL, k,
        rev_update_chain_post_handler⟩ rfl (s.listeners val.addr) (fun x hx => by
      have := hfresh x hx
      omega)
  refine ⟨{ s with brk := s.brk + 2 }, ?_, rfl, rfl, rfl, ?_⟩
  · simp only [pcvar_break_edge, Function.update_same, hp, hme, hpc, hval,
      purc_variant_revoke_listener, hv, revoke_loop, Option.map_some', ne_eq,
      not_true_eq_false, if_false, Bool.not_true, Bool.false_eq_true, List.cons_append,
      Function.update_idem, hrev2]
    simp only [Function.update_eq_self, ← hempty]
  · exact break_edge_empty _ val k edge (by simp only [hempty])

theorem C24_break_undoes_build_witness :
    ex_rue.rev_update_chain 1007 = ⟨none, none, none, none⟩ ∧
    (∀ x ∈ ex_rue.listeners ex_child.addr, x.addr < ex_rue.brk) ∧
    pcvar_build_edge ex_rue ex_child 1007 ex_edge = some (0, ex_edged) ∧
    ∃ s2, pcvar_break_edge ex_edged ex_child 1007 ex_edge = some s2 ∧
      s2.listeners = ex_rue.listeners ∧
      s2.rev_update_chain = ex_rue.rev_update_chain ∧
      pcvar_break_edge s2 ex_child 1007 ex_edge = some s2 :=
  ⟨rfl, by decide, ex_edged_run,
    by
      obtain ⟨s2, h1, h2, h3, _, h5⟩ :=
        (C24_break_undoes_build ex_rue ex_edged ex_child 1007 ex_edge ⟨1003, 1007⟩ rfl
          (by decide) rfl rfl ex_edged_run).1
      exact ⟨s2, h1, h2, h3, h5⟩⟩

theorem belongs_of_container (s : rue_world) (v : purc_variant) (hv : IS_CONTAINER v = true) :
    pcvar_container_belongs_to_set s v = (s.rev_update_chain v.addr).parent.isSome := by
  cases v <;> simp [IS_CONTAINER] at hv <;> rfl

theorem top_loop_mono (s : rue_world) :
    ∀ (fuel : Nat) (v t : purc_variant), top_in_rev_update_chain_loop s fuel v = some t →
      ∀ fuel', fuel ≤ fuel' → top_in_rev_update_chain_loop s fuel' v = some t := by
  intro fuel
  induction fuel with
  | zero => intro v t h; simp [top_in_rev_update_chain_loop] at h
  | succ n ih =>
    intro v t h fuel' hle
    obtain ⟨m, rfl⟩ : ∃ m, fuel' = m + 1 := ⟨fuel' - 1, by omega⟩
    unfold top_in_rev_update_chain_loop at h ⊢
    split_ifs at h ⊢ with hc
    cases hp : (s.rev_update_chain v.addr).parent with
    | none => rw [hp] at h; exact h
    | some p =>
      rw [hp] at h
      exact ih p t h m (by omega)

theorem top_loop_spec (s : rue_world) (rank : Nat → Nat)
    (hrank : ∀ a p, (s.rev_update_chain a).parent = some p →
      IS_CONTAINER p = true ∧ rank p.addr < rank a) :
    ∀ (fuel : Nat) (v : purc_variant), IS_CONTAINER v = true → rank v.addr < fuel →
      ∃ t, top_in_rev_update_chain_loop s fuel v = some t ∧ reaches s v t ∧
        IS_CONTAINER t = true ∧ (s.rev_update_chain t.addr).parent = none ∧
        rank t.addr ≤ rank v.addr := by
  intro fuel
  induction fuel with
  | zero => intro v _ h; omega
  | succ n ih =>
    intro v hv hlt
    unfold top_in_rev_update_chain_loop
    simp only [hv, if_true]
    cases hp : (s.rev_update_chain v.addr).parent with
    | none => exact ⟨v, rfl, reaches.here v, hv, hp, le_refl _⟩
    | some p =>
      obtain ⟨hpc, hpr⟩ := hrank v.addr p hp
      obtain ⟨t, h1, h2, h3, h4, h5⟩ := ih p hpc (by omega)
      exact ⟨t, h1, reaches.up v p t hp h2, h3, h4, by omega⟩

/-- C25: in an edge graph without cycles whose parents are containers (a rank decreases
along every parent link), `pcvar_top_in_rev_update_chain` on a container returns, as soon as
it may take more steps than the rank of the container: the result is a container reached by
following parent links, with no parent in its own slot. It is the container itself exactly
when `pcvar_container_belongs_to_set` is false for it, and a child with an edge to a parent
has the top of that parent. -/
theorem C25_top_of_chain (s : rue_world) (rank : Nat → Nat)
    (hrank : ∀ a p, (s.rev_update_chain a).parent = some p →
      IS_CONTAINER p = true ∧ rank p.addr < rank a)
    (v : purc_variant) (hv : IS_CONTAINER v = true) :
    ∃ t, (∀ fuel, rank v.addr < fuel → pcvar_top_in_rev_update_chain s fuel v = some t) ∧
      reaches s v t ∧ IS_CONTAINER t = true ∧
      pcvar_container_belongs_to_set s t = false ∧
      (t.addr = v.addr ↔ pcvar_container_belongs_to_set s v = false) ∧
      (pcvar_container_belongs_to_set s v = false → t = v) ∧
      (∀ p, (s.rev_update_chain v.addr).parent = some p →
        ∀ fuel, rank v.addr < fuel →
          pcvar_top_in_rev_update_chain s fuel v = pcvar_top_in_rev_update_chain s fuel p) := by
  obtain ⟨t, h1, h2, h3, h4, h5⟩ := top_loop_spec s rank hrank (rank v.addr + 1) v hv (by omega)
  have hall : ∀ fuel, rank v.addr < fuel → pcvar_top_in_rev_update_chain s fuel v = some t :=
    fun fuel hf => top_loop_mono s _ v t h1 fuel (by omega)
  have hstep : ∀ p, (s.rev_update_chain v.addr).parent = some p →
      rank t.addr ≤ rank p.addr ∧
      ∀ fuel, rank v.addr < fuel → pcvar_top_in_rev_update_chain s fuel p = some t := by
    intro p hp
    obtain ⟨hpc, hpr⟩ := hrank v.addr p hp
    obtain ⟨t', g1, _, _, _, g5⟩ := top_loop_spec s rank hrank (rank v.addr) p hpc hpr
    have hsame : top_in_rev_update_chain_loop s (rank v.addr + 1) v = some t' := by
      unfold top_in_rev_update_chain_loop
      simp only [hv, if_true, hp]
      exact g1
    rw [h1] at hsame
    cases hsame
    exact ⟨g5, fun fuel hf => top_loop_mono s _ p t g1 fuel (by omega)⟩
  refine ⟨t, hall, h2, h3, ?_, ?_, ?_, ?_⟩
  · rw [belongs_of_container s t h3, h4]; rfl
  · rw [belongs_of_container s v hv]
    cases hp : (s.rev_update_chain v.addr).parent with
    | none =>
      simp only [Option.isSome_none, iff_true]
      have : top_in_rev_update_chain_loop s (rank v.addr + 1) v = some v := by
        unfold top_in_rev_update_chain_loop
        simp only [hv, if_true, hp]
      rw [h1] at this
      cases this
      rfl
    | some p =>
      simp only [Option.isSome_some, Bool.true_eq_false, iff_false]
      intro he
      have := (hstep p hp).1
      have := (hrank v.addr p hp).2
      rw [he] at *
      omega
  · intro hb
    rw [belongs_of_container s v hv] at hb
    cases hp : (s.rev_update_chain v.addr).parent with
    | none =>
      have : top_in_rev_update_chain_loop s (rank v.addr + 1) v = some v := by
        unfold top_in_rev_update_chain_loop
        simp only [hv, if_true, hp]
      rw [h1] at this
      cases this
      rfl
    | some p => rw [hp] at hb; simp at hb
  · intro p hp fuel hf
    rw [hall fuel hf, (hstep p hp).2 fuel hf]

theorem ex_edged_chain :
    ex_edged.rev_update_chain = Function.update (fun _ => ⟨none, none, none, none⟩) 1007
      ⟨some (.set 100), some ⟨1003, 1007⟩, some 1017, some 1018⟩ := by
  rfl

theorem ex_edged_rank (a : Nat) (p : purc_variant)
    (h : (ex_edged.rev_update_chain a).parent = some p) :
    IS_CONTAINER p = true ∧
      (fun b => if b = 1007 then 1 else 0) p.addr < (fun b => if b = 1007 then 1 else 0) a := by
  rw [ex_edged_chain] at h
  by_cases ha : a = 1007
  · subst ha
    simp only [Function.update_same, Option.some.injEq] at h
    subst h
    decide
  · simp [Function.update_noteq ha] at h

theorem C25_top_of_chain_witness :
    IS_CONTAINER ex_child = true ∧
    (ex_edged.rev_update_chain ex_child.addr).parent = some (.set 100) ∧
    pcvar_top_in_rev_update_chain ex_edged 2 ex_child = some (.set 100) ∧
    pcvar_top_in_rev_update_chain ex_edged 2 (.set 100) = some (.set 100) ∧
    pcvar_container_belongs_to_set ex_edged ex_child = true ∧
    pcvar_container_belongs_to_set ex_edged (.set 100) = false ∧
    ∃ t, pcvar_top_in_rev_update_chain ex_edged 2 ex_child = some t ∧
      reaches ex_edged ex_child t ∧ pcvar_container_belongs_to_set ex_edged t = false :=
  ⟨rfl, rfl, rfl, rfl, rfl, rfl,
    by
      obtain ⟨t, h1, h2, _, h4, _⟩ :=
        C25_top_of_chain ex_edged (fun b => if b = 1007 then 1 else 0) ex_edged_rank
          ex_child rfl
      exact ⟨t, h1 2 (by decide), h2, h4⟩⟩

/-! ## Claims on the release of a set -/

/-- The loop of `purc_is_valid_token` accepts the rest of a token exactly when every
character is a letter, a digit or `_` and, under a positive limit, the index of the last
character is not beyond the limit. -/
theorem valid_token_loop_spec (max_len : Int) :
    ∀ (cs : List Char) (i : Nat),
      valid_token_loop max_len i cs = true ↔
        (∀ c ∈ cs, purc_isalnum c = true ∨ c = '_') ∧
          (0 < max_len → cs = [] ∨ (i : Int) + cs.length - 1 ≤ max_len) := by
  intro cs
  induction cs with
  | nil => intro i; simp [valid_token_loop]
  | cons c cs ih =>
    intro i
    unfold valid_token_loop
    by_cases h1 : max_len > 0 ∧ (i : Int) > max_len
    · rw [if_pos h1]
      simp only [Bool.false_eq_true, false_iff, not_and]
      intro _ h
      rcases h h1.1 with h | h
      · cases h
      · simp only [List.length_cons] at h
        push_cast at h
        omega
    · rw [if_neg h1]
      by_cases h2 : (!purc_isalnum c && c != '_') = true
      · rw [if_pos h2]
        simp only [Bool.false_eq_true, false_iff, not_and]
        intro h
        exfalso
        have := h c (List.mem_cons_self _ _)
        simp only [Bool.and_eq_true, Bool.not_eq_true', bne_iff_ne, ne_eq] at h2
        rcases this with h3 | h3
        · rw [h2.1] at h3; cases h3
        · exact h2.2 h3
      · rw [if_neg h2, ih (i + 1)]
        simp only [Bool.and_eq_true, Bool.not_eq_true', bne_iff_ne, ne_eq, not_and,
          not_not] at h2
        constructor
        · rintro ⟨ha, hb⟩
          refine ⟨?_, ?_⟩
          · intro x hx
            rcases List.mem_cons.1 hx with rfl | hx
            · by_cases h3 : purc_isalnum x = true
              · exact Or.inl h3
              · exact Or.inr (h2 (by simpa using h3))
            · exact ha x hx
          · intro hpos
            right
            simp only [List.length_cons]
            push_cast
            rcases hb hpos with hb | hb
            · rw [hb]; simp only [List.length_nil]; push_cast
              have : ¬ ((i : Int) > max_len) := fun h => h1 ⟨hpos, h⟩
              omega
            · push_cast at hb; omega
        · rintro ⟨ha, hb⟩
          refine ⟨fun x hx => ha x (List.mem_cons_of_mem _ hx), ?_⟩
          intro hpos
          rcases hb hpos with hb | hb
          · cases hb
          · simp only [List.length_cons] at hb
            push_cast at hb
            by_cases hcs : cs = []
            · exact Or.inl hcs
            · right; push_cast; omega

/-- C29: for a positive `max_len`, `purc_is_valid_token` returns true exactly when the token
starts with a letter or `_`, every later character is a letter, a digit or `_`, and the
token has at most `max_len + 1` characters: the limit of the code is one more than the
`max_len` characters of the claim. -/
theorem C29_token_limit (token : List Char) (max_len : Int) (hmax : 0 < max_len) :
    purc_is_valid_token token max_len = true ↔
      ∃ c cs, token = c :: cs ∧ (purc_isalpha c = true ∨ c = '_') ∧
        (∀ x ∈ cs, purc_isalnum x = true ∨ x = '_') ∧
          (token.length : Int) ≤ max_len + 1 := by
  cases token with
  | nil => simp [purc_is_valid_token]
  | cons c cs =>
    show (if (c != '_' && !purc_isalpha c) = true then false
      else valid_token_loop max_len 1 cs) = true ↔ _
    by_cases h : (c != '_' && !purc_isalpha c) = true
    · simp only [h, if_true, Bool.false_eq_true, false_iff, not_exists, not_and]
      intro c' cs' he hc
      simp only [List.cons.injEq] at he
      rw [← he.1] at hc
      simp only [Bool.and_eq_true, bne_iff_ne, ne_eq, Bool.not_eq_true'] at h
      rcases hc with hc | hc
      · rw [h.2] at hc; cases hc
      · exact absurd hc h.1
    · rw [if_neg h, valid_token_loop_spec]
      simp only [Bool.and_eq_true, bne_iff_ne, ne_eq, Bool.not_eq_true', not_and,
        Bool.not_eq_false] at h
      have hc : purc_isalpha c = true ∨ c = '_' := by
        by_cases hu : c = '_'
        · exact Or.inr hu
        · exact Or.inl (h hu)
      constructor
      · rintro ⟨ha, hb⟩
        refine ⟨c, cs, rfl, hc, ha, ?_⟩
        simp only [List.length_cons]
        push_cast
        rcases hb hmax with hb | hb
        · rw [hb]; simp only [List.length_nil]; push_cast; omega
        · push_cast at hb; omega
      · rintro ⟨c', cs', he, _, ha, hb⟩
        simp only [List.cons.injEq] at he
        rw [← he.2] at ha
        refine ⟨ha, fun _ => Or.inr ?_⟩
        simp only [List.length_cons] at hb
        push_cast at hb ⊢
        omega

/-- Witness for C29, at the token `ab` and the limit 1: the token is accepted although it is
two characters long. -/
theorem C29_token_limit_witness :
    (0 : Int) < 1 ∧ purc_is_valid_token ['a', 'b'] 1 = true ∧
      ¬ ((['a', 'b'].length : Int) ≤ 1) ∧ purc_is_valid_token ['a', 'b', 'c'] 1 = false :=
  ⟨by decide,
    (C29_token_limit ['a', 'b'] 1 (by decide)).2
      ⟨'a', ['b'], rfl, Or.inl (by decide), by decide, by decide⟩,
    by decide, by decide⟩

theorem to_int_small (n : Nat) (h : n < 2 ^ 31) : to_int n = n := by
  unfold to_int
  have : (n + 2 ^ 31) % 2 ^ 32 = n + 2 ^ 31 := Nat.mod_eq_of_lt (by omega)
  rw [this]
  push_cast
  omega

theorem strchr_append_cons (c : Char) (b : List Char) :
    ∀ a : List Char, c ∉ a → strchr (a ++ c :: b) c = some a.length := by
  intro a
  induction a with
  | nil => intro _; simp [strchr]
  | cons x a ih =>
    intro h
    have hx : x ≠ c := fun e => h (e ▸ List.mem_cons_self _ _)
    have ha : c ∉ a := fun e => h (List.mem_cons_of_mem _ e)
    simp [strchr, hx, ih ha]

theorem strrchr_none (c : Char) : ∀ b : List Char, c ∉ b → strrchr b c = none := by
  intro b
  induction b with
  | nil => intro _; rfl
  | cons x b ih =>
    intro h
    have hx : x ≠ c := fun e => h (e ▸ List.mem_cons_self _ _)
    have hb : c ∉ b := fun e => h (List.mem_cons_of_mem _ e)
    simp [strrchr, hx, ih hb]

theorem strrchr_append_cons (c : Char) (b : List Char) (hb : c ∉ b) :
    ∀ a : List Char, strrchr (a ++ c :: b) c = some a.length := by
  intro a
  induction a with
  | nil => simp [strrchr, strrchr_none c b hb]
  | cons x a ih => simp [strrchr, ih]

/-- C28: with the three length limits as parameters (each fits an `int`, and the host limit
is not above the application limit, which is the limit `purc_extract_host_name` checks), for
a non-empty host and application name and a runner name within their limits, the host
and the runner name without `/`, `purc_assemble_endpoint_name` writes `@host/app/runner` and returns its length
`host_len + app_len + runner_len + 3`, and the three extractors return the host, the
application and the runner name of that string with their lengths. -/
theorem C28_endpoint_round_trip (H A R : Nat) (host app runner : List Char)
    (hA : A < 2 ^ 31) (hR : R < 2 ^ 31) (hHA : H ≤ A)
    (hh : host ≠ []) (ha : app ≠ [])
    (hhl : host.length ≤ H) (hal : app.length ≤ A) (hrl : runner.length ≤ R)
    (hhs : '/' ∉ host) (hrs : '/' ∉ runner) :
    purc_assemble_endpoint_name H A R host app runner =
        (((host.length + app.length + runner.length + 3 : Nat) : Int),
          some ('@' :: (host ++ '/' :: (app ++ '/' :: runner)))) ∧
      ('@' :: (host ++ '/' :: (app ++ '/' :: runner))).length =
        host.length + app.length + runner.length + 3 ∧
      purc_extract_host_name A ('@' :: (host ++ '/' :: (app ++ '/' :: runner))) =
        ((host.length : Int), some host) ∧
      purc_extract_app_name A ('@' :: (host ++ '/' :: (app ++ '/' :: runner))) =
        ((app.length : Int), some app) ∧
      purc_extract_runner_name R ('@' :: (host ++ '/' :: (app ++ '/' :: runner))) =
        ((runner.length : Int), some runner) := by
  have h1 : to_int host.length = host.length := to_int_small _ (by omega)
  have h2 : to_int app.length = app.length := to_int_small _ (by omega)
  have h3 : to_int runner.length = runner.length := to_int_small _ (by omega)
  have hhp : 0 < host.length := List.length_pos.2 hh
  have hap : 0 < app.length := List.length_pos.2 ha
  have hfirst : strchr ('@' :: (host ++ '/' :: (app ++ '/' :: runner))) '/' =
      some (host.length + 1) := by
    have := strchr_append_cons '/' (app ++ '/' :: runner) ('@' :: host)
      (by simp only [List.mem_cons, not_or]; exact ⟨by decide, hhs⟩)
    simpa using this
  have hlast : strrchr ('@' :: (host ++ '/' :: (app ++ '/' :: runner))) '/' =
      some (host.length + app.length + 2) := by
    have := strrchr_append_cons '/' runner hrs ('@' :: (host ++ '/' :: app))
    simp only [List.cons_append, List.append_assoc, List.length_cons, List.length_append]
      at this
    rw [this]
    congr 1
  refine ⟨?_, ?_, ?_, ?_, ?_⟩
  · unfold purc_assemble_endpoint_name
    simp only [h1, h2, h3]
    rw [if_neg (by omega), if_neg (by omega),
      if_neg (by omega)]
    have e1 : ((host.length : Int) + 1).toNat = host.length + 1 := by omega
    have e2 : ((host.length : Int) + app.length + 2).toNat = host.length + app.length + 2 := by
      omega
    rw [e1, e2]
    rw [Prod.mk.injEq, Option.some.injEq]
    constructor
    · push_cast; ring
    · have t1 : (['@'] ++ host).take (host.length + 1) = '@' :: host := by
        rw [List.take_of_length_le (by simp)]; rfl
      rw [t1]
      have t2 : (('@' :: host) ++ ['/'] ++ app).take (host.length + app.length + 2) =
          '@' :: host ++ ['/'] ++ app := by
        rw [List.take_of_length_le (by simp; omega)]
      rw [t2]
      simp
  · simp only [List.length_cons, List.length_append]
    omega
  · unfold purc_extract_host_name
    rw [if_neg (by simp)]
    simp only [hfirst, Nat.add_sub_cancel, h1]
    rw [if_neg (by omega)]
    simp
  · unfold purc_extract_app_name
    rw [if_neg (by simp)]
    simp only [hfirst, hlast]
    rw [if_neg (by omega)]
    have e : host.length + app.length + 2 - (host.length + 1 + 1) = app.length := by omega
    rw [e, h2]
    rw [if_neg (by omega)]
    simp
  · unfold purc_extract_runner_name
    rw [if_neg (by simp)]
    simp only [hlast]
    have e : ('@' :: (host ++ '/' :: (app ++ '/' :: runner))).drop
        (host.length + app.length + 2 + 1) = runner := by
      have : '@' :: (host ++ '/' :: (app ++ '/' :: runner)) =
          ('@' :: (host ++ '/' :: (app ++ ['/']))) ++ runner := by simp
      rw [this, List.drop_append_of_le_length (by simp; omega),
        List.drop_of_length_le (by simp; omega)]
      rfl
    rw [e, h3]
    rw [if_neg (by omega)]

/-- Witness for C28 at the names `localhost`, `cn.fmsoft` and `main` with the limits 127,
127 and 63. -/
theorem C28_endpoint_round_trip_witness :
    purc_assemble_endpoint_name 127 127 63 "localhost".toList "cn.fmsoft".toList
        "main".toList =
        (((9 + 9 + 4 + 3 : Nat) : Int), some "@localhost/cn.fmsoft/main".toList) ∧
      "@localhost/cn.fmsoft/main".toList.length = 9 + 9 + 4 + 3 ∧
      purc_extract_host_name 127 "@localhost/cn.fmsoft/main".toList =
        (9, some "localhost".toList) ∧
      purc_extract_app_name 127 "@localhost/cn.fmsoft/main".toList =
        (9, some "cn.fmsoft".toList) ∧
      purc_extract_runner_name 63 "@localhost/cn.fmsoft/main".toList =
        (4, some "main".toList) :=
  C28_endpoint_round_trip 127 127 63 "localhost".toList "cn.fmsoft".toList "main".toList
    (by decide) (by decide) (by decide) (by decide) (by decide) (by decide) (by decide)
    (by decide) (by decide) (by decide)

theorem comp_len_append (b : List Char) :
    ∀ a : List Char, '/' ∉ a →
      (a ++ '/' :: b).takeWhile (fun c => c != '/') = a := by
  intro a
  induction a with
  | nil => intro _; simp [List.takeWhile]
  | cons x a ih =>
    intro h
    have hx : x ≠ '/' := fun e => h (e ▸ List.mem_cons_self _ _)
    have ha : '/' ∉ a := fun e => h (List.mem_cons_of_mem _ e)
    have hb : (x != '/') = true := by simpa using hx
    rw [List.cons_append, List.takeWhile_cons, hb, if_pos rfl, ih ha]

theorem trail_len_all :
    ∀ a : List Char, '?' ∉ a → '#' ∉ a →
      a.takeWhile (fun c => c != '?' && c != '#') = a := by
  intro a
  induction a with
  | nil => intro _ _; rfl
  | cons x a ih =>
    intro h1 h2
    have hx1 : x ≠ '?' := fun e => h1 (e ▸ List.mem_cons_self _ _)
    have hx2 : x ≠ '#' := fun e => h2 (e ▸ List.mem_cons_self _ _)
    have hb : (x != '?' && x != '#') = true := by simp [hx1, hx2]
    rw [List.takeWhile_cons, hb, if_pos rfl,
      ih (fun e => h1 (List.mem_cons_of_mem _ e)) (fun e => h2 (List.mem_cons_of_mem _ e))]

/-- One component of `purc_hvml_uri_split`: on a component without `/`, shorter than
`2 ^ 32`, followed by `/`, the length counted is that of the component, the character at
that offset is `/`, and the component and the rest are cut out. -/
theorem comp_step (a b : List Char) (hs : '/' ∉ a) (hl : a.length < 2 ^ 32) :
    get_path_comp_len (a ++ '/' :: b) = a.length ∧
      (a ++ '/' :: b)[a.length]? = some '/' ∧
      (a ++ '/' :: b).take a.length = a ∧
      (a ++ '/' :: b).drop (a.length + 1) = b := by
  refine ⟨?_, ?_, ?_, ?_⟩
  · unfold get_path_comp_len
    rw [comp_len_append b a hs, Nat.mod_eq_of_lt hl]
  · rw [List.getElem?_append_right (le_refl _)]
    simp
  · simp
  · rw [← List.drop_drop]
    simp

/-- C27: for a non-empty host, application, runner and group name without `/`, and a
non-empty page name that does not start with `/` and has no `?` and no `#`, each shorter
than `2 ^ 32` characters (the lengths are counted in an `unsigned int`),
`purc_hvml_uri_assemble` writes `hvml://host/app/runner/group/page` and returns its length,
and `purc_hvml_uri_split` of that string, with all five buffers passed, returns true and
writes the same five components. -/
theorem C27_uri_round_trip (host app runner group page : List Char)
    (hh : host ≠ []) (ha : app ≠ []) (hr : runner ≠ []) (hg : group ≠ []) (hp : page ≠ [])
    (hhs : '/' ∉ host) (has : '/' ∉ app) (hrs : '/' ∉ runner) (hgs : '/' ∉ group)
    (hps : page.head? ≠ some '/') (hpq : '?' ∉ page) (hpf : '#' ∉ page)
    (hhl : host.length < 2 ^ 32) (hal : app.length < 2 ^ 32) (hrl : runner.length < 2 ^ 32)
    (hgl : group.length < 2 ^ 32) (hpl : page.length < 2 ^ 32) :
    purc_hvml_uri_assemble host app runner (some group) (some page) =
        ("hvml://".toList ++ host ++ ['/'] ++ app ++ ['/'] ++ runner ++ ['/'] ++ group ++
            ['/'] ++ page,
          ("hvml://".toList ++ host ++ ['/'] ++ app ++ ['/'] ++ runner ++ ['/'] ++ group ++
            ['/'] ++ page).length) ∧
      purc_hvml_uri_split
          ("hvml://".toList ++ host ++ ['/'] ++ app ++ ['/'] ++ runner ++ ['/'] ++ group ++
            ['/'] ++ page) true true true true true =
        (true, ⟨some host, some app, some runner, some group, some page⟩) := by
  constructor
  · rfl
  · have e : "hvml://".toList ++ host ++ ['/'] ++ app ++ ['/'] ++ runner ++ ['/'] ++ group ++
        ['/'] ++ page =
        HVML_SCHEMA ++ (host ++ '/' :: (app ++ '/' :: (runner ++ '/' :: (group ++ '/' :: page)))) := by
      simp [HVML_SCHEMA]
    rw [e]
    have hcase : strncasecmp
        (HVML_SCHEMA ++ (host ++ '/' :: (app ++ '/' :: (runner ++ '/' :: (group ++ '/' :: page)))))
        HVML_SCHEMA 7 = false := by
      rfl
    have hdrop : (HVML_SCHEMA ++
        (host ++ '/' :: (app ++ '/' :: (runner ++ '/' :: (group ++ '/' :: page))))).drop 7 =
        host ++ '/' :: (app ++ '/' :: (runner ++ '/' :: (group ++ '/' :: page))) := rfl
    obtain ⟨a1, a2, a3, a4⟩ :=
      comp_step host (app ++ '/' :: (runner ++ '/' :: (group ++ '/' :: page))) hhs hhl
    obtain ⟨b1, b2, b3, b4⟩ := comp_step app (runner ++ '/' :: (group ++ '/' :: page)) has hal
    obtain ⟨c1, c2, c3, c4⟩ := comp_step runner (group ++ '/' :: page) hrs hrl
    obtain ⟨d1, d2, d3, d4⟩ := comp_step group page hgs hgl
    have hpage : get_path_trail_len page = page.length := by
      unfold get_path_trail_len
      rw [trail_len_all page hpq hpf, Nat.mod_eq_of_lt hpl]
    have l1 : host.length ≠ 0 := fun h => hh (List.length_eq_zero.1 h)
    have l2 : app.length ≠ 0 := fun h => ha (List.length_eq_zero.1 h)
    have l3 : runner.length ≠ 0 := fun h => hr (List.length_eq_zero.1 h)
    have l4 : group.length ≠ 0 := fun h => hg (List.length_eq_zero.1 h)
    have l5 : page.length ≠ 0 := fun h => hp (List.length_eq_zero.1 h)
    unfold purc_hvml_uri_split
    simp only [hcase, hdrop, a1, a2, a3, a4, b1, b2, b3, b4, c1, c2, c3, c4, d1, d2, d3, d4,
      hpage, l1, l2, l3, l4, l5, hps, List.take_length, Bool.false_eq_true, if_false, if_true,
      or_self, ne_eq, not_true_eq_false, and_self, Bool.true_eq_false, false_and]

/-- Witness for C27 at the components `localhost`, `cn.fmsoft`, `main`, `grp` and
`page/1`. -/
theorem C27_uri_round_trip_witness :
    purc_hvml_uri_assemble "localhost".toList "cn.fmsoft".toList "main".toList
        (some "grp".toList) (some "page/1".toList) =
        ("hvml://localhost/cn.fmsoft/main/grp/page/1".toList, 42) ∧
      purc_hvml_uri_split "hvml://localhost/cn.fmsoft/main/grp/page/1".toList
          true true true true true =
        (true, ⟨some "localhost".toList, some "cn.fmsoft".toList, some "main".toList,
          some "grp".toList, some "page/1".toList⟩) :=
  C27_uri_round_trip "localhost".toList "cn.fmsoft".toList "main".toList "grp".toList
    "page/1".toList (by decide) (by decide) (by decide) (by decide) (by decide) (by decide)
    (by decide) (by decide) (by decide) (by decide) (by decide) (by decide) (by decide)
    (by decide) (by decide) (by decide) (by decide)

theorem strchr_none_iff (c : Char) : ∀ s : List Char, strchr s c = none ↔ c ∉ s := by
  intro s
  induction s with
  | nil => simp [strchr]
  | cons x s ih =>
    unfold strchr
    by_cases hx : x = c
    · simp [hx]
    · rw [if_neg hx]
      simp only [Option.map_eq_none', ih, List.mem_cons, not_or]
      exact ⟨fun h => ⟨fun e => hx e.symm, h⟩, fun h => h.2⟩

theorem strchr_some (c : Char) :
    ∀ (s : List Char) (k : Nat), strchr s c = some k →
      ∃ a b, s = a ++ c :: b ∧ c ∉ a ∧ a.length = k := by
  intro s
  induction s with
  | nil => intro k h; simp [strchr] at h
  | cons x s ih =>
    intro k h
    unfold strchr at h
    by_cases hx : x = c
    · rw [if_pos hx] at h
      cases h
      exact ⟨[], s, by rw [hx]; rfl, by simp, rfl⟩
    · rw [if_neg hx] at h
      cases hs : strchr s c with
      | none => rw [hs] at h; cases h
      | some j =>
        rw [hs] at h
        cases h
        obtain ⟨a, b, e, hn, hl⟩ := ih j hs
        refine ⟨x :: a, b, by rw [e]; rfl, ?_, by simp [hl]⟩
        simp only [List.mem_cons, not_or]
        exact ⟨fun e => hx e.symm, hn⟩

/-- A string is cut at its first dot in one way only. -/
theorem first_dot_unique :
    ∀ (a t b r : List Char), '.' ∉ a → '.' ∉ t → a ++ '.' :: b = t ++ '.' :: r →
      a = t ∧ b = r := by
  intro a
  induction a with
  | nil =>
    intro t b r _ ht e
    cases t with
    | nil => simp at e; exact ⟨rfl, e⟩
    | cons y t =>
      simp only [List.nil_append, List.cons_append, List.cons.injEq] at e
      exact absurd (e.1 ▸ List.mem_cons_self _ _) ht
  | cons x a ih =>
    intro t b r ha ht e
    cases t with
    | nil =>
      simp only [List.nil_append, List.cons_append, List.cons.injEq] at e
      exact absurd (e.1 ▸ List.mem_cons_self _ _) ha
    | cons y t =>
      simp only [List.cons_append, List.cons.injEq] at e
      obtain ⟨h1, h2⟩ := ih t b r (fun h => ha (List.mem_cons_of_mem _ h))
        (fun h => ht (List.mem_cons_of_mem _ h)) e.2
      exact ⟨by rw [e.1, h1], h2⟩

/-- A token that `purc_is_valid_token` accepts without a limit is not empty and has no
dot. -/
theorem valid_token_no_dot (t : List Char) (h : purc_is_valid_token t 0 = true) :
    t ≠ [] ∧ '.' ∉ t := by
  cases t with
  | nil => simp [purc_is_valid_token] at h
  | cons c cs =>
    refine ⟨by simp, ?_⟩
    have h0 : (if (c != '_' && !purc_isalpha c) = true then false
      else valid_token_loop 0 1 cs) = true := h
    by_cases hc : (c != '_' && !purc_isalpha c) = true
    · rw [if_pos hc] at h0; cases h0
    · rw [if_neg hc] at h0
      have hl := ((valid_token_loop_spec 0 cs 1).1 h0).1
      simp only [List.mem_cons, not_or]
      constructor
      · intro e
        apply hc
        rw [← e]
        decide
      · intro hm
        rcases hl _ hm with h1 | h1
        · revert h1; decide
        · revert h1; decide

theorem join_dots_cons (t : List Char) (ts : List (List Char)) (h : ts ≠ []) :
    join_dots (t :: ts) = t ++ '.' :: join_dots ts := by
  cases ts with
  | nil => exact absurd rfl h
  | cons u us => rfl

/-- The loop of `purc_is_valid_app_name`, started with `left` the length of the rest of the
name, ends with an answer, and the answer is true exactly when the rest is empty or is a
sequence of valid tokens joined by single dots, with or without a dot at the end. -/
theorem valid_app_name_loop_spec :
    ∀ (fuel : Nat) (start : List Char), start.length < fuel →
      ∃ b, valid_app_name_loop fuel start start.length = some b ∧
        (b = true ↔ (start = [] ∨ ∃ toks : List (List Char), toks ≠ [] ∧
          (∀ t ∈ toks, purc_is_valid_token t 0 = true) ∧
            (start = join_dots toks ∨ start = join_dots toks ++ ['.']))) := by
  intro fuel
  induction fuel with
  | zero => intro start h; omega
  | succ f ih =>
    intro start hf
    cases hstart : start with
    | nil => exact ⟨true, rfl, by simp⟩
    | cons c cs =>
      rw [← hstart]
      have hne : start ≠ [] := by rw [hstart]; simp
      have hlen : start.length ≠ 0 := fun h => hne (List.length_eq_zero.1 h)
      have hun : valid_app_name_loop (f + 1) start start.length =
          (match strchr start '.' with
          | none =>
            if start.length = 0 then some false
            else if (!purc_is_valid_token (start.take start.length) 0) = true then some false
            else some true
          | some e =>
            if e = 0 ∨ e = 0 then some false
            else if (!purc_is_valid_token (start.take e) 0) = true then some false
            else if start.length < e then none
            else
              if start.length - e > 0 ∧ start[e]? ≠ none then
                valid_app_name_loop f (start.drop (e + 1)) (start.length - e - 1)
              else some true) := by
        rw [hstart]; rfl
      rw [hun]
      cases hs : strchr start '.' with
      | none =>
        have hnd : '.' ∉ start := (strchr_none_iff '.' start).1 hs
        simp only [hlen, if_false, List.take_length]
        by_cases hv : purc_is_valid_token start 0 = true
        · refine ⟨true, by simp [hv], ?_⟩
          simp only [true_iff]
          exact Or.inr ⟨[start], by simp, by simpa using hv, Or.inl rfl⟩
        · refine ⟨false, by simp [hv], ?_⟩
          simp only [Bool.false_eq_true, false_iff, not_or, not_exists, not_and]
          refine ⟨hne, ?_⟩
          intro toks htoks hval
          cases toks with
          | nil => exact absurd rfl htoks
          | cons t ts =>
            cases ts with
            | nil =>
              constructor
              · intro e
                apply hv
                rw [e]
                exact hval t (List.mem_cons_self _ _)
              · intro e
                apply hnd
                rw [e]
                simp
            | cons u us =>
              constructor
              · intro e
                apply hnd
                rw [e, join_dots_cons t (u :: us) (by simp)]
                simp
              · intro e
                apply hnd
                rw [e]
                simp
      | some e =>
        obtain ⟨a, b, hab, hna, hal⟩ := strchr_some '.' start e hs
        simp only [or_self]
        have hPne : ∀ toks : List (List Char), toks ≠ [] →
            (∀ t ∈ toks, purc_is_valid_token t 0 = true) →
            (start = join_dots toks ∨ start = join_dots toks ++ ['.']) →
            purc_is_valid_token a 0 = true ∧
              (b = [] ∨ ∃ toks : List (List Char), toks ≠ [] ∧
                (∀ t ∈ toks, purc_is_valid_token t 0 = true) ∧
                  (b = join_dots toks ∨ b = join_dots toks ++ ['.'])) := by
          intro toks htoks hval hst
          cases toks with
          | nil => exact absurd rfl htoks
          | cons t ts =>
            have ht := hval t (List.mem_cons_self _ _)
            have htd := (valid_token_no_dot t ht).2
            have hvts : ∀ u ∈ ts, purc_is_valid_token u 0 = true :=
              fun u hu => hval u (List.mem_cons_of_mem _ hu)
            by_cases hts : ts = []
            · rw [hts] at hst
              rcases hst with hst | hst
              · exfalso
                apply htd
                have : join_dots [t] = t := rfl
                rw [← this, ← hst, hab]
                simp
              · have : join_dots [t] ++ ['.'] = t ++ '.' :: [] := rfl
                rw [this, hab] at hst
                obtain ⟨h1, h2⟩ := first_dot_unique a t b [] hna htd hst
                exact ⟨h1 ▸ ht, Or.inl h2⟩
            · rw [join_dots_cons t ts hts, hab] at hst
              rcases hst with hst | hst
              · obtain ⟨h1, h2⟩ := first_dot_unique a t b _ hna htd hst
                exact ⟨h1 ▸ ht, Or.inr ⟨ts, hts, hvts, Or.inl h2⟩⟩
              · rw [List.append_assoc, List.cons_append] at hst
                obtain ⟨h1, h2⟩ := first_dot_unique a t b _ hna htd hst
                exact ⟨h1 ▸ ht, Or.inr ⟨ts, hts, hvts, Or.inr h2⟩⟩
        have hreject : ¬ purc_is_valid_token a 0 = true →
            ¬ (start = [] ∨ ∃ toks : List (List Char), toks ≠ [] ∧
              (∀ t ∈ toks, purc_is_valid_token t 0 = true) ∧
                (start = join_dots toks ∨ start = join_dots toks ++ ['.'])) := by
          intro hv h
          rcases h with h | ⟨toks, h1, h2, h3⟩
          · exact hne h
          · exact hv (hPne toks h1 h2 h3).1
        have htake : start.take e = a := by rw [hab, ← hal]; simp
        by_cases he : e = 0
        · refine ⟨false, by simp [he], ?_⟩
          simp only [Bool.false_eq_true, false_iff]
          apply hreject
          intro hv
          apply (valid_token_no_dot a hv).1
          exact List.length_eq_zero.1 (hal.trans he)
        · rw [if_neg he, htake]
          by_cases hv : purc_is_valid_token a 0 = true
          · have hge : ¬ start.length < e := by
              rw [hab, ← hal]; simp
            have hdrop : start.drop (e + 1) = b := by
              rw [hab, ← hal, ← List.drop_drop]; simp
            have hleft : start.length - e - 1 = b.length := by
              rw [hab, ← hal]; simp
            have hpos : start.length - e > 0 ∧ start[e]? ≠ none := by
              refine ⟨by rw [hab, ← hal]; simp, ?_⟩
              rw [hab, ← hal, List.getElem?_append_right (le_refl _)]
              simp
            rw [if_neg (by simp [hv]), if_neg hge, if_pos hpos, hdrop, hleft]
            obtain ⟨r, hr, hiff⟩ := ih b (by
              have : start.length = a.length + b.length + 1 := by rw [hab]; simp; omega
              omega)
            refine ⟨r, hr, ?_⟩
            rw [hiff]
            constructor
            · intro h
              right
              rcases h with h | ⟨toks, h1, h2, h3⟩
              · refine ⟨[a], by simp, by simpa using hv, Or.inr ?_⟩
                rw [hab, h]; rfl
              · refine ⟨a :: toks, by simp, ?_, ?_⟩
                · intro t ht
                  rcases List.mem_cons.1 ht with rfl | ht
                  · exact hv
                  · exact h2 t ht
                · rw [join_dots_cons a toks h1, hab]
                  rcases h3 with h3 | h3
                  · exact Or.inl (by rw [h3])
                  · exact Or.inr (by rw [h3]; simp)
            · intro h
              rcases h with h | ⟨toks, h1, h2, h3⟩
              · exact absurd h hne
              · exact (hPne toks h1 h2 h3).2
          · refine ⟨false, by simp [hv], ?_⟩
            simp only [Bool.false_eq_true, false_iff]
            exact hreject hv

/-- C30: `purc_is_valid_app_name` always ends with an answer, and the answer is true exactly
when the name has at most `PURC_LEN_APP_NAME` characters and is either empty or a non-empty
sequence of valid tokens joined by single dots, with or without one dot at the end. So a
leading dot and a doubled dot are rejected, as the claim says, but the empty string and a
name with a trailing dot are accepted, which the claim says are rejected. -/
theorem C30_app_name_accepted (PURC_LEN_APP_NAME : Nat) (name : List Char) :
    (∃ b, purc_is_valid_app_name PURC_LEN_APP_NAME name = some b ∧
      (b = true ↔ name.length ≤ PURC_LEN_APP_NAME ∧
        (name = [] ∨ ∃ toks : List (List Char), toks ≠ [] ∧
          (∀ t ∈ toks, purc_is_valid_token t 0 = true) ∧
            (name = join_dots toks ∨ name = join_dots toks ++ ['.'])))) ∧
      purc_is_valid_app_name PURC_LEN_APP_NAME [] = some true ∧
      purc_is_valid_app_name 127 "cn.fmsoft.".toList = some true ∧
      purc_is_valid_app_name 127 "cn.fmsoft.hybridos.aaa".toList = some true ∧
      purc_is_valid_app_name PURC_LEN_APP_NAME ('.' :: name) = some false ∧
      purc_is_valid_app_name 127 "cn..fmsoft".toList = some false := by
  refine ⟨?_, ?_, by decide, by decide, ?_, by decide⟩
  · unfold purc_is_valid_app_name
    by_cases hl : name.length > PURC_LEN_APP_NAME
    · refine ⟨false, by simp [hl], ?_⟩
      simp only [Bool.false_eq_true, false_iff, not_and]
      intro h; omega
    · obtain ⟨b, hb, hiff⟩ := valid_app_name_loop_spec (name.length + 1) name (by omega)
      refine ⟨b, by simp only [hl, if_false]; exact hb, ?_⟩
      rw [hiff]
      constructor
      · intro h; exact ⟨by omega, h⟩
      · intro h; exact h.2
  · unfold purc_is_valid_app_name
    simp [valid_app_name_loop]
  · unfold purc_is_valid_app_name
    by_cases hl : ('.' :: name).length > PURC_LEN_APP_NAME
    · simp only [hl, if_true]
    · simp only [hl, if_false]
      simp [valid_app_name_loop, strchr]

/-! ## Claims on the handlers of an edge -/

theorem shape_reverse {ls : List pcvar_listener} (h : pre_then_post ls) :
    ls.reverse.Pairwise (fun a b =>
      a.flags &&& PCVAR_LISTENER_PRE_OR_POST = PCVAR_LISTENER_PRE →
      b.flags &&& PCVAR_LISTENER_PRE_OR_POST = PCVAR_LISTENER_PRE) := by
  rw [List.pairwise_reverse]
  apply List.Pairwise.imp _ h
  intro a b hab hb
  by_contra ha
  exact hab ha hb

/-- C33: the edge handler does not re-validate a CHANGE. `rev_update` never answers false:
a call either ends in a fatal assertion or returns true, whatever the changed values and
whatever the ancestor set holds; for an object with its own slot as context and another
value as parent the registered pre-handler returns true on every memory and every argument
list. In the example, the
member b (`id: 1`) carries an edge to the set; the edit of `id` from 1 to 2, the key of the
member c, is refused by the constraint handler of the set and allowed by the edge
handler. -/
theorem C33_edge_handler_allows :
    (∀ (pre : Bool) (src : purc_variant) (op ctxt : Nat) (argv : List purc_variant),
      rev_update pre src op ctxt argv ≠ some false) ∧
    (∀ (s : rue_world) (src : purc_variant) (op ctxt : Nat) (argv : List purc_variant),
      rev_update_chain_pre_call s src op ctxt argv ≠ some false) ∧
    (∀ (mem : pcvar_memory) (o : pcv_object) (parent : purc_variant)
        (argv : List purc_variant),
      (mem.rev_update_chain o.addr).parent = some parent → parent.addr ≠ o.addr →
      rev_update_chain_pre_handler mem (.object o) PCVAR_OPERATION_CHANGE o.addr argv
        = some true) ∧
    (ex_edged.rev_update_chain ex_child.addr).parent = some (.set 100) ∧
    variant_set_constraints_handler ex_cmp ex_edged.mem ex_child
      PCVAR_OPERATION_CHANGE 100
      [.scalar (.string "id"), .scalar (.number 1), .scalar (.string "id"),
        .scalar (.number 2)] = some false ∧
    rev_update_chain_pre_call ex_edged ex_child PCVAR_OPERATION_CHANGE 1007
      [.scalar (.string "id"), .scalar (.number 1), .scalar (.string "id"),
        .scalar (.number 2)] = some true ∧
    rev_update_chain_pre_handler ex_edged.mem ex_child PCVAR_OPERATION_CHANGE 1007
      [.scalar (.string "id"), .scalar (.number 1), .scalar (.string "id"),
        .scalar (.number 2)] = some true := by
  have h1 : ∀ (pre : Bool) (src : purc_variant) (op ctxt : Nat) (argv : List purc_variant),
      rev_update pre src op ctxt argv ≠ some false := by
    intro pre src op ctxt argv
    unfold rev_update rev_update_grow rev_update_shrink rev_update_change
    split_ifs
    · simp
    · simp
    · cases src with
      | object o =>
        simp only [obj_rev_update_change]
        split_ifs <;> simp
      | undefined => simp
      | scalar v => simp
      | array a => simp
      | set a => simp
    · simp
  refine ⟨h1, ?_, ?_, rfl, by decide, by decide, by decide⟩
  · intro s src op ctxt argv
    unfold rev_update_chain_pre_call rev_update_chain_pre_handler
    cases (s.mem.rev_update_chain ctxt).parent with
    | none => simp
    | some p =>
      simp only
      split_ifs
      · simp
      · exact h1 _ _ _ _ _
  · intro mem o parent argv hp hne
    have hne' : ¬ parent.addr = (purc_variant.object o).addr := hne
    simp [rev_update_chain_pre_handler, hp, hne', rev_update, rev_update_change,
      obj_rev_update_change, PCVAR_OPERATION_CHANGE, PCVAR_OPERATION_GROW,
      PCVAR_OPERATION_SHRINK]

/-! ## Claims on the order of the phases -/

/-- A well-formed listener list is a run of pre-listeners followed by a run of
post-listeners. -/
theorem shape_split :
    ∀ ls : List pcvar_listener, pre_then_post ls →
      ∃ pres posts, ls = pres ++ posts ∧
        (∀ l ∈ pres, l.flags &&& PCVAR_LISTENER_PRE_OR_POST = PCVAR_LISTENER_PRE) ∧
        (∀ l ∈ posts, l.flags &&& PCVAR_LISTENER_PRE_OR_POST ≠ PCVAR_LISTENER_PRE) := by
  intro ls
  induction ls with
  | nil => intro _; exact ⟨[], [], rfl, by simp, by simp⟩
  | cons x xs ih =>
    intro h
    have h' := List.pairwise_cons.1 h
    by_cases hx : x.flags &&& PCVAR_LISTENER_PRE_OR_POST = PCVAR_LISTENER_PRE
    · obtain ⟨pres, posts, e, h1, h2⟩ := ih h'.2
      refine ⟨x :: pres, posts, by rw [e]; rfl, ?_, h2⟩
      intro l hl
      rcases List.mem_cons.1 hl with rfl | hl
      · exact hx
      · exact h1 l hl
    · refine ⟨[], x :: xs, rfl, by simp, ?_⟩
      intro l hl
      rcases List.mem_cons.1 hl with rfl | hl
      · exact hx
      · exact h'.1 l hl hx

/-- C38: in the listener list of every container, after any sequence of `register_pre`,
`register_post` and `revoke` calls on a container (from lists in which the pre-listeners
come first, the empty list among them), the pre-listeners come before the post-listeners.
So `pcvariant_on_pre_fired`, which tests the mask before the phase and stops at the first
post-listener whose mask has the operation, calls the pre-listeners whose mask has the
operation in list order up to the first that answers false, and skips none: it returns
whenever these listeners return, and ends without a result exactly when one it calls ends
in a fatal assertion; and `pcvariant_on_post_fired` returns exactly when every post-listener
whose mask has the operation answers true, and has then called every one of them, from the
tail backward. -/
theorem C38_phases_in_order (w0 : World) (v : purc_variant) (calls : List registry_call)
    (hshape : ∀ a, pre_then_post (w0.listeners a))
    (op : Nat) (hop : proper_op op) (mem : pcvar_memory) (source : purc_variant)
    (argv : List purc_variant) (a : Nat) :
    pre_then_post ((run_registry v calls w0).listeners a) ∧
    (∃ pres posts, (run_registry v calls w0).listeners a = pres ++ posts ∧
      (∀ l ∈ pres, l.flags &&& PCVAR_LISTENER_PRE_OR_POST = PCVAR_LISTENER_PRE) ∧
      (∀ l ∈ posts, l.flags &&& PCVAR_LISTENER_PRE_OR_POST ≠ PCVAR_LISTENER_PRE)) ∧
    ((∀ l ∈ ((run_registry v calls w0).listeners a).filter (matches_pre op),
        (l.handler mem source op l.ctxt argv).isSome = true) →
      ∃ ok trace,
        pcvariant_on_pre_fired mem source ((run_registry v calls w0).listeners a) op argv
          = some (ok, trace)) ∧
    (pcvariant_on_pre_fired mem source ((run_registry v calls w0).listeners a) op argv = none ↔
      ∃ l ∈ called_until_veto mem source op argv
          (((run_registry v calls w0).listeners a).filter (matches_pre op)),
        l.handler mem source op l.ctxt argv = none) ∧
    (∀ ok trace,
      pcvariant_on_pre_fired mem source ((run_registry v calls w0).listeners a) op argv
        = some (ok, trace) →
      trace = (called_until_veto mem source op argv
        (((run_registry v calls w0).listeners a).filter (matches_pre op))).map
          (pcvar_listener.call op argv) ∧
      (ok = true ↔ ∀ l ∈ ((run_registry v calls w0).listeners a).filter (matches_pre op),
        l.handler mem source op l.ctxt argv = some true) ∧
      (ok = true → trace = (((run_registry v calls w0).listeners a).filter
        (matches_pre op)).map (pcvar_listener.call op argv))) ∧
    (pcvariant_on_post_fired mem source ((run_registry v calls w0).listeners a) op argv ≠ none ↔
      ∀ l ∈ ((run_registry v calls w0).listeners a).filter (matches_post op),
        l.handler mem source op l.ctxt argv = some true) ∧
    (∀ trace,
      pcvariant_on_post_fired mem source ((run_registry v calls w0).listeners a) op argv
        = some trace →
      trace = ((((run_registry v calls w0).listeners a).filter (matches_post op)).reverse).map
        (pcvar_listener.call op argv)) := by
  have hs : pre_then_post ((run_registry v calls w0).listeners a) :=
    registry_shape v calls w0 a (hshape a)
  have hpre := pre_loop_eq_scan mem source op argv _ hs
  have hpost := post_loop_eq_scan mem source op argv _ (shape_reverse hs)
  refine ⟨hs, shape_split _ hs, ?_, ?_, ?_, ?_, ?_⟩
  · intro hret
    obtain ⟨r, hr⟩ := pre_loop_returns mem source op argv _ hs hret
    exact ⟨r.1, r.2, by rw [pre_fired_single mem source _ hop argv]; exact hr⟩
  · rw [pre_fired_single mem source _ hop argv]
    exact (pre_loop_spec mem source op argv _ hs).1
  · intro ok trace hr
    rw [pre_fired_single mem source _ hop argv] at hr
    have h := hpre (ok, trace) hr
    refine ⟨h.1, h.2, ?_⟩
    intro hok
    have h1 : trace = _ := h.1
    rw [h1, called_all mem source op argv _ (h.2.1 hok)]
  · rw [post_fired_single mem source _ hop argv, hpost.2]
    constructor
    · intro h l hl
      rw [List.mem_filter] at hl
      exact h l (List.mem_filter.2 ⟨List.mem_reverse.2 hl.1, hl.2⟩)
    · intro h l hl
      rw [List.mem_filter] at hl
      exact h l (List.mem_filter.2 ⟨List.mem_reverse.1 hl.1, hl.2⟩)
  · intro trace ht
    rw [post_fired_single mem source _ hop argv] at ht
    rw [hpost.1 trace ht, List.filter_reverse]

/-- Witness for C38: a pre-listener for every operation, a post-listener, a pre-listener for
SHRINK, and the revocation of the first one (handle 1000), on the example set. -/
theorem C38_phases_in_order_witness :
    (∀ a, pre_then_post (ex_world.listeners a)) ∧ proper_op PCVAR_OPERATION_SHRINK ∧
    pre_then_post ((run_registry (.set 100)
      [.register_pre PCVAR_OPERATION_ALL ex_veto 1, .register_post PCVAR_OPERATION_ALL ex_allow 2,
       .register_pre PCVAR_OPERATION_SHRINK ex_allow 3, .revoke 1000] ex_world).listeners 100) ∧
    ((run_registry (.set 100)
      [.register_pre PCVAR_OPERATION_ALL ex_veto 1, .register_post PCVAR_OPERATION_ALL ex_allow 2,
       .register_pre PCVAR_OPERATION_SHRINK ex_allow 3, .revoke 1000] ex_world).listeners 100).map
        (fun l => (l.addr, l.flags)) = [(1002, 0), (1001, 1)] :=
  ⟨fun _ => List.Pairwise.nil, ⟨by decide, by decide⟩,
    (C38_phases_in_order ex_world (.set 100)
      [.register_pre PCVAR_OPERATION_ALL ex_veto 1, .register_post PCVAR_OPERATION_ALL ex_allow 2,
       .register_pre PCVAR_OPERATION_SHRINK ex_allow 3, .revoke 1000]
      (fun _ => List.Pairwise.nil) PCVAR_OPERATION_SHRINK ⟨by decide, by decide⟩ ex_world.mem
      (.set 100) [] 100).1,
    by decide⟩

/-! ## Claims on the values passed to the CHANGE listeners -/

/-- The trace of a successful overwrite: the calls of the pre fire on the old value and the
union, then the calls of the post fire, which is made on the world after the replacement
with the value of the node and the union. -/
theorem add_overwrite_fired {cmp : variant_cmp} (hc : cmp_total cmp) (w : World)
    (h : set_inv cmp w) (v : pcv_object) (p : Nat) (hpm : p ∈ w.data.arr)
    (hkey : cmp (w.kvs_of v) (w.data.node p).kvs.fields = 0)
    (hne : (w.data.node p).elem.addr ≠ v.addr)
    (hallow : w.allows PCVAR_OPERATION_CHANGE
      [.object (w.data.node p).elem, .object (w.union_of (w.data.node p).elem v)])
    (hpost : w.post_listeners_ok) :
    ∃ w' post, purc_variant_set_add cmp w (.object v) true = some (true, w') ∧
      w'.fired = w.fired ++
        (on_pre_fired_result w.mem (.set w.set) PCVAR_OPERATION_CHANGE
          [.object (w.data.node p).elem, .object (w.union_of (w.data.node p).elem v)]
          (w.listeners w.set)).2 ++ post ∧
      pcvariant_on_post_fired w'.mem (.set w'.set) (w'.listeners w'.set)
        PCVAR_OPERATION_CHANGE
        [.object (w'.data.node p).elem, .object (w.union_of (w.data.node p).elem v)] =
          some post ∧
      (w'.data.node p).elem = w.union_of (w.data.node p).elem v := by
  have hfind := find_member hc h v p hpm hkey
  have hf := kvs_from_val_frame w v
  obtain ⟨l, hl, _, hx⟩ := h.constraints p hpm
  obtain ⟨rest, hr⟩ := revoke_loop_some l _ hx
  have hU : w.union_of (w.data.node p).elem v =
      (variant_set_union (variant_set_kvs_from_val w v).2
        ((variant_set_kvs_from_val w v).2.data.node p).elem v).1 := by
    unfold World.union_of
    rw [hf.1]
  obtain ⟨U, hUdef⟩ : ∃ U, U = w.union_of (w.data.node p).elem v := ⟨_, rfl⟩
  rw [← hUdef] at hallow ⊢
  rw [← hUdef] at hU
  obtain ⟨w1, hw1⟩ : ∃ w1, w1 = (variant_set_union (variant_set_kvs_from_val w v).2
      ((variant_set_kvs_from_val w v).2.data.node p).elem v).2 := ⟨_, rfl⟩
  have hw1d : w1.data = w.data := by rw [hw1]; exact hf.1
  have hw1l : w1.listeners = w.listeners := by rw [hw1]; exact hf.2.1
  have hw1s : w1.set = w.set := by rw [hw1]; exact hf.2.2.1
  have hw1f : w1.fired = w.fired := by rw [hw1]; exact hf.2.2.2.1
  have hw1m : w1.mem = w.mem := by
    rw [hw1]
    show (variant_set_kvs_from_val w v).2.mem = w.mem
    exact kvs_from_val_mem w v
  have hallow1 : (on_pre_fired_result w1.mem (.set w1.set) PCVAR_OPERATION_CHANGE
      [.object (w1.data.node p).elem, .object U] (w1.listeners w1.set)).1 = true := by
    rw [hw1m, hw1d, hw1l, hw1s]; exact (allows_result hallow).2
  have hsome1 : (on_pre_fired_loop w1.mem (.set w1.set) PCVAR_OPERATION_CHANGE
      [.object (w1.data.node p).elem, .object U] (w1.listeners w1.set)).isSome = true := by
    rw [hw1m, hw1d, hw1l, hw1s]; exact (allows_result hallow).1
  obtain ⟨wc, hwc⟩ : ∃ wc, wc = { w1 with fired := w1.fired ++
      (on_pre_fired_result w1.mem (.set w1.set) PCVAR_OPERATION_CHANGE
        [.object (w1.data.node p).elem, .object U] (w1.listeners w1.set)).2 } := ⟨_, rfl⟩
  have hch : change w1 (w1.data.node p).elem U true = some (true, wc) := by
    have := change_returns w1 (w1.data.node p).elem U hsome1
    rw [hallow1] at this
    rw [hwc]; exact this
  have hwcf : wc.fired = w.fired ++
      (on_pre_fired_result w.mem (.set w.set) PCVAR_OPERATION_CHANGE
        [.object (w.data.node p).elem, .object U] (w.listeners w.set)).2 := by
    rw [hwc]
    show w1.fired ++ _ = _
    rw [hw1m, hw1d, hw1l, hw1s, hw1f]
  have hwc_data : wc.data = w.data := by rw [hwc]; exact hw1d
  have hwc_ls : wc.listeners = w.listeners := by rw [hwc]; exact hw1l
  have hwc_set : wc.set = w.set := by rw [hwc]; exact hw1s
  have hrep := replace_eq cmp wc p U (variant_set_kvs_from_val w v).1 l rest
    (by rw [hwc_data]; exact hl) (by rw [hwc_data, hwc_ls]; exact hr)
  obtain ⟨W, hW⟩ : ∃ W, W = wc.replaced cmp p U (variant_set_kvs_from_val w v).1 rest :=
    ⟨_, rfl⟩
  rw [← hW] at hrep
  have hWn := replaced_node cmp wc p U (variant_set_kvs_from_val w v).1 rest
  rw [← hW] at hWn
  have hWf : W.fired = wc.fired := by rw [hW]; rfl
  obtain ⟨calls, hcalls⟩ := post_fire_some w W PCVAR_OPERATION_CHANGE (Or.inr (Or.inr rfl))
    [.object (W.data.node p).elem, .object U] hpost (by
      intro x hx hflag
      rw [hW] at hx
      have := replaced_post_listeners cmp wc p _ _ l rest
        (by rw [hwc_data, hwc_ls]; exact hr) x hx hflag
      rw [hwc_ls, hwc_set] at this
      exact this)
  refine ⟨{ W with fired := W.fired ++ calls }, calls, ?_, ?_, hcalls, hWn.1⟩
  · rw [set_add_object]
    unfold insert_or_replace
    simp only [hfind, Bool.not_true, Bool.false_eq_true, if_false]
    rw [if_neg (by rw [hf.1]; exact hne), ← hU, ← hw1]
    rw [show ((variant_set_kvs_from_val w v).2.data.node p).elem = (w1.data.node p).elem from by
      rw [hf.1, hw1d]] at *
    rw [hch]
    simp only [hrep, ne_eq, not_true_eq_false, if_false, changed, Bool.not_true,
      Bool.false_eq_true, hcalls, Option.map_some']
    rfl
  · show W.fired ++ calls = _
    rw [hWf, hwcf]

/-- C39: on a successful overwrite of the member `m` by `v` (another object with the key of
`m`, no pre-listener of the set vetoing, the post-listeners keeping to the protocol), the
trace of the call is the calls of the CHANGE pre-listeners of the set, each with the
arguments (old member value, union), followed by the calls of its CHANGE post-listeners,
each with the union as both arguments: the node holds the union when the post fire is
made. -/
theorem C39_changed_gets_union_twice {cmp : variant_cmp} (hc : cmp_total cmp) (w : World)
    (h : set_inv cmp w) (v : pcv_object) (p : Nat) (hpm : p ∈ w.data.arr)
    (hkey : cmp (w.kvs_of v) (w.data.node p).kvs.fields = 0)
    (hne : (w.data.node p).elem.addr ≠ v.addr)
    (hallow : w.allows PCVAR_OPERATION_CHANGE
      [.object (w.data.node p).elem, .object (w.union_of (w.data.node p).elem v)])
    (hpost : w.post_listeners_ok) :
    ∃ w' pre post, purc_variant_set_add cmp w (.object v) true = some (true, w') ∧
      w'.fired = w.fired ++ pre ++ post ∧
      (w'.data.node p).elem = w.union_of (w.data.node p).elem v ∧
      pre = ((w.listeners w.set).filter (matches_pre PCVAR_OPERATION_CHANGE)).map
        (pcvar_listener.call PCVAR_OPERATION_CHANGE
          [.object (w.data.node p).elem, .object (w.union_of (w.data.node p).elem v)]) ∧
      post = (((w'.listeners w'.set).filter (matches_post PCVAR_OPERATION_CHANGE)).reverse).map
        (pcvar_listener.call PCVAR_OPERATION_CHANGE
          [.object (w.union_of (w.data.node p).elem v),
            .object (w.union_of (w.data.node p).elem v)]) ∧
      (∀ c ∈ pre, c.argv =
        [.object (w.data.node p).elem, .object (w.union_of (w.data.node p).elem v)]) ∧
      (∀ c ∈ post, c.argv =
        [.object (w.union_of (w.data.node p).elem v),
          .object (w.union_of (w.data.node p).elem v)]) := by
  obtain ⟨w', post, hrun, hfired, hp, helem⟩ :=
    add_overwrite_fired hc w h v p hpm hkey hne hallow hpost
  have hinv' := set_add_inv hc h _ _ _ _ hrun
  obtain ⟨pcalls, hpc⟩ := allows_loop hallow
  have hres : on_pre_fired_result w.mem (.set w.set) PCVAR_OPERATION_CHANGE
      [.object (w.data.node p).elem, .object (w.union_of (w.data.node p).elem v)]
      (w.listeners w.set) = (true, pcalls) := by
    unfold on_pre_fired_result
    rw [hpc]; rfl
  rw [hres] at hfired
  have hpre := pre_loop_eq_scan w.mem (.set w.set) PCVAR_OPERATION_CHANGE
    [.object (w.data.node p).elem, .object (w.union_of (w.data.node p).elem v)]
    _ (h.shape w.set) (true, pcalls) hpc
  have hall := hpre.2.1 rfl
  rw [called_all _ _ _ _ _ hall] at hpre
  rw [helem, post_fired_single _ _ _ (single_op_proper (Or.inr (Or.inr rfl)))] at hp
  have hpo := (post_loop_eq_scan w'.mem (.set w'.set) PCVAR_OPERATION_CHANGE
    [.object (w.union_of (w.data.node p).elem v), .object (w.union_of (w.data.node p).elem v)]
    _ (shape_reverse (hinv'.shape w'.set))).1 post hp
  rw [List.filter_reverse] at hpo
  refine ⟨w', _, post, hrun, hfired, helem, hpre.1, hpo, ?_, ?_⟩
  · intro c hc'
    rw [hpre.1, List.mem_map] at hc'
    obtain ⟨l, _, rfl⟩ := hc'
    rfl
  · intro c hc'
    rw [hpo, List.mem_map] at hc'
    obtain ⟨l, _, rfl⟩ := hc'
    rfl

/-- Witness for C39: the overwrite of the member c (`id: 2`) of the example set, which has
one pre-listener (handle 1000) and one post-listener (handle 1001). -/
theorem C39_changed_gets_union_twice_witness :
    1010 ∈ ex_set.data.arr ∧ (ex_set.data.node 1010).elem = ex_obj_c ∧
    (ex_set.union_of (ex_set.data.node 1010).elem
      ⟨9, [("id", .number 2), ("age", .number 7)]⟩).fields
        = [("id", .number 2), ("age", .number 7), ("name", .string "c")] ∧
    ∃ w' pre post, purc_variant_set_add ex_cmp ex_set
        (.object ⟨9, [("id", .number 2), ("age", .number 7)]⟩) true = some (true, w') ∧
      w'.fired = ex_set.fired ++ pre ++ post ∧
      (w'.data.node 1010).elem = ex_set.union_of (ex_set.data.node 1010).elem
        ⟨9, [("id", .number 2), ("age", .number 7)]⟩ ∧
      pre = ((ex_set.listeners ex_set.set).filter (matches_pre PCVAR_OPERATION_CHANGE)).map
        (pcvar_listener.call PCVAR_OPERATION_CHANGE
          [.object (ex_set.data.node 1010).elem,
            .object (ex_set.union_of (ex_set.data.node 1010).elem
              ⟨9, [("id", .number 2), ("age", .number 7)]⟩)]) ∧
      post = (((w'.listeners w'.set).filter (matches_post PCVAR_OPERATION_CHANGE)).reverse).map
        (pcvar_listener.call PCVAR_OPERATION_CHANGE
          [.object (ex_set.union_of (ex_set.data.node 1010).elem
              ⟨9, [("id", .number 2), ("age", .number 7)]⟩),
            .object (ex_set.union_of (ex_set.data.node 1010).elem
              ⟨9, [("id", .number 2), ("age", .number 7)]⟩)]) ∧
      (∀ c ∈ pre, c.argv =
        [.object (ex_set.data.node 1010).elem,
          .object (ex_set.union_of (ex_set.data.node 1010).elem
            ⟨9, [("id", .number 2), ("age", .number 7)]⟩)]) ∧
      (∀ c ∈ post, c.argv =
        [.object (ex_set.union_of (ex_set.data.node 1010).elem
            ⟨9, [("id", .number 2), ("age", .number 7)]⟩),
          .object (ex_set.union_of (ex_set.data.node 1010).elem
            ⟨9, [("id", .number 2), ("age", .number 7)]⟩)]) :=
  ⟨by decide, by decide, by decide,
    C39_changed_gets_union_twice ex_cmp_total ex_set (reachable_inv ex_cmp_total ex_set_reachable)
      ⟨9, [("id", .number 2), ("age", .number 7)]⟩ 1010 (by decide) (by decide) (by decide)
      (by unfold World.allows; decide) ex_set_post_ok⟩

/-! ## Claims on the state seen by the SHRINK post-listeners -/

/-- What `set_remove` does on a member of a well-formed set once the pre-listeners allow:
the post-listeners are fired in the world in which the node is unlinked and nothing else is
done yet; a post fire that ends in a fatal assertion ends the call, otherwise the positions
are refreshed and the node is released. -/
theorem set_remove_fires_unlinked {cmp : variant_cmp} {w : World} (h : set_inv cmp w)
    (N p : Nat) (hp : w.data.arr[N]? = some p)
    (hallow : w.allows PCVAR_OPERATION_SHRINK [.object (w.data.node p).elem]) :
    ∃ ws rest, ws.data = w.data ∧ ws.listeners = w.listeners ∧ ws.set = w.set ∧
      shrink w (w.data.node p).elem true = some (true, ws) ∧
      set_remove w p true =
        (shrunk (ws.unlinked p) (w.data.node p).elem true).map
          (fun w3 => (0, w3.released p N rest)) := by
  have hpm : p ∈ w.data.arr := List.getElem?_mem hp
  have hidx := h.idx N p hp
  have hN : N < w.data.arr.length := (List.getElem?_eq_some.1 hp).1
  obtain ⟨l, hl, _, hx⟩ := h.constraints p hpm
  obtain ⟨rest, hr⟩ := revoke_loop_some l _ hx
  have hs := shrink_returns w (w.data.node p).elem (allows_result hallow).1
  rw [(allows_result hallow).2] at hs
  obtain ⟨ws, hws⟩ : ∃ ws, ws = { w with fired := w.fired ++
      (on_pre_fired_result w.mem (.set w.set) PCVAR_OPERATION_SHRINK
        [.object (w.data.node p).elem] (w.listeners w.set)).2 } := ⟨_, rfl⟩
  rw [← hws] at hs
  have hwd : ws.data = w.data := by rw [hws]
  have hwl : ws.listeners = w.listeners := by rw [hws]
  have hwset : ws.set = w.set := by rw [hws]
  refine ⟨ws, rest, hwd, hwl, hwset, hs, ?_⟩
  cases hp3 : shrunk (ws.unlinked p) (w.data.node p).elem true with
  | none =>
    have hp3' : shrunk (ws.unlinked p) (ws.data.node p).elem true = none := by
      rw [hwd]; exact hp3
    unfold set_remove
    rw [hs]
    simp only [not_le.2 (show (ws.data.node p).idx < ws.data.arr.length by
      rw [hwd, hidx]; exact hN), if_false]
    simp only [World.unlinked] at hp3'
    simp only [hp3']
    rfl
  | some w3 =>
    rw [set_remove_allowed w ws w3 p true l rest hs (by rw [hwd, hidx]; exact hN)
      (by rw [hwd]; exact hp3) (by rw [hwd]; exact hl) (by rw [hwd, hwl]; exact hr)]
    rw [hwd, hidx]
    rfl

/-- C31: when a member at position `N` of a well-formed set is removed and the
pre-listeners allow, the SHRINK post-listeners are fired in a world in which the removed
node is out of the array and out of the ordered index, but the cached positions are not
shifted yet: a member at a new position `i` from `N` on still has the cached position
`i + 1`. A post-listener that calls `purc_variant_set_get_by_index` gets the member for a
position below `N` and runs into the fatal assertion on the position for every position
from `N` on. -/
theorem C31_post_fire_before_shift {cmp : variant_cmp} {w : World} (h : set_inv cmp w)
    (N p : Nat) (hp : w.data.arr[N]? = some p)
    (hallow : w.allows PCVAR_OPERATION_SHRINK [.object (w.data.node p).elem]) :
    ∃ ws rest, shrink w (w.data.node p).elem true = some (true, ws) ∧
      set_remove w p true =
        (shrunk (ws.unlinked p) (w.data.node p).elem true).map
          (fun w3 => (0, w3.released p N rest)) ∧
      (ws.unlinked p).data.arr = w.data.arr.eraseIdx N ∧
      p ∉ (ws.unlinked p).data.arr ∧ p ∉ (ws.unlinked p).data.elems.inorder ∧
      (ws.unlinked p).data.elems.inorder.Perm (ws.unlinked p).data.arr ∧
      (∀ i q, (ws.unlinked p).data.arr[i]? = some q →
        ((ws.unlinked p).data.node q).idx = if i < N then i else i + 1) ∧
      (∀ i : Nat, i < N → ∃ q, w.data.arr[i]? = some q ∧
        purc_variant_set_get_by_index (ws.unlinked p) (i : Int) =
          some (some (w.data.node q).elem)) ∧
      (∀ i : Nat, N ≤ i → i < (ws.unlinked p).data.arr.length →
        purc_variant_set_get_by_index (ws.unlinked p) (i : Int) = none) := by
  obtain ⟨ws, rest, hwd, _, _, hs, hrun⟩ := set_remove_fires_unlinked h N p hp hallow
  have hidx := h.idx N p hp
  have hN : N < w.data.arr.length := (List.getElem?_eq_some.1 hp).1
  have hge : w.data.arr[N] = p := (List.getElem?_eq_some.1 hp).2
  have harr : (ws.unlinked p).data.arr = w.data.arr.eraseIdx N := by
    simp only [World.unlinked, hwd, hidx]
  have hnode : (ws.unlinked p).data.node = w.data.node := by
    simp only [World.unlinked, hwd]
  have helems : (ws.unlinked p).data.elems = pcutils_rbtree_erase p w.data.elems := by
    simp only [World.unlinked, hwd]
  have herase : w.data.arr.eraseIdx N = w.data.arr.erase p := by
    have h1 := (List.Nodup.erase_getElem h.nodup _ hN).symm
    rw [hge] at h1
    exact h1
  have hin : (pcutils_rbtree_erase p w.data.elems).inorder = w.data.elems.inorder.erase p :=
    inorder_erase p _ (h.perm.nodup_iff.2 h.nodup)
  have hget : ∀ i q, (w.data.arr.eraseIdx N)[i]? = some q →
      w.data.arr[if i < N then i else i + 1]? = some q := by
    intro i q hq
    rw [List.getElem?_eraseIdx] at hq
    split_ifs at hq ⊢ <;> exact hq
  refine ⟨ws, rest, hs, hrun, harr, ?_, ?_, ?_, ?_, ?_, ?_⟩
  · rw [harr, herase]
    exact h.nodup.not_mem_erase
  · rw [helems, hin]
    exact (h.perm.nodup_iff.2 h.nodup).not_mem_erase
  · rw [helems, hin, harr, herase]
    exact h.perm.erase p
  · intro i q hq
    rw [harr] at hq
    rw [hnode]
    exact h.idx _ q (hget i q hq)
  · intro i hi
    have hil : i < w.data.arr.length := by omega
    refine ⟨w.data.arr[i], List.getElem?_eq_getElem hil, ?_⟩
    have hq : (ws.unlinked p).data.arr[i]? = some w.data.arr[i] := by
      rw [harr, List.getElem?_eraseIdx, if_pos hi]
      exact List.getElem?_eq_getElem hil
    unfold purc_variant_set_get_by_index
    rw [if_neg (by omega)]
    simp only [Int.toNat_ofNat, hq, hnode]
    rw [if_pos (h.idx i _ (List.getElem?_eq_getElem hil))]
  · intro i hi hlen
    obtain ⟨q, hq⟩ : ∃ q, (ws.unlinked p).data.arr[i]? = some q :=
      ⟨_, List.getElem?_eq_getElem hlen⟩
    have hqi : (w.data.node q).idx = i + 1 := by
      have := h.idx _ q (hget i q (by rw [← harr]; exact hq))
      rw [if_neg (by omega)] at this
      exact this
    unfold purc_variant_set_get_by_index
    rw [if_neg (by omega)]
    simp only [Int.toNat_ofNat, hq, hnode]
    rw [if_neg (by omega)]

theorem ex_probed_listeners :
    ex_probed.listeners 100 =
      [⟨1000, PCVAR_LISTENER_PRE, PCVAR_OPERATION_ALL, 0, ex_allow⟩,
       ⟨1001, PCVAR_LISTENER_POST, PCVAR_OPERATION_ALL, 0, ex_allow⟩,
       ⟨1017, PCVAR_LISTENER_POST, PCVAR_OPERATION_SHRINK, 0, ex_probe⟩] := by
  rfl

theorem ex_probed_inv : set_inv ex_cmp ex_probed :=
  inv_register_post (reachable_inv ex_cmp_total ex_set_reachable) _ _ _ _

/-- Witness for C31: the example set (array 1003, 1010, 1014) with a SHRINK post-listener
that reads position 0. Removing position 0 fires the listener while the node 1010, now at
position 0, still has the cached position 1: the read ends in the fatal assertion and the
removal yields no result. Removing the last position, which shifts nothing, returns. -/
theorem C31_post_fire_before_shift_witness :
    ex_probed.data.arr = [1003, 1010, 1014] ∧
    (∃ ws rest, shrink ex_probed (ex_probed.data.node 1003).elem true = some (true, ws) ∧
      set_remove ex_probed 1003 true =
        (shrunk (ws.unlinked 1003) (ex_probed.data.node 1003).elem true).map
          (fun w3 => (0, w3.released 1003 0 rest)) ∧
      (ws.unlinked 1003).data.arr = ex_probed.data.arr.eraseIdx 0 ∧
      1003 ∉ (ws.unlinked 1003).data.arr ∧ 1003 ∉ (ws.unlinked 1003).data.elems.inorder ∧
      (ws.unlinked 1003).data.elems.inorder.Perm (ws.unlinked 1003).data.arr ∧
      (∀ i q, (ws.unlinked 1003).data.arr[i]? = some q →
        ((ws.unlinked 1003).data.node q).idx = if i < 0 then i else i + 1) ∧
      (∀ i : Nat, i < 0 → ∃ q, ex_probed.data.arr[i]? = some q ∧
        purc_variant_set_get_by_index (ws.unlinked 1003) (i : Int) =
          some (some (ex_probed.data.node q).elem)) ∧
      (∀ i : Nat, 0 ≤ i → i < (ws.unlinked 1003).data.arr.length →
        purc_variant_set_get_by_index (ws.unlinked 1003) (i : Int) = none)) ∧
    purc_variant_set_remove_by_index ex_probed ((0 : Nat) : Int) = none ∧
    (purc_variant_set_remove_by_index ex_probed ((2 : Nat) : Int)).isSome = true :=
  ⟨by decide,
    C31_post_fire_before_shift ex_probed_inv 0 1003 (by decide)
      (by unfold World.allows; decide),
    Option.isNone_iff_eq_none.1 (by decide), by decide⟩

/-! ## Claims on a cursor and later changes of the set -/

/-- C32: a cursor keeps the neighbours computed when it was last positioned. For a cursor
positioned on the member `m` of a well-formed set whose successor is `s`, the next call of
`purc_variant_set_iterator_next` returns true and moves the cursor to `s` in whatever state
the set is at that call. When `s` has been removed in between (the ordered index is the old
one without `s`), the cursor is on a node that is no longer in the ordered index, and the
successor of `m` at that time is another node or none; when a node `n` has been inserted
between `m` and `s`, the successor of `m` at that time is `n` and the cursor skips it. -/
theorem C32_next_keeps_old_neighbour {cmp : variant_cmp} (w : World) (h : set_inv cmp w)
    (pre rest : List Nat) (m s : Nat) (x y : Option Nat)
    (hL : w.data.elems.inorder = pre ++ m :: s :: rest) :
    iterator_refresh w.data ⟨some m, x, y⟩ = ⟨some m, pre.getLast?, some s⟩ ∧
    pcutils_rbtree_next w.data.elems m = some s ∧
    (∀ w' : World,
      (purc_variant_set_iterator_next w' (iterator_refresh w.data ⟨some m, x, y⟩)).1 = true ∧
      (purc_variant_set_iterator_next w' (iterator_refresh w.data ⟨some m, x, y⟩)).2.1.curr
        = some s) ∧
    (∀ w' : World, w'.data.elems.inorder = pre ++ m :: rest →
      s ∉ w'.data.elems.inorder ∧ pcutils_rbtree_next w'.data.elems m = rest.head? ∧
      pcutils_rbtree_next w'.data.elems m ≠ some s) ∧
    (∀ (w' : World) (n : Nat), w'.data.elems.inorder = pre ++ m :: n :: s :: rest →
      w'.data.elems.inorder.Nodup →
      pcutils_rbtree_next w'.data.elems m = some n ∧ n ≠ s) := by
  have hnd : w.data.elems.inorder.Nodup := h.perm.nodup_iff.2 h.nodup
  have hne : w.data.arr.length ≠ 0 := by
    rw [← h.perm.length_eq, hL]; simp
  have hr := refresh_at w.data pre (s :: rest) m x y hL hnd hne
  rw [List.head?_cons] at hr
  have hnd' := hnd
  rw [hL] at hnd'
  have hmpre : m ∉ pre := fun hc =>
    (List.nodup_append.1 hnd').2.2 hc (List.mem_cons_self _ _)
  have hspre : s ∉ pre := fun hc =>
    (List.nodup_append.1 hnd').2.2 hc (List.mem_cons_of_mem _ (List.mem_cons_self _ _))
  have hcons := List.nodup_cons.1 (List.nodup_append.1 hnd').2.1
  have hsm : s ≠ m := fun e => hcons.1 (e ▸ List.mem_cons_self _ _)
  have hsrest : s ∉ rest := (List.nodup_cons.1 hcons.2).1
  have hnext : ∀ (t : rb_node) (tail : List Nat), t.inorder = pre ++ m :: tail →
      pcutils_rbtree_next t m = tail.head? := by
    intro t tail ht
    unfold pcutils_rbtree_next
    rw [ht, List.indexOf_append_of_not_mem hmpre, List.indexOf_cons_self,
      List.getElem?_append_right (by omega)]
    cases tail <;> simp
  refine ⟨hr, hnext _ _ hL, ?_, ?_, ?_⟩
  · intro w'
    rw [hr]
    simp only [purc_variant_set_iterator_next]
    unfold iterator_refresh
    simp only
    split_ifs <;> simp
  · intro w' hL'
    have h1 := hnext w'.data.elems rest hL'
    refine ⟨?_, h1, ?_⟩
    · rw [hL']
      simp only [List.mem_append, List.mem_cons, not_or]
      exact ⟨hspre, hsm, hsrest⟩
    · rw [h1]
      intro e
      cases rest with
      | nil => simp at e
      | cons r rs =>
        simp only [List.head?_cons, Option.some.injEq] at e
        exact hsrest (e ▸ List.mem_cons_self _ _)
  · intro w' n hL' hnd2
    refine ⟨hnext w'.data.elems _ hL', ?_⟩
    rw [hL'] at hnd2
    have := List.nodup_cons.1 (List.nodup_cons.1 (List.nodup_append.1 hnd2).2.1).2
    intro e
    exact this.1 (e ▸ List.mem_cons_self _ _)

/-- Witness for C32: in the example set the cursor made by `begin` is on the node 1014 with
the node 1003 as its successor. After the member at position 0 (the node 1003) is removed,
`next` returns true and puts the cursor on the node 1003, which is in neither index. -/
theorem C32_next_keeps_old_neighbour_witness :
    ex_set.data.elems.inorder = [] ++ 1014 :: 1003 :: [1010] ∧
    (purc_variant_set_make_iterator_begin ex_set).map (fun r => r.1) =
      some (some ⟨some 1014, none, some 1003⟩) ∧
    iterator_refresh ex_set.data ⟨some 1014, none, none⟩ = ⟨some 1014, none, some 1003⟩ ∧
    ∃ w1, purc_variant_set_remove_by_index ex_set ((0 : Nat) : Int) =
        some (some (ex_set.data.node 1003).elem, w1) ∧
      1003 ∉ w1.data.arr ∧ 1003 ∉ w1.data.elems.inorder ∧
      (purc_variant_set_iterator_next w1 (iterator_refresh ex_set.data ⟨some 1014, none, none⟩)).1
        = true ∧
      (purc_variant_set_iterator_next w1
        (iterator_refresh ex_set.data ⟨some 1014, none, none⟩)).2.1.curr = some 1003 := by
  have hinv := reachable_inv ex_cmp_total ex_set_reachable
  have hC := C32_next_keeps_old_neighbour ex_set hinv [] [1010] 1014 1003 none none (by decide)
  obtain ⟨w1, hrun, hinv1, harr, _⟩ := remove_by_index_ok hinv 0 1003 (by decide)
    (by unfold World.allows; decide) ex_set_post_ok
  have hnot : 1003 ∉ w1.data.arr := by rw [harr]; decide
  exact ⟨by decide, by decide, hC.1, w1, hrun, hnot,
    fun hm => hnot (hinv1.perm.mem_iff.1 hm), (hC.2.2.1 w1).1, (hC.2.2.1 w1).2⟩

/-! ## Claims on the key spec -/

theorem dropWhile_head {α : Type} (p : α → Bool) :
    ∀ (l : List α) (x : α) (xs : List α), l.dropWhile p = x :: xs → p x = false := by
  intro l
  induction l with
  | nil => intro x xs h; simp at h
  | cons a l ih =>
    intro x xs h
    rw [List.dropWhile_cons] at h
    by_cases ha : p a = true
    · rw [if_pos ha] at h; exact ih x xs h
    · rw [if_neg ha] at h
      simp only [List.cons.injEq] at h
      rw [← h.1]; simpa using ha

theorem strtok_none (ctx : List Char) (h : (strtok_r ctx).1 = none) :
    ∀ c ∈ ctx, c = KEY_DELIM := by
  unfold strtok_r at h
  cases hd : ctx.dropWhile (fun c => c == KEY_DELIM) with
  | nil =>
    intro c hc
    have := List.dropWhile_eq_nil_iff.1 hd c hc
    simpa using this
  | cons x xs => rw [hd] at h; simp at h

theorem strtok_some (ctx tok ctx' : List Char) (h : strtok_r ctx = (some tok, ctx')) :
    ∃ g rest, ctx = g ++ tok ++ rest ∧ (∀ c ∈ g, c = KEY_DELIM) ∧ tok ≠ [] ∧
      KEY_DELIM ∉ tok ∧ ((rest = [] ∧ ctx' = []) ∨ rest = KEY_DELIM :: ctx') := by
  unfold strtok_r at h
  cases hd : ctx.dropWhile (fun c => c == KEY_DELIM) with
  | nil => rw [hd] at h; simp at h
  | cons x xs =>
    rw [hd] at h
    simp only [Prod.mk.injEq, Option.some.injEq] at h
    have hx : (x == KEY_DELIM) = false := dropWhile_head _ ctx x xs hd
    have hx' : (x != KEY_DELIM) = true := by simpa using hx
    refine ⟨ctx.takeWhile (fun c => c == KEY_DELIM),
      (x :: xs).dropWhile (fun c => c != KEY_DELIM), ?_, ?_, ?_, ?_, ?_⟩
    · rw [← h.1, List.append_assoc, List.takeWhile_append_dropWhile, ← hd,
        List.takeWhile_append_dropWhile]
    · intro c hc
      simpa using List.mem_takeWhile_imp hc
    · rw [← h.1, List.takeWhile_cons, hx']
      simp
    · rw [← h.1]
      intro hm
      have := List.mem_takeWhile_imp hm
      simp at this
    · cases hr : (x :: xs).dropWhile (fun c => c != KEY_DELIM) with
      | nil => left; rw [← h.2, hr]; exact ⟨rfl, rfl⟩
      | cons y ys =>
        right
        have hy := dropWhile_head _ _ y ys hr
        have hy' : y = KEY_DELIM := by simpa using hy
        rw [← h.2, hr, hy']
        rfl

theorem space_runs_delim (x : List Char) (ts : List (List Char)) (h : space_runs x ts) :
    space_runs (KEY_DELIM :: x) ts := by
  cases h with
  | done g hg =>
    exact space_runs.done _ (fun c hc => by
      rcases List.mem_cons.1 hc with rfl | hc
      · rfl
      · exact hg c hc)
  | run g t rest ts' hg ht hts hrest h' =>
    have := space_runs.run (KEY_DELIM :: g) t rest ts' (fun c hc => by
      rcases List.mem_cons.1 hc with rfl | hc
      · rfl
      · exact hg c hc) ht hts hrest h'
    simpa using this

theorem space_runs_nil (s : List Char) (ts : List (List Char)) (h : space_runs s ts)
    (hts : ts = []) : ∀ c ∈ s, c = KEY_DELIM := by
  cases h with
  | done g hg => exact hg
  | run g t rest ts' hg ht hts' hrest h' => cases hts

theorem space_runs_spaces (s : List Char) (ts : List (List Char)) (h : space_runs s ts)
    (hall : ∀ x ∈ s, x = KEY_DELIM) : ts = [] := by
  cases h with
  | done g hg => rfl
  | run g t rest ts' hg ht hts hrest h' =>
    exfalso
    cases t with
    | nil => exact ht rfl
    | cons y ys =>
      apply hts
      rw [← hall y (by simp)]
      exact List.mem_cons_self _ _

/-- The loop of `variant_set_init` ends within its fuel; the tokens it stores are the
maximal runs of characters other than the space, in order, and it counts them. -/
theorem init_loop_spec :
    ∀ (fuel : Nat) (ctx : List Char) (keynames : List (Option (List Char))) (idx : Nat),
      ctx.length < fuel →
      ∃ ts, space_runs ctx ts ∧ ts.length ≤ ctx.length ∧
        variant_set_init_loop fuel ctx keynames idx =
          (store_tokens keynames idx ts, idx + ts.length) := by
  intro fuel
  induction fuel with
  | zero => intro ctx _ _ h; omega
  | succ f ih =>
    intro ctx keynames idx hf
    cases hs : strtok_r ctx with
    | mk tok ctx' =>
      cases tok with
      | none =>
        refine ⟨[], space_runs.done ctx (strtok_none ctx (by rw [hs])), Nat.zero_le _, ?_⟩
        simp [variant_set_init_loop, hs, store_tokens]
      | some tok =>
        obtain ⟨g, rest, hctx, hg, ht, hts, hrest⟩ := strtok_some ctx tok ctx' hs
        have htl : 0 < tok.length := List.length_pos.2 ht
        have hlen : ctx'.length + 1 ≤ ctx.length := by
          rw [hctx]
          simp only [List.length_append]
          rcases hrest with ⟨h1, h2⟩ | h1
          · rw [h1, h2]; simp only [List.length_nil]; omega
          · rw [h1]; simp only [List.length_cons]; omega
        obtain ⟨ts, hruns, htsl, hloop⟩ := ih ctx' (keynames.set idx (some tok)) (idx + 1)
          (by omega)
        refine ⟨tok :: ts, ?_, by simp; omega, ?_⟩
        · rw [hctx]
          apply space_runs.run g tok rest ts hg ht hts
          · rcases hrest with ⟨h1, _⟩ | h1
            · exact Or.inl h1
            · right; rw [h1]; rfl
          · rcases hrest with ⟨h1, h2⟩ | h1
            · rw [h1, ← h2]; exact hruns
            · rw [h1]; exact space_runs_delim _ _ hruns
        · simp only [variant_set_init_loop, hs, hloop, store_tokens, List.length_cons]
          congr 1
          omega

theorem store_tokens_fresh :
    ∀ (ts : List (List Char)) (filled : List (Option (List Char))) (k : Nat),
      ts.length ≤ k →
      store_tokens (filled ++ List.replicate k none) filled.length ts =
        filled ++ ts.map some ++ List.replicate (k - ts.length) none := by
  intro ts
  induction ts with
  | nil => intro filled k _; simp [store_tokens]
  | cons t ts ih =>
    intro filled k hk
    obtain ⟨j, rfl⟩ : ∃ j, k = j + 1 := ⟨k - 1, by simp at hk; omega⟩
    have hset : (filled ++ List.replicate (j + 1) none).set filled.length (some t) =
        (filled ++ [some t]) ++ List.replicate j none := by
      rw [List.set_append_right _ _ (le_refl _)]
      simp [List.replicate_succ]
    unfold store_tokens
    rw [hset]
    have := ih (filled ++ [some t]) j (by simp at hk; omega)
    simp only [List.length_append, List.length_singleton] at this
    rw [this]
    simp

/-- C37: `variant_set_init` returns 0. For a key spec that is not empty, the tokens stored
in `keynames` are the maximal runs of characters other than the space, in order of
appearance, and `nr_keynames` counts them; with at least one token `unique_key` stays set.
Without key spec and with the empty key spec, `unique_key` and `keynames` are null and
`nr_keynames` is 1. With a key spec made of spaces only, `unique_key` is reset and
`nr_keynames` is 1, but `keynames` keeps the array allocated for it, all slots null: this
is not the state of a set made without key spec, whose `keynames` is the null pointer. -/
theorem C37_key_spec_tokens (c : Char) (cs : List Char) :
    variant_set_init none = (0, ⟨false, none, 1⟩) ∧
    variant_set_init (some []) = (0, ⟨false, none, 1⟩) ∧
    (∃ ts, space_runs (c :: cs) ts ∧ ts.length ≤ (c :: cs).length ∧
      (ts ≠ [] → variant_set_init (some (c :: cs)) =
        (0, ⟨true, some (ts.map some ++ List.replicate ((c :: cs).length - ts.length) none),
          ts.length⟩)) ∧
      (ts = [] → (∀ x ∈ c :: cs, x = KEY_DELIM) ∧ variant_set_init (some (c :: cs)) =
        (0, ⟨false, some (List.replicate (c :: cs).length none), 1⟩))) ∧
    ((∀ x ∈ c :: cs, x = KEY_DELIM) →
      variant_set_init (some (c :: cs)) =
        (0, ⟨false, some (List.replicate (c :: cs).length none), 1⟩) ∧
      variant_set_init (some (c :: cs)) ≠ variant_set_init none) ∧
    variant_set_init (some [KEY_DELIM]) = (0, ⟨false, some [none], 1⟩) ∧
    variant_set_init (some "id  name".toList) =
      (0, ⟨true, some [some "id".toList, some "name".toList, none, none, none, none, none,
        none], 2⟩) := by
  obtain ⟨ts, hruns, hlen, hloop⟩ := init_loop_spec ((c :: cs).length + 1) (c :: cs)
    (List.replicate (c :: cs).length none) 0 (by omega)
  have hstore := store_tokens_fresh ts [] (c :: cs).length hlen
  simp only [List.nil_append, List.length_nil] at hstore
  rw [hstore, Nat.zero_add] at hloop
  have hinit : variant_set_init (some (c :: cs)) =
      if ts.length = 0 then
        (0, ⟨false, some (ts.map some ++ List.replicate ((c :: cs).length - ts.length) none), 1⟩)
      else
        (0, ⟨true, some (ts.map some ++ List.replicate ((c :: cs).length - ts.length) none),
          ts.length⟩) := by
    unfold variant_set_init
    simp only [Option.getD_some, hloop]
  have hspaces : (∀ x ∈ c :: cs, x = KEY_DELIM) → ts = [] :=
    space_runs_spaces _ _ hruns
  have hnil : ts = [] → (∀ x ∈ c :: cs, x = KEY_DELIM) ∧ variant_set_init (some (c :: cs)) =
      (0, ⟨false, some (List.replicate (c :: cs).length none), 1⟩) := by
    intro hts
    refine ⟨space_runs_nil _ _ hruns hts, ?_⟩
    rw [hinit, hts]
    simp
  refine ⟨rfl, rfl, ⟨ts, hruns, hlen, ?_, hnil⟩, ?_, by decide, by decide⟩
  · intro hne
    rw [hinit, if_neg (fun h => hne (List.length_eq_zero.1 h))]
  · intro hall
    have h1 := (hnil (hspaces hall)).2
    refine ⟨h1, ?_⟩
    rw [h1]
    simp [variant_set_init]

/-! ## Claims on the observer lists of the interpreter -/

theorem insert_eq (cmp : variant_cmp) (w : World) (val kvs : pcv_object)
    (parent : Option Nat) (pnode : List Bool) (check : Bool) :
    insert cmp w val kvs parent pnode check =
      match grow w val check with
      | none => none
      | some (false, w) => some (-1, w)
      | some (true, w) => insert_linking cmp w val pnode check := by
  unfold insert insert_linking
  rfl

theorem reentered_nothing (cmp : variant_cmp) (w : World) (val : pcv_object) :
    insert_or_replace_reentered cmp w val [] = insert_or_replace cmp w val false true := by
  unfold insert_or_replace_reentered insert_or_replace
  simp only [run_calls, insert_eq]
  cases (find_element_rb_node cmp (variant_set_kvs_from_val w val).2.data
      (variant_set_kvs_from_val w val).1).entry with
  | none =>
    cases grow (variant_set_kvs_from_val w val).2 val true with
    | none => rfl
    | some r =>
      obtain ⟨b, w1⟩ := r
      cases b <;> rfl
  | some p => rfl

/-- C36: a GROW pre-listener that adds to the set while `add` is firing it breaks the set.
`insert_or_replace` looks up the key and the link slot before `grow` fires the listeners
and links the new node into that slot afterwards. On the empty example set keyed by `id`,
`add` of the object a (`id: 1`) with a listener that adds the object c (`id: 2`) and then
allows returns 0 with both nodes in the array and only the node of a in the ordered index:
the indices do not hold the same members, the invariant of the set fails, and the member c,
read at position 0, is not found by its key. With a listener that adds the object b, which
has the key of a, the array holds two members with equal keys. With a listener that makes
no call the function is `insert_or_replace`. -/
theorem C36_reentrant_add_breaks_set :
    (∀ (cmp : variant_cmp) (w : World) (val : pcv_object),
      insert_or_replace_reentered cmp w val [] = insert_or_replace cmp w val false true) ∧
    ex_world.data.arr = [] ∧ ex_world.data.elems = .nil ∧
    (insert_or_replace_reentered ex_cmp ex_world ex_obj_a [.add (.object ex_obj_c) false]).map
      (fun r => (r.1, r.2.data.arr, r.2.data.elems.inorder)) =
        some (0, [1002, 1005], [1005]) ∧
    (insert_or_replace_reentered ex_cmp ex_world ex_obj_a [.add (.object ex_obj_c) false]).map
      (fun r => r.2.members) = some [ex_obj_c, ex_obj_a] ∧
    (∀ w', insert_or_replace_reentered ex_cmp ex_world ex_obj_a
        [.add (.object ex_obj_c) false] = some (0, w') →
      ¬ w'.data.elems.inorder.Perm w'.data.arr ∧ ¬ set_inv ex_cmp w') ∧
    (insert_or_replace_reentered ex_cmp ex_world ex_obj_a [.add (.object ex_obj_c) false]).map
      (fun r => (purc_variant_set_get_by_index r.2 0,
        (pcvariant_set_find ex_cmp r.2 (.object ex_obj_c)).map (fun f => f.1))) =
        some (some (some ex_obj_c), some none) ∧
    (insert_or_replace_reentered ex_cmp ex_world ex_obj_a [.add (.object ex_obj_b) false]).map
      (fun r => (r.1, r.2.data.arr, r.2.data.elems.inorder, r.2.members,
        ex_cmp (r.2.key 1002) (r.2.key 1005))) =
        some (0, [1002, 1005], [1005], [ex_obj_b, ex_obj_a], 0) := by
  refine ⟨reentered_nothing, rfl, rfl, by decide, by decide, ?_, by decide, by decide⟩
  intro w' hrun
  have h : (insert_or_replace_reentered ex_cmp ex_world ex_obj_a
      [.add (.object ex_obj_c) false]).map
      (fun r => (r.1, r.2.data.arr, r.2.data.elems.inorder)) =
        some (0, [1002, 1005], [1005]) := by decide
  rw [hrun] at h
  simp only [Option.map_some', Option.some.injEq, Prod.mk.injEq, true_and] at h
  have hp : ¬ w'.data.elems.inorder.Perm w'.data.arr := by
    intro hperm
    have := hperm.length_eq
    rw [h.1, h.2] at this
    simp at this
  exact ⟨hp, fun hinv => hp hinv.perm⟩

/-! ## Claims on the edges of a new member -/

theorem break_loop_none (keynames : Option (List String)) (parent : pcv_object)
    (s : rue_world) (hno : ∀ k, (s.rev_update_chain k).parent = none) :
    ∀ (fields : List (String × pcv_value)) (i : Nat),
      break_rev_update_edges_loop keynames parent s fields i = some s := by
  intro fields
  induction fields with
  | nil => intro i; rfl
  | cons f rest ih =>
    intro i
    obtain ⟨sk, v⟩ := f
    unfold break_rev_update_edges_loop
    split_ifs
    · exact ih (i + 1)
    · have hb : ∀ edge, pcvar_break_edge_to_parent s v edge = some s := by
        intro edge
        cases v <;> simp [pcvar_break_edge_to_parent, break_edge_empty, hno]
      simp only [hb]
      exact ih (i + 1)

/-! The functions of the set on the world without the calls that break edges leave every
edge slot as it is. -/

theorem set_error_chain (w : World) (e : purc_error) :
    (pcinst_set_error w e).rev_update_chain = w.rev_update_chain := rfl

theorem revoke_listener_chain (w : World) (v : Option purc_variant) (l : Option Nat) :
    (purc_variant_revoke_listener w v l).2.rev_update_chain = w.rev_update_chain := by
  unfold purc_variant_revoke_listener
  split
  · split_ifs
    · rfl
    · split <;> rfl
  · rfl

theorem register_pre_chain (w : World) (v : Option purc_variant) (op : Nat)
    (handler : Option pcvar_op_handler) (ctxt : Nat) :
    (purc_variant_register_pre_listener w v op handler ctxt).2.rev_update_chain
      = w.rev_update_chain := by
  unfold purc_variant_register_pre_listener
  repeat' split
  all_goals rfl

theorem fire_pre_chain {w : World} {check : Bool} {source : purc_variant} {op : Nat}
    {argv : List purc_variant} {r : Bool × World}
    (h : (if (!check) = true then some (true, w)
      else (pcvariant_on_pre_fired w.mem source (w.listeners w.set) op argv).map
        (fun r => (r.1, { w with fired := w.fired ++ r.2 }))) = some r) :
    r.2.rev_update_chain = w.rev_update_chain := by
  split_ifs at h
  · cases h; rfl
  · simp only [Option.map_eq_some'] at h
    obtain ⟨a, _, rfl⟩ := h
    rfl

theorem fire_post_chain {w : World} {check : Bool} {source : purc_variant} {op : Nat}
    {argv : List purc_variant} {r : World}
    (h : (if (!check) = true then some w
      else (pcvariant_on_post_fired w.mem source (w.listeners w.set) op argv).map
        (fun calls => { w with fired := w.fired ++ calls })) = some r) :
    r.rev_update_chain = w.rev_update_chain := by
  split_ifs at h
  · cases h; rfl
  · simp only [Option.map_eq_some'] at h
    obtain ⟨a, _, rfl⟩ := h
    rfl

theorem revoke_constraints_chain {w w1 : World} {elem : Nat}
    (h : elem_node_revoke_constraints w elem = some w1) :
    w1.rev_update_chain = w.rev_update_chain := by
  unfold elem_node_revoke_constraints at h
  simp only at h
  split at h
  · split_ifs at h
    cases h
    exact revoke_listener_chain w _ _
  · cases h; rfl

theorem release_chain {w w1 : World} {elem : Nat} (h : elem_node_release w elem = some w1) :
    w1.rev_update_chain = w.rev_update_chain := by
  unfold elem_node_release at h
  simp only [Option.map_eq_some'] at h
  obtain ⟨a, ha, rfl⟩ := h
  show a.rev_update_chain = w.rev_update_chain
  exact revoke_constraints_chain ha

theorem setup_constraints_chain (cmp : variant_cmp) (w : World) (elem : Nat) :
    (elem_node_setup_constraints cmp w elem).2.rev_update_chain = w.rev_update_chain :=
  register_pre_chain w _ _ _ _

theorem replace_chain {cmp : variant_cmp} {w : World} {node : Nat} {val kvs : pcv_object}
    {r : Int × World} (h : elem_node_replace cmp w node val kvs = some r) :
    r.2.rev_update_chain = w.rev_update_chain := by
  unfold elem_node_replace at h
  simp only at h
  split at h
  · cases h
  · rename_i w1 hw1
    have h1 := revoke_constraints_chain hw1
    split_ifs at h <;> cases h <;>
      exact (setup_constraints_chain cmp _ node).trans h1

theorem kvs_from_val_chain (w : World) (v : pcv_object) :
    (variant_set_kvs_from_val w v).2.rev_update_chain = w.rev_update_chain := by
  unfold variant_set_kvs_from_val
  cases w.data.keynames <;> rfl

theorem create_elem_node_chain (w : World) (val : pcv_object) :
    (variant_set_create_elem_node w val).2.rev_update_chain = w.rev_update_chain :=
  kvs_from_val_chain { w with brk := w.brk + 1 } val

theorem set_remove_chain {w : World} {node : Nat} {check : Bool} {r : Int × World}
    (h : set_remove w node check = some r) :
    r.2.rev_update_chain = w.rev_update_chain := by
  unfold set_remove at h
  cases hs : shrink w (w.data.node node).elem check with
  | none => rw [hs] at h; cases h
  | some x =>
    obtain ⟨b, w1⟩ := x
    have h1 : w1.rev_update_chain = w.rev_update_chain := fire_pre_chain hs
    rw [hs] at h
    cases b with
    | false => cases h; exact h1
    | true =>
      simp only at h
      split_ifs at h
      split at h
      · cases h
      · rename_i w3 hw3
        have h3 := fire_post_chain hw3
        simp only [Option.map_eq_some'] at h
        obtain ⟨a, ha, rfl⟩ := h
        exact (release_chain ha).trans (h3.trans h1)

theorem insert_chain {cmp : variant_cmp} {w : World} {val kvs : pcv_object}
    {parent : Option Nat} {pnode : List Bool} {check : Bool} {r : Int × World}
    (h : insert cmp w val kvs parent pnode check = some r) :
    r.2.rev_update_chain = w.rev_update_chain := by
  unfold insert at h
  cases hs : grow w val check with
  | none => rw [hs] at h; cases h
  | some x =>
    obtain ⟨b, w1⟩ := x
    have h1 : w1.rev_update_chain = w.rev_update_chain := fire_pre_chain hs
    rw [hs] at h
    cases b with
    | false => cases h; exact h1
    | true =>
      simp only at h
      have h2 := create_elem_node_chain w1 val
      split_ifs at h
      · simp only [Option.map_eq_some'] at h
        obtain ⟨a, ha, rfl⟩ := h
        exact (release_chain ha).trans (h2.trans h1)
      · split at h
        · cases h
        · rename_i r1 w4 hw4
          have h4 := set_remove_chain hw4
          split_ifs at h
          cases h
          exact h4.trans ((setup_constraints_chain cmp _ _).trans (h2.trans h1))
      · simp only [Option.map_eq_some'] at h
        obtain ⟨a, ha, rfl⟩ := h
        exact (fire_post_chain ha).trans
          ((setup_constraints_chain cmp _ _).trans (h2.trans h1))

theorem insert_or_replace_chain {cmp : variant_cmp} {w : World} {val : pcv_object}
    {overwrite check : Bool} {r : Int × World}
    (h : insert_or_replace cmp w val overwrite check = some r) :
    r.2.rev_update_chain = w.rev_update_chain := by
  unfold insert_or_replace at h
  simp only at h
  have hk := kvs_from_val_chain w val
  split at h
  · simp only [Option.map_eq_some'] at h
    obtain ⟨a, ha, rfl⟩ := h
    exact (insert_chain ha).trans hk
  · split_ifs at h
    · cases h; exact hk
    · cases h; exact hk
    · split at h
      · cases h
      · rename_i w2 hw2
        cases h
        exact (fire_pre_chain hw2).trans hk
      · rename_i w2 hw2
        have h2 : w2.rev_update_chain = w.rev_update_chain := (fire_pre_chain hw2).trans hk
        split at h
        · cases h
        · rename_i r3 w3 hw3
          have h3 := (replace_chain hw3).trans h2
          split_ifs at h
          · cases h; exact h3
          · simp only [Option.map_eq_some'] at h
            obtain ⟨a, ha, rfl⟩ := h
            exact (fire_post_chain ha).trans h3

/-! Without an edge in the world, the functions on the world with the edge slots are the
functions without the calls that break edges. -/

theorem release_lift (s : rue_world) (hno : ∀ k, (s.rev_update_chain k).parent = none)
    (elem : Nat) : s.elem_node_release elem = elem_node_release s elem := by
  unfold rue_world.elem_node_release rue_world.elem_node_break_rev_update_edges
  rw [break_loop_none _ _ s hno]
  simp

theorem replace_lift (s : rue_world) (hno : ∀ k, (s.rev_update_chain k).parent = none)
    (cmp : variant_cmp) (node : Nat) (val kvs : pcv_object) :
    s.elem_node_replace cmp node val kvs = elem_node_replace cmp s node val kvs := by
  unfold rue_world.elem_node_replace rue_world.elem_node_break_rev_update_edges
  rw [break_loop_none _ _ s hno]

theorem set_remove_lift (s : rue_world) (hno : ∀ k, (s.rev_update_chain k).parent = none)
    (node : Nat) (check : Bool) : s.set_remove node check = set_remove s node check := by
  unfold rue_world.set_remove set_remove
  cases hs : shrink s (s.data.node node).elem check with
  | none => rfl
  | some r =>
    obtain ⟨b, w⟩ := r
    have h1 : w.rev_update_chain = s.rev_update_chain := fire_pre_chain hs
    cases b with
    | false => rfl
    | true =>
      simp only
      split_ifs
      · rfl
      · cases hs3 : shrunk _ _ check with
        | none => rfl
        | some w3 =>
          have h3 := (fire_post_chain hs3).trans h1
          simp only
          rw [release_lift _ (by intro k; show (w3.rev_update_chain k).parent = none
                                 rw [h3]; exact hno k)]

theorem insert_lift (s : rue_world) (hno : ∀ k, (s.rev_update_chain k).parent = none)
    (cmp : variant_cmp) (val kvs : pcv_object) (parent : Option Nat) (pnode : List Bool)
    (check : Bool) :
    s.insert cmp val kvs parent pnode check = insert cmp s val kvs parent pnode check := by
  unfold rue_world.insert insert
  cases hs : grow s val check with
  | none => rfl
  | some r =>
    obtain ⟨b, w⟩ := r
    have h1 : w.rev_update_chain = s.rev_update_chain := fire_pre_chain hs
    have h2 := (create_elem_node_chain w val).trans h1
    cases b with
    | false => rfl
    | true =>
      simp only
      split_ifs
      · rw [release_lift _ (by intro k; rw [h2]; exact hno k)]
      · rw [set_remove_lift _ (by
          intro k
          rw [setup_constraints_chain]
          show ((variant_set_create_elem_node w val).2.rev_update_chain k).parent = none
          rw [h2]; exact hno k)]
        cases set_remove _ _ false with
        | none => rfl
        | some r => rfl
      · rfl

theorem insert_or_replace_lift (s : rue_world)
    (hno : ∀ k, (s.rev_update_chain k).parent = none)
    (cmp : variant_cmp) (val : pcv_object) (overwrite check : Bool) :
    s.insert_or_replace cmp val overwrite check =
      insert_or_replace cmp s val overwrite check := by
  unfold rue_world.insert_or_replace insert_or_replace
  simp only
  have hk := kvs_from_val_chain s val
  cases (find_element_rb_node cmp (variant_set_kvs_from_val s val).2.data
      (variant_set_kvs_from_val s val).1).entry with
  | none =>
    simp only
    rw [insert_lift _ (by intro k; rw [hk]; exact hno k)]
  | some curr =>
    simp only
    split_ifs
    · rfl
    · rfl
    · cases hc : change _ _ _ check with
      | none => rfl
      | some r =>
        obtain ⟨b, w⟩ := r
        have h1 : w.rev_update_chain = s.rev_update_chain :=
          (fire_pre_chain hc).trans hk
        cases b with
        | false => rfl
        | true =>
          simp only
          rw [replace_lift _ (by intro k; rw [h1]; exact hno k)]
          cases elem_node_replace cmp _ curr _ _ with
          | none => rfl
          | some r => rfl

/-- C34: `add` builds no reverse-update edge. In a world in which no value carries an edge,
`insert_or_replace` (a new member or an overwrite), `insert` and `elem_node_replace` on the
world with the edge slots are the functions on the world without them: whatever they
return, every edge slot is as before, so no value carries an edge afterwards, the
containers held in the key fields of the new member included. -/
theorem C34_add_builds_no_edge (s : rue_world)
    (hno : ∀ k, (s.rev_update_chain k).parent = none)
    (cmp : variant_cmp) (val : pcv_object) (overwrite check : Bool) :
    s.insert_or_replace cmp val overwrite check =
      insert_or_replace cmp s val overwrite check ∧
    (∀ r s', s.insert_or_replace cmp val overwrite check = some (r, s') →
      s'.rev_update_chain = s.rev_update_chain ∧
      (∀ k, (s'.rev_update_chain k).parent = none) ∧
      ∀ child, pcvar_container_belongs_to_set s' child = false) ∧
    (∀ kvs parent pnode r s', s.insert cmp val kvs parent pnode check = some (r, s') →
      s'.rev_update_chain = s.rev_update_chain) ∧
    (∀ node kvs r s', s.elem_node_replace cmp node val kvs = some (r, s') →
      s'.rev_update_chain = s.rev_update_chain) := by
  have h1 := insert_or_replace_lift s hno cmp val overwrite check
  refine ⟨h1, ?_, ?_, ?_⟩
  · intro r s' hrun
    rw [h1] at hrun
    have hch : s'.rev_update_chain = s.rev_update_chain := insert_or_replace_chain hrun
    have hno' : ∀ k, (s'.rev_update_chain k).parent = none := by
      intro k; rw [hch]; exact hno k
    refine ⟨hch, hno', ?_⟩
    intro child
    cases child <;> simp [pcvar_container_belongs_to_set, hno']
  · intro kvs parent pnode r s' hrun
    rw [insert_lift s hno] at hrun
    exact insert_chain hrun
  · intro node kvs r s' hrun
    rw [replace_lift s hno] at hrun
    exact replace_chain hrun

/-- Witness for C34: the object with the nested container 50 in its key field `id` is added
to the empty example set, then overwritten by another object with the same key that holds
the containers 50 and 60. Both calls return 0 and the slots of the containers hold no
parent. -/
theorem C34_add_builds_no_edge_witness :
    (∀ k, (ex_rue_empty.rev_update_chain k).parent = none) ∧
    (ex_rue_empty.insert_or_replace ex_cmp ex_obj_nested false true).map
      (fun r => (r.1, r.2.members, r.2.rev_update_chain 50,
        pcvar_container_belongs_to_set r.2 (.array 50))) =
      some (0, [ex_obj_nested], ⟨none, none, none, none⟩, false) ∧
    (∀ r s', ex_rue_empty.insert_or_replace ex_cmp ex_obj_nested false true = some (r, s') →
      s'.rev_update_chain = ex_rue_empty.rev_update_chain ∧
      (∀ k, (s'.rev_update_chain k).parent = none) ∧
      ∀ child, pcvar_container_belongs_to_set s' child = false) ∧
    ((ex_rue_empty.insert_or_replace ex_cmp ex_obj_nested false true).bind
      (fun r => r.2.insert_or_replace ex_cmp
        ⟨9, [("id", .container 50), ("kids", .container 60)]⟩ true true)).map
      (fun r => (r.1, r.2.members.map (fun m => m.fields),
        pcvar_container_belongs_to_set r.2 (.array 50),
        pcvar_container_belongs_to_set r.2 (.array 60))) =
      some (0, [[("id", .container 50), ("kids", .container 60), ("name", .string "n")]],
        false, false) :=
  ⟨fun _ => rfl, by decide,
    (C34_add_builds_no_edge ex_rue_empty (fun _ => rfl) ex_cmp ex_obj_nested false true).2.1,
    by decide⟩

end PurC
